import Mathlib

/-!
# argparser: the option resolution engine

A shallow embedding of `src/lib/argparser/src/argparser.c` and the properties
of its associative store, option registry and token scanner.

Conventions of the embedding.

* A C string is the list of the bytes in front of its terminating NUL. The
  test `*(s + i) == 0` is the test that the list ends at `i` (`nulAt`), and the
  byte `*(s + i)` that is compared with a character is `byteAt s i`.
* The process-wide variables of the C file are the fields of `State`; every
  function that reads or writes them takes the state and returns the new one.
* A nullable pointer is an `Option`; `none` is `null`.
* The text written to the output sink and the callbacks that were invoked are
  recorded, in order, in the fields `args_out` and `calls`.
* A step that the C standard leaves undefined (reading outside an array,
  dereferencing `null`, reading a slot that was never written) is
  `Fault.undefined`; the main loop of `args_parse` takes a bound on the number
  of its iterations and reports `Fault.fuel` when the bound is reached.
* Allocation sizes and the queue of blocks to release (`args_freequeue`) are
  not part of the embedding, nor is the rendering of the help text.
-/

namespace ArgParser

/-! ## Strings -/

/-- A byte: a C `char` seen as an unsigned value. -/
abbrev Byte := Fin 256

/-- A C string: the bytes in front of the terminating NUL. -/
abbrev CStr := List Byte

/-- The character `-`. -/
abbrev DASH : Byte := 45

/-- The character `+`. -/
abbrev PLUS : Byte := 43

/-- The character `=`. -/
abbrev EQUALS : Byte := 61

/-- The space character. -/
abbrev SPACE : Byte := 32

/-- The byte `*(s + i)`; at the end of the string this is the terminator `0`. -/
def byteAt (s : CStr) (i : Nat) : Byte := s.getD i 0

/-- The test `*(s + i) == 0`: the string ends at `i`. -/
def nulAt (s : CStr) (i : Nat) : Bool := decide (s.length ≤ i)

/-! ## The associative store (`map_init`, `map_get`, `map_put`) -/

/-- A level of the map that can hold a value: sixteen pointers to sixteen-slot
levels (each of them sixteen pointers to further levels of this kind), and the
value in slot 16. -/
inductive Level (α : Type) : Type where
  | mk (slots : Fin 16 → Option (Fin 16 → Option (Level α))) (value : Option α) : Level α

/-- The sixteen branching slots of a level. -/
def Level.slots {α : Type} : Level α → Fin 16 → Option (Fin 16 → Option (Level α))
  | .mk s _ => s

/-- Slot 16 of a level: the value stored for the key that ends here. -/
def Level.value {α : Type} : Level α → Option α
  | .mk _ v => v

/-- The map: the listed keys, their number, and the root level. -/
structure args_Map (α : Type) where
  keys : List CStr
  key_count : Nat
  data : Level α

/-- The index `(*key >> 4) & 15`. -/
def hi (c : Byte) : Fin 16 := ⟨c.val / 16 % 16, Nat.mod_lt _ (by decide)⟩

/-- The index `(*key >> 0) & 15`. -/
def lo (c : Byte) : Fin 16 := ⟨c.val % 16, Nat.mod_lt _ (by decide)⟩

/-- The store `*(at + i) = p` into one slot of a level. -/
def setSlot {β : Type} (slots : Fin 16 → β) (i : Fin 16) (p : β) : Fin 16 → β :=
  fun j => if j = i then p else slots j

/-- A freshly allocated level: all slots `null`. -/
def emptyLevel {α : Type} : Level α := .mk (fun _ => none) none

/-- The source's `map_init`. -/
def map_init {α : Type} : args_Map α :=
  { keys := [], key_count := 0, data := emptyLevel }

/-- The walk of `map_get` from the level `cur`. -/
def map_get_from {α : Type} (cur : Level α) : CStr → Option α
  | [] => cur.value
  | c :: key =>
    match cur.slots (hi c) with
    | none => none
    | some mid =>
      match mid (lo c) with
      | none => none
      | some next => map_get_from next key

/-- The source's `map_get`. -/
def map_get {α : Type} (map : args_Map α) (key : CStr) : Option α :=
  map_get_from map.data key

/-- The walk of `map_put` from the level `cur`: the level after the store, and
the flag `new`, set as soon as a level had to be allocated. -/
def map_put_from {α : Type} (cur : Level α) (value : Option α) (new : Bool) :
    CStr → Level α × Bool
  | [] => (.mk cur.slots value, new)
  | c :: key =>
    let (mid, new1) :=
      match cur.slots (hi c) with
      | some mid => (mid, new)
      | none => (fun _ => none, true)
    let (next, new2) :=
      match mid (lo c) with
      | some next => (next, new1)
      | none => (emptyLevel, true)
    let (next', new3) := map_put_from next value new2 key
    (.mk (setSlot cur.slots (hi c) (some (setSlot mid (lo c) (some next')))) cur.value, new3)

/-- The source's `map_put`: the key is listed only when `new` was set. -/
def map_put {α : Type} (map : args_Map α) (key : CStr) (value : Option α) : args_Map α :=
  let walk := map_put_from map.data value false key
  if walk.2 then
    { keys := map.keys ++ [key], key_count := map.key_count + 1, data := walk.1 }
  else
    { keys := map.keys, key_count := map.key_count, data := walk.1 }

/-! ## Options and the process-wide state -/

/-- The arity class `ARGUMENTLESS`. -/
abbrev ARGUMENTLESS : Nat := 0

/-- The arity class `ARGUMENTED`. -/
abbrev ARGUMENTED : Nat := 1

/-- The arity class `OPTARGUMENTED`. -/
abbrev OPTARGUMENTED : Nat := 2

/-- The arity class `VARIADIC`. -/
abbrev VARIADIC : Nat := 3

/-- What makes an operation produce no result. -/
inductive Fault where
  /-- The C code does something the language leaves undefined. -/
  | undefined
  /-- The bound on the iterations of the main loop was reached. -/
  | fuel
  deriving DecidableEq, Repr

deriving instance DecidableEq for Except

/-- Modelled from the spec: the declaration of `args_Option` is in `argparser.h`,
which is not among the sources. The fields are the ones `argparser.c` reads and
writes (the spec's Option: arity class, spellings, canonical spelling, help text,
argument name, stickless predicate); `alternatives_count` is the length of
`alternatives`, and the two callbacks are represented by the record of their
invocations in `State.calls`. -/
structure args_Option where
  type : Nat
  help : Option CStr
  argument : CStr
  alternatives : List CStr
  standard : CStr
  stickless : Option (CStr → Bool)

/-- Modelled from the spec: the declaration of `args_Array` is in `argparser.h`,
which is not among the sources. It is the spec's Results entry: the value
sequence (`null` before the first value), its length, and the used flag. An
entry of the sequence is `none` for the absence marker `null`. -/
structure args_Array where
  values : Option (List (Option CStr))
  count : Nat
  used : Bool
  deriving DecidableEq

/-- One invocation of a callback of an option. -/
inductive Call where
  /-- The call `opt->trigger(used, standard)`. -/
  | trigger (used : CStr) (standard : CStr)
  /-- The call `opt->triggerv(used, standard, value)`. -/
  | triggerv (used : CStr) (standard : CStr) (value : Option CStr)
  deriving DecidableEq

/-- One `fprintf` of a diagnostic to `args_out`, with its arguments. -/
inductive Line where
  /-- The line `"%s: warning: unrecognised option %s\n"`. -/
  | unrecognised (program : CStr) (option : CStr)
  /-- The line `"%s: warning: %li more unrecognised %s\n"`; `plural` tells
  whether the last word is `options` rather than `option`. -/
  | more_unrecognised (program : CStr) (more : Nat) (plural : Bool)
  /-- The line `"%s: option used out of context: %s"`, followed by `"(%s)"` with
  the canonical spelling when it differs from the used one. -/
  | out_of_context (program : CStr) (option : CStr) (standard : Option CStr)
  /-- The line `"%s: conflicting options:"`, followed by `" %s"` or `" %s(%s)"` for
  every listed option, the canonical spelling given when it differs. -/
  | conflicting (program : CStr) (options : List (CStr × Option CStr))
  deriving DecidableEq

/-- The process-wide variables of `argparser.c` that the engine uses. -/
structure State where
  args_program : CStr
  args_alternative : Bool
  args_abbreviations : Option (CStr → List CStr → Nat → Option CStr)
  args_options : List args_Option
  args_optmap : args_Map Nat
  args_opts : args_Map args_Array
  args_arguments : List CStr
  args_arguments_count : Nat
  args_files : List (Option CStr)
  args_files_count : Nat
  args_unrecognised_count : Nat
  args_message : Option CStr
  args_out : List Line
  calls : List Call

/-- The source's `args_init`; `program` is the name that was passed or, when
`null` was passed, the name found by `args_parent_name(0)`, and `"?"` is used
when there is none. -/
def args_init (program : Option CStr) (alternative : Bool)
    (abbreviations : Option (CStr → List CStr → Nat → Option CStr)) : State :=
  { args_program := match program with
      | some name => name
      | none => [63]
    args_alternative := alternative
    args_abbreviations := abbreviations
    args_options := []
    args_optmap := map_init
    args_opts := map_init
    args_arguments := []
    args_arguments_count := 0
    args_files := []
    args_files_count := 0
    args_unrecognised_count := 0
    args_message := none
    args_out := []
    calls := [] }

/-- The source's `args_get_options_count`. -/
def args_get_options_count (st : State) : Nat := st.args_options.length

/-- The source's `args_get_optmap`. -/
def args_get_optmap (st : State) : List CStr := st.args_optmap.keys

/-- The source's `args_get_optmap_count`. -/
def args_get_optmap_count (st : State) : Nat := st.args_optmap.key_count

/-- The source's `args_get_opts`. -/
def args_get_opts (st : State) : List CStr := st.args_opts.keys

/-- The source's `args_get_opts_count`. -/
def args_get_opts_count (st : State) : Nat := st.args_opts.key_count

/-! ## The results store (`args_opts_*`) -/

/-- The source's `args_opts_contains`. -/
def args_opts_contains (st : State) (name : CStr) : Bool :=
  (map_get st.args_opts name).isSome

/-- The source's `args_opts_get`. -/
def args_opts_get (st : State) (name : CStr) : Option (List (Option CStr)) :=
  match map_get st.args_opts name with
  | none => none
  | some value => value.values

/-- The source's `args_opts_get_count`. -/
def args_opts_get_count (st : State) (name : CStr) : Nat :=
  match map_get st.args_opts name with
  | none => 0
  | some value => value.count

/-- The source's `args_opts_used`. -/
def args_opts_used (st : State) (name : CStr) : Bool :=
  match map_get st.args_opts name with
  | none => false
  | some value => value.used

/-- The body of `args_opts_put`, on the map `args_opts`. A new entry is
allocated when there is none; its `count` is left unset by the source and is
`0` here (the callers set it before it is read). The store through the pointer
of an existing entry is the rewrite of its value slot. -/
def opts_put (opts : args_Map args_Array) (name : CStr)
    (values : Option (List (Option CStr))) : args_Map args_Array :=
  match map_get opts name with
  | none => map_put opts name (some { values := values, count := 0, used := false })
  | some value => map_put opts name (some { value with values := values })

/-- The source's `args_opts_put`. -/
def args_opts_put (st : State) (name : CStr) (values : Option (List (Option CStr))) : State :=
  { st with args_opts := opts_put st.args_opts name values }

/-- The body of `args_opts_put_count`, on the map `args_opts`. A new entry is
allocated when there is none; its `values` and `used` are left unset by the
source and are `null` and `false` here. -/
def opts_put_count (opts : args_Map args_Array) (name : CStr) (count : Nat) :
    args_Map args_Array :=
  match map_get opts name with
  | none => map_put opts name (some { values := none, count := count, used := false })
  | some value => map_put opts name (some { value with count := count })

/-- The source's `args_opts_put_count`. -/
def args_opts_put_count (st : State) (name : CStr) (count : Nat) : State :=
  { st with args_opts := opts_put_count st.args_opts name count }

/-- The source's `args_opts_new`. -/
def args_opts_new (st : State) (name : CStr) : State :=
  args_opts_put_count (args_opts_put st name none) name 0

/-- The source's `args_opts_append`: the array is resized to `size` entries and
the value is stored in the last one. -/
def args_opts_append (st : State) (name : CStr) (value : Option CStr) : State :=
  let size := args_opts_get_count st name + 1
  let st1 :=
    match args_opts_get st name with
    | none => args_opts_put st name (some [value])
    | some values => args_opts_put st name (some (values.take (size - 1) ++ [value]))
  args_opts_put_count st1 name size

/-- The source's `args_opts_clear`. -/
def args_opts_clear (st : State) (name : CStr) : State :=
  args_opts_new st name

/-! ## The alternative-name index (`args_optmap_*`) and the registry -/

/-- The source's `args_optmap_put`. -/
def args_optmap_put (st : State) (name : CStr) (index : Nat) : State :=
  { st with args_optmap := map_put st.args_optmap name (some (index + 1)) }

/-- The source's `args_optmap_get_index`. -/
def args_optmap_get_index (st : State) (name : CStr) : Int :=
  match map_get st.args_optmap name with
  | none => -1
  | some ret => (ret : Int) - 1

/-- The source's `args_optmap_contains`. -/
def args_optmap_contains (st : State) (name : CStr) : Bool :=
  decide (0 ≤ args_optmap_get_index st name)

/-- The read `*(args_options + index)`, defined inside the array only. -/
def args_options_at (st : State) (index : Int) : Except Fault args_Option :=
  if 0 ≤ index then
    match st.args_options[index.toNat]? with
    | some opt => .ok opt
    | none => .error .undefined
  else .error .undefined

/-- The source's `args_optmap_get`. -/
def args_optmap_get (st : State) (name : CStr) : Except Fault args_Option :=
  args_options_at st (args_optmap_get_index st name)

/-- The source's `args_optmap_get_type`. -/
def args_optmap_get_type (st : State) (name : CStr) : Except Fault Nat :=
  match args_options_at st (args_optmap_get_index st name) with
  | .ok opt => .ok opt.type
  | .error e => .error e

/-- The source's `args_optmap_get_standard`. -/
def args_optmap_get_standard (st : State) (name : CStr) : Except Fault CStr :=
  match args_options_at st (args_optmap_get_index st name) with
  | .ok opt => .ok opt.standard
  | .error e => .error e

/-- The source's `args_optmap_trigger`: the two-argument callback when the
value is `null`, the three-argument one otherwise. -/
def args_optmap_trigger (st : State) (name : CStr) (value : Option CStr) :
    Except Fault State :=
  match args_options_at st (args_optmap_get_index st name) with
  | .ok opt =>
    match value with
    | none => .ok { st with calls := st.calls ++ [Call.trigger name opt.standard] }
    | some v => .ok { st with calls := st.calls ++ [Call.triggerv name opt.standard (some v)] }
  | .error e => .error e

/-- The source's `args_optmap_triggerv`. -/
def args_optmap_triggerv (st : State) (name : CStr) (value : Option CStr) :
    Except Fault State :=
  match args_options_at st (args_optmap_get_index st name) with
  | .ok opt => .ok { st with calls := st.calls ++ [Call.triggerv name opt.standard value] }
  | .error e => .error e

/-- The source's `args_optmap_stickless`; calling a predicate that was never
set is undefined. -/
def args_optmap_stickless (st : State) (name : CStr) (argument : CStr) :
    Except Fault Bool :=
  match args_options_at st (args_optmap_get_index st name) with
  | .ok opt =>
    match opt.stickless with
    | some pred => .ok (pred argument)
    | none => .error .undefined
  | .error e => .error e

/-- The source's `default_stickless`. -/
def default_stickless (argument : CStr) : Bool :=
  decide (byteAt argument 0 ≠ DASH) && decide (byteAt argument 0 ≠ PLUS)

/-- The loop of `args_add_option` over the spellings of the option. -/
def args_add_option_alternatives (st : State) (index : Nat) : List CStr → State
  | [] => st
  | alt :: rest => args_add_option_alternatives (args_optmap_put st alt index) index rest

/-- The source's `args_add_option`. -/
def args_add_option (st : State) (option : args_Option) (help : Option CStr) : State :=
  let st1 := args_add_option_alternatives st (args_get_options_count st) option.alternatives
  let st2 := args_opts_put st1 option.standard none
  let st3 := args_opts_put_count st2 option.standard 0
  { st3 with args_options := st3.args_options ++ [{ option with help := help }] }

/-- The body shared by the four constructors `args_new_*`: the spellings are the
first one and the further ones up to the closing `null`; a negative `standard`
counts from the end; reading the canonical spelling outside the array is
undefined. -/
def args_new (type : Nat) (argument : CStr) (stickless : Option (CStr → Bool))
    (standard : Int) (alternatives : CStr) (more : List CStr) : Except Fault args_Option :=
  let all := alternatives :: more
  let index : Int := if standard < 0 then standard + (all.length : Int) else standard
  if 0 ≤ index then
    match all[index.toNat]? with
    | some std =>
      .ok { type := type, help := none, argument := argument, alternatives := all,
            standard := std, stickless := stickless }
    | none => .error .undefined
  else .error .undefined

/-- The source's `args_new_argumentless`. -/
def args_new_argumentless (standard : Int) (alternatives : CStr) (more : List CStr) :
    Except Fault args_Option :=
  args_new ARGUMENTLESS [78, 79, 84, 72, 73, 78, 71] none standard alternatives more

/-- The source's `args_new_argumented`; the argument name defaults to `ARG`. -/
def args_new_argumented (argument : Option CStr) (standard : Int) (alternatives : CStr)
    (more : List CStr) : Except Fault args_Option :=
  args_new ARGUMENTED (argument.getD [65, 82, 71]) none standard alternatives more

/-- The source's `args_new_optargumented`; the predicate defaults to
`default_stickless`. -/
def args_new_optargumented (stickless : Option (CStr → Bool)) (argument : Option CStr)
    (standard : Int) (alternatives : CStr) (more : List CStr) : Except Fault args_Option :=
  args_new OPTARGUMENTED (argument.getD [65, 82, 71])
    (some (stickless.getD default_stickless)) standard alternatives more

/-- The source's `args_new_variadic`. -/
def args_new_variadic (argument : Option CStr) (standard : Int) (alternatives : CStr)
    (more : List CStr) : Except Fault args_Option :=
  args_new VARIADIC (argument.getD [65, 82, 71]) none standard alternatives more

/-! ## Abbreviation expansion -/

/-- The inner loop of `args_standard_abbreviations`: the number of leading bytes
of `argument` that `opt` repeats. -/
def abbreviation_match : CStr → CStr → Nat
  | [], _ => 0
  | _ :: _, [] => 0
  | a :: argument, o :: opt => if o = a then abbreviation_match argument opt + 1 else 0

/-- The outer loop of `args_standard_abbreviations` over the listed options,
`rc` being the expansion found so far. -/
def args_standard_abbreviations_loop (argument : CStr) (rc : Option CStr) :
    List CStr → Option CStr
  | [] => rc
  | opt :: rest =>
    if nulAt argument (abbreviation_match argument opt) = true then
      match rc with
      | some _ => none
      | none => args_standard_abbreviations_loop argument (some opt) rest
    else args_standard_abbreviations_loop argument rc rest

/-- The source's `args_standard_abbreviations`. -/
def args_standard_abbreviations (argument : CStr) (options : List CStr) (count : Nat) :
    Option CStr :=
  args_standard_abbreviations_loop argument none (options.take count)

/-- The source's `args__abbreviations`. -/
def args__abbreviations (st : State) (argument : CStr) : Option CStr :=
  match st.args_abbreviations with
  | none => none
  | some expand => expand argument (args_get_optmap st) (args_get_optmap_count st)

/-! ## The token scanner (`args_parse`) -/

/-- The local variables of `args_parse`, with the process-wide state. The two
queues are the lists of their entries, so that `optptr` and `argptr` are their
lengths. -/
structure Scan where
  st : State
  dashed : Bool
  tmpdashed : Bool
  rc : Bool
  get : Nat
  dontget : Nat
  optqueue : List CStr
  argqueue : List (Option CStr)
  injection : Option CStr

/-- The store `*(buffer + index) = value` into a buffer whose slots hold `none`
until they are written. -/
def poke (buffer : List (Option CStr)) (index : Nat) (value : CStr) : List (Option CStr) :=
  if index < buffer.length then buffer.set index (some value)
  else buffer ++ List.replicate (index - buffer.length) none ++ [some value]

/-- The reads `*(buffer + 0)`, ..., `*(buffer + (count - 1))`; reading a slot
that was never written is undefined. -/
def peek_all : List (Option CStr) → Nat → Except Fault (List CStr)
  | _, 0 => .ok []
  | some file :: buffer, count + 1 =>
    match peek_all buffer count with
    | .ok files => .ok (file :: files)
    | .error e => .error e
  | _, _ + 1 => .error .undefined

/-- The statement `*(args_files + args_files_count++) = arg`. -/
def args_parse_file (sc : Scan) (arg : CStr) : Scan :=
  { sc with st :=
      { sc.st with
        args_files := poke sc.st.args_files sc.st.args_files_count arg
        args_files_count := sc.st.args_files_count + 1 } }

/-- The report of an unrecognised option: the counter is incremented, the
warning is printed for the first five, and `rc` becomes `false`. -/
def args_parse_unrecognised (sc : Scan) (shown : CStr) : Scan :=
  let count := sc.st.args_unrecognised_count + 1
  let out :=
    if count ≤ 5 then sc.st.args_out ++ [Line.unrecognised sc.st.args_program shown]
    else sc.st.args_out
  { sc with st := { sc.st with args_unrecognised_count := count, args_out := out }
            rc := false }

/-- The first part of the loop body of `args_parse` (`if ((get > 0) && (dontget == 0))`):
the token is offered to the option that awaits its value. The flag tells
whether the body ended with `continue`. -/
def args_parse_pending (sc : Scan) (arg : CStr) : Except Fault (Scan × Bool) :=
  if 0 < sc.get ∧ sc.dontget = 0 then
    if sc.get ≤ sc.optqueue.length then
      match sc.optqueue[sc.optqueue.length - sc.get]? with
      | none => .error .undefined
      | some arg_opt => do
        let sc1 := { sc with get := sc.get - 1 }
        let type ← args_optmap_get_type sc1.st arg_opt
        let stickless ←
          if type = OPTARGUMENTED then args_optmap_stickless sc1.st arg_opt arg else pure true
        if stickless = false then do
          let st2 ← args_optmap_triggerv sc1.st arg_opt none
          pure ({ sc1 with st := st2, argqueue := sc1.argqueue ++ [none] }, false)
        else do
          let st2 ← args_optmap_trigger sc1.st arg_opt (some arg)
          pure ({ sc1 with st := st2, argqueue := sc1.argqueue ++ [some arg] }, true)
    else .error .undefined
  else pure (sc, false)

/-- The loop `while (*(arg + eq) && (*(arg + eq) != '=')) eq++`. -/
def find_eq : CStr → Nat
  | [] => 0
  | c :: arg => if c = EQUALS then 0 else find_eq arg + 1

/-- The branch of the long form with `=` whose option part is not the spelling of
an option that takes a value: the abbreviation is expanded and injected with
the value, or the option part is reported. -/
def args_parse_long_unmatched (sc : Scan) (arg : CStr) (arg_opt : CStr) (eq : Nat) : Scan :=
  match args__abbreviations sc.st arg_opt with
  | some injection =>
    { sc with injection := some (injection ++ [EQUALS] ++ arg.drop (eq + 1)) }
  | none => args_parse_unrecognised sc arg_opt

/-- The long-option branch of the loop body (`if (args_alternative || (*arg == *(arg + 1)))`). -/
def args_parse_long (sc : Scan) (arg : CStr) : Except Fault Scan := do
  let type ←
    if sc.dontget ≤ 0 ∧ args_optmap_contains sc.st arg = true then
      args_optmap_get_type sc.st arg
    else pure 100
  let eq := if sc.dontget ≤ 0 ∧ type ≠ ARGUMENTLESS then find_eq arg else 0
  if 0 < sc.dontget then
    pure { sc with dontget := sc.dontget - 1 }
  else if type = ARGUMENTLESS then do
    let st1 ← args_optmap_trigger sc.st arg none
    pure { sc with st := st1, optqueue := sc.optqueue ++ [arg], argqueue := sc.argqueue ++ [none] }
  else if byteAt arg eq = EQUALS then
    let arg_opt := arg.take eq
    if args_optmap_contains sc.st arg_opt = true then do
      let type1 ← args_optmap_get_type sc.st arg_opt
      if ARGUMENTED ≤ type1 then
        let sc1 := { sc with optqueue := sc.optqueue ++ [arg_opt]
                             argqueue := sc.argqueue ++ [some (arg.drop (eq + 1))] }
        if type1 = VARIADIC then do
          let st1 ← args_optmap_trigger sc1.st arg_opt none
          pure { sc1 with st := st1, dashed := true }
        else do
          let st1 ← args_optmap_trigger sc1.st arg_opt (some (arg.drop (eq + 1)))
          pure { sc1 with st := st1 }
      else pure (args_parse_long_unmatched sc arg arg_opt eq)
    else pure (args_parse_long_unmatched sc arg arg_opt eq)
  else if type ≤ OPTARGUMENTED then
    pure { sc with optqueue := sc.optqueue ++ [arg], get := sc.get + 1 }
  else if type = VARIADIC then do
    let st1 ← args_optmap_trigger sc.st arg none
    pure { sc with st := st1, dashed := true, optqueue := sc.optqueue ++ [arg]
                   argqueue := sc.argqueue ++ [none] }
  else
    match args__abbreviations sc.st arg with
    | some injection => pure { sc with injection := some injection }
    | none => pure (args_parse_unrecognised sc arg)

/-- The short-option branch of the loop body: the walk `while (*(arg + i))` over
the characters behind the sign; `rest` is `arg + i`. -/
def args_parse_bundle (arg : CStr) (sign : Byte) : Scan → CStr → Except Fault Scan
  | sc, [] => pure sc
  | sc, c :: rest =>
    let narg : CStr := [sign, c]
    if args_optmap_contains sc.st narg = true then do
      let type ← args_optmap_get_type sc.st narg
      let sc1 := { sc with optqueue := sc.optqueue ++ [narg] }
      if type = ARGUMENTLESS then do
        let st1 ← args_optmap_trigger sc1.st narg none
        args_parse_bundle arg sign { sc1 with st := st1, argqueue := sc1.argqueue ++ [none] } rest
      else if type < VARIADIC then
        if rest ≠ [] then do
          let st1 ← args_optmap_trigger sc1.st narg (some rest)
          pure { sc1 with st := st1, argqueue := sc1.argqueue ++ [some rest] }
        else pure { sc1 with get := sc1.get + 1 }
      else do
        let sc2 := if rest ≠ [] then { sc1 with argqueue := sc1.argqueue ++ [some rest] } else sc1
        let st1 ← args_optmap_trigger sc2.st narg none
        pure { sc2 with st := st1, dashed := true }
    else args_parse_bundle arg sign (args_parse_unrecognised sc arg) rest

/-- The second part of the loop body: the classification of the token. -/
def args_parse_dispatch (sc : Scan) (arg : CStr) : Except Fault Scan :=
  if sc.tmpdashed = true then
    pure { args_parse_file sc arg with tmpdashed := false }
  else if sc.dashed = true then
    pure (args_parse_file sc arg)
  else if byteAt arg 0 = PLUS ∧ byteAt arg 1 = PLUS ∧ nulAt arg 2 = true then
    pure { sc with tmpdashed := true }
  else if byteAt arg 0 = DASH ∧ byteAt arg 1 = DASH ∧ nulAt arg 2 = true then
    pure { sc with dashed := true }
  else if (byteAt arg 0 = DASH ∨ byteAt arg 0 = PLUS) ∧ nulAt arg 1 = false then
    if sc.st.args_alternative = true ∨ byteAt arg 0 = byteAt arg 1 then
      args_parse_long sc arg
    else
      args_parse_bundle arg (byteAt arg 0) sc (arg.drop 1)
  else
    pure (args_parse_file sc arg)

/-- The loop body of `args_parse` for the token `arg`. -/
def args_parse_token (sc : Scan) (arg : CStr) : Except Fault Scan := do
  let (sc1, consumed) ← args_parse_pending sc arg
  if consumed = true then pure sc1 else args_parse_dispatch sc1 arg

/-- The main loop `while ((argv != argend) || injection)`, run for at most
`fuel` iterations. -/
def args_parse_loop : Nat → Scan → List CStr → Except Fault Scan
  | fuel, sc, argv =>
    match sc.injection, argv with
    | none, [] => pure sc
    | some injection, argv =>
      match fuel with
      | 0 => .error .fuel
      | fuel + 1 => do
        let sc1 ← args_parse_token { sc with injection := none } injection
        args_parse_loop fuel sc1 argv
    | none, arg :: argv =>
      match fuel with
      | 0 => .error .fuel
      | fuel + 1 => do
        let sc1 ← args_parse_token sc arg
        args_parse_loop fuel sc1 argv

/-- The statement `((args_Array*)map_get(&args_opts, opt))->used = true`. -/
def args_parse_mark (st : State) (opt : CStr) : Except Fault State :=
  match map_get st.args_opts opt with
  | none => .error .undefined
  | some value =>
    pure { st with args_opts := map_put st.args_opts opt (some { value with used := true }) }

/-- The loop of `args_parse` that records the invocations: `i` is the index of
the next entry of `optqueue` and the list holds the entries from `i` on. -/
def args_parse_record (argqueue : List (Option CStr)) : State → Nat → List CStr →
    Except Fault State
  | st, _, [] => pure st
  | st, i, used :: optqueue => do
    let opt ← args_optmap_get_standard st used
    let arg : Option CStr := if i < argqueue.length then argqueue.getD i none else none
    let st1 ← if argqueue.length ≤ i then args_optmap_triggerv st used none else pure st
    let st2 :=
      if args_optmap_contains st1 opt = false ∨ args_opts_contains st1 opt = false then
        args_opts_new st1 opt
      else st1
    let st3 ← args_parse_mark (args_opts_append st2 opt arg) opt
    args_parse_record argqueue st3 (i + 1) optqueue

/-- The loop `for (j = 0; j < args_files_count; j++) args_opts_append(std, *(args_files + j))`. -/
def args_parse_absorb (std : CStr) : State → List CStr → State
  | st, [] => st
  | st, file :: files => args_parse_absorb std (args_opts_append st std (some file)) files

/-- The loop of `args_parse` over the options that hands the files to the first
used variadic option. -/
def args_parse_variadic : State → List args_Option → Except Fault State
  | st, [] => pure st
  | st, option :: options =>
    if option.type = VARIADIC ∧ args_opts_used st option.standard = true then
      match args_opts_get st option.standard with
      | some (first :: _) => do
        let st1 := if first = none then args_opts_clear st option.standard else st
        let files ← peek_all st1.args_files st1.args_files_count
        let st2 := args_parse_absorb option.standard st1 files
        pure { st2 with args_files_count := 0 }
      | _ => .error .undefined
    else args_parse_variadic st options

/-- The construction of `args_message`: every file followed by a space, the
last space replaced by the terminator. -/
def args_parse_message (st : State) : Except Fault State :=
  if 0 < st.args_files_count then do
    let files ← peek_all st.args_files st.args_files_count
    pure { st with args_message := some ((files.map (fun file => file ++ [SPACE])).flatten.dropLast) }
  else pure { st with args_message := none }

/-- The summary line for the unrecognised options beyond the fifth. -/
def args_parse_summary (st : State) : State :=
  if 5 < st.args_unrecognised_count then
    let more := st.args_unrecognised_count - 5
    { st with args_out := st.args_out ++
        [Line.more_unrecognised st.args_program more (decide (more ≠ 1))] }
  else st

/-- The statements of `args_parse` in front of its main loop: the counters that
are reset, the fresh buffer for the files (`args_files_count` is not reset),
and the initial values of the local variables. -/
def args_parse_begin (st : State) (tokens : List CStr) : Scan :=
  { st := { st with
            args_unrecognised_count := 0
            args_arguments_count := tokens.length
            args_arguments := tokens
            args_files := [] }
    dashed := false, tmpdashed := false, rc := true, get := 0, dontget := 0
    optqueue := [], argqueue := [], injection := none }

/-- The statements of `args_parse` behind its main loop. -/
def args_parse_end (sc : Scan) : Except Fault (Bool × State) := do
  let st1 ← args_parse_record sc.argqueue sc.st 0 sc.optqueue
  let st2 ← args_parse_variadic st1 st1.args_options
  let st3 ← args_parse_message st2
  pure (sc.rc, args_parse_summary st3)

/-- The source's `args_parse`. `argv` includes the executable at index 0; the
result is the returned flag `rc` and the state that is left. -/
def args_parse (fuel : Nat) (st : State) (argv : List CStr) : Except Fault (Bool × State) :=
  match argv with
  | [] => .error .undefined
  | _ :: tokens => do
    let sc ← args_parse_loop fuel (args_parse_begin st tokens) tokens
    args_parse_end sc

/-! ## Sequences of calls -/

/-- The calls `map_put(map, key, value)` for the listed pairs, in order. -/
def map_puts {α : Type} (map : args_Map α) (puts : List (CStr × Option α)) : args_Map α :=
  puts.foldl (fun m p => map_put m p.1 p.2) map

/-- The value given by the most recent put for `key` in a sequence of puts, and
`null` when the sequence has no put for `key`. -/
def most_recent_put {α : Type} (puts : List (CStr × Option α)) (key : CStr) : Option α :=
  puts.foldl (fun found p => if p.1 = key then p.2 else found) none

/-- The calls `args_add_option(option, help)` for the listed pairs, in order. -/
def register (st : State) (options : List (args_Option × Option CStr)) : State :=
  options.foldl (fun s p => args_add_option s p.1 p.2) st

/-- The instance after `args_init` and the registration of the listed options. -/
def registry (program : Option CStr) (alternative : Bool)
    (abbreviations : Option (CStr → List CStr → Nat → Option CStr))
    (options : List (args_Option × Option CStr)) : State :=
  register (args_init program alternative abbreviations) options

/-- No spelling is shared by two of the listed options. -/
def no_shared_spelling (options : List (args_Option × Option CStr)) : Prop :=
  options.Pairwise (fun p q => ∀ s ∈ p.1.alternatives, s ∉ q.1.alternatives)

/-- The canonical spelling of every listed option is one of its spellings, as
it is for the options made by the constructors `args_new_*`. -/
def canonical_listed (options : List (args_Option × Option CStr)) : Prop :=
  ∀ p ∈ options, p.1.standard ∈ p.1.alternatives

/-- A long spelling `--name` with a non-empty name that has no `=`. -/
def long_spelling (s : CStr) : Prop :=
  ∃ name : CStr, s = DASH :: DASH :: name ∧ name ≠ [] ∧ EQUALS ∉ name

/-! ## Sample options -/

/-- An Argumentless option with the single spelling `-a`. -/
def flag_a : args_Option :=
  { type := ARGUMENTLESS, help := none, argument := [78, 79, 84, 72, 73, 78, 71]
    alternatives := [[45, 97]], standard := [45, 97], stickless := none }

/-- An Argumentless option with the single spelling `-b`. -/
def flag_b : args_Option :=
  { type := ARGUMENTLESS, help := none, argument := [78, 79, 84, 72, 73, 78, 71]
    alternatives := [[45, 98]], standard := [45, 98], stickless := none }

/-- An Argumented option with the spellings `-a` and `--opt`, the second one
canonical. -/
def opt_a : args_Option :=
  { type := ARGUMENTED, help := none, argument := [65, 82, 71]
    alternatives := [[45, 97], [45, 45, 111, 112, 116]], standard := [45, 45, 111, 112, 116]
    stickless := none }

/-- A Variadic option with the single spelling `--rest`. -/
def opt_rest : args_Option :=
  { type := VARIADIC, help := none, argument := [65, 82, 71]
    alternatives := [[45, 45, 114, 101, 115, 116]], standard := [45, 45, 114, 101, 115, 116]
    stickless := none }

/-- An OptionallyArgumented option with the single spelling `-o` and the default
stickless predicate. -/
def opt_o : args_Option :=
  { type := OPTARGUMENTED, help := none, argument := [65, 82, 71]
    alternatives := [[45, 111]], standard := [45, 111]
    stickless := some default_stickless }

/-- An Argumentless option with the single spelling `-xy`. -/
def flag_xy : args_Option :=
  { type := ARGUMENTLESS, help := none, argument := [78, 79, 84, 72, 73, 78, 71]
    alternatives := [[45, 120, 121]], standard := [45, 120, 121], stickless := none }

/-! ## Notions used to state what `args_parse` leaves behind -/

/-- The entry that `args_opts_new` makes: no value, unused. -/
def blank : args_Array := { values := none, count := 0, used := false }

/-- The entry of the results store after the values `vs` were appended to it one
by one and it was marked as used; the entry itself when there is no value. -/
def recorded (entry : Option args_Array) (vs : List (Option CStr)) : Option args_Array :=
  if vs = [] then entry
  else
    some { values := some ((entry.getD blank).values.getD [] ++ vs)
           count := (entry.getD blank).count + vs.length
           used := true }

/-- The values that the recording loop of `args_parse` appends to the entry
`name`, in order: the entries of `argqueue` (from index `i` on) whose option has
the canonical spelling `name`, `canon` giving the canonical spelling of a
spelling. -/
def recorded_values (canon : CStr → CStr) (argqueue : List (Option CStr)) (name : CStr) :
    Nat → List CStr → List (Option CStr)
  | _, [] => []
  | i, used :: optqueue =>
    if canon used = name then
      argqueue.getD i none :: recorded_values canon argqueue name (i + 1) optqueue
    else recorded_values canon argqueue name (i + 1) optqueue

/-- The callbacks that the recording loop of `args_parse` invokes: one for every
entry of `optqueue` that has no entry in `argqueue`. -/
def late_calls (canon : CStr → CStr) (argqueue : List (Option CStr)) :
    Nat → List CStr → List Call
  | _, [] => []
  | i, used :: optqueue =>
    if argqueue.length ≤ i then
      Call.triggerv used (canon used) none :: late_calls canon argqueue (i + 1) optqueue
    else late_calls canon argqueue (i + 1) optqueue

/-- Every entry of the results store has as many values as its count says. -/
def tidy (opts : args_Map args_Array) : Prop :=
  ∀ n a, map_get opts n = some a → a.count = (a.values.getD []).length

/-- Every index stored in the alternative-name index is an index of the option
array. -/
def index_in_range (st : State) : Prop :=
  ∀ s v, map_get st.args_optmap s = some v → v ≤ st.args_options.length

/-- The canonical spelling that the index gives for a spelling (the empty
string when there is none). -/
def canonical (st : State) (s : CStr) : CStr :=
  match args_optmap_get_standard st s with
  | .ok std => std
  | .error _ => []

/-- The operation produces a result, and the result satisfies `p`. -/
def succeeds {α : Type} (p : α → Prop) : Except Fault α → Prop
  | .ok a => p a
  | .error _ => False

/-- What holds of the local variables of `args_parse` between two tokens, for an
instance `st0` on which `args_parse` was started: the registry, the index and
the results store are those of `st0`, no skip is pending, every spelling in
`optqueue` is in the index, the file buffer holds as many files as
`args_files_count` says, and no value is awaited while a token is injected. -/
def scanned (st0 : State) (sc : Scan) : Prop :=
  sc.st.args_optmap = st0.args_optmap ∧ sc.st.args_options = st0.args_options ∧
  sc.st.args_opts = st0.args_opts ∧ sc.st.args_abbreviations = st0.args_abbreviations ∧
  sc.dontget = 0 ∧
  (∀ s ∈ sc.optqueue, args_optmap_contains st0 s = true) ∧
  (∃ files : List CStr, sc.st.args_files = files.map some ∧
    sc.st.args_files_count = files.length) ∧
  (sc.injection ≠ none → sc.get = 0)

/-- The queues of `sc1` continue those of `sc`. -/
def continues (sc sc1 : Scan) : Prop :=
  (∃ more, sc1.optqueue = sc.optqueue ++ more) ∧ (∃ more, sc1.argqueue = sc.argqueue ++ more)

/-! ## Comparison and sorting -/

/-- The value of a `char` in a comparison; plain `char` is taken as signed, as it
is on the platforms the library is built for. -/
def char_value (c : Byte) : Int :=
  if c.val < 128 then (c.val : Int) else (c.val : Int) - 256

/-- The expression `*a < *b ? -1 : (*a > *b ? 1 : 0)` of `cmp`. -/
def cmp_char (a b : Byte) : Int :=
  if char_value a < char_value b then -1 else if char_value b < char_value a then 1 else 0

/-- The source's `cmp`: the loop `while (*a && *b)` that returns at the first
difference, and the comparison of the two bytes at which it stops. The byte
read at the end of a string is the terminator `0`. -/
def cmp : CStr → CStr → Int
  | a :: as, b :: bs =>
    if a ≠ 0 ∧ b ≠ 0 then
      if cmp_char a b ≠ 0 then cmp_char a b else cmp as bs
    else cmp_char a b
  | a :: _, [] => cmp_char a 0
  | [], b :: _ => cmp_char 0 b
  | [], [] => cmp_char 0 0

/-- The three merging loops of `_sort` over the sorted halves `left`
(`temp + 0 .. a`) and `right` (`temp + a .. b`): the first loop takes the left
element when `cmp` is not positive, and the two others copy what is left. The
first loop runs at most `fuel` times. -/
def sort_merge : Nat → List CStr → List CStr → List CStr
  | fuel + 1, x :: left, y :: right =>
    if cmp x y ≤ 0 then x :: sort_merge fuel left (y :: right)
    else y :: sort_merge fuel (x :: left) right
  | _, left, right => left ++ right

/-- The source's `_sort` on the `count` elements of `list`; `fuel` bounds the
depth of the recursion. -/
def _sort : Nat → List CStr → List CStr
  | 0, list => list
  | fuel + 1, list =>
    if 1 < list.length then
      sort_merge list.length (_sort fuel (list.take (list.length / 2)))
        (_sort fuel (list.drop (list.length / 2)))
    else list

/-- The source's `sort`: the array with its elements in sorted order. -/
def sort (list : List CStr) : List CStr := _sort list.length list

/-! ## The validation predicates and `args_support_alternatives` -/

/-- The statement `sort(opts, _o = args_get_opts_count())` on the key array of the
results store, which holds `key_count` keys. -/
def args_sort_opts (st : State) : State :=
  { st with args_opts := { st.args_opts with keys := sort st.args_opts.keys } }

/-- The loop of `args_test_allowed` over the sorted keys of the results store;
`allowed` is what is left of the sorted array of allowed options. -/
def args_test_allowed_loop : State → Bool → List CStr → List CStr → Except Fault (Bool × State)
  | st, rc, _, [] => pure (rc, st)
  | st, rc, allowed, opt :: opts => do
    let before :=
      match allowed with
      | [] => true
      | a :: _ => decide (cmp opt a < 0)
    let (rc1, st1) ←
      if before = true ∧ args_opts_used st opt = true then do
        let std ← args_optmap_get_standard st opt
        let line := Line.out_of_context st.args_program opt (if cmp std opt ≠ 0 then some std else none)
        pure (false, { st with args_out := st.args_out ++ [line] })
      else pure (rc, st)
    args_test_allowed_loop st1 rc1 (allowed.dropWhile (fun a => decide (0 < cmp opt a))) opts

/-- The source's `args_test_allowed`: the returned flag and the state that is
left (the keys of the results store are sorted, and so is the array of the
caller). -/
def args_test_allowed (st : State) (allowed : List CStr) : Except Fault (Bool × State) :=
  args_test_allowed_loop (args_sort_opts st) true (sort allowed) (args_get_opts (args_sort_opts st))

/-- The loop `while ((opts != o) && (exclusives != e))` of
`args_test_exclusiveness`, run for at most `fuel` iterations; the result is
the array `used`. Reading `*opts` or `*exclusives` behind the last element is
undefined. -/
def args_test_exclusiveness_loop (st : State) :
    Nat → List CStr → List CStr → List CStr → Except Fault (List CStr)
  | _, used, [], _ => pure used
  | _, used, _ :: _, [] => pure used
  | 0, _, _ :: _, _ :: _ => .error .fuel
  | fuel + 1, used, opt0 :: opts0, e :: exclusives =>
    match (opt0 :: opts0).dropWhile (fun o => decide (0 < cmp o e)) with
    | [] => .error .undefined
    | opt :: opts =>
      match (e :: exclusives).dropWhile (fun x => decide (0 < cmp opt x)) with
      | [] => .error .undefined
      | x :: xs =>
        let used1 := if cmp opt x = 0 ∧ args_opts_used st opt = true then used ++ [opt] else used
        args_test_exclusiveness_loop st fuel used1 opts (x :: xs)

/-- The loop of `args_test_exclusiveness` that prints the conflicting options:
every used option with its canonical spelling when that differs. -/
def args_test_exclusiveness_names (st : State) : List CStr → Except Fault (List (CStr × Option CStr))
  | [] => pure []
  | u :: used => do
    let std ← args_optmap_get_standard st u
    let names ← args_test_exclusiveness_names st used
    pure ((u, if cmp u std = 0 then none else some std) :: names)

/-- The source's `args_test_exclusiveness`: the returned flag and the state that
is left. -/
def args_test_exclusiveness (st : State) (exclusives : List CStr) :
    Except Fault (Bool × State) := do
  let st1 := args_sort_opts st
  let used ← args_test_exclusiveness_loop st1 (args_get_opts st1).length [] (args_get_opts st1)
    (sort exclusives)
  if 1 ≤ used.length then do
    let names ← args_test_exclusiveness_names st1 used
    pure (false, { st1 with args_out := st1.args_out ++ [Line.conflicting st1.args_program names] })
  else pure (true, st1)

/-- The loop of `args_support_alternatives` over the listed spellings. -/
def args_support_alternatives_loop : State → List CStr → Except Fault State
  | st, [] => pure st
  | st, alt :: opts => do
    let std ← args_optmap_get_standard st alt
    match map_get st.args_opts std with
    | none => .error .undefined
    | some value_std =>
      let st1 := args_opts_put st alt value_std.values
      match map_get st1.args_opts alt with
      | none => .error .undefined
      | some value_alt =>
        let entry : args_Array := { value_alt with count := value_std.count, used := value_std.used }
        args_support_alternatives_loop
          { st1 with args_opts := map_put st1.args_opts alt (some entry) } opts

/-- The source's `args_support_alternatives`. -/
def args_support_alternatives (st : State) : Except Fault State :=
  args_support_alternatives_loop st (args_get_optmap st)

/-! ## Further notions used in the statements -/

/-- The operation, when it produces a result, produces one that satisfies `p`. -/
def whenever {α : Type} (p : α → Prop) : Except Fault α → Prop
  | .ok a => p a
  | .error _ => True

/-- The flag `rc` of the scanner is `false` exactly when an option was counted as
unrecognised. -/
def flagged (sc : Scan) : Prop :=
  sc.rc = false ↔ 1 ≤ sc.st.args_unrecognised_count

/-- An Argumentless option with the spellings `--ab` and `--a`, the first one
canonical: the second spelling is a proper prefix of the first. -/
def flag_ab : args_Option :=
  { type := ARGUMENTLESS, help := none, argument := [78, 79, 84, 72, 73, 78, 71]
    alternatives := [[45, 45, 97, 98], [45, 45, 97]], standard := [45, 45, 97, 98]
    stickless := none }

/-- What holds of the local variables of `args_parse` between two tokens in every
run: the flag `rc` tells whether an option was unrecognised, no token is to be
skipped, and at most one option, the last one of `optqueue`, awaits its value. -/
def steady (sc : Scan) : Prop :=
  flagged sc ∧ sc.dontget = 0 ∧ sc.get ≤ 1 ∧ sc.get ≤ sc.optqueue.length

/-- The instance with the flags `-a` and `-b` registered in which the results
store says that `-a` was used once, without value. -/
def instance_a_used : State :=
  { registry none false none [(flag_a, none), (flag_b, none)] with
    args_opts :=
      map_put (registry none false none [(flag_a, none), (flag_b, none)]).args_opts [45, 97]
        (some { values := some [none], count := 1, used := true }) }

/-! ## Invocations of options on the command line -/

/-- One invocation of a non-variadic option on the command line, by the spelling
that is written and the form in which the value is given. -/
inductive Use where
  /-- The spelling of an Argumentless option. -/
  | flag (s : CStr)
  /-- The spelling, and the value in the next token. -/
  | deferred (s : CStr) (v : CStr)
  /-- The long spelling with the value attached by `=`, in one token. -/
  | attached (s : CStr) (v : CStr)
  /-- The short spelling with the value behind it in the same token. -/
  | sticky (s : CStr) (v : CStr)
  /-- The spelling of an OptionallyArgumented option, without value. -/
  | absent (s : CStr)

/-- The spelling that the invocation writes. -/
def Use.spelling : Use → CStr
  | .flag s => s
  | .deferred s _ => s
  | .attached s _ => s
  | .sticky s _ => s
  | .absent s => s

/-- The value that the invocation gives, `none` for the absence marker. -/
def Use.value : Use → Option CStr
  | .flag _ => none
  | .deferred _ v => some v
  | .attached _ v => some v
  | .sticky _ v => some v
  | .absent _ => none

/-- The tokens that the invocation consists of. -/
def Use.tokens : Use → List CStr
  | .flag s => [s]
  | .deferred s v => [s, v]
  | .attached s v => [s ++ EQUALS :: v]
  | .sticky s v => [s ++ v]
  | .absent s => [s]

/-- A short spelling `-c`; in alternative mode, where it is read as a long
option, the character is not `=`. -/
def short_spelling (alternative : Bool) (s : CStr) : Prop :=
  ∃ c : Byte, s = [DASH, c] ∧ c ≠ DASH ∧ (alternative = true → c ≠ EQUALS)

/-- The form of the invocation is one that the arity class of the option `o`
and the mode admit: a flag is Argumentless; a value in the next token belongs
to an Argumented option, or to an OptionallyArgumented one whose stickless
predicate accepts it; an attached value follows a long spelling, and the whole
token is no spelling of a listed option; a sticky value is not empty and
follows a short spelling, outside alternative mode; the value is absent for an
OptionallyArgumented option with the default stickless predicate. -/
def Use.admitted (options : List (args_Option × Option CStr)) (alternative : Bool)
    (o : args_Option) : Use → Prop
  | .flag _ => o.type = ARGUMENTLESS
  | .deferred _ v =>
    o.type = ARGUMENTED ∨
      (o.type = OPTARGUMENTED ∧ ∃ pred, o.stickless = some pred ∧ pred v = true)
  | .attached s v =>
    (o.type = ARGUMENTED ∨ o.type = OPTARGUMENTED) ∧ long_spelling s ∧
      ∀ q ∈ options, s ++ EQUALS :: v ∉ q.1.alternatives
  | .sticky s v =>
    (o.type = ARGUMENTED ∨ o.type = OPTARGUMENTED) ∧ short_spelling false s ∧
      alternative = false ∧ v ≠ []
  | .absent _ => o.type = OPTARGUMENTED ∧ o.stickless = some default_stickless

/-- The invocation is one of an option of the listed ones, by a long or a short
spelling of it, in a form that the option admits. -/
def Use.fits (options : List (args_Option × Option CStr)) (alternative : Bool) (u : Use) :
    Prop :=
  (long_spelling u.spelling ∨ short_spelling alternative u.spelling) ∧
  ∃ p ∈ options, u.spelling ∈ p.1.alternatives ∧ u.admitted options alternative p.1

/-- What the local variables of `args_parse` keep while the options of a
registered instance `st0` are scanned and nothing is unrecognised: the
registry, the index, the results store and the mode of `st0`, no positional
file, no terminator seen, and `rc` true. -/
def based (st0 : State) (sc : Scan) : Prop :=
  sc.st.args_optmap = st0.args_optmap ∧ sc.st.args_options = st0.args_options ∧
  sc.st.args_opts = st0.args_opts ∧ sc.st.args_alternative = st0.args_alternative ∧
  sc.st.args_files_count = st0.args_files_count ∧
  sc.st.args_unrecognised_count = 0 ∧
  sc.dashed = false ∧ sc.tmpdashed = false ∧ sc.rc = true ∧ sc.dontget = 0 ∧
  sc.injection = none

/-! ## Sample options for the abbreviation policy -/

/-- An Argumentless option with the single spelling `--verbose`. -/
def flag_verbose : args_Option :=
  { type := ARGUMENTLESS, help := none, argument := [78, 79, 84, 72, 73, 78, 71]
    alternatives := [[45, 45, 118, 101, 114, 98, 111, 115, 101]]
    standard := [45, 45, 118, 101, 114, 98, 111, 115, 101], stickless := none }

/-- An Argumented option with the single spelling `--output`. -/
def opt_output : args_Option :=
  { type := ARGUMENTED, help := none, argument := [65, 82, 71]
    alternatives := [[45, 45, 111, 117, 116, 112, 117, 116]]
    standard := [45, 45, 111, 117, 116, 112, 117, 116], stickless := none }

/-- An Argumentless option with the spellings `--abc` and `--ab`, the first one
canonical. -/
def flag_abc : args_Option :=
  { type := ARGUMENTLESS, help := none, argument := [78, 79, 84, 72, 73, 78, 71]
    alternatives := [[45, 45, 97, 98, 99], [45, 45, 97, 98]]
    standard := [45, 45, 97, 98, 99], stickless := none }

/-- An Argumented option with the single spelling `-b`. -/
def opt_b : args_Option :=
  { type := ARGUMENTED, help := none, argument := [65, 82, 71]
    alternatives := [[45, 98]], standard := [45, 98], stickless := none }

/-- The string is a spelling of none of the listed options. -/
def unregistered (options : List (args_Option × Option CStr)) (s : CStr) : Bool :=
  decide (∀ p ∈ options, s ∉ p.1.alternatives)

/-! ## The same scan on another vector -/

/-- The instance `st` as it is when `args_parse` was called on the vector
`arguments` instead, and the positional files `pre` were stored in front of
those of `st`. -/
def reframe (pre : List (Option CStr)) (arguments : List CStr) (st : State) : State :=
  { st with
    args_files := pre ++ st.args_files
    args_files_count := st.args_files_count + pre.length
    args_arguments := arguments
    args_arguments_count := arguments.length }

/-- The local variables of `args_parse` with the instance reframed. -/
def Scan.reframe (pre : List (Option CStr)) (arguments : List CStr) (sc : Scan) : Scan :=
  { sc with st := ArgParser.reframe pre arguments sc.st }

/-- Every entry of `argqueue` and every value that is awaited belong to an entry
of `optqueue`. -/
def queued (sc : Scan) : Prop :=
  sc.argqueue.length + sc.get ≤ sc.optqueue.length

/-! ## The levels and the key list of the map -/

/-- The levels that the walk of `map_put` along `key` would visit are all
allocated, so that the walk would not set `new`. -/
def has_path {α : Type} (cur : Level α) : CStr → Bool
  | [] => true
  | c :: key =>
    match cur.slots (hi c) with
    | none => false
    | some mid =>
      match mid (lo c) with
      | none => false
      | some next => has_path next key

/-- The key list of a map that was built from `map_init` by puts for the keys
that satisfy `put`: the count is the length of the list, no key is listed
twice, every listed key was put, the allocated levels are those along the
listed keys, and every key that was put lies along a listed key. -/
def listed {α : Type} (m : args_Map α) (put : CStr → Prop) : Prop :=
  m.key_count = m.keys.length ∧ m.keys.Nodup ∧ (∀ k ∈ m.keys, put k) ∧
  (∀ k, has_path m.data k = true ↔ (k = [] ∨ ∃ key ∈ m.keys, k.isPrefixOf key = true)) ∧
  (∀ s, put s → has_path m.data s = true)

/-! ## The order of strings and the joined files -/

/-- The string `a` precedes the string `b` in the byte-lexicographic order: at
the first position at which they differ the byte of `a` is the smaller number,
or `a` ends there and `b` does not. -/
def precedes : CStr → CStr → Bool
  | [], [] => false
  | [], _ :: _ => true
  | _ :: _, [] => false
  | x :: a, y :: b => if x = y then precedes a b else decide (x < y)

/-- The string is one of 7-bit characters: every byte is in `1 .. 127`. -/
def seven_bit (a : CStr) : Prop := ∀ c ∈ a, 0 < c.val ∧ c.val < 128

/-- A Variadic option with the single spelling `-r`. -/
def opt_r : args_Option :=
  { type := VARIADIC, help := none, argument := [65, 82, 71]
    alternatives := [[45, 114]], standard := [45, 114], stickless := none }

/-! ## The callbacks and the queues of the scanner -/

/-- The callbacks and the option queue agree: `n` callbacks having been invoked
before the scan, every entry of `optqueue` was triggered once or awaits its
value. -/
def triggered (n : Nat) (sc : Scan) : Prop :=
  sc.st.calls.length + sc.get = n + sc.optqueue.length

/-- Every entry of `optqueue` has its entry in `argqueue` or awaits its value. -/
def paired (sc : Scan) : Prop := sc.argqueue.length + sc.get = sc.optqueue.length

/-- No spelling of a sign and one character belongs to a Variadic option. -/
def no_short_variadic (st : State) : Prop :=
  ∀ (sign c : Byte) (t : Nat), args_optmap_get_type st [sign, c] = .ok t → t < VARIADIC

/-! ## The associative store: lookups after stores -/

theorem hi_lo_inj {c d : Byte} (h1 : hi c = hi d) (h2 : lo c = lo d) : c = d := by
  have h1' : c.val / 16 % 16 = d.val / 16 % 16 := congrArg Fin.val h1
  have h2' : c.val % 16 = d.val % 16 := congrArg Fin.val h2
  have hc := c.isLt
  have hd := d.isLt
  apply Fin.ext
  omega

theorem setSlot_apply {β : Type} (slots : Fin 16 → β) (i j : Fin 16) (p : β) :
    setSlot slots i p j = if j = i then p else slots j := rfl

theorem map_get_from_emptyLevel {α : Type} (k : CStr) :
    map_get_from (emptyLevel : Level α) k = none := by
  cases k <;> simp [map_get_from, emptyLevel, Level.value, Level.slots]

theorem map_get_from_put {α : Type} (k k' : CStr) (cur : Level α) (v : Option α) (n : Bool) :
    map_get_from (map_put_from cur v n k).1 k' = if k' = k then v else map_get_from cur k' := by
  induction k generalizing cur k' n with
  | nil =>
    cases k' with
    | nil => simp [map_put_from, map_get_from, Level.value]
    | cons c t => simp [map_put_from, map_get_from, Level.slots]
  | cons c t ih =>
    obtain ⟨slots, value⟩ := cur
    cases k' with
    | nil => simp [map_put_from, map_get_from, Level.value]
    | cons c' t' =>
      simp only [map_put_from, map_get_from, Level.slots, setSlot]
      by_cases hh : hi c' = hi c
      · by_cases hl : lo c' = lo c
        · have hc : c' = c := hi_lo_inj hh hl
          subst hc
          simp only [if_true, ih, List.cons.injEq, true_and]
          cases h1 : slots (hi c') with
          | none => simp [map_get_from_emptyLevel, setSlot_apply, ih]
          | some mid =>
            cases h2 : mid (lo c') with
            | none => simp [map_get_from_emptyLevel, setSlot_apply, ih, h2]
            | some next => simp [setSlot_apply, ih, h2]
        · have hc : c' ≠ c := fun h => hl (by rw [h])
          simp only [hh, if_true, hl, if_false, List.cons.injEq, hc, false_and]
          cases h1 : slots (hi c) with
          | none => simp [setSlot_apply, hl]
          | some mid => simp [setSlot_apply, hl]
      · have hc : c' ≠ c := fun h => hh (by rw [h])
        simp [setSlot_apply, hh, hc]

theorem map_get_map_put {α : Type} (m : args_Map α) (k k' : CStr) (v : Option α) :
    map_get (map_put m k v) k' = if k' = k then v else map_get m k' := by
  have key := map_get_from_put k k' m.data v false
  unfold map_get map_put
  rw [← key]
  by_cases h : (map_put_from m.data v false k).2 = true <;> simp [h]

theorem map_get_map_init {α : Type} (k : CStr) : map_get (map_init : args_Map α) k = none := by
  simp [map_get, map_init, map_get_from_emptyLevel]

theorem map_puts_snoc {α : Type} (m : args_Map α) (puts : List (CStr × Option α))
    (p : CStr × Option α) :
    map_puts m (puts ++ [p]) = map_put (map_puts m puts) p.1 p.2 := by
  simp [map_puts, List.foldl_append]

theorem most_recent_put_snoc {α : Type} (puts : List (CStr × Option α))
    (p : CStr × Option α) (k : CStr) :
    most_recent_put (puts ++ [p]) k = if p.1 = k then p.2 else most_recent_put puts k := by
  simp [most_recent_put, List.foldl_append]

theorem map_get_map_puts {α : Type} (puts : List (CStr × Option α)) (k : CStr) :
    map_get (map_puts map_init puts) k = most_recent_put puts k := by
  induction puts using List.reverseRecOn with
  | nil => simp [map_puts, most_recent_put, map_get_map_init]
  | append_singleton puts p ih =>
    rw [map_puts_snoc, most_recent_put_snoc, map_get_map_put, ih]
    by_cases h : k = p.1
    · simp [h]
    · have h' : ¬ p.1 = k := fun e => h e.symm
      simp [h, h']

/-- C1: after any sequence of `map_put` calls on a freshly initialised map,
`map_get` of a key returns the value of the most recent put for exactly that
key, and `null` when there was none; a further put for a key `k` changes the
result of `map_get` for `k` only, whatever the other key is (a prefix or an
extension of `k` included). -/
theorem map_get_returns_most_recent_put {α : Type} (puts : List (CStr × Option α))
    (k : CStr) :
    map_get (map_puts map_init puts) k = most_recent_put puts k ∧
    ∀ (k' : CStr) (v : Option α),
      map_get (map_put (map_puts map_init puts) k v) k' =
        if k' = k then v else map_get (map_puts map_init puts) k' :=
  ⟨map_get_map_puts puts k, fun k' v => map_get_map_put _ k k' v⟩

/-- C2: the code at the failing input. The key `a`, put after the key `ab` of
which it is a proper prefix, is not added to the key list, and the key count
stays 1, although the value of `a` is stored. -/
theorem map_put_prefix_key_not_listed :
    (map_puts map_init [([97, 98], some 1), ([97], some 2)]).keys = [[97, 98]] ∧
    (map_puts map_init [([97, 98], some 1), ([97], some 2)]).key_count = 1 ∧
    map_get (map_puts map_init [([97, 98], some 1), ([97], some 2)]) [97] = some 2 := by
  decide

/-! ## The results store and the registry -/

theorem map_get_opts_put (m : args_Map args_Array) (name n : CStr)
    (values : Option (List (Option CStr))) :
    map_get (opts_put m name values) n =
      if n = name then
        some { values := values
               count := match map_get m name with
                 | some a => a.count
                 | none => 0
               used := match map_get m name with
                 | some a => a.used
                 | none => false }
      else map_get m n := by
  unfold opts_put
  cases h : map_get m name <;> simp [map_get_map_put]

theorem map_get_opts_put_count (m : args_Map args_Array) (name n : CStr) (count : Nat) :
    map_get (opts_put_count m name count) n =
      if n = name then
        some { values := match map_get m name with
                 | some a => a.values
                 | none => none
               count := count
               used := match map_get m name with
                 | some a => a.used
                 | none => false }
      else map_get m n := by
  unfold opts_put_count
  cases h : map_get m name <;> simp [map_get_map_put]

theorem args_add_option_alternatives_shape (st : State) (index : Nat) (alts : List CStr) :
    ∃ om, args_add_option_alternatives st index alts = { st with args_optmap := om } ∧
      ∀ s, map_get om s = if s ∈ alts then some (index + 1) else map_get st.args_optmap s := by
  induction alts generalizing st with
  | nil => exact ⟨st.args_optmap, rfl, fun s => by simp⟩
  | cons a rest ih =>
    obtain ⟨om, hom, hget⟩ := ih (args_optmap_put st a index)
    refine ⟨om, ?_, ?_⟩
    · rw [args_add_option_alternatives, hom]; rfl
    · intro s
      rw [hget]
      by_cases hs : s ∈ rest
      · simp [hs]
      · by_cases ha : s = a
        · simp [args_optmap_put, map_get_map_put, ha]
        · simp [args_optmap_put, map_get_map_put, ha, hs]

theorem args_add_option_shape (st : State) (o : args_Option) (help : Option CStr) :
    ∃ om os, args_add_option st o help =
        { st with args_options := st.args_options ++ [{ o with help := help }]
                  args_optmap := om, args_opts := os } ∧
      (∀ s, map_get om s =
        if s ∈ o.alternatives then some (st.args_options.length + 1)
        else map_get st.args_optmap s) ∧
      (∀ s, map_get os s =
        if s = o.standard then
          some { values := none, count := 0, used := args_opts_used st o.standard }
        else map_get st.args_opts s) := by
  obtain ⟨om, hom, hget⟩ :=
    args_add_option_alternatives_shape st (args_get_options_count st) o.alternatives
  refine ⟨om, opts_put_count (opts_put st.args_opts o.standard none) o.standard 0, ?_, hget, ?_⟩
  · simp only [args_add_option, hom, args_opts_put, args_opts_put_count]
  · intro s
    simp only [map_get_opts_put_count, map_get_opts_put, args_opts_used]
    by_cases hs : s = o.standard
    · cases h : map_get st.args_opts o.standard <;> simp [hs]
    · simp [hs]

theorem register_snoc (st : State) (options : List (args_Option × Option CStr))
    (p : args_Option × Option CStr) :
    register st (options ++ [p]) = args_add_option (register st options) p.1 p.2 := by
  simp [register, List.foldl_append]

theorem registry_shape (program : Option CStr) (alternative : Bool)
    (abbreviations : Option (CStr → List CStr → Nat → Option CStr))
    (options : List (args_Option × Option CStr)) :
    ∃ om os, registry program alternative abbreviations options =
        { args_init program alternative abbreviations with
          args_options := options.map (fun p => { p.1 with help := p.2 })
          args_optmap := om, args_opts := os } ∧
      (∀ s, (∀ p ∈ options, s ∉ p.1.alternatives) → map_get om s = none) ∧
      (no_shared_spelling options → ∀ i p s, options[i]? = some p → s ∈ p.1.alternatives →
        map_get om s = some (i + 1)) ∧
      (∀ s, map_get os s =
        if ∃ p ∈ options, p.1.standard = s then some { values := none, count := 0, used := false }
        else none) := by
  induction options using List.reverseRecOn with
  | nil =>
    refine ⟨map_init, map_init, rfl, ?_, ?_, ?_⟩
    · intro s _; exact map_get_map_init s
    · intro _ i p s h; simp at h
    · intro s; simp [map_get_map_init]
  | append_singleton init q ih =>
    obtain ⟨om, os, hreg, hnone, hsome, hopts⟩ := ih
    obtain ⟨om', os', hadd, hom', hos'⟩ :=
      args_add_option_shape (registry program alternative abbreviations init) q.1 q.2
    refine ⟨om', os', ?_, ?_, ?_, ?_⟩
    · unfold registry at *
      rw [register_snoc, hadd, hreg]
      simp
    · intro s hs
      rw [hom', hreg]
      have h1 : s ∉ q.1.alternatives := hs q (by simp)
      simp only [h1, if_false]
      exact hnone s (fun p hp => hs p (by simp [hp]))
    · intro hns i p s hi hsp
      have hpw := List.pairwise_append.mp hns
      rw [hom', hreg]
      simp only [List.length_map]
      by_cases hlt : i < init.length
      · have hi' : init[i]? = some p := by
          rw [List.getElem?_append_left hlt] at hi; exact hi
        have hpm : p ∈ init := List.getElem?_mem hi'
        have hq : s ∉ q.1.alternatives := hpw.2.2 p hpm q (by simp) s hsp
        simp only [hq, if_false]
        exact hsome hpw.1 i p s hi' hsp
      · have hge : init.length ≤ i := Nat.le_of_not_lt hlt
        rw [List.getElem?_append_right hge] at hi
        have hi0 : i - init.length = 0 := by
          by_contra hne
          have : ([q] : List _)[i - init.length]? = none := by
            apply List.getElem?_eq_none
            simp; omega
          rw [this] at hi; cases hi
        rw [hi0] at hi
        simp at hi
        subst hi
        have : i = init.length := by omega
        simp [hsp, this]
    · intro s
      rw [hos', hreg]
      simp only [args_opts_used, hopts]
      by_cases hs : s = q.1.standard
      · subst hs
        have hq : ∃ p ∈ init ++ [q], p.1.standard = q.1.standard := ⟨q, by simp, rfl⟩
        by_cases hex : ∃ p ∈ init, p.1.standard = q.1.standard
        · simp only [hex, hq, if_true]
        · simp only [hex, hq, if_true, if_false]
      · have : (∃ p ∈ init ++ [q], p.1.standard = s) ↔ (∃ p ∈ init, p.1.standard = s) := by
          constructor
          · rintro ⟨p, hp, hps⟩
            rcases List.mem_append.mp hp with h | h
            · exact ⟨p, h, hps⟩
            · simp at h; subst h; exact absurd hps.symm hs
          · rintro ⟨p, hp, hps⟩
            exact ⟨p, List.mem_append.mpr (Or.inl hp), hps⟩
        simp only [hs, if_false, this]

theorem args_optmap_lookup {st : State} {s : CStr} {i : Nat} {o : args_Option}
    (hmap : map_get st.args_optmap s = some (i + 1)) (hopt : st.args_options[i]? = some o) :
    args_optmap_get_index st s = (i : Int) ∧ args_optmap_contains st s = true ∧
    args_optmap_get_type st s = .ok o.type ∧ args_optmap_get_standard st s = .ok o.standard := by
  have hidx : args_optmap_get_index st s = (i : Int) := by
    simp [args_optmap_get_index, hmap]
  refine ⟨hidx, ?_, ?_, ?_⟩
  · simp [args_optmap_contains, hidx]
  · simp [args_optmap_get_type, args_options_at, hidx, hopt]
  · simp [args_optmap_get_standard, args_options_at, hidx, hopt]

/-- C3: after `args_init` and any sequence of `args_add_option` calls in which
no spelling is shared by two options, every spelling `s` of the option
registered at position `i` is contained in the index, resolves to the index
`i`, and has the arity class and the canonical spelling of that option. -/
theorem args_optmap_resolves_spelling (program : Option CStr) (alternative : Bool)
    (abbreviations : Option (CStr → List CStr → Nat → Option CStr))
    (options : List (args_Option × Option CStr)) (hns : no_shared_spelling options)
    (i : Nat) (o : args_Option) (help : Option CStr) (hi : options[i]? = some (o, help))
    (s : CStr) (hs : s ∈ o.alternatives) :
    args_optmap_contains (registry program alternative abbreviations options) s = true ∧
    args_optmap_get_index (registry program alternative abbreviations options) s = (i : Int) ∧
    args_optmap_get_type (registry program alternative abbreviations options) s = .ok o.type ∧
    args_optmap_get_standard (registry program alternative abbreviations options) s
      = .ok o.standard := by
  obtain ⟨om, os, hreg, -, hsome, -⟩ :=
    registry_shape program alternative abbreviations options
  have hmap : map_get (registry program alternative abbreviations options).args_optmap s
      = some (i + 1) := by
    rw [hreg]; exact hsome hns i (o, help) s hi hs
  have hopt : (registry program alternative abbreviations options).args_options[i]?
      = some { o with help := help } := by
    rw [hreg]; simp [hi]
  obtain ⟨h1, h2, h3, h4⟩ := args_optmap_lookup hmap hopt
  exact ⟨h2, h1, h3, h4⟩

/-- C3, at a registry of two options: the spelling `-a` of the second option
resolves to index 1 and to the canonical spelling `--opt`. -/
theorem args_optmap_resolves_spelling_witness :
    no_shared_spelling [(flag_b, none), (opt_a, none)] ∧
    args_optmap_contains (registry none false none [(flag_b, none), (opt_a, none)]) [45, 97]
      = true ∧
    args_optmap_get_index (registry none false none [(flag_b, none), (opt_a, none)]) [45, 97]
      = ((1 : Nat) : Int) ∧
    args_optmap_get_type (registry none false none [(flag_b, none), (opt_a, none)]) [45, 97]
      = .ok opt_a.type ∧
    args_optmap_get_standard (registry none false none [(flag_b, none), (opt_a, none)]) [45, 97]
      = .ok opt_a.standard :=
  have hns : no_shared_spelling [(flag_b, none), (opt_a, none)] := by
    simp [no_shared_spelling, flag_b, opt_a]
  ⟨hns, args_optmap_resolves_spelling none false none [(flag_b, none), (opt_a, none)] hns 1
    opt_a none rfl [45, 97] (by simp [opt_a])⟩

/-- C4, refuted: `-a` is a spelling of the registered option `flag_a`; adding
`opt_a`, which has the spelling `-a` too, is not rejected: the option is
appended and `-a` now resolves to it. -/
theorem args_add_option_rebinds_spelling :
    args_optmap_get_index (registry none false none [(flag_a, none)]) [45, 97] = 0 ∧
    (args_add_option (registry none false none [(flag_a, none)]) opt_a none).args_options.length
      = 2 ∧
    args_optmap_get_index
      (args_add_option (registry none false none [(flag_a, none)]) opt_a none) [45, 97] = 1 ∧
    args_optmap_get_type
      (args_add_option (registry none false none [(flag_a, none)]) opt_a none) [45, 97]
      = .ok ARGUMENTED := by
  decide

/-- C4, amended: `args_add_option` never fails. It appends the option, and every
spelling of the added option resolves to the added option afterwards, whether
or not the spelling was in the index before (the last registration wins). -/
theorem args_add_option_last_wins (st : State) (o : args_Option) (help : Option CStr)
    (s : CStr) (hs : s ∈ o.alternatives) :
    (args_add_option st o help).args_options = st.args_options ++ [{ o with help := help }] ∧
    args_optmap_get_index (args_add_option st o help) s = (st.args_options.length : Int) ∧
    args_optmap_get_type (args_add_option st o help) s = .ok o.type ∧
    args_optmap_get_standard (args_add_option st o help) s = .ok o.standard := by
  obtain ⟨om, os, hadd, hom, -⟩ := args_add_option_shape st o help
  have hmap : map_get (args_add_option st o help).args_optmap s
      = some (st.args_options.length + 1) := by
    rw [hadd]; simp [hom, hs]
  have hopt : (args_add_option st o help).args_options[st.args_options.length]?
      = some { o with help := help } := by
    rw [hadd]; simp
  obtain ⟨h1, -, h3, h4⟩ := args_optmap_lookup hmap hopt
  refine ⟨?_, h1, h3, h4⟩
  rw [hadd]

/-- C4, amended, at the registry with `flag_a`: after adding `opt_a` its spelling
`-a`, which was bound to `flag_a`, resolves to `opt_a`. -/
theorem args_add_option_last_wins_witness :
    ([45, 97] : CStr) ∈ opt_a.alternatives ∧
    (args_add_option (registry none false none [(flag_a, none)]) opt_a none).args_options
      = (registry none false none [(flag_a, none)]).args_options
          ++ [{ opt_a with help := none }] ∧
    args_optmap_get_index
      (args_add_option (registry none false none [(flag_a, none)]) opt_a none) [45, 97]
      = ((registry none false none [(flag_a, none)]).args_options.length : Int) ∧
    args_optmap_get_type
      (args_add_option (registry none false none [(flag_a, none)]) opt_a none) [45, 97]
      = .ok opt_a.type ∧
    args_optmap_get_standard
      (args_add_option (registry none false none [(flag_a, none)]) opt_a none) [45, 97]
      = .ok opt_a.standard :=
  have hs : ([45, 97] : CStr) ∈ opt_a.alternatives := by simp [opt_a]
  ⟨hs, args_add_option_last_wins (registry none false none [(flag_a, none)]) opt_a none
    [45, 97] hs⟩

theorem args_parse_pending_idle (sc : Scan) (arg : CStr) (hget : sc.get = 0) :
    args_parse_pending sc arg = .ok (sc, false) := by
  simp [args_parse_pending, hget, pure, Except.pure]

theorem args_parse_token_idle (sc : Scan) (arg : CStr) (hget : sc.get = 0) :
    args_parse_token sc arg = args_parse_dispatch sc arg := by
  simp [args_parse_token, args_parse_pending_idle sc arg hget, bind, Except.bind]

theorem args_parse_dispatch_dashed (sc : Scan) (arg : CStr) (ht : sc.tmpdashed = false)
    (hd : sc.dashed = true) :
    args_parse_dispatch sc arg = .ok (args_parse_file sc arg) := by
  simp [args_parse_dispatch, ht, hd, pure, Except.pure]

theorem args_parse_dispatch_plain (sc : Scan) (arg : CStr) (ht : sc.tmpdashed = false)
    (hd : sc.dashed = false) (h1 : byteAt arg 0 ≠ DASH) (h2 : byteAt arg 0 ≠ PLUS) :
    args_parse_dispatch sc arg = .ok (args_parse_file sc arg) := by
  simp [args_parse_dispatch, ht, hd, h1, h2, pure, Except.pure]

theorem find_eq_of_not_mem (s : CStr) (h : EQUALS ∉ s) : find_eq s = s.length := by
  induction s with
  | nil => rfl
  | cons c t ih =>
    have hc : c ≠ EQUALS := fun e => h (by simp [e])
    have ht : EQUALS ∉ t := fun e => h (by simp [e])
    simp [find_eq, hc, ih ht]

theorem find_eq_append (s v : CStr) (h : EQUALS ∉ s) :
    find_eq (s ++ EQUALS :: v) = s.length := by
  induction s with
  | nil => simp [find_eq]
  | cons c t ih =>
    have hc : c ≠ EQUALS := fun e => h (by simp [e])
    have ht : EQUALS ∉ t := fun e => h (by simp [e])
    simp [find_eq, hc, ih ht]

theorem byteAt_length (s : CStr) : byteAt s s.length = 0 := by
  simp [byteAt]

theorem byteAt_append_length (s v : CStr) (c : Byte) : byteAt (s ++ c :: v) s.length = c := by
  induction s with
  | nil => simp [byteAt]
  | cons a t ih => simpa [byteAt] using ih

theorem args_optmap_contains_of_none {st : State} {s : CStr}
    (h : map_get st.args_optmap s = none) : args_optmap_contains st s = false := by
  simp [args_optmap_contains, args_optmap_get_index, h]

theorem args_optmap_trigger_lookup {st : State} {s : CStr} {i : Nat} {o : args_Option}
    (hmap : map_get st.args_optmap s = some (i + 1)) (hopt : st.args_options[i]? = some o)
    (value : Option CStr) :
    args_optmap_trigger st s value =
      .ok { st with calls := st.calls ++
        [match value with
          | none => Call.trigger s o.standard
          | some v => Call.triggerv s o.standard (some v)] } := by
  have hidx := (args_optmap_lookup hmap hopt).1
  cases value <;> simp [args_optmap_trigger, args_options_at, hidx, hopt]

theorem args_optmap_triggerv_lookup {st : State} {s : CStr} {i : Nat} {o : args_Option}
    (hmap : map_get st.args_optmap s = some (i + 1)) (hopt : st.args_options[i]? = some o)
    (value : Option CStr) :
    args_optmap_triggerv st s value =
      .ok { st with calls := st.calls ++ [Call.triggerv s o.standard value] } := by
  have hidx := (args_optmap_lookup hmap hopt).1
  simp [args_optmap_triggerv, args_options_at, hidx, hopt]

theorem args_optmap_stickless_lookup {st : State} {s : CStr} {i : Nat} {o : args_Option}
    {pred : CStr → Bool}
    (hmap : map_get st.args_optmap s = some (i + 1)) (hopt : st.args_options[i]? = some o)
    (hpred : o.stickless = some pred) (argument : CStr) :
    args_optmap_stickless st s argument = .ok (pred argument) := by
  have hidx := (args_optmap_lookup hmap hopt).1
  simp [args_optmap_stickless, args_options_at, hidx, hopt, hpred]

/-! ## The scanner, one token at a time -/

theorem args_parse_dispatch_long (sc : Scan) (name : CStr)
    (ht : sc.tmpdashed = false) (hd : sc.dashed = false) (hne : name ≠ []) :
    args_parse_dispatch sc (DASH :: DASH :: name) = args_parse_long sc (DASH :: DASH :: name) := by
  obtain ⟨c, rest, rfl⟩ := List.exists_cons_of_ne_nil hne
  simp [args_parse_dispatch, ht, hd, byteAt, nulAt]

theorem args_parse_long_deferred (sc : Scan) (arg : CStr) (i : Nat) (o : args_Option)
    (hdont : sc.dontget = 0)
    (hmap : map_get sc.st.args_optmap arg = some (i + 1))
    (hopt : sc.st.args_options[i]? = some o)
    (htype : o.type = ARGUMENTED ∨ o.type = OPTARGUMENTED)
    (heq : byteAt arg (find_eq arg) ≠ EQUALS) :
    args_parse_long sc arg =
      .ok { sc with optqueue := sc.optqueue ++ [arg], get := sc.get + 1 } := by
  obtain ⟨-, hcont, htyp, -⟩ := args_optmap_lookup hmap hopt
  have h100 : o.type ≠ 0 := by rcases htype with h | h <;> simp [h]
  have hle : o.type ≤ 2 := by rcases htype with h | h <;> simp [h]
  simp [args_parse_long, hdont, hcont, htyp, bind, Except.bind, pure, Except.pure, h100, hle,
    heq]

theorem args_parse_long_variadic (sc : Scan) (arg : CStr) (i : Nat) (o : args_Option)
    (hdont : sc.dontget = 0)
    (hmap : map_get sc.st.args_optmap arg = some (i + 1))
    (hopt : sc.st.args_options[i]? = some o)
    (htype : o.type = VARIADIC)
    (heq : byteAt arg (find_eq arg) ≠ EQUALS) :
    args_parse_long sc arg =
      .ok { sc with st := { sc.st with calls := sc.st.calls ++ [Call.trigger arg o.standard] }
                    dashed := true
                    optqueue := sc.optqueue ++ [arg]
                    argqueue := sc.argqueue ++ [none] } := by
  obtain ⟨-, hcont, htyp, -⟩ := args_optmap_lookup hmap hopt
  simp [args_parse_long, hdont, hcont, htyp, bind, Except.bind, pure, Except.pure, htype,
    heq, args_optmap_trigger_lookup hmap hopt]

theorem args_parse_long_argumentless (sc : Scan) (arg : CStr) (i : Nat) (o : args_Option)
    (hdont : sc.dontget = 0)
    (hmap : map_get sc.st.args_optmap arg = some (i + 1))
    (hopt : sc.st.args_options[i]? = some o)
    (htype : o.type = ARGUMENTLESS) :
    args_parse_long sc arg =
      .ok { sc with st := { sc.st with calls := sc.st.calls ++ [Call.trigger arg o.standard] }
                    optqueue := sc.optqueue ++ [arg]
                    argqueue := sc.argqueue ++ [none] } := by
  obtain ⟨-, hcont, htyp, -⟩ := args_optmap_lookup hmap hopt
  simp [args_parse_long, hdont, hcont, htyp, bind, Except.bind, pure, Except.pure, htype,
    args_optmap_trigger_lookup hmap hopt]

theorem args_parse_long_attached (sc : Scan) (s v : CStr) (i : Nat) (o : args_Option)
    (hdont : sc.dontget = 0)
    (hnone : map_get sc.st.args_optmap (s ++ EQUALS :: v) = none)
    (hs : EQUALS ∉ s)
    (hmap : map_get sc.st.args_optmap s = some (i + 1))
    (hopt : sc.st.args_options[i]? = some o)
    (htype : o.type = ARGUMENTED ∨ o.type = OPTARGUMENTED) :
    args_parse_long sc (s ++ EQUALS :: v) =
      .ok { sc with st := { sc.st with calls := sc.st.calls ++
                                [Call.triggerv s o.standard (some v)] }
                    optqueue := sc.optqueue ++ [s]
                    argqueue := sc.argqueue ++ [some v] } := by
  obtain ⟨-, hcont, htyp, -⟩ := args_optmap_lookup hmap hopt
  have hge : 1 ≤ o.type := by rcases htype with h | h <;> simp [h]
  have hne : o.type ≠ 3 := by rcases htype with h | h <;> simp [h]
  simp [args_parse_long, hdont, args_optmap_contains_of_none hnone, find_eq_append s v hs,
    byteAt_append_length, hcont, htyp, bind, Except.bind, pure, Except.pure, hge, hne,
    args_optmap_trigger_lookup hmap hopt]

theorem args_parse_token_accept (sc : Scan) (arg arg_opt : CStr) (front : List CStr)
    (i : Nat) (o : args_Option)
    (hget : sc.get = 1) (hdont : sc.dontget = 0) (hq : sc.optqueue = front ++ [arg_opt])
    (hmap : map_get sc.st.args_optmap arg_opt = some (i + 1))
    (hopt : sc.st.args_options[i]? = some o)
    (hpass : o.type ≠ OPTARGUMENTED ∨ ∃ pred, o.stickless = some pred ∧ pred arg = true) :
    args_parse_token sc arg =
      .ok { sc with st := { sc.st with calls := sc.st.calls ++
                                [Call.triggerv arg_opt o.standard (some arg)] }
                    get := 0
                    argqueue := sc.argqueue ++ [some arg] } := by
  obtain ⟨-, -, htyp, -⟩ := args_optmap_lookup hmap hopt
  rcases hpass with hne | ⟨pred, hpred, hacc⟩
  · simp [args_parse_token, args_parse_pending, hget, hdont, hq, htyp, hne, bind, Except.bind,
      pure, Except.pure, args_optmap_trigger_lookup hmap hopt]
  · by_cases hty : o.type = OPTARGUMENTED
    · simp [args_parse_token, args_parse_pending, hget, hdont, hq, htyp, hty, bind, Except.bind,
        pure, Except.pure, args_optmap_trigger_lookup hmap hopt,
        args_optmap_stickless_lookup hmap hopt hpred, hacc]
    · simp [args_parse_token, args_parse_pending, hget, hdont, hq, htyp, hty, bind, Except.bind,
        pure, Except.pure, args_optmap_trigger_lookup hmap hopt]

theorem args_parse_token_reject (sc : Scan) (arg arg_opt : CStr) (front : List CStr)
    (i : Nat) (o : args_Option) (pred : CStr → Bool)
    (hget : sc.get = 1) (hdont : sc.dontget = 0) (hq : sc.optqueue = front ++ [arg_opt])
    (hmap : map_get sc.st.args_optmap arg_opt = some (i + 1))
    (hopt : sc.st.args_options[i]? = some o)
    (hty : o.type = OPTARGUMENTED) (hpred : o.stickless = some pred) (hrej : pred arg = false) :
    args_parse_token sc arg =
      args_parse_dispatch
        { sc with st := { sc.st with calls := sc.st.calls ++
                                [Call.triggerv arg_opt o.standard none] }
                  get := 0
                  argqueue := sc.argqueue ++ [none] } arg := by
  obtain ⟨-, -, htyp, -⟩ := args_optmap_lookup hmap hopt
  simp [args_parse_token, args_parse_pending, hget, hdont, hq, htyp, hty, bind, Except.bind,
    pure, Except.pure, args_optmap_triggerv_lookup hmap hopt,
    args_optmap_stickless_lookup hmap hopt hpred, hrej]

theorem args_parse_dispatch_short (sc : Scan) (sign c : Byte) (rest : CStr)
    (ht : sc.tmpdashed = false) (hd : sc.dashed = false) (halt : sc.st.args_alternative = false)
    (hsign : sign = DASH ∨ sign = PLUS) (hc : c ≠ sign) :
    args_parse_dispatch sc (sign :: c :: rest) =
      args_parse_bundle (sign :: c :: rest) sign sc (c :: rest) := by
  have hc' : ¬ sign = c := fun e => hc e.symm
  have hdp : (DASH : Byte) ≠ PLUS := by decide
  have hpd : (PLUS : Byte) ≠ DASH := by decide
  rcases hsign with rfl | rfl <;>
    simp [args_parse_dispatch, ht, hd, halt, byteAt, nulAt, hc, hc', hdp, hpd]

theorem args_parse_dispatch_alternative (sc : Scan) (sign c : Byte) (rest : CStr)
    (ht : sc.tmpdashed = false) (hd : sc.dashed = false) (halt : sc.st.args_alternative = true)
    (hsign : sign = DASH ∨ sign = PLUS) (hc : c ≠ sign ∨ rest ≠ []) :
    args_parse_dispatch sc (sign :: c :: rest) = args_parse_long sc (sign :: c :: rest) := by
  have hdp : (DASH : Byte) ≠ PLUS := by decide
  have hpd : (PLUS : Byte) ≠ DASH := by decide
  rcases hsign with rfl | rfl <;> rcases hc with hc | hc <;>
    simp [args_parse_dispatch, ht, hd, halt, byteAt, nulAt, hc, hdp, hpd]

theorem args_parse_bundle_deferred (sc : Scan) (arg : CStr) (sign c : Byte) (i : Nat)
    (o : args_Option)
    (hmap : map_get sc.st.args_optmap [sign, c] = some (i + 1))
    (hopt : sc.st.args_options[i]? = some o)
    (htype : o.type = ARGUMENTED ∨ o.type = OPTARGUMENTED) :
    args_parse_bundle arg sign sc [c] =
      .ok { sc with optqueue := sc.optqueue ++ [[sign, c]], get := sc.get + 1 } := by
  obtain ⟨-, hcont, htyp, -⟩ := args_optmap_lookup hmap hopt
  have h100 : o.type ≠ 0 := by rcases htype with h | h <;> simp [h]
  have hlt : o.type < 3 := by rcases htype with h | h <;> simp [h]
  simp [args_parse_bundle, hcont, htyp, bind, Except.bind, pure, Except.pure, h100, hlt]

theorem args_parse_bundle_unknown (sc : Scan) (arg : CStr) (sign c : Byte) (rest : CStr)
    (hnone : map_get sc.st.args_optmap [sign, c] = none) :
    args_parse_bundle arg sign sc (c :: rest) =
      args_parse_bundle arg sign (args_parse_unrecognised sc arg) rest := by
  simp [args_parse_bundle, args_optmap_contains_of_none hnone]

theorem args_parse_bundle_argumentless (canon : Byte → CStr) (arg : CStr) (sign : Byte)
    (cs : List Byte) (sc : Scan)
    (h : ∀ c ∈ cs, ∃ i o, map_get sc.st.args_optmap [sign, c] = some (i + 1) ∧
      sc.st.args_options[i]? = some o ∧ o.type = ARGUMENTLESS ∧ o.standard = canon c) :
    args_parse_bundle arg sign sc cs =
      .ok { sc with st := { sc.st with calls := sc.st.calls ++
                                (cs.map (fun c => Call.trigger [sign, c] (canon c))) }
                    optqueue := sc.optqueue ++ (cs.map (fun c => [sign, c]))
                    argqueue := sc.argqueue ++ (cs.map (fun _ => none)) } := by
  induction cs generalizing sc with
  | nil => simp [args_parse_bundle, pure, Except.pure]
  | cons c rest ih =>
    obtain ⟨i, o, hmap, hopt, htype, hstd⟩ := h c (by simp)
    obtain ⟨-, hcont, htyp, -⟩ := args_optmap_lookup hmap hopt
    have hmap' : map_get
        ({ sc with optqueue := sc.optqueue ++ [[sign, c]] } : Scan).st.args_optmap [sign, c]
        = some (i + 1) := hmap
    rw [args_parse_bundle]
    simp only [hcont, if_true, htyp, bind, Except.bind, htype,
      args_optmap_trigger_lookup hmap' hopt]
    rw [ih]
    · simp [hstd]
    · intro c' hc'
      exact h c' (by simp [hc'])

theorem args_parse_loop_nil (fuel : Nat) (sc : Scan) (hinj : sc.injection = none) :
    args_parse_loop fuel sc [] = .ok sc := by
  unfold args_parse_loop
  simp only [hinj]
  rfl

theorem args_parse_loop_cons (fuel : Nat) (sc : Scan) (arg : CStr) (argv : List CStr)
    (hinj : sc.injection = none) :
    args_parse_loop (fuel + 1) sc (arg :: argv) =
      (args_parse_token sc arg).bind (fun sc1 => args_parse_loop fuel sc1 argv) := by
  conv => lhs; unfold args_parse_loop
  simp only [hinj]
  rfl

theorem args_parse_loop_injection (fuel : Nat) (sc : Scan) (injection : CStr)
    (argv : List CStr) (hinj : sc.injection = some injection) :
    args_parse_loop (fuel + 1) sc argv =
      (args_parse_token { sc with injection := none } injection).bind
        (fun sc1 => args_parse_loop fuel sc1 argv) := by
  conv => lhs; unfold args_parse_loop
  simp only [hinj]
  rfl

/-! ## The statements of `args_parse` behind the main loop -/

theorem recorded_nil (entry : Option args_Array) : recorded entry [] = entry := by
  simp [recorded]

theorem recorded_append (entry : Option args_Array) (xs ys : List (Option CStr)) :
    recorded (recorded entry xs) ys = recorded entry (xs ++ ys) := by
  by_cases hx : xs = []
  · simp [hx, recorded]
  · by_cases hy : ys = []
    · simp [hy, recorded]
    · simp [recorded, hx, hy, List.append_assoc, Nat.add_assoc]

theorem tidy_recorded (opts opts' : args_Map args_Array) (vs : CStr → List (Option CStr))
    (h : tidy opts) (h' : ∀ n, map_get opts' n = recorded (map_get opts n) (vs n)) :
    tidy opts' := by
  intro n a ha
  rw [h'] at ha
  by_cases hv : vs n = []
  · rw [hv, recorded_nil] at ha
    exact h n a ha
  · simp only [recorded, hv, if_false, Option.some.injEq] at ha
    subst ha
    cases hb : map_get opts n with
    | none => simp [blank]
    | some b => simp [h n b hb]

theorem args_opts_append_shape (st : State) (name : CStr) (value : Option CStr)
    (ht : tidy st.args_opts) :
    ∃ m, args_opts_append st name value = { st with args_opts := m } ∧
      ∀ n, map_get m n =
        if n = name then
          some { values := some (((map_get st.args_opts name).getD blank).values.getD [] ++ [value])
                 count := ((map_get st.args_opts name).getD blank).count + 1
                 used := ((map_get st.args_opts name).getD blank).used }
        else map_get st.args_opts n := by
  refine ⟨(args_opts_append st name value).args_opts, ?_, ?_⟩
  · cases hent : map_get st.args_opts name with
    | none =>
      simp only [args_opts_append, args_opts_get, args_opts_get_count, hent, args_opts_put,
        args_opts_put_count]
    | some a =>
      cases hv : a.values <;>
        simp only [args_opts_append, args_opts_get, args_opts_get_count, hent, hv, args_opts_put,
          args_opts_put_count]
  · intro n
    cases hent : map_get st.args_opts name with
    | none =>
      by_cases hn : n = name <;>
        simp [args_opts_append, args_opts_get, args_opts_get_count, args_opts_put,
          args_opts_put_count, map_get_opts_put_count, map_get_opts_put, hn, hent, blank]
    | some a =>
      have hc := ht name a hent
      cases hv : a.values with
      | none =>
        by_cases hn : n = name <;>
          simp [args_opts_append, args_opts_get, args_opts_get_count, args_opts_put,
            args_opts_put_count, map_get_opts_put_count, map_get_opts_put, hn, hent, hv]
      | some vs =>
        rw [hv] at hc
        by_cases hn : n = name <;>
          simp [args_opts_append, args_opts_get, args_opts_get_count, args_opts_put,
            args_opts_put_count, map_get_opts_put_count, map_get_opts_put, hn, hent, hv, hc]

theorem args_parse_mark_append (st : State) (name : CStr) (value : Option CStr)
    (ht : tidy st.args_opts) :
    ∃ m, args_parse_mark (args_opts_append st name value) name = .ok { st with args_opts := m } ∧
      ∀ n, map_get m n =
        if n = name then recorded (map_get st.args_opts name) [value]
        else map_get st.args_opts n := by
  obtain ⟨m, hm, hget⟩ := args_opts_append_shape st name value ht
  have hname := hget name
  simp only [if_true] at hname
  refine ⟨map_put m name (recorded (map_get st.args_opts name) [value]), ?_, ?_⟩
  · rw [hm]
    simp [args_parse_mark, hname, pure, Except.pure, recorded]
  · intro n
    rw [map_get_map_put]
    by_cases hn : n = name
    · simp [hn]
    · simp [hn, hget n]

theorem args_opts_new_shape (st : State) (name : CStr)
    (hent : map_get st.args_opts name = none) :
    ∃ m, args_opts_new st name = { st with args_opts := m } ∧
      ∀ n, map_get m n = if n = name then some blank else map_get st.args_opts n := by
  refine ⟨(args_opts_new st name).args_opts, ?_, ?_⟩
  · simp only [args_opts_new, args_opts_put, args_opts_put_count]
  · intro n
    by_cases hn : n = name
    · simp [args_opts_new, args_opts_put, args_opts_put_count, map_get_opts_put_count,
        map_get_opts_put, hn, hent, blank]
    · simp [args_opts_new, args_opts_put, args_opts_put_count, map_get_opts_put_count,
        map_get_opts_put, hn]

theorem args_parse_record_entry (st : State) (opt : CStr) (arg : Option CStr)
    (hstd : args_optmap_contains st opt = true) (ht : tidy st.args_opts) :
    ∃ m, args_parse_mark (args_opts_append
          (if args_optmap_contains st opt = false ∨ args_opts_contains st opt = false then
            args_opts_new st opt
          else st) opt arg) opt = .ok { st with args_opts := m } ∧
      ∀ n, map_get m n =
        if n = opt then recorded (map_get st.args_opts n) [arg] else map_get st.args_opts n := by
  cases hent : map_get st.args_opts opt with
  | none =>
    obtain ⟨m2, hm2, hget2⟩ := args_opts_new_shape st opt hent
    have ht2 : tidy ({ st with args_opts := m2 } : State).args_opts := by
      intro n a ha
      simp only [hget2] at ha
      by_cases hn : n = opt
      · simp only [hn, if_true, Option.some.injEq] at ha
        subst ha; rfl
      · simp only [hn, if_false] at ha
        exact ht n a ha
    obtain ⟨m3, hm3, hget3⟩ :=
      args_parse_mark_append { st with args_opts := m2 } opt arg ht2
    refine ⟨m3, ?_, ?_⟩
    · simp only [args_opts_contains, hent, Option.isSome_none, or_true, if_true, hm2]
      exact hm3
    · intro n
      rw [hget3]
      by_cases hn : n = opt
      · subst hn
        simp [hget2, hent, recorded]
      · simp [hn, hget2]
  | some a =>
    obtain ⟨m3, hm3, hget3⟩ := args_parse_mark_append st opt arg ht
    refine ⟨m3, ?_, ?_⟩
    · simp only [args_opts_contains, hent, hstd, Option.isSome_some, Bool.true_eq_false,
        or_self, if_false]
      exact hm3
    · intro n
      rw [hget3]
      by_cases hn : n = opt
      · subst hn; rfl
      · simp [hn]

theorem getD_none_of_le (argqueue : List (Option CStr)) (i : Nat) :
    (if i < argqueue.length then argqueue.getD i none else none) = argqueue.getD i none := by
  by_cases h : i < argqueue.length
  · simp [h]
  · have : argqueue.length ≤ i := Nat.le_of_not_lt h
    simp [h, List.getD, List.getElem?_eq_none this]

theorem args_parse_record_step (argqueue : List (Option CStr)) (st : State) (i : Nat)
    (s : CStr) (rest : List CStr) (j : Nat) (o : args_Option)
    (hmap : map_get st.args_optmap s = some (j + 1)) (hopt : st.args_options[j]? = some o)
    (hstd : args_optmap_contains st o.standard = true) (ht : tidy st.args_opts) :
    ∃ m, args_parse_record argqueue st i (s :: rest) =
        args_parse_record argqueue
          { st with args_opts := m
                    calls := st.calls ++ late_calls (fun _ => o.standard) argqueue i [s] }
          (i + 1) rest ∧
      ∀ n, map_get m n =
        if n = o.standard then recorded (map_get st.args_opts n) [argqueue.getD i none]
        else map_get st.args_opts n := by
  obtain ⟨-, -, -, hget_std⟩ := args_optmap_lookup hmap hopt
  by_cases hle : argqueue.length ≤ i
  · obtain ⟨m, hm, hget⟩ := args_parse_record_entry
      { st with calls := st.calls ++ [Call.triggerv s o.standard none] } o.standard
      (argqueue.getD i none) hstd ht
    refine ⟨m, ?_, hget⟩
    rw [args_parse_record]
    simp only [hget_std, bind, Except.bind, getD_none_of_le, hle, if_true,
      args_optmap_triggerv_lookup hmap hopt, hm, late_calls]
  · obtain ⟨m, hm, hget⟩ := args_parse_record_entry st o.standard (argqueue.getD i none) hstd ht
    refine ⟨m, ?_, hget⟩
    rw [args_parse_record]
    simp only [hget_std, bind, Except.bind, getD_none_of_le, hle, if_false, pure, Except.pure,
      hm, late_calls, List.append_nil]

theorem args_parse_record_shape (argqueue : List (Option CStr)) (canon : CStr → CStr)
    (optqueue : List CStr) (st : State) (i : Nat)
    (hq : ∀ s ∈ optqueue, ∃ j o, map_get st.args_optmap s = some (j + 1) ∧
      st.args_options[j]? = some o ∧ o.standard = canon s ∧
      args_optmap_contains st (canon s) = true)
    (ht : tidy st.args_opts) :
    ∃ m, args_parse_record argqueue st i optqueue =
        .ok { st with args_opts := m
                      calls := st.calls ++ late_calls canon argqueue i optqueue } ∧
      tidy m ∧
      ∀ n, map_get m n =
        recorded (map_get st.args_opts n) (recorded_values canon argqueue n i optqueue) := by
  induction optqueue generalizing st i with
  | nil =>
    refine ⟨st.args_opts, ?_, ht, ?_⟩
    · simp [args_parse_record, late_calls, pure, Except.pure]
    · intro n; simp [recorded_values, recorded_nil]
  | cons s rest ih =>
    obtain ⟨j, o, hmap, hopt, hcanon, hcont⟩ := hq s (by simp)
    rw [← hcanon] at hcont
    obtain ⟨m1, hstep, hget1⟩ := args_parse_record_step argqueue st i s rest j o hmap hopt hcont ht
    have ht1 : tidy m1 := by
      apply tidy_recorded st.args_opts m1
        (fun n => if n = o.standard then [argqueue.getD i none] else []) ht
      intro n
      rw [hget1]
      by_cases hn : n = o.standard <;> simp [hn, recorded_nil]
    obtain ⟨m, hrec, htm, hget⟩ := ih
      { st with args_opts := m1
                calls := st.calls ++ late_calls (fun _ => o.standard) argqueue i [s] }
      (i + 1) (fun s' hs' => hq s' (by simp [hs'])) ht1
    refine ⟨m, ?_, htm, ?_⟩
    · rw [hstep, hrec]
      by_cases hle : argqueue.length ≤ i <;> simp [late_calls, hle, hcanon]
    · intro n
      rw [hget, hget1]
      by_cases hn : n = o.standard
      · have hc : canon s = n := by rw [hn, hcanon]
        simp only [hn, if_true, recorded_values, hcanon, recorded_append]
        rfl
      · have hc : ¬ canon s = n := by rw [← hcanon]; exact fun e => hn e.symm
        simp only [hn, if_false, recorded_values, hc]

theorem args_parse_variadic_none (st : State) (options : List args_Option)
    (h : ∀ o ∈ options, o.type = VARIADIC → args_opts_used st o.standard = false) :
    args_parse_variadic st options = .ok st := by
  induction options with
  | nil => rfl
  | cons o rest ih =>
    rw [args_parse_variadic]
    by_cases hty : o.type = VARIADIC
    · have hu := h o (by simp) hty
      simp only [hty, hu, Bool.false_eq_true, and_false, if_false]
      exact ih (fun o' ho' => h o' (by simp [ho']))
    · simp only [hty, false_and, if_false]
      exact ih (fun o' ho' => h o' (by simp [ho']))

theorem args_parse_message_none (st : State) (h : st.args_files_count = 0) :
    args_parse_message st = .ok { st with args_message := none } := by
  simp [args_parse_message, h, pure, Except.pure]

theorem args_parse_summary_few (st : State) (h : st.args_unrecognised_count ≤ 5) :
    args_parse_summary st = st := by
  have : ¬ 5 < st.args_unrecognised_count := Nat.not_lt.mpr h
  simp [args_parse_summary, this]

theorem args_parse_of_loop (fuel : Nat) (st : State) (exe : CStr) (tokens : List CStr)
    (sc : Scan) (h : args_parse_loop fuel (args_parse_begin st tokens) tokens = .ok sc) :
    args_parse fuel st (exe :: tokens) = args_parse_end sc := by
  simp [args_parse, h, bind, Except.bind]

theorem recorded_values_nil (canon : CStr → CStr) (argqueue : List (Option CStr)) (n : CStr)
    (optqueue : List CStr) (i : Nat) (h : ∀ s ∈ optqueue, canon s ≠ n) :
    recorded_values canon argqueue n i optqueue = [] := by
  induction optqueue generalizing i with
  | nil => rfl
  | cons s rest ih =>
    have hs : ¬ canon s = n := h s (by simp)
    simp only [recorded_values, hs, if_false]
    exact ih (i + 1) (fun s' hs' => h s' (by simp [hs']))

theorem args_parse_end_shape (sc : Scan) (canon : CStr → CStr)
    (hq : ∀ s ∈ sc.optqueue, ∃ j o, map_get sc.st.args_optmap s = some (j + 1) ∧
      sc.st.args_options[j]? = some o ∧ o.standard = canon s ∧
      args_optmap_contains sc.st (canon s) = true)
    (ht : tidy sc.st.args_opts)
    (hvar : ∀ o ∈ sc.st.args_options, o.type = VARIADIC →
      args_opts_used sc.st o.standard = false ∧ ∀ s ∈ sc.optqueue, canon s ≠ o.standard)
    (hfiles : sc.st.args_files_count = 0) (hun : sc.st.args_unrecognised_count ≤ 5) :
    ∃ m, args_parse_end sc =
        .ok (sc.rc, { sc.st with args_opts := m
                                 calls := sc.st.calls ++ late_calls canon sc.argqueue 0 sc.optqueue
                                 args_message := none }) ∧
      tidy m ∧
      ∀ n, map_get m n =
        recorded (map_get sc.st.args_opts n) (recorded_values canon sc.argqueue n 0 sc.optqueue) := by
  obtain ⟨m, hrec, htm, hget⟩ := args_parse_record_shape sc.argqueue canon sc.optqueue sc.st 0 hq ht
  refine ⟨m, ?_, htm, hget⟩
  have hv : args_parse_variadic
      { sc.st with args_opts := m
                   calls := sc.st.calls ++ late_calls canon sc.argqueue 0 sc.optqueue }
      sc.st.args_options
      = .ok { sc.st with args_opts := m
                         calls := sc.st.calls ++ late_calls canon sc.argqueue 0 sc.optqueue } := by
    apply args_parse_variadic_none
    intro o ho hty
    obtain ⟨hu, hne⟩ := hvar o ho hty
    have hnil := recorded_values_nil canon sc.argqueue o.standard sc.optqueue 0 hne
    simp only [args_opts_used, hget, hnil, recorded_nil] at hu ⊢
    exact hu
  simp only [args_parse_end, hrec, bind, Except.bind, hv]
  rw [args_parse_message_none _ (by exact hfiles)]
  simp only [pure, Except.pure]
  rw [args_parse_summary_few _ (by exact hun)]

/-! ## Facts about a freshly built registry -/

theorem no_shared_spelling_unique {options : List (args_Option × Option CStr)}
    (hns : no_shared_spelling options) {p q : args_Option × Option CStr}
    (hp : p ∈ options) (hq : q ∈ options) {s : CStr}
    (hsp : s ∈ p.1.alternatives) (hsq : s ∈ q.1.alternatives) : p = q := by
  by_contra hne
  have hsymm : Symmetric
      (fun p q : args_Option × Option CStr => ∀ s ∈ p.1.alternatives, s ∉ q.1.alternatives) := by
    intro a b hab s hsb hsa
    exact hab s hsa hsb
  exact List.Pairwise.forall hsymm hns hp hq hne s hsp hsq

theorem registry_fields (program : Option CStr) (alternative : Bool)
    (abbreviations : Option (CStr → List CStr → Nat → Option CStr))
    (options : List (args_Option × Option CStr)) :
    (registry program alternative abbreviations options).args_alternative = alternative ∧
    (registry program alternative abbreviations options).args_abbreviations = abbreviations ∧
    (registry program alternative abbreviations options).args_files_count = 0 ∧
    (registry program alternative abbreviations options).calls = [] ∧
    (registry program alternative abbreviations options).args_out = [] ∧
    (registry program alternative abbreviations options).args_options
      = options.map (fun p => { p.1 with help := p.2 }) := by
  obtain ⟨om, os, hreg, -⟩ := registry_shape program alternative abbreviations options
  rw [hreg]
  simp [args_init]

theorem registry_entry (program : Option CStr) (alternative : Bool)
    (abbreviations : Option (CStr → List CStr → Nat → Option CStr))
    (options : List (args_Option × Option CStr)) (n : CStr) :
    map_get (registry program alternative abbreviations options).args_opts n =
      if ∃ p ∈ options, p.1.standard = n then some blank else none := by
  obtain ⟨om, os, hreg, -, -, hopts⟩ := registry_shape program alternative abbreviations options
  rw [hreg]
  exact hopts n

theorem registry_tidy (program : Option CStr) (alternative : Bool)
    (abbreviations : Option (CStr → List CStr → Nat → Option CStr))
    (options : List (args_Option × Option CStr)) :
    tidy (registry program alternative abbreviations options).args_opts := by
  intro n a ha
  rw [registry_entry] at ha
  by_cases h : ∃ p ∈ options, p.1.standard = n
  · simp only [h, if_true, Option.some.injEq] at ha
    subst ha; rfl
  · simp [h] at ha

theorem registry_unused (program : Option CStr) (alternative : Bool)
    (abbreviations : Option (CStr → List CStr → Nat → Option CStr))
    (options : List (args_Option × Option CStr)) (n : CStr) :
    args_opts_used (registry program alternative abbreviations options) n = false := by
  simp only [args_opts_used, registry_entry]
  by_cases h : ∃ p ∈ options, p.1.standard = n
  · simp only [h, if_true]; rfl
  · simp only [h, if_false]

theorem registry_bound (program : Option CStr) (alternative : Bool)
    (abbreviations : Option (CStr → List CStr → Nat → Option CStr))
    (options : List (args_Option × Option CStr)) (hns : no_shared_spelling options)
    (o : args_Option) (help : Option CStr) (hp : (o, help) ∈ options)
    (s : CStr) (hs : s ∈ o.alternatives) :
    ∃ i, map_get (registry program alternative abbreviations options).args_optmap s
        = some (i + 1) ∧
      (registry program alternative abbreviations options).args_options[i]?
        = some { o with help := help } := by
  obtain ⟨om, os, hreg, -, hsome, -⟩ := registry_shape program alternative abbreviations options
  obtain ⟨i, hi⟩ := List.mem_iff_getElem?.mp hp
  refine ⟨i, ?_, ?_⟩
  · rw [hreg]; exact hsome hns i (o, help) s hi hs
  · rw [hreg]; simp [hi]

theorem registry_unbound (program : Option CStr) (alternative : Bool)
    (abbreviations : Option (CStr → List CStr → Nat → Option CStr))
    (options : List (args_Option × Option CStr)) (s : CStr)
    (h : ∀ p ∈ options, s ∉ p.1.alternatives) :
    map_get (registry program alternative abbreviations options).args_optmap s = none := by
  obtain ⟨om, os, hreg, hnone, -⟩ := registry_shape program alternative abbreviations options
  rw [hreg]; exact hnone s h

theorem registry_contains_standard (program : Option CStr) (alternative : Bool)
    (abbreviations : Option (CStr → List CStr → Nat → Option CStr))
    (options : List (args_Option × Option CStr)) (hns : no_shared_spelling options)
    (hcl : canonical_listed options)
    (o : args_Option) (help : Option CStr) (hp : (o, help) ∈ options) :
    args_optmap_contains (registry program alternative abbreviations options) o.standard
      = true := by
  obtain ⟨i, hmap, hopt⟩ := registry_bound program alternative abbreviations options hns
    o help hp o.standard (hcl (o, help) hp)
  exact (args_optmap_lookup hmap hopt).2.1

theorem registry_standard_type (program : Option CStr) (alternative : Bool)
    (abbreviations : Option (CStr → List CStr → Nat → Option CStr))
    (options : List (args_Option × Option CStr)) (hns : no_shared_spelling options)
    (hcl : canonical_listed options)
    (o : args_Option) (help : Option CStr) (hp : (o, help) ∈ options)
    (v : args_Option)
    (hv : v ∈ (registry program alternative abbreviations options).args_options)
    (hstd : v.standard = o.standard) : v.type = o.type := by
  rw [(registry_fields program alternative abbreviations options).2.2.2.2.2] at hv
  obtain ⟨q, hq, rfl⟩ := List.mem_map.mp hv
  have h1 : o.standard ∈ q.1.alternatives := by
    have := hcl q hq
    simp only at hstd
    rw [← hstd]; exact this
  have := no_shared_spelling_unique hns hp hq (hcl (o, help) hp) h1
  subst this
  rfl

/-! ## Parsing an option and its value -/

theorem long_spelling_shape {s : CStr} (h : long_spelling s) :
    ∃ name, s = DASH :: DASH :: name ∧ name ≠ [] ∧ EQUALS ∉ s := by
  obtain ⟨name, rfl, hne, hnoeq⟩ := h
  refine ⟨name, rfl, hne, ?_⟩
  simp only [List.mem_cons, not_or]
  exact ⟨by decide, by decide, hnoeq⟩

theorem byteAt_find_eq_of_not_mem (s : CStr) (h : EQUALS ∉ s) :
    byteAt s (find_eq s) ≠ EQUALS := by
  rw [find_eq_of_not_mem s h, byteAt_length]
  decide

theorem args_parse_loop_deferred_value (st : State) (std v : CStr) (i : Nat) (o : args_Option)
    (hmap : map_get st.args_optmap std = some (i + 1)) (hopt : st.args_options[i]? = some o)
    (htype : o.type = ARGUMENTED) (hlong : long_spelling std) (fuel : Nat) :
    args_parse_loop (fuel + 2) (args_parse_begin st [std, v]) [std, v] =
      .ok { args_parse_begin st [std, v] with
            st := { (args_parse_begin st [std, v]).st with
                    calls := st.calls ++ [Call.triggerv std o.standard (some v)] }
            optqueue := [std]
            argqueue := [some v] } := by
  obtain ⟨name, hname, hne, hnoeq⟩ := long_spelling_shape hlong
  rw [args_parse_loop_cons _ _ _ _ rfl, args_parse_token_idle _ _ rfl]
  have hd : args_parse_dispatch (args_parse_begin st [std, v]) std =
      .ok { args_parse_begin st [std, v] with optqueue := [std], get := 1 } := by
    rw [hname, args_parse_dispatch_long _ name rfl rfl hne, ← hname]
    exact args_parse_long_deferred _ std i o rfl hmap hopt (Or.inl htype)
      (byteAt_find_eq_of_not_mem _ hnoeq)
  rw [hd]
  simp only [Except.bind]
  rw [args_parse_loop_cons _ _ _ _ rfl]
  rw [args_parse_token_accept _ v std [] i o rfl rfl rfl hmap hopt (Or.inl (by simp [htype]))]
  simp only [Except.bind]
  rw [args_parse_loop_nil _ _ rfl]
  rfl

theorem registry_entry_standard (program : Option CStr) (alternative : Bool)
    (abbreviations : Option (CStr → List CStr → Nat → Option CStr))
    (options : List (args_Option × Option CStr))
    (o : args_Option) (help : Option CStr) (hp : (o, help) ∈ options) :
    map_get (registry program alternative abbreviations options).args_opts o.standard
      = some blank := by
  rw [registry_entry]
  simp only [ite_eq_left_iff]
  intro h
  exact absurd ⟨(o, help), hp, rfl⟩ h

/-- The statements behind the main loop, for a scan of a fresh registry that
found one invocation, of a spelling `s` of an option that is not Variadic, and
no file and no unrecognised option. -/
theorem args_parse_end_one (program : Option CStr) (alternative : Bool)
    (abbreviations : Option (CStr → List CStr → Nat → Option CStr))
    (options : List (args_Option × Option CStr))
    (hns : no_shared_spelling options) (hcl : canonical_listed options)
    (o : args_Option) (help : Option CStr) (hp : (o, help) ∈ options)
    (htype : o.type ≠ VARIADIC) (s : CStr) (hs : s ∈ o.alternatives)
    (tokens : List CStr) (value : Option CStr) (calls : List Call) :
    ∃ st', args_parse_end
        { args_parse_begin (registry program alternative abbreviations options) tokens with
          st := { (args_parse_begin (registry program alternative abbreviations options)
                    tokens).st with calls := calls }
          optqueue := [s]
          argqueue := [value] } = .ok (true, st') ∧
      args_opts_used st' o.standard = true ∧
      args_opts_get st' o.standard = some [value] ∧
      args_opts_get_count st' o.standard = 1 ∧
      (∀ n, n ≠ o.standard →
        map_get st'.args_opts n
          = map_get (registry program alternative abbreviations options).args_opts n) ∧
      st'.args_files = [] ∧
      st'.args_files_count = 0 ∧
      st'.args_unrecognised_count = 0 ∧
      st'.args_message = none ∧
      st'.args_out = [] ∧
      st'.calls = calls := by
  obtain ⟨i, hmap, hopt⟩ := registry_bound program alternative abbreviations options hns
    o help hp s hs
  obtain ⟨-, -, hfc, -, hout, -⟩ := registry_fields program alternative abbreviations options
  have hcont := registry_contains_standard program alternative abbreviations options hns hcl
    o help hp
  obtain ⟨m, hend, -, hget⟩ := args_parse_end_shape
    { args_parse_begin (registry program alternative abbreviations options) tokens with
      st := { (args_parse_begin (registry program alternative abbreviations options)
                tokens).st with calls := calls }
      optqueue := [s]
      argqueue := [value] } (fun _ => o.standard)
    (by
      intro s' hs'
      simp only [List.mem_singleton] at hs'
      subst hs'
      exact ⟨i, { o with help := help }, hmap, hopt, rfl, hcont⟩)
    (registry_tidy program alternative abbreviations options)
    (by
      intro w hw hty
      refine ⟨registry_unused program alternative abbreviations options w.standard, ?_⟩
      intro s' _ heq
      have := registry_standard_type program alternative abbreviations options hns hcl
        o help hp w hw heq.symm
      rw [hty] at this
      exact htype this.symm)
    hfc (Nat.zero_le 5)
  refine ⟨_, hend, ?_⟩
  have hm := hget o.standard
  have hentry := registry_entry_standard program alternative abbreviations options o help hp
  simp only [args_parse_begin, hentry, recorded_values, if_true] at hm
  refine ⟨?_, ?_, ?_, ?_, ?_⟩
  · simp [args_opts_used, hm, recorded, blank]
  · simp [args_opts_get, hm, recorded, blank]
  · simp [args_opts_get_count, hm, recorded, blank]
  · intro n hn
    have hn' : ¬ o.standard = n := fun e => hn e.symm
    simp only [hget n, recorded_values, hn', if_false, recorded_nil]
    rfl
  · simp [late_calls, args_parse_begin, hfc, hout]

/-- C5: in a registry without shared spellings that contains an Argumented
option whose canonical spelling is a long spelling `--opt`, parsing the tokens
`[--opt, v]` returns true for every token `v` whatever it looks like: the option
is used, its values are exactly `[v]`, there is no positional file, nothing is
unrecognised, and the only callback invoked is the one of `--opt` with the
value `v`. -/
theorem args_parse_argumented_takes_next_token (program : Option CStr) (alternative : Bool)
    (abbreviations : Option (CStr → List CStr → Nat → Option CStr))
    (options : List (args_Option × Option CStr))
    (hns : no_shared_spelling options) (hcl : canonical_listed options)
    (o : args_Option) (help : Option CStr) (hp : (o, help) ∈ options)
    (htype : o.type = ARGUMENTED) (hlong : long_spelling o.standard)
    (exe v : CStr) (fuel : Nat) :
    ∃ st', args_parse (fuel + 2) (registry program alternative abbreviations options)
        [exe, o.standard, v] = .ok (true, st') ∧
      args_opts_used st' o.standard = true ∧
      args_opts_get st' o.standard = some [some v] ∧
      args_opts_get_count st' o.standard = 1 ∧
      st'.args_files_count = 0 ∧
      st'.args_unrecognised_count = 0 ∧
      st'.args_message = none ∧
      st'.calls = [Call.triggerv o.standard o.standard (some v)] := by
  obtain ⟨i, hmap, hopt⟩ := registry_bound program alternative abbreviations options hns
    o help hp o.standard (hcl (o, help) hp)
  obtain ⟨-, -, -, hcalls, -, -⟩ := registry_fields program alternative abbreviations options
  have hloop := args_parse_loop_deferred_value
    (registry program alternative abbreviations options)
    o.standard v i { o with help := help } hmap hopt htype hlong fuel
  rw [hcalls] at hloop
  rw [args_parse_of_loop _ _ _ _ _ hloop]
  obtain ⟨st', hend, h1, h2, h3, -, -, h4, h5, h6, -, h7⟩ :=
    args_parse_end_one program alternative abbreviations options hns hcl o help hp
      (by rw [htype]; decide) o.standard (hcl (o, help) hp) [o.standard, v] (some v)
      ([] ++ [Call.triggerv o.standard o.standard (some v)])
  exact ⟨st', hend, h1, h2, h3, h4, h5, h6, h7⟩

/-- C5, at the registry with the option `opt_a` (canonical spelling `--opt`) and
the value token `-x`. -/
theorem args_parse_argumented_takes_next_token_witness :
    no_shared_spelling [(opt_a, none)] ∧ canonical_listed [(opt_a, none)] ∧
    (opt_a, none) ∈ [(opt_a, (none : Option CStr))] ∧ opt_a.type = ARGUMENTED ∧
    long_spelling opt_a.standard ∧
    ∃ st', args_parse (0 + 2) (registry none false none [(opt_a, none)])
        [[112], opt_a.standard, [45, 120]] = .ok (true, st') ∧
      args_opts_used st' opt_a.standard = true ∧
      args_opts_get st' opt_a.standard = some [some [45, 120]] ∧
      args_opts_get_count st' opt_a.standard = 1 ∧
      st'.args_files_count = 0 ∧
      st'.args_unrecognised_count = 0 ∧
      st'.args_message = none ∧
      st'.calls = [Call.triggerv opt_a.standard opt_a.standard (some [45, 120])] :=
  have h1 : no_shared_spelling [(opt_a, none)] := by simp [no_shared_spelling]
  have h2 : canonical_listed [(opt_a, none)] := by simp [canonical_listed, opt_a]
  have h3 : (opt_a, none) ∈ [(opt_a, (none : Option CStr))] := by simp
  have h5 : long_spelling opt_a.standard := ⟨[111, 112, 116], rfl, by decide, by decide⟩
  ⟨h1, h2, h3, rfl, h5,
    args_parse_argumented_takes_next_token none false none [(opt_a, none)] h1 h2 opt_a none h3
      rfl h5 [112] [45, 120] 0⟩

theorem args_parse_loop_attached_value (st : State) (s v : CStr) (i : Nat) (o : args_Option)
    (hnone : map_get st.args_optmap (s ++ EQUALS :: v) = none)
    (hmap : map_get st.args_optmap s = some (i + 1)) (hopt : st.args_options[i]? = some o)
    (htype : o.type = ARGUMENTED) (hlong : long_spelling s) (fuel : Nat) :
    args_parse_loop (fuel + 1) (args_parse_begin st [s ++ EQUALS :: v]) [s ++ EQUALS :: v] =
      .ok { args_parse_begin st [s ++ EQUALS :: v] with
            st := { (args_parse_begin st [s ++ EQUALS :: v]).st with
                    calls := st.calls ++ [Call.triggerv s o.standard (some v)] }
            optqueue := [s]
            argqueue := [some v] } := by
  obtain ⟨name, hname, hne, hnoeq⟩ := long_spelling_shape hlong
  rw [args_parse_loop_cons _ _ _ _ rfl, args_parse_token_idle _ _ rfl]
  have hd : args_parse_dispatch (args_parse_begin st [s ++ EQUALS :: v]) (s ++ EQUALS :: v) =
      args_parse_long (args_parse_begin st [s ++ EQUALS :: v]) (s ++ EQUALS :: v) := by
    have : s ++ EQUALS :: v = DASH :: DASH :: (name ++ EQUALS :: v) := by rw [hname]; rfl
    rw [this]
    exact args_parse_dispatch_long _ _ rfl rfl (by simp)
  rw [hd, args_parse_long_attached _ s v i o rfl hnone hnoeq hmap hopt (Or.inl htype)]
  simp only [Except.bind]
  rw [args_parse_loop_nil _ _ rfl]
  rfl

/-- C6: in a registry without shared spellings in which no spelling has a `=`,
for an Argumented option with a long spelling `--opt` and every value `v` (the
empty string and strings with `=` included), parsing the single token
`--opt=v` gives what parsing the two tokens `[--opt, v]` gives: both return
true, and they leave the same used flags, value sequences and counts for every
name, the same files, the same unrecognised count and the same callbacks; the
value recorded for the option is the whole text behind the first `=`. -/
theorem args_parse_attached_value_equivalent (program : Option CStr) (alternative : Bool)
    (abbreviations : Option (CStr → List CStr → Nat → Option CStr))
    (options : List (args_Option × Option CStr))
    (hns : no_shared_spelling options) (hcl : canonical_listed options)
    (hnoeq : ∀ p ∈ options, ∀ s ∈ p.1.alternatives, EQUALS ∉ s)
    (o : args_Option) (help : Option CStr) (hp : (o, help) ∈ options)
    (htype : o.type = ARGUMENTED) (s : CStr) (hs : s ∈ o.alternatives)
    (hlong : long_spelling s) (exe v : CStr) (fuel : Nat) :
    ∃ st1 st2,
      args_parse (fuel + 1) (registry program alternative abbreviations options)
        [exe, s ++ EQUALS :: v] = .ok (true, st1) ∧
      args_parse (fuel + 2) (registry program alternative abbreviations options)
        [exe, s, v] = .ok (true, st2) ∧
      (∀ n, args_opts_used st1 n = args_opts_used st2 n ∧
        args_opts_get st1 n = args_opts_get st2 n ∧
        args_opts_get_count st1 n = args_opts_get_count st2 n) ∧
      st1.args_files = st2.args_files ∧
      st1.args_files_count = st2.args_files_count ∧
      st1.args_unrecognised_count = st2.args_unrecognised_count ∧
      st1.args_message = st2.args_message ∧
      st1.args_out = st2.args_out ∧
      st1.calls = st2.calls ∧
      args_opts_get st1 o.standard = some [some v] := by
  obtain ⟨i, hmap, hopt⟩ := registry_bound program alternative abbreviations options hns
    o help hp s hs
  have hnone : map_get (registry program alternative abbreviations options).args_optmap
      (s ++ EQUALS :: v) = none := by
    apply registry_unbound
    intro p hp' hmem
    exact hnoeq p hp' _ hmem (by simp)
  have hloop1 := args_parse_loop_attached_value
    (registry program alternative abbreviations options)
    s v i { o with help := help } hnone hmap hopt htype hlong fuel
  have hloop2 := args_parse_loop_deferred_value
    (registry program alternative abbreviations options)
    s v i { o with help := help } hmap hopt htype hlong fuel
  rw [args_parse_of_loop _ _ _ _ _ hloop1, args_parse_of_loop _ _ _ _ _ hloop2]
  have hvar : o.type ≠ VARIADIC := by rw [htype]; decide
  obtain ⟨st1, hend1, hu1, hg1, hc1, hother1, hf1, hfc1, hun1, hmsg1, hout1, hcalls1⟩ :=
    args_parse_end_one program alternative abbreviations options hns hcl o help hp
      hvar s hs [s ++ EQUALS :: v] (some v)
      ((registry program alternative abbreviations options).calls
        ++ [Call.triggerv s o.standard (some v)])
  obtain ⟨st2, hend2, hu2, hg2, hc2, hother2, hf2, hfc2, hun2, hmsg2, hout2, hcalls2⟩ :=
    args_parse_end_one program alternative abbreviations options hns hcl o help hp
      hvar s hs [s, v] (some v)
      ((registry program alternative abbreviations options).calls
        ++ [Call.triggerv s o.standard (some v)])
  refine ⟨st1, st2, hend1, hend2, ?_, ?_, ?_, ?_, ?_, ?_, ?_, hg1⟩
  · intro n
    by_cases hn : n = o.standard
    · subst hn
      exact ⟨by rw [hu1, hu2], by rw [hg1, hg2], by rw [hc1, hc2]⟩
    · have e : map_get st1.args_opts n = map_get st2.args_opts n := by
        rw [hother1 n hn, hother2 n hn]
      simp only [args_opts_used, args_opts_get, args_opts_get_count, e, and_self]
  · rw [hf1, hf2]
  · rw [hfc1, hfc2]
  · rw [hun1, hun2]
  · rw [hmsg1, hmsg2]
  · rw [hout1, hout2]
  · rw [hcalls1, hcalls2]

/-- C6, at the registry with the option `opt_a` and the value `a=b`: the token
`--opt=a=b` against the tokens `--opt`, `a=b`. -/
theorem args_parse_attached_value_equivalent_witness :
    no_shared_spelling [(opt_a, none)] ∧ canonical_listed [(opt_a, none)] ∧
    (∀ p ∈ [(opt_a, (none : Option CStr))], ∀ s ∈ p.1.alternatives, EQUALS ∉ s) ∧
    (opt_a, none) ∈ [(opt_a, (none : Option CStr))] ∧ opt_a.type = ARGUMENTED ∧
    ([45, 45, 111, 112, 116] : CStr) ∈ opt_a.alternatives ∧
    long_spelling [45, 45, 111, 112, 116] ∧
    ∃ st1 st2,
      args_parse (0 + 1) (registry none false none [(opt_a, none)])
        [[112], [45, 45, 111, 112, 116] ++ EQUALS :: [97, 61, 98]] = .ok (true, st1) ∧
      args_parse (0 + 2) (registry none false none [(opt_a, none)])
        [[112], [45, 45, 111, 112, 116], [97, 61, 98]] = .ok (true, st2) ∧
      (∀ n, args_opts_used st1 n = args_opts_used st2 n ∧
        args_opts_get st1 n = args_opts_get st2 n ∧
        args_opts_get_count st1 n = args_opts_get_count st2 n) ∧
      st1.args_files = st2.args_files ∧
      st1.args_files_count = st2.args_files_count ∧
      st1.args_unrecognised_count = st2.args_unrecognised_count ∧
      st1.args_message = st2.args_message ∧
      st1.args_out = st2.args_out ∧
      st1.calls = st2.calls ∧
      args_opts_get st1 opt_a.standard = some [some [97, 61, 98]] :=
  have h1 : no_shared_spelling [(opt_a, none)] := by simp [no_shared_spelling]
  have h2 : canonical_listed [(opt_a, none)] := by simp [canonical_listed, opt_a]
  have h3 : ∀ p ∈ [(opt_a, (none : Option CStr))], ∀ s ∈ p.1.alternatives, EQUALS ∉ s := by
    simp [opt_a]; decide
  have h4 : (opt_a, none) ∈ [(opt_a, (none : Option CStr))] := by simp
  have h6 : ([45, 45, 111, 112, 116] : CStr) ∈ opt_a.alternatives := by simp [opt_a]
  have h7 : long_spelling [45, 45, 111, 112, 116] := ⟨[111, 112, 116], rfl, by decide, by decide⟩
  ⟨h1, h2, h3, h4, rfl, h6, h7,
    args_parse_attached_value_equivalent none false none [(opt_a, none)] h1 h2 h3 opt_a none h4
      rfl [45, 45, 111, 112, 116] h6 h7 [112] [97, 61, 98] 0⟩

/-! ## Bundles of Argumentless short options -/

theorem args_parse_loop_separate (canon : Byte → CStr) (fuel : Nat) (cs : List Byte)
    (sc : Scan) (hget : sc.get = 0) (hinj : sc.injection = none)
    (ht : sc.tmpdashed = false) (hd : sc.dashed = false)
    (halt : sc.st.args_alternative = false)
    (h : ∀ c ∈ cs, c ≠ DASH ∧ ∃ i o, map_get sc.st.args_optmap [DASH, c] = some (i + 1) ∧
      sc.st.args_options[i]? = some o ∧ o.type = ARGUMENTLESS ∧ o.standard = canon c) :
    args_parse_loop (fuel + cs.length) sc (cs.map (fun c => [DASH, c])) =
      .ok { sc with st := { sc.st with calls := sc.st.calls ++
                                (cs.map (fun c => Call.trigger [DASH, c] (canon c))) }
                    optqueue := sc.optqueue ++ (cs.map (fun c => [DASH, c]))
                    argqueue := sc.argqueue ++ (cs.map (fun _ => none)) } := by
  induction cs generalizing sc with
  | nil =>
    simp only [List.map_nil, List.append_nil, List.length_nil, Nat.add_zero]
    exact args_parse_loop_nil _ _ hinj
  | cons c rest ih =>
    obtain ⟨hc, hb⟩ := h c (by simp)
    have hl : fuel + (c :: rest).length = (fuel + rest.length) + 1 := by simp [Nat.add_assoc]
    rw [hl, List.map_cons, args_parse_loop_cons _ _ _ _ hinj, args_parse_token_idle _ _ hget,
      args_parse_dispatch_short _ DASH c [] ht hd halt (Or.inl rfl) hc,
      args_parse_bundle_argumentless canon _ DASH [c] sc
        (fun c' hc' => by
          simp only [List.mem_singleton] at hc'
          subst hc'
          exact hb)]
    simp only [Except.bind]
    rw [ih]
    · simp
    · exact hget
    · exact hinj
    · exact ht
    · exact hd
    · exact halt
    · exact fun c' hc' => h c' (by simp [hc'])

theorem recorded_values_absent (canon : Byte → CStr) (n : CStr) (cs : List Byte)
    (argqueue : List (Option CStr)) (i : Nat) (hq : ∀ x ∈ argqueue, x = none) :
    recorded_values (fun s => canon (byteAt s 1)) argqueue n i (cs.map (fun c => [DASH, c]))
      = List.replicate (cs.countP (fun c => decide (canon c = n))) none := by
  have hnone : ∀ j, argqueue.getD j none = none := by
    intro j
    rw [List.getD_eq_getElem?_getD]
    cases hj : argqueue[j]? with
    | none => rfl
    | some x => exact hq x (List.getElem?_mem hj)
  induction cs generalizing i with
  | nil => rfl
  | cons c rest ih =>
    have hb : byteAt [DASH, c] 1 = c := rfl
    by_cases hc : canon c = n
    · simp only [List.map_cons, recorded_values, hb, hc, if_true, hnone, ih, decide_True,
        List.countP_cons_of_pos, List.replicate_succ]
    · simp only [List.map_cons, recorded_values, hb, hc, if_false, ih, decide_False,
        Bool.false_eq_true, not_false_eq_true, List.countP_cons_of_neg]

/-- The statements behind the main loop, for a scan of a fresh registry that
found the Argumentless short options `-c` for the characters `c` of `cs`, in
order, and no file and no unrecognised option. -/
theorem args_parse_end_flags (program : Option CStr) (alternative : Bool)
    (abbreviations : Option (CStr → List CStr → Nat → Option CStr))
    (options : List (args_Option × Option CStr))
    (hns : no_shared_spelling options) (hcl : canonical_listed options)
    (canon : Byte → CStr) (cs : List Byte)
    (h : ∀ c ∈ cs, ∃ o help, (o, help) ∈ options ∧ [DASH, c] ∈ o.alternatives ∧
      o.type = ARGUMENTLESS ∧ o.standard = canon c)
    (tokens : List CStr) (calls : List Call) :
    ∃ st', args_parse_end
        { args_parse_begin (registry program alternative abbreviations options) tokens with
          st := { (args_parse_begin (registry program alternative abbreviations options)
                    tokens).st with calls := calls }
          optqueue := [] ++ (cs.map (fun c => [DASH, c]))
          argqueue := [] ++ (cs.map (fun _ => none)) } = .ok (true, st') ∧
      (∀ n, map_get st'.args_opts n =
        recorded (map_get (registry program alternative abbreviations options).args_opts n)
          (List.replicate (cs.countP (fun c => decide (canon c = n))) none)) ∧
      st'.args_files = [] ∧
      st'.args_files_count = 0 ∧
      st'.args_unrecognised_count = 0 ∧
      st'.args_message = none ∧
      st'.args_out = [] ∧
      st'.calls = calls := by
  obtain ⟨-, -, hfc, -, hout, -⟩ := registry_fields program alternative abbreviations options
  obtain ⟨m, hend, -, hget⟩ := args_parse_end_shape
    { args_parse_begin (registry program alternative abbreviations options) tokens with
      st := { (args_parse_begin (registry program alternative abbreviations options)
                tokens).st with calls := calls }
      optqueue := [] ++ (cs.map (fun c => [DASH, c]))
      argqueue := [] ++ (cs.map (fun _ => none)) } (fun s => canon (byteAt s 1))
    (by
      intro s hs
      simp only [List.nil_append, List.mem_map] at hs
      obtain ⟨c, hc, rfl⟩ := hs
      obtain ⟨o, help, hp, hmem, -, hstd⟩ := h c hc
      obtain ⟨i, hmap, hopt⟩ := registry_bound program alternative abbreviations options hns
        o help hp [DASH, c] hmem
      refine ⟨i, { o with help := help }, hmap, hopt, hstd, ?_⟩
      show args_optmap_contains (registry program alternative abbreviations options) (canon c)
        = true
      rw [← hstd]
      exact registry_contains_standard program alternative abbreviations options hns hcl
        o help hp)
    (registry_tidy program alternative abbreviations options)
    (by
      intro w hw hty
      refine ⟨registry_unused program alternative abbreviations options w.standard, ?_⟩
      intro s hs heq
      simp only [List.nil_append, List.mem_map] at hs
      obtain ⟨c, hc, rfl⟩ := hs
      obtain ⟨o, help, hp, -, htype, hstd⟩ := h c hc
      have heq' : canon c = w.standard := heq
      rw [← hstd] at heq'
      have := registry_standard_type program alternative abbreviations options hns hcl
        o help hp w hw heq'.symm
      rw [hty, htype] at this
      exact absurd this (by decide))
    hfc (Nat.zero_le 5)
  refine ⟨_, hend, ?_, ?_⟩
  · intro n
    have hm := hget n
    simp only [List.nil_append] at hm
    rw [recorded_values_absent canon n cs _ 0 (by simp)] at hm
    exact hm
  · have hlate : ∀ (q : List CStr) (aq : List (Option CStr)) (i : Nat),
        i + q.length ≤ aq.length →
        late_calls (fun s => canon (byteAt s 1)) aq i q = [] := by
      intro q
      induction q with
      | nil => intro aq i _; rfl
      | cons s rest ih =>
        intro aq i hle
        have h1 : ¬ aq.length ≤ i := by simp at hle; omega
        simp only [late_calls, h1, if_false]
        exact ih aq (i + 1) (by simp at hle; omega)
    simp [args_parse_begin, hfc, hout, hlate]

/-- C7: in short-option mode, for every bundle token `-c1...ck` whose characters
(none of them `-`) each name a registered Argumentless short option, parsing
the bundle returns true and leaves what parsing the separate tokens
`-c1`, ..., `-ck` leaves: the same used flags, values and counts for every
name, the same files, unrecognised count and callbacks. The callbacks are those
of the options in left-to-right order, and the entry of a canonical spelling
holds one absence marker per use of an option with that canonical spelling and
is used exactly when there is such a use. -/
theorem args_parse_bundle_equals_separate (program : Option CStr)
    (abbreviations : Option (CStr → List CStr → Nat → Option CStr))
    (options : List (args_Option × Option CStr))
    (hns : no_shared_spelling options) (hcl : canonical_listed options)
    (canon : Byte → CStr) (c : Byte) (rest : List Byte)
    (h : ∀ c' ∈ c :: rest, c' ≠ DASH ∧ ∃ o help, (o, help) ∈ options ∧
      [DASH, c'] ∈ o.alternatives ∧ o.type = ARGUMENTLESS ∧ o.standard = canon c')
    (exe : CStr) (fuel : Nat) :
    ∃ st1 st2,
      args_parse (fuel + 1) (registry program false abbreviations options)
        [exe, DASH :: c :: rest] = .ok (true, st1) ∧
      args_parse (fuel + (c :: rest).length) (registry program false abbreviations options)
        (exe :: (c :: rest).map (fun c' => [DASH, c'])) = .ok (true, st2) ∧
      (∀ n, args_opts_used st1 n = args_opts_used st2 n ∧
        args_opts_get st1 n = args_opts_get st2 n ∧
        args_opts_get_count st1 n = args_opts_get_count st2 n) ∧
      st1.args_files = st2.args_files ∧
      st1.args_files_count = st2.args_files_count ∧
      st1.args_unrecognised_count = st2.args_unrecognised_count ∧
      st1.args_message = st2.args_message ∧
      st1.args_out = st2.args_out ∧
      st1.calls = st2.calls ∧
      st1.calls = (c :: rest).map (fun c' => Call.trigger [DASH, c'] (canon c')) ∧
      st1.args_files_count = 0 ∧
      st1.args_unrecognised_count = 0 ∧
      ∀ n, args_opts_get_count st1 n = (c :: rest).countP (fun c' => decide (canon c' = n)) ∧
        args_opts_used st1 n = decide (0 < (c :: rest).countP (fun c' => decide (canon c' = n))) ∧
        args_opts_get st1 n =
          if (c :: rest).countP (fun c' => decide (canon c' = n)) = 0 then none
          else some (List.replicate
            ((c :: rest).countP (fun c' => decide (canon c' = n))) none) := by
  obtain ⟨halt, -, -, hcalls, -, -⟩ := registry_fields program false abbreviations options
  have hbound : ∀ c' ∈ c :: rest, c' ≠ DASH ∧
      ∃ i o, map_get (registry program false abbreviations options).args_optmap [DASH, c']
          = some (i + 1) ∧
        (registry program false abbreviations options).args_options[i]? = some o ∧
        o.type = ARGUMENTLESS ∧ o.standard = canon c' := by
    intro c' hc'
    obtain ⟨hne, o, help, hp, hmem, htype, hstd⟩ := h c' hc'
    obtain ⟨i, hmap, hopt⟩ := registry_bound program false abbreviations options hns
      o help hp [DASH, c'] hmem
    exact ⟨hne, i, { o with help := help }, hmap, hopt, htype, hstd⟩
  have hreg : ∀ c' ∈ c :: rest, ∃ o help, (o, help) ∈ options ∧ [DASH, c'] ∈ o.alternatives ∧
      o.type = ARGUMENTLESS ∧ o.standard = canon c' := fun c' hc' => (h c' hc').2
  -- the bundle
  have hloop1 : args_parse_loop (fuel + 1)
      (args_parse_begin (registry program false abbreviations options) [DASH :: c :: rest])
      [DASH :: c :: rest] =
      .ok { args_parse_begin (registry program false abbreviations options)
              [DASH :: c :: rest] with
            st := { (args_parse_begin (registry program false abbreviations options)
                      [DASH :: c :: rest]).st with
                    calls := (registry program false abbreviations options).calls ++
                      ((c :: rest).map (fun c' => Call.trigger [DASH, c'] (canon c'))) }
            optqueue := [] ++ ((c :: rest).map (fun c' => [DASH, c']))
            argqueue := [] ++ ((c :: rest).map (fun _ => none)) } := by
    rw [args_parse_loop_cons _ _ _ _ rfl, args_parse_token_idle _ _ rfl,
      args_parse_dispatch_short _ DASH c rest rfl rfl halt (Or.inl rfl) (h c (by simp)).1,
      args_parse_bundle_argumentless canon _ DASH (c :: rest) _
        (fun c' hc' => (hbound c' hc').2)]
    simp only [Except.bind]
    rw [args_parse_loop_nil _ _ rfl]
    rfl
  -- the separate tokens
  have hloop2 := args_parse_loop_separate canon fuel (c :: rest)
    (args_parse_begin (registry program false abbreviations options)
      ((c :: rest).map (fun c' => [DASH, c']))) rfl rfl rfl rfl halt hbound
  rw [args_parse_of_loop _ _ _ _ _ hloop1, args_parse_of_loop _ _ _ _ _ hloop2]
  obtain ⟨st1, hend1, hg1, hf1, hfc1, hun1, hmsg1, hout1, hcalls1⟩ :=
    args_parse_end_flags program false abbreviations options hns hcl canon (c :: rest) hreg
      [DASH :: c :: rest]
      ((registry program false abbreviations options).calls
        ++ ((c :: rest).map (fun c' => Call.trigger [DASH, c'] (canon c'))))
  obtain ⟨st2, hend2, hg2, hf2, hfc2, hun2, hmsg2, hout2, hcalls2⟩ :=
    args_parse_end_flags program false abbreviations options hns hcl canon (c :: rest) hreg
      ((c :: rest).map (fun c' => [DASH, c']))
      ((registry program false abbreviations options).calls
        ++ ((c :: rest).map (fun c' => Call.trigger [DASH, c'] (canon c'))))
  refine ⟨st1, st2, hend1, hend2, ?_, ?_, ?_, ?_, ?_, ?_, ?_, ?_, hfc1, hun1, ?_⟩
  · intro n
    have e : map_get st1.args_opts n = map_get st2.args_opts n := by rw [hg1, hg2]
    simp only [args_opts_used, args_opts_get, args_opts_get_count, e, and_self]
  · rw [hf1, hf2]
  · rw [hfc1, hfc2]
  · rw [hun1, hun2]
  · rw [hmsg1, hmsg2]
  · rw [hout1, hout2]
  · rw [hcalls1, hcalls2]
  · rw [hcalls1, hcalls]; rfl
  · intro n
    have hm := hg1 n
    by_cases hk : (c :: rest).countP (fun c' => decide (canon c' = n)) = 0
    · rw [hk] at hm
      simp only [List.replicate_zero, recorded_nil, registry_entry] at hm
      by_cases hex : ∃ p ∈ options, p.1.standard = n
      · simp only [hex, if_true] at hm
        simp [args_opts_get_count, args_opts_used, args_opts_get, hm, hk, blank]
      · simp only [hex, if_false] at hm
        simp [args_opts_get_count, args_opts_used, args_opts_get, hm, hk]
    · have hpos : 0 < (c :: rest).countP (fun c' => decide (canon c' = n)) :=
        Nat.pos_of_ne_zero hk
      obtain ⟨c', hc', hcn⟩ := List.countP_pos_iff.mp hpos
      simp only [decide_eq_true_eq] at hcn
      obtain ⟨o, help, hp, -, -, hstd⟩ := hreg c' hc'
      have hentry := registry_entry_standard program false abbreviations options o help hp
      rw [hstd, hcn] at hentry
      have hrne : List.replicate ((c :: rest).countP (fun c' => decide (canon c' = n)))
          (none : Option CStr) ≠ [] := by
        intro e
        have := congrArg List.length e
        rw [List.length_replicate, List.length_nil] at this
        exact hk this
      simp only [hentry, recorded, hrne, if_false] at hm
      simp [args_opts_get_count, args_opts_used, args_opts_get, hm, hk, hpos, blank]

/-- C7, at the registry with the Argumentless options `-a` and `-b`: the bundle
`-ab` against the tokens `-a`, `-b`. -/
theorem args_parse_bundle_equals_separate_witness :
    no_shared_spelling [(flag_a, none), (flag_b, none)] ∧
    canonical_listed [(flag_a, none), (flag_b, none)] ∧
    (∀ c' ∈ ((97 : Byte) :: [98]), c' ≠ DASH ∧
      ∃ o help, (o, help) ∈ [(flag_a, (none : Option CStr)), (flag_b, none)] ∧
        [DASH, c'] ∈ o.alternatives ∧ o.type = ARGUMENTLESS ∧ o.standard = [DASH, c']) ∧
    ∃ st1 st2,
      args_parse (0 + 1) (registry none false none [(flag_a, none), (flag_b, none)])
        [[112], DASH :: 97 :: [98]] = .ok (true, st1) ∧
      args_parse (0 + ((97 : Byte) :: [98]).length)
        (registry none false none [(flag_a, none), (flag_b, none)])
        ([112] :: ((97 : Byte) :: [98]).map (fun c' => [DASH, c'])) = .ok (true, st2) ∧
      (∀ n, args_opts_used st1 n = args_opts_used st2 n ∧
        args_opts_get st1 n = args_opts_get st2 n ∧
        args_opts_get_count st1 n = args_opts_get_count st2 n) ∧
      st1.args_files = st2.args_files ∧
      st1.args_files_count = st2.args_files_count ∧
      st1.args_unrecognised_count = st2.args_unrecognised_count ∧
      st1.args_message = st2.args_message ∧
      st1.args_out = st2.args_out ∧
      st1.calls = st2.calls ∧
      st1.calls = ((97 : Byte) :: [98]).map (fun c' => Call.trigger [DASH, c'] [DASH, c']) ∧
      st1.args_files_count = 0 ∧
      st1.args_unrecognised_count = 0 ∧
      ∀ n, args_opts_get_count st1 n
          = ((97 : Byte) :: [98]).countP (fun c' => decide ([DASH, c'] = n)) ∧
        args_opts_used st1 n
          = decide (0 < ((97 : Byte) :: [98]).countP (fun c' => decide ([DASH, c'] = n))) ∧
        args_opts_get st1 n =
          if ((97 : Byte) :: [98]).countP (fun c' => decide ([DASH, c'] = n)) = 0 then none
          else some (List.replicate
            (((97 : Byte) :: [98]).countP (fun c' => decide ([DASH, c'] = n))) none) :=
  have h1 : no_shared_spelling [(flag_a, none), (flag_b, none)] := by
    simp [no_shared_spelling, flag_a, flag_b]
  have h2 : canonical_listed [(flag_a, none), (flag_b, none)] := by
    simp [canonical_listed, flag_a, flag_b]
  have h3 : ∀ c' ∈ ((97 : Byte) :: [98]), c' ≠ DASH ∧
      ∃ o help, (o, help) ∈ [(flag_a, (none : Option CStr)), (flag_b, none)] ∧
        [DASH, c'] ∈ o.alternatives ∧ o.type = ARGUMENTLESS ∧ o.standard = [DASH, c'] := by
    intro c' hc'
    simp only [List.mem_cons, List.mem_singleton, List.not_mem_nil, or_false] at hc'
    rcases hc' with rfl | rfl
    · exact ⟨by decide, flag_a, none, by simp, by simp [flag_a], rfl, rfl⟩
    · exact ⟨by decide, flag_b, none, by simp, by simp [flag_b], rfl, rfl⟩
  ⟨h1, h2, h3,
    args_parse_bundle_equals_separate none none [(flag_a, none), (flag_b, none)] h1 h2
      (fun c' => [DASH, c']) 97 [98] h3 [112] 0⟩

/-! ## Positional files and the Variadic option -/

theorem poke_length (buffer : List (Option CStr)) (value : CStr) :
    poke buffer buffer.length value = buffer ++ [some value] := by
  simp [poke]

theorem args_parse_file_eq (sc : Scan) (arg : CStr)
    (h : sc.st.args_files.length = sc.st.args_files_count) :
    args_parse_file sc arg =
      { sc with st := { sc.st with args_files := sc.st.args_files ++ [some arg]
                                   args_files_count := sc.st.args_files_count + 1 } } := by
  simp only [args_parse_file, ← h, poke_length]

theorem args_parse_loop_plain (fuel : Nat) (pre rest : List CStr) (sc : Scan)
    (hget : sc.get = 0) (hinj : sc.injection = none)
    (ht : sc.tmpdashed = false) (hd : sc.dashed = false)
    (hf : sc.st.args_files.length = sc.st.args_files_count)
    (hpre : ∀ t ∈ pre, byteAt t 0 ≠ DASH ∧ byteAt t 0 ≠ PLUS) :
    args_parse_loop (fuel + pre.length) sc (pre ++ rest) =
      args_parse_loop fuel
        { sc with st := { sc.st with
                          args_files := sc.st.args_files ++ (pre.map some)
                          args_files_count := sc.st.args_files_count + pre.length } } rest := by
  induction pre generalizing sc with
  | nil => simp
  | cons t more ih =>
    obtain ⟨h1, h2⟩ := hpre t (by simp)
    have hl : fuel + (t :: more).length = (fuel + more.length) + 1 := by simp [Nat.add_assoc]
    rw [hl, List.cons_append, args_parse_loop_cons _ _ _ _ hinj, args_parse_token_idle _ _ hget,
      args_parse_dispatch_plain _ _ ht hd h1 h2, args_parse_file_eq _ _ hf]
    simp only [Except.bind]
    rw [ih]
    · simp [Nat.add_assoc, Nat.add_comm 1]
    · exact hget
    · exact hinj
    · exact ht
    · exact hd
    · simp [hf]
    · exact fun t' ht' => hpre t' (by simp [ht'])

theorem args_parse_loop_dashed (fuel : Nat) (post : List CStr) (sc : Scan)
    (hget : sc.get = 0) (hinj : sc.injection = none)
    (ht : sc.tmpdashed = false) (hd : sc.dashed = true)
    (hf : sc.st.args_files.length = sc.st.args_files_count) :
    args_parse_loop (fuel + post.length) sc post =
      .ok { sc with st := { sc.st with
                            args_files := sc.st.args_files ++ (post.map some)
                            args_files_count := sc.st.args_files_count + post.length } } := by
  induction post generalizing sc with
  | nil =>
    simp only [List.length_nil, Nat.add_zero, List.map_nil, List.append_nil]
    exact args_parse_loop_nil _ _ hinj
  | cons t more ih =>
    have hl : fuel + (t :: more).length = (fuel + more.length) + 1 := by simp [Nat.add_assoc]
    rw [hl, args_parse_loop_cons _ _ _ _ hinj, args_parse_token_idle _ _ hget,
      args_parse_dispatch_dashed _ _ ht hd, args_parse_file_eq _ _ hf]
    simp only [Except.bind]
    rw [ih]
    · simp [Nat.add_assoc, Nat.add_comm 1]
    · exact hget
    · exact hinj
    · exact ht
    · exact hd
    · simp [hf]

theorem peek_all_map_some (files : List CStr) (more : List (Option CStr)) :
    peek_all (files.map some ++ more) files.length = .ok files := by
  induction files with
  | nil => simp [peek_all]
  | cons f rest ih => simp [peek_all, ih]

theorem args_opts_clear_shape (st : State) (name : CStr) :
    ∃ m, args_opts_clear st name = { st with args_opts := m } ∧
      ∀ n, map_get m n =
        if n = name then some { values := none, count := 0, used := args_opts_used st name }
        else map_get st.args_opts n := by
  refine ⟨(args_opts_clear st name).args_opts, ?_, ?_⟩
  · simp only [args_opts_clear, args_opts_new, args_opts_put, args_opts_put_count]
  · intro n
    by_cases hn : n = name
    · cases hent : map_get st.args_opts name <;>
        simp [args_opts_clear, args_opts_new, args_opts_put, args_opts_put_count,
          map_get_opts_put_count, map_get_opts_put, hn, hent, args_opts_used]
    · simp [args_opts_clear, args_opts_new, args_opts_put, args_opts_put_count,
        map_get_opts_put_count, map_get_opts_put, hn]

theorem args_parse_absorb_shape (std : CStr) (files : List CStr) (st : State)
    (ht : tidy st.args_opts) :
    ∃ m, args_parse_absorb std st files = { st with args_opts := m } ∧ tidy m ∧
      ∀ n, map_get m n =
        if n = std ∧ files ≠ [] then
          some { values := some
                   (((map_get st.args_opts std).getD blank).values.getD [] ++ (files.map some))
                 count := ((map_get st.args_opts std).getD blank).count + files.length
                 used := ((map_get st.args_opts std).getD blank).used }
        else map_get st.args_opts n := by
  induction files generalizing st with
  | nil => exact ⟨st.args_opts, rfl, ht, fun n => by simp⟩
  | cons f rest ih =>
    obtain ⟨m1, hm1, hget1⟩ := args_opts_append_shape st std (some f) ht
    have ht1 : tidy ({ st with args_opts := m1 } : State).args_opts := by
      intro n a ha
      simp only [hget1] at ha
      by_cases hn : n = std
      · simp only [hn, if_true, Option.some.injEq] at ha
        subst ha
        cases hb : map_get st.args_opts std with
        | none => simp [blank]
        | some b => simp [ht std b hb]
      · simp only [hn, if_false] at ha
        exact ht n a ha
    obtain ⟨m, hm, htm, hget⟩ := ih { st with args_opts := m1 } ht1
    refine ⟨m, ?_, htm, ?_⟩
    · rw [args_parse_absorb, hm1, hm]
    · intro n
      rw [hget]
      by_cases hn : n = std
      · subst hn
        by_cases hr : rest = []
        · simp [hr, hget1]
        · simp [hr, hget1, Nat.add_assoc, Nat.add_comm 1]
      · simp [hn, hget1]

theorem args_parse_variadic_hit (st : State) (options : List args_Option) (std : CStr)
    (first : Option CStr) (more : List (Option CStr)) (files : List CStr)
    (hmem : ∃ w ∈ options, w.standard = std)
    (hstd : ∀ w ∈ options, w.standard = std → w.type = VARIADIC)
    (hother : ∀ w ∈ options, w.standard ≠ std → args_opts_used st w.standard = false)
    (hused : args_opts_used st std = true)
    (hget : args_opts_get st std = some (first :: more))
    (hpeek : peek_all st.args_files st.args_files_count = .ok files) :
    args_parse_variadic st options =
      .ok { args_parse_absorb std (if first = none then args_opts_clear st std else st) files with
            args_files_count := 0 } := by
  induction options with
  | nil => obtain ⟨w, hw, -⟩ := hmem; simp at hw
  | cons w rest ih =>
    rw [args_parse_variadic]
    by_cases hw : w.standard = std
    · have hty := hstd w (by simp) hw
      have hpeek' : peek_all (if first = none then args_opts_clear st std else st).args_files
          (if first = none then args_opts_clear st std else st).args_files_count = .ok files := by
        obtain ⟨m, hm, -⟩ := args_opts_clear_shape st std
        by_cases hf : first = none
        · simp only [hf, if_true, hm]; exact hpeek
        · simp only [hf, if_false]; exact hpeek
      simp only [hty, hw, hused, and_self, if_true, hget, bind, Except.bind, hpeek', pure,
        Except.pure]
    · have hu := hother w (by simp) hw
      simp only [hu, Bool.false_eq_true, and_false, if_false]
      apply ih
      · obtain ⟨w', hw', hs'⟩ := hmem
        rcases List.mem_cons.mp hw' with rfl | h
        · exact absurd hs' hw
        · exact ⟨w', h, hs'⟩
      · exact fun w' hw' => hstd w' (by simp [hw'])
      · exact fun w' hw' => hother w' (by simp [hw'])

theorem args_parse_dispatch_variadic (sc : Scan) (arg : CStr) (i : Nat) (o : args_Option)
    (ht : sc.tmpdashed = false) (hd : sc.dashed = false) (hdont : sc.dontget = 0)
    (hlong : long_spelling arg)
    (hmap : map_get sc.st.args_optmap arg = some (i + 1))
    (hopt : sc.st.args_options[i]? = some o) (htype : o.type = VARIADIC) :
    args_parse_dispatch sc arg =
      .ok { sc with st := { sc.st with calls := sc.st.calls ++ [Call.trigger arg o.standard] }
                    dashed := true
                    optqueue := sc.optqueue ++ [arg]
                    argqueue := sc.argqueue ++ [none] } := by
  obtain ⟨name, hname, hne, hnoeq⟩ := long_spelling_shape hlong
  have hd' : args_parse_dispatch sc arg = args_parse_long sc arg := by
    rw [hname]; exact args_parse_dispatch_long _ name ht hd hne
  rw [hd']
  exact args_parse_long_variadic _ arg i o hdont hmap hopt htype
    (byteAt_find_eq_of_not_mem _ hnoeq)

theorem args_parse_loop_variadic (st : State) (std : CStr) (i : Nat) (o : args_Option)
    (hmap : map_get st.args_optmap std = some (i + 1)) (hopt : st.args_options[i]? = some o)
    (htype : o.type = VARIADIC) (hlong : long_spelling std) (hfc : st.args_files_count = 0)
    (pre post : List CStr) (hpre : ∀ t ∈ pre, byteAt t 0 ≠ DASH ∧ byteAt t 0 ≠ PLUS)
    (fuel : Nat) :
    args_parse_loop (fuel + post.length + 1 + pre.length)
        (args_parse_begin st (pre ++ std :: post)) (pre ++ std :: post) =
      .ok { args_parse_begin st (pre ++ std :: post) with
            st := { (args_parse_begin st (pre ++ std :: post)).st with
                    args_files := (pre ++ post).map some
                    args_files_count := (pre ++ post).length
                    calls := st.calls ++ [Call.trigger std o.standard] }
            dashed := true
            optqueue := [std]
            argqueue := [none] } := by
  rw [args_parse_loop_plain (fuel + post.length + 1) pre (std :: post) _ rfl rfl rfl rfl
      (by simp [args_parse_begin, hfc]) hpre,
    args_parse_loop_cons _ _ _ _ rfl, args_parse_token_idle _ _ rfl,
    args_parse_dispatch_variadic _ std i o rfl rfl rfl hlong hmap hopt htype]
  simp only [Except.bind]
  rw [args_parse_loop_dashed fuel post _ rfl rfl rfl rfl (by simp [args_parse_begin, hfc])]
  simp [args_parse_begin, hfc]

theorem args_parse_end_variadic (sc : Scan) (s std : CStr) (i : Nat) (o : args_Option)
    (files : List CStr)
    (hq : sc.optqueue = [s]) (ha : sc.argqueue = [none])
    (hmap : map_get sc.st.args_optmap s = some (i + 1))
    (hopt : sc.st.args_options[i]? = some o) (hos : o.standard = std)
    (hcont : args_optmap_contains sc.st std = true)
    (ht : tidy sc.st.args_opts) (hentry : map_get sc.st.args_opts std = some blank)
    (hstd : ∀ w ∈ sc.st.args_options, w.standard = std → w.type = VARIADIC)
    (hunused : ∀ n, args_opts_used sc.st n = false)
    (hfiles : sc.st.args_files = files.map some) (hcount : sc.st.args_files_count = files.length)
    (hun : sc.st.args_unrecognised_count ≤ 5) :
    ∃ st', args_parse_end sc = .ok (sc.rc, st') ∧
      args_opts_used st' std = true ∧
      args_opts_get_count st' std = files.length ∧
      args_opts_get st' std = (if files = [] then none else some (files.map some)) ∧
      st'.args_files_count = 0 ∧
      st'.args_message = none ∧
      st'.args_unrecognised_count = sc.st.args_unrecognised_count := by
  obtain ⟨m1, hrec, htm1, hget1⟩ := args_parse_record_shape sc.argqueue (fun _ => std)
    sc.optqueue sc.st 0
    (by
      intro s' hs'
      rw [hq, List.mem_singleton] at hs'
      subst hs'
      exact ⟨i, o, hmap, hopt, hos, hcont⟩)
    ht
  have hm1 : map_get m1 std = some { values := some [none], count := 1, used := true } := by
    have := hget1 std
    simp only [hq, ha, hentry, recorded_values, if_true] at this
    simp [this, recorded, blank]
  have hm1' : ∀ n, n ≠ std → map_get m1 n = map_get sc.st.args_opts n := by
    intro n hn
    have hn' : ¬ std = n := fun e => hn e.symm
    have := hget1 n
    simp only [hq, recorded_values, hn', if_false, recorded_nil] at this
    exact this
  obtain ⟨st1, hst1⟩ : ∃ st1 : State, st1 =
      { sc.st with args_opts := m1
                   calls := sc.st.calls ++ late_calls (fun _ => std) sc.argqueue 0 sc.optqueue } :=
    ⟨_, rfl⟩
  rw [← hst1] at hrec
  have hst1_opts : st1.args_opts = m1 := by rw [hst1]
  have hst1_files : st1.args_files = files.map some := by rw [hst1]; exact hfiles
  have hst1_count : st1.args_files_count = files.length := by rw [hst1]; exact hcount
  have hst1_options : st1.args_options = sc.st.args_options := by rw [hst1]
  have hst1_un : st1.args_unrecognised_count = sc.st.args_unrecognised_count := by rw [hst1]
  obtain ⟨m2, hclear, hget2⟩ := args_opts_clear_shape st1 std
  have htm2 : tidy ({ st1 with args_opts := m2 } : State).args_opts := by
    intro n a hna
    simp only [hget2] at hna
    by_cases hn : n = std
    · simp only [hn, if_true, Option.some.injEq] at hna
      subst hna; rfl
    · simp only [hn, if_false] at hna
      rw [hst1_opts] at hna
      exact htm1 n a hna
  obtain ⟨m3, habsorb, -, hget3⟩ := args_parse_absorb_shape std files
    { st1 with args_opts := m2 } htm2
  have hvar := args_parse_variadic_hit st1 st1.args_options std none [] files
    (by rw [hst1_options]; exact ⟨o, List.getElem?_mem hopt, hos⟩)
    (by rw [hst1_options]; exact hstd)
    (fun w _ hs => by
      have := hunused w.standard
      simp only [args_opts_used, hst1_opts, hm1' w.standard hs] at this ⊢
      exact this)
    (by simp [args_opts_used, hst1_opts, hm1])
    (by simp [args_opts_get, hst1_opts, hm1])
    (by
      rw [hst1_files, hst1_count]
      have := peek_all_map_some files []
      simpa using this)
  simp only [if_true] at hvar
  rw [hclear, habsorb] at hvar
  simp only [args_parse_end, hrec, bind, Except.bind, hvar]
  rw [args_parse_message_none _ rfl]
  simp only [pure, Except.pure]
  rw [args_parse_summary_few _ (by simpa [hst1_un] using hun)]
  refine ⟨_, rfl, ?_⟩
  have hm3 := hget3 std
  simp only [hget2, if_true, args_opts_used, hst1_opts, hm1, true_and] at hm3
  by_cases hf : files = []
  · simp only [hf, ne_eq, not_true_eq_false, if_false] at hm3
    simp [args_opts_used, args_opts_get, args_opts_get_count, hm3, hf, hst1_un]
  · simp only [hf, ne_eq, not_false_eq_true, if_true] at hm3
    simp [args_opts_used, args_opts_get, args_opts_get_count, hm3, hf, blank, hst1_un]

/-- C10: in a registry without shared spellings that contains a Variadic option
whose canonical spelling is a long spelling `--rest`, for every list `pre` of
tokens that do not begin with `-` or `+` and every list `post` of tokens,
parsing `pre ++ [--rest] ++ post` returns true and leaves `--rest` used with
the values `pre ++ post`, in that order and without absence marker (the value
array is `null` when there is no such token), no positional file, no message
and nothing unrecognised. -/
theorem args_parse_variadic_takes_all (program : Option CStr) (alternative : Bool)
    (abbreviations : Option (CStr → List CStr → Nat → Option CStr))
    (options : List (args_Option × Option CStr))
    (hns : no_shared_spelling options) (hcl : canonical_listed options)
    (o : args_Option) (help : Option CStr) (hp : (o, help) ∈ options)
    (htype : o.type = VARIADIC) (hlong : long_spelling o.standard)
    (pre post : List CStr) (hpre : ∀ t ∈ pre, byteAt t 0 ≠ DASH ∧ byteAt t 0 ≠ PLUS)
    (exe : CStr) (fuel : Nat) :
    ∃ st', args_parse (fuel + post.length + 1 + pre.length)
        (registry program alternative abbreviations options)
        (exe :: (pre ++ o.standard :: post)) = .ok (true, st') ∧
      args_opts_used st' o.standard = true ∧
      args_opts_get_count st' o.standard = (pre ++ post).length ∧
      args_opts_get st' o.standard =
        (if pre ++ post = [] then none else some ((pre ++ post).map some)) ∧
      st'.args_files_count = 0 ∧
      st'.args_message = none ∧
      st'.args_unrecognised_count = 0 := by
  obtain ⟨i, hmap, hopt⟩ := registry_bound program alternative abbreviations options hns
    o help hp o.standard (hcl (o, help) hp)
  obtain ⟨-, -, hfc, -, -, -⟩ := registry_fields program alternative abbreviations options
  have hcont := registry_contains_standard program alternative abbreviations options hns hcl
    o help hp
  have hentry := registry_entry_standard program alternative abbreviations options o help hp
  have hloop := args_parse_loop_variadic (registry program alternative abbreviations options)
    o.standard i { o with help := help } hmap hopt htype hlong hfc pre post hpre fuel
  rw [args_parse_of_loop _ _ _ _ _ hloop]
  exact args_parse_end_variadic _ o.standard o.standard i { o with help := help } (pre ++ post)
    rfl rfl hmap hopt rfl hcont (registry_tidy program alternative abbreviations options) hentry
    (fun w hw hs => by
      rw [registry_standard_type program alternative abbreviations options hns hcl
        o help hp w hw hs, htype])
    (registry_unused program alternative abbreviations options) rfl rfl (Nat.zero_le 5)

/-- C10, at the registry with the option `--rest`: the tokens `x`, `--rest`, `a`,
`-b` leave the values `x`, `a`, `-b`. -/
theorem args_parse_variadic_takes_all_witness :
    no_shared_spelling [(opt_rest, none)] ∧ canonical_listed [(opt_rest, none)] ∧
    (opt_rest, none) ∈ [(opt_rest, (none : Option CStr))] ∧ opt_rest.type = VARIADIC ∧
    long_spelling opt_rest.standard ∧
    (∀ t ∈ ([[120]] : List CStr), byteAt t 0 ≠ DASH ∧ byteAt t 0 ≠ PLUS) ∧
    ∃ st', args_parse (0 + ([[97], [45, 98]] : List CStr).length + 1 + ([[120]] : List CStr).length)
        (registry none false none [(opt_rest, none)])
        ([112] :: ([[120]] ++ opt_rest.standard :: [[97], [45, 98]])) = .ok (true, st') ∧
      args_opts_used st' opt_rest.standard = true ∧
      args_opts_get_count st' opt_rest.standard = (([[120]] : List CStr) ++ [[97], [45, 98]]).length ∧
      args_opts_get st' opt_rest.standard =
        (if ([[120]] : List CStr) ++ [[97], [45, 98]] = [] then none
          else some ((([[120]] : List CStr) ++ [[97], [45, 98]]).map some)) ∧
      st'.args_files_count = 0 ∧
      st'.args_message = none ∧
      st'.args_unrecognised_count = 0 :=
  have h1 : no_shared_spelling [(opt_rest, none)] := by simp [no_shared_spelling]
  have h2 : canonical_listed [(opt_rest, none)] := by simp [canonical_listed, opt_rest]
  have h3 : (opt_rest, none) ∈ [(opt_rest, (none : Option CStr))] := by simp
  have h5 : long_spelling opt_rest.standard :=
    ⟨[114, 101, 115, 116], rfl, by decide, by decide⟩
  have h6 : ∀ t ∈ ([[120]] : List CStr), byteAt t 0 ≠ DASH ∧ byteAt t 0 ≠ PLUS := by
    intro t ht
    simp only [List.mem_singleton] at ht
    subst ht
    decide
  ⟨h1, h2, h3, rfl, h5, h6,
    args_parse_variadic_takes_all none false none [(opt_rest, none)] h1 h2 opt_rest none h3
      rfl h5 [[120]] [[97], [45, 98]] h6 [112] 0⟩

/-! ## A token that the stickless predicate rejects -/

theorem find_eq_pair (c : Byte) (hc : c ≠ EQUALS) :
    byteAt [DASH, c] (find_eq [DASH, c]) ≠ EQUALS := by
  apply byteAt_find_eq_of_not_mem
  simp only [List.mem_cons, List.mem_singleton, List.not_mem_nil, or_false, not_or]
  exact ⟨by decide, fun e => hc e.symm⟩

theorem args_parse_token_short_deferred (sc : Scan) (c : Byte) (i : Nat) (o : args_Option)
    (hget : sc.get = 0) (ht : sc.tmpdashed = false) (hd : sc.dashed = false)
    (hdont : sc.dontget = 0) (hc : c ≠ DASH)
    (hmode : sc.st.args_alternative = false ∨ c ≠ EQUALS)
    (hmap : map_get sc.st.args_optmap [DASH, c] = some (i + 1))
    (hopt : sc.st.args_options[i]? = some o)
    (htype : o.type = ARGUMENTED ∨ o.type = OPTARGUMENTED) :
    args_parse_token sc [DASH, c] =
      .ok { sc with optqueue := sc.optqueue ++ [[DASH, c]], get := sc.get + 1 } := by
  rw [args_parse_token_idle _ _ hget]
  cases halt : sc.st.args_alternative with
  | false =>
    rw [args_parse_dispatch_short _ DASH c [] ht hd halt (Or.inl rfl) hc]
    exact args_parse_bundle_deferred _ _ DASH c i o hmap hopt htype
  | true =>
    have hce : c ≠ EQUALS := by
      rcases hmode with h | h
      · rw [halt] at h; cases h
      · exact h
    rw [args_parse_dispatch_alternative _ DASH c [] ht hd halt (Or.inl rfl) (Or.inl hc)]
    exact args_parse_long_deferred _ _ i o hdont hmap hopt htype (find_eq_pair c hce)

theorem args_parse_dispatch_short_argumentless (sc : Scan) (c : Byte) (i : Nat) (o : args_Option)
    (ht : sc.tmpdashed = false) (hd : sc.dashed = false)
    (hdont : sc.dontget = 0) (hc : c ≠ DASH)
    (hmap : map_get sc.st.args_optmap [DASH, c] = some (i + 1))
    (hopt : sc.st.args_options[i]? = some o)
    (htype : o.type = ARGUMENTLESS) :
    args_parse_dispatch sc [DASH, c] =
      .ok { sc with st := { sc.st with calls := sc.st.calls ++ [Call.trigger [DASH, c] o.standard] }
                    optqueue := sc.optqueue ++ [[DASH, c]]
                    argqueue := sc.argqueue ++ [none] } := by
  cases halt : sc.st.args_alternative with
  | false =>
    rw [args_parse_dispatch_short _ DASH c [] ht hd halt (Or.inl rfl) hc,
      args_parse_bundle_argumentless (fun _ => o.standard) _ DASH [c] sc
        (fun c' hc' => by
          simp only [List.mem_singleton] at hc'
          subst hc'
          exact ⟨i, o, hmap, hopt, htype, rfl⟩)]
    rfl
  | true =>
    rw [args_parse_dispatch_alternative _ DASH c [] ht hd halt (Or.inl rfl) (Or.inl hc)]
    exact args_parse_long_argumentless _ _ i o hdont hmap hopt htype

theorem args_parse_long_unknown (sc : Scan) (arg : CStr)
    (hdont : sc.dontget = 0)
    (hnone : map_get sc.st.args_optmap arg = none)
    (heq : byteAt arg (find_eq arg) ≠ EQUALS)
    (habbr : args__abbreviations sc.st arg = none) :
    args_parse_long sc arg = .ok (args_parse_unrecognised sc arg) := by
  have h100 : ¬ (100 : Nat) ≤ OPTARGUMENTED := by decide
  simp [args_parse_long, hdont, args_optmap_contains_of_none hnone, bind, Except.bind, pure,
    Except.pure, heq, habbr, h100]

theorem args_parse_dispatch_short_unknown (sc : Scan) (c : Byte)
    (ht : sc.tmpdashed = false) (hd : sc.dashed = false)
    (hdont : sc.dontget = 0) (hc : c ≠ DASH)
    (hnone : map_get sc.st.args_optmap [DASH, c] = none)
    (hmode : sc.st.args_alternative = false ∨
      (c ≠ EQUALS ∧ sc.st.args_abbreviations = none)) :
    args_parse_dispatch sc [DASH, c] = .ok (args_parse_unrecognised sc [DASH, c]) := by
  cases halt : sc.st.args_alternative with
  | false =>
    rw [args_parse_dispatch_short _ DASH c [] ht hd halt (Or.inl rfl) hc,
      args_parse_bundle_unknown _ _ DASH c [] hnone]
    rfl
  | true =>
    have hce : c ≠ EQUALS ∧ sc.st.args_abbreviations = none := by
      rcases hmode with h | h
      · rw [halt] at h; cases h
      · exact h
    rw [args_parse_dispatch_alternative _ DASH c [] ht hd halt (Or.inl rfl) (Or.inl hc)]
    exact args_parse_long_unknown _ _ hdont hnone (find_eq_pair c hce.1)
      (by simp [args__abbreviations, hce.2])

theorem args_parse_loop_rejected_flag (st : State) (oc x : Byte) (i j : Nat)
    (o ox : args_Option) (pred : CStr → Bool)
    (hoc : oc ≠ DASH) (hx : x ≠ DASH)
    (hmode : st.args_alternative = false ∨ oc ≠ EQUALS)
    (hmap : map_get st.args_optmap [DASH, oc] = some (i + 1))
    (hopt : st.args_options[i]? = some o)
    (htype : o.type = OPTARGUMENTED) (hpred : o.stickless = some pred)
    (hrej : pred [DASH, x] = false)
    (hmapx : map_get st.args_optmap [DASH, x] = some (j + 1))
    (hoptx : st.args_options[j]? = some ox)
    (htypex : ox.type = ARGUMENTLESS) (fuel : Nat) :
    args_parse_loop (fuel + 2) (args_parse_begin st [[DASH, oc], [DASH, x]])
        [[DASH, oc], [DASH, x]] =
      .ok { args_parse_begin st [[DASH, oc], [DASH, x]] with
            st := { (args_parse_begin st [[DASH, oc], [DASH, x]]).st with
                    calls := st.calls ++ [Call.triggerv [DASH, oc] o.standard none,
                      Call.trigger [DASH, x] ox.standard] }
            optqueue := [[DASH, oc], [DASH, x]]
            argqueue := [none, none] } := by
  rw [args_parse_loop_cons _ _ _ _ rfl,
    args_parse_token_short_deferred _ oc i o rfl rfl rfl rfl hoc hmode hmap hopt (Or.inr htype)]
  simp only [Except.bind]
  rw [args_parse_loop_cons _ _ _ _ rfl,
    args_parse_token_reject _ [DASH, x] [DASH, oc] [] i o pred rfl rfl rfl hmap hopt htype hpred
      hrej,
    args_parse_dispatch_short_argumentless _ x j ox rfl rfl rfl hx hmapx hoptx htypex]
  simp only [Except.bind]
  rw [args_parse_loop_nil _ _ rfl]
  simp [args_parse_begin]

theorem args_parse_loop_rejected_unknown (st : State) (oc x : Byte) (i : Nat)
    (o : args_Option) (pred : CStr → Bool)
    (hoc : oc ≠ DASH) (hx : x ≠ DASH)
    (hmode : st.args_alternative = false ∨ oc ≠ EQUALS)
    (hmap : map_get st.args_optmap [DASH, oc] = some (i + 1))
    (hopt : st.args_options[i]? = some o)
    (htype : o.type = OPTARGUMENTED) (hpred : o.stickless = some pred)
    (hrej : pred [DASH, x] = false)
    (hnone : map_get st.args_optmap [DASH, x] = none)
    (hmodex : st.args_alternative = false ∨ (x ≠ EQUALS ∧ st.args_abbreviations = none))
    (fuel : Nat) :
    args_parse_loop (fuel + 2) (args_parse_begin st [[DASH, oc], [DASH, x]])
        [[DASH, oc], [DASH, x]] =
      .ok { args_parse_begin st [[DASH, oc], [DASH, x]] with
            st := { (args_parse_begin st [[DASH, oc], [DASH, x]]).st with
                    calls := st.calls ++ [Call.triggerv [DASH, oc] o.standard none]
                    args_unrecognised_count := 1
                    args_out := st.args_out ++ [Line.unrecognised st.args_program [DASH, x]] }
            rc := false
            optqueue := [[DASH, oc]]
            argqueue := [none] } := by
  rw [args_parse_loop_cons _ _ _ _ rfl,
    args_parse_token_short_deferred _ oc i o rfl rfl rfl rfl hoc hmode hmap hopt (Or.inr htype)]
  simp only [Except.bind]
  rw [args_parse_loop_cons _ _ _ _ rfl,
    args_parse_token_reject _ [DASH, x] [DASH, oc] [] i o pred rfl rfl rfl hmap hopt htype hpred
      hrej,
    args_parse_dispatch_short_unknown _ x rfl rfl rfl hx hnone hmodex]
  simp only [Except.bind]
  rw [args_parse_loop_nil _ _ rfl]
  simp [args_parse_begin, args_parse_unrecognised]

/-- C9, refuted: in alternative mode with the standard abbreviation policy, with
the OptionallyArgumented option `-o` and the Argumentless option `-xy`
registered, the token `-x` is not registered and the stickless predicate of
`-o` rejects it; parsing `[-o, -x]` expands `-x` to `-xy`: it returns true,
counts no unrecognised option and marks `-xy` as used. -/
theorem args_parse_rejected_token_expanded :
    args_optmap_contains
      (registry none true (some args_standard_abbreviations) [(opt_o, none), (flag_xy, none)])
      [45, 120] = false ∧
    default_stickless [45, 120] = false ∧
    (args_parse 3
      (registry none true (some args_standard_abbreviations) [(opt_o, none), (flag_xy, none)])
      [[112], [45, 111], [45, 120]]).map
        (fun r => (r.1, r.2.args_unrecognised_count, args_opts_used r.2 [45, 120, 121],
          args_opts_get r.2 [45, 111]))
      = .ok (true, 0, true, some [none]) :=
  ⟨by decide, by decide, rfl⟩

/-- C9, amended: let `-o` be a spelling of an OptionallyArgumented option whose
stickless predicate rejects the token `-x` (the characters `o` and `x` are not
`-`, and `o` is not `=` in alternative mode). Parsing `[-o, -x]` reprocesses
`-x` as a fresh token. If `-x` is a spelling of a registered Argumentless
option, the parse returns true, that option is used with one absence marker
and nothing is unrecognised. If `-x` is not registered, and alternative mode
is off or no abbreviation policy is installed (and `x` is not `=`), the parse
returns false with an unrecognised count of 1. In both cases `-o` is used with
one absent value. -/
theorem args_parse_rejected_token_reprocessed (program : Option CStr) (alternative : Bool)
    (abbreviations : Option (CStr → List CStr → Nat → Option CStr))
    (options : List (args_Option × Option CStr))
    (hns : no_shared_spelling options) (hcl : canonical_listed options)
    (o : args_Option) (help : Option CStr) (hp : (o, help) ∈ options)
    (htype : o.type = OPTARGUMENTED) (pred : CStr → Bool) (hpred : o.stickless = some pred)
    (oc x : Byte) (hoc : oc ≠ DASH) (hx : x ≠ DASH)
    (hmode : alternative = false ∨ oc ≠ EQUALS)
    (hs : [DASH, oc] ∈ o.alternatives) (hrej : pred [DASH, x] = false)
    (exe : CStr) (fuel : Nat) :
    (∀ ox helpx, (ox, helpx) ∈ options → [DASH, x] ∈ ox.alternatives →
      ox.type = ARGUMENTLESS →
      ∃ st', args_parse (fuel + 2) (registry program alternative abbreviations options)
          [exe, [DASH, oc], [DASH, x]] = .ok (true, st') ∧
        args_opts_used st' ox.standard = true ∧
        args_opts_get st' ox.standard = some [none] ∧
        args_opts_get_count st' ox.standard = 1 ∧
        args_opts_used st' o.standard = true ∧
        args_opts_get st' o.standard = some [none] ∧
        st'.args_unrecognised_count = 0) ∧
    ((∀ p ∈ options, [DASH, x] ∉ p.1.alternatives) →
      (alternative = false ∨ (x ≠ EQUALS ∧ abbreviations = none)) →
      ∃ st', args_parse (fuel + 2) (registry program alternative abbreviations options)
          [exe, [DASH, oc], [DASH, x]] = .ok (false, st') ∧
        st'.args_unrecognised_count = 1 ∧
        args_opts_used st' o.standard = true ∧
        args_opts_get st' o.standard = some [none]) := by
  obtain ⟨i, hmap, hopt⟩ := registry_bound program alternative abbreviations options hns
    o help hp [DASH, oc] hs
  obtain ⟨halt, habbr, hfc, -, -, -⟩ := registry_fields program alternative abbreviations options
  have hcont := registry_contains_standard program alternative abbreviations options hns hcl
    o help hp
  have hentry := registry_entry_standard program alternative abbreviations options o help hp
  have hmode' : (registry program alternative abbreviations options).args_alternative = false ∨
      oc ≠ EQUALS := by rw [halt]; exact hmode
  have hvar : ∀ w ∈ (registry program alternative abbreviations options).args_options,
      w.type = VARIADIC → o.standard ≠ w.standard := by
    intro w hw hty heq
    have := registry_standard_type program alternative abbreviations options hns hcl
      o help hp w hw heq.symm
    rw [hty, htype] at this
    exact absurd this (by decide)
  constructor
  · intro ox helpx hpx hsx htypex
    obtain ⟨j, hmapx, hoptx⟩ := registry_bound program alternative abbreviations options hns
      ox helpx hpx [DASH, x] hsx
    have hcontx := registry_contains_standard program alternative abbreviations options hns hcl
      ox helpx hpx
    have hentryx := registry_entry_standard program alternative abbreviations options
      ox helpx hpx
    have hdiff : o.standard ≠ ox.standard := by
      intro heq
      have := registry_standard_type program alternative abbreviations options hns hcl
        o help hp { ox with help := helpx } (List.getElem?_mem hoptx) heq.symm
      simp only [htypex, htype] at this
      exact absurd this (by decide)
    have hspell : ([DASH, oc] : CStr) ≠ [DASH, x] := by
      intro heq
      rw [heq] at hs
      have := no_shared_spelling_unique hns hp hpx hs hsx
      have ht : o.type = ox.type := by rw [(Prod.mk.inj this).1]
      rw [htype, htypex] at ht
      exact absurd ht (by decide)
    obtain ⟨sc, hsc, hloop⟩ : ∃ sc, sc = _ ∧ _ = Except.ok sc :=
      ⟨_, rfl, args_parse_loop_rejected_flag
        (registry program alternative abbreviations options) oc x i j
        { o with help := help } { ox with help := helpx } pred hoc hx hmode' hmap hopt htype
        hpred hrej hmapx hoptx htypex fuel⟩
    rw [args_parse_of_loop _ _ _ _ _ hloop]
    obtain ⟨m, hend, -, hget⟩ := args_parse_end_shape sc
      (fun s => if s = [DASH, x] then ox.standard else o.standard)
      (by
        subst hsc
        intro s hs'
        simp only [List.mem_cons, List.mem_singleton, List.not_mem_nil, or_false] at hs'
        rcases hs' with rfl | rfl
        · exact ⟨i, { o with help := help }, hmap, hopt, by simp [hspell], by
            simp only [hspell, if_false]; exact hcont⟩
        · exact ⟨j, { ox with help := helpx }, hmapx, hoptx, by simp, by
            simp only [if_true]; exact hcontx⟩)
      (by subst hsc; exact registry_tidy program alternative abbreviations options)
      (by
        subst hsc
        intro w hw hty
        refine ⟨registry_unused program alternative abbreviations options w.standard, ?_⟩
        intro s hs' heq
        simp only [List.mem_cons, List.mem_singleton, List.not_mem_nil, or_false] at hs'
        rcases hs' with rfl | rfl
        · simp only [hspell, if_false] at heq
          exact hvar w hw hty heq
        · simp only [if_true] at heq
          have := registry_standard_type program alternative abbreviations options hns hcl
            ox helpx hpx w hw heq.symm
          rw [hty, htypex] at this
          exact absurd this (by decide))
      (by subst hsc; exact hfc) (by subst hsc; exact Nat.zero_le 5)
    subst hsc
    refine ⟨_, hend, ?_⟩
    have hmo := hget o.standard
    have hmx := hget ox.standard
    have hdiff' : ¬ ox.standard = o.standard := fun e => hdiff e.symm
    simp only [args_parse_begin, hentry, recorded_values, hspell, if_true, if_false, hdiff']
      at hmo
    simp only [args_parse_begin, hentryx, recorded_values, hspell, if_true, if_false, hdiff]
      at hmx
    simp [args_opts_used, args_opts_get, args_opts_get_count, hmo, hmx, recorded, blank,
      args_parse_begin]
  · intro hunreg hmodex
    have hnone := registry_unbound program alternative abbreviations options [DASH, x] hunreg
    have hmodex' : (registry program alternative abbreviations options).args_alternative = false ∨
        (x ≠ EQUALS ∧
          (registry program alternative abbreviations options).args_abbreviations = none) := by
      rw [halt, habbr]; exact hmodex
    obtain ⟨sc, hsc, hloop⟩ : ∃ sc, sc = _ ∧ _ = Except.ok sc :=
      ⟨_, rfl, args_parse_loop_rejected_unknown
        (registry program alternative abbreviations options) oc x i
        { o with help := help } pred hoc hx hmode' hmap hopt htype hpred hrej hnone hmodex' fuel⟩
    rw [args_parse_of_loop _ _ _ _ _ hloop]
    obtain ⟨m, hend, -, hget⟩ := args_parse_end_shape sc (fun _ => o.standard)
      (by
        subst hsc
        intro s hs'
        simp only [List.mem_singleton] at hs'
        subst hs'
        exact ⟨i, { o with help := help }, hmap, hopt, rfl, hcont⟩)
      (by subst hsc; exact registry_tidy program alternative abbreviations options)
      (by
        subst hsc
        intro w hw hty
        exact ⟨registry_unused program alternative abbreviations options w.standard,
          fun s _ heq => hvar w hw hty heq⟩)
      (by subst hsc; exact hfc) (by subst hsc; show (1 : Nat) ≤ 5; decide)
    subst hsc
    refine ⟨_, hend, ?_⟩
    have hmo := hget o.standard
    simp only [args_parse_begin, hentry, recorded_values, if_true] at hmo
    simp [args_opts_used, args_opts_get, hmo, recorded, blank]

/-- C9, amended, at the registry with `-o` (default stickless predicate) and the
Argumentless `-a`: the tokens `[-o, -a]`, and the tokens `[-o, -z]` with the
unregistered `-z`. -/
theorem args_parse_rejected_token_reprocessed_witness :
    no_shared_spelling [(opt_o, none), (flag_a, none)] ∧
    canonical_listed [(opt_o, none), (flag_a, none)] ∧
    (opt_o, none) ∈ [(opt_o, (none : Option CStr)), (flag_a, none)] ∧
    opt_o.type = OPTARGUMENTED ∧ opt_o.stickless = some default_stickless ∧
    (111 : Byte) ≠ DASH ∧ (97 : Byte) ≠ DASH ∧ (122 : Byte) ≠ DASH ∧
    (false = false ∨ (111 : Byte) ≠ EQUALS) ∧
    ([DASH, 111] : CStr) ∈ opt_o.alternatives ∧
    default_stickless [DASH, 97] = false ∧ default_stickless [DASH, 122] = false ∧
    (∃ st', args_parse (0 + 2) (registry none false none [(opt_o, none), (flag_a, none)])
        [[112], [DASH, 111], [DASH, 97]] = .ok (true, st') ∧
      args_opts_used st' flag_a.standard = true ∧
      args_opts_get st' flag_a.standard = some [none] ∧
      args_opts_get_count st' flag_a.standard = 1 ∧
      args_opts_used st' opt_o.standard = true ∧
      args_opts_get st' opt_o.standard = some [none] ∧
      st'.args_unrecognised_count = 0) ∧
    (∃ st', args_parse (0 + 2) (registry none false none [(opt_o, none), (flag_a, none)])
        [[112], [DASH, 111], [DASH, 122]] = .ok (false, st') ∧
      st'.args_unrecognised_count = 1 ∧
      args_opts_used st' opt_o.standard = true ∧
      args_opts_get st' opt_o.standard = some [none]) :=
  have h1 : no_shared_spelling [(opt_o, none), (flag_a, none)] := by
    simp [no_shared_spelling, opt_o, flag_a]
  have h2 : canonical_listed [(opt_o, none), (flag_a, none)] := by
    simp [canonical_listed, opt_o, flag_a]
  have h3 : (opt_o, none) ∈ [(opt_o, (none : Option CStr)), (flag_a, none)] := by simp
  have h4 : ([DASH, 111] : CStr) ∈ opt_o.alternatives := by simp [opt_o]
  have h5 : (111 : Byte) ≠ DASH := by decide
  have h6 : (97 : Byte) ≠ DASH := by decide
  have h7 : (122 : Byte) ≠ DASH := by decide
  have h8 : default_stickless [DASH, 97] = false := by decide
  have h9 : default_stickless [DASH, 122] = false := by decide
  ⟨h1, h2, h3, rfl, rfl, h5, h6, h7, Or.inl rfl, h4, h8, h9,
    (args_parse_rejected_token_reprocessed none false none [(opt_o, none), (flag_a, none)]
      h1 h2 opt_o none h3 rfl default_stickless rfl 111 97 h5 h6 (Or.inl rfl) h4 h8 [112] 0).1
      flag_a none (by simp) (by simp [flag_a]) rfl,
    (args_parse_rejected_token_reprocessed none false none [(opt_o, none), (flag_a, none)]
      h1 h2 opt_o none h3 rfl default_stickless rfl 111 122 h5 h7 (Or.inl rfl) h4 h9 [112] 0).2
      (by simp [opt_o, flag_a]) (Or.inl rfl)⟩

/-! ## The scanner on an arbitrary token -/

theorem succeeds_ok {α : Type} (p : α → Prop) (a : α) : succeeds p (.ok a) ↔ p a := Iff.rfl

theorem succeeds_pure {α : Type} (p : α → Prop) (a : α) :
    succeeds p (pure a : Except Fault α) ↔ p a := Iff.rfl

theorem succeeds_error {α : Type} (p : α → Prop) (e : Fault) :
    succeeds p (.error e : Except Fault α) ↔ False := Iff.rfl

theorem succeeds_bind {α β : Type} (p : β → Prop) (x : Except Fault α)
    (f : α → Except Fault β) :
    succeeds p (x >>= f) ↔ succeeds (fun a => succeeds p (f a)) x := by
  cases x <;> rfl

theorem succeeds_mono {α : Type} {p q : α → Prop} {x : Except Fault α} (h : succeeds p x)
    (hpq : ∀ a, p a → q a) : succeeds q x := by
  cases x with
  | error e => exact h
  | ok a => exact hpq a h

theorem continues_refl (sc : Scan) : continues sc sc := ⟨⟨[], by simp⟩, ⟨[], by simp⟩⟩

theorem continues_trans {a b c : Scan} (h1 : continues a b) (h2 : continues b c) :
    continues a c := by
  obtain ⟨⟨x, hx⟩, ⟨y, hy⟩⟩ := h1
  obtain ⟨⟨x', hx'⟩, ⟨y', hy'⟩⟩ := h2
  exact ⟨⟨x ++ x', by rw [hx', hx, List.append_assoc]⟩,
    ⟨y ++ y', by rw [hy', hy, List.append_assoc]⟩⟩

theorem args_optmap_contains_congr {st st' : State} (h : st'.args_optmap = st.args_optmap)
    (s : CStr) : args_optmap_contains st' s = args_optmap_contains st s := by
  simp [args_optmap_contains, args_optmap_get_index, h]

theorem args_optmap_bound_of_contains {st : State} (hr : index_in_range st) {s : CStr}
    (h : args_optmap_contains st s = true) :
    ∃ j o, map_get st.args_optmap s = some (j + 1) ∧ st.args_options[j]? = some o := by
  cases hm : map_get st.args_optmap s with
  | none => simp [args_optmap_contains, args_optmap_get_index, hm] at h
  | some v =>
    have hle := hr s v hm
    cases v with
    | zero => simp [args_optmap_contains, args_optmap_get_index, hm] at h
    | succ j =>
      have hlt : j < st.args_options.length := hle
      exact ⟨j, st.args_options[j], rfl, by simp [hlt]⟩

theorem scanned_bound {st0 : State} {sc : Scan} (hr : index_in_range st0)
    (hg : scanned st0 sc) {s : CStr} (h : args_optmap_contains sc.st s = true) :
    ∃ j o, map_get sc.st.args_optmap s = some (j + 1) ∧ sc.st.args_options[j]? = some o ∧
      args_optmap_contains st0 s = true := by
  obtain ⟨h1, h2, -⟩ := hg
  have h' : args_optmap_contains st0 s = true := by
    rw [← args_optmap_contains_congr h1 s]; exact h
  obtain ⟨j, o, hm, ho⟩ := args_optmap_bound_of_contains hr h'
  exact ⟨j, o, by rw [h1]; exact hm, by rw [h2]; exact ho, h'⟩

theorem scanned_file {st0 : State} {sc : Scan} (hg : scanned st0 sc) (arg : CStr) :
    scanned st0 (args_parse_file sc arg) ∧ continues sc (args_parse_file sc arg) ∧
    (args_parse_file sc arg).injection = sc.injection ∧
    (args_parse_file sc arg).get = sc.get := by
  obtain ⟨h1, h2, h3, h4, h5, h6, ⟨files, hf, hc⟩, h8⟩ := hg
  have hlen : sc.st.args_files.length = sc.st.args_files_count := by rw [hf, hc]; simp
  rw [args_parse_file_eq sc arg hlen]
  refine ⟨⟨h1, h2, h3, h4, h5, h6, ⟨files ++ [arg], ?_, ?_⟩, h8⟩, continues_refl _, rfl, rfl⟩
  · simp [hf]
  · simp [hc]

theorem scanned_unrecognised {st0 : State} {sc : Scan} (hg : scanned st0 sc) (shown : CStr) :
    scanned st0 (args_parse_unrecognised sc shown) ∧
    continues sc (args_parse_unrecognised sc shown) ∧
    (args_parse_unrecognised sc shown).injection = sc.injection ∧
    (args_parse_unrecognised sc shown).get = sc.get := by
  obtain ⟨h1, h2, h3, h4, h5, h6, h7, h8⟩ := hg
  exact ⟨⟨h1, h2, h3, h4, h5, h6, h7, h8⟩, continues_refl _, rfl, rfl⟩

theorem scanned_trigger {st0 : State} {sc : Scan} (hr : index_in_range st0)
    (hg : scanned st0 sc) (hinj : sc.injection = none) {s : CStr}
    (hc : args_optmap_contains sc.st s = true) (value : Option CStr) :
    ∃ st1, args_optmap_trigger sc.st s value = .ok st1 ∧
      ∀ (args : List (Option CStr)) (dashed : Bool) (get dontget : Nat), dontget = 0 →
        scanned st0 { sc with st := st1, dashed := dashed, get := get, dontget := dontget
                              optqueue := sc.optqueue ++ [s]
                              argqueue := sc.argqueue ++ args } ∧
        continues sc { sc with st := st1, dashed := dashed, get := get, dontget := dontget
                               optqueue := sc.optqueue ++ [s]
                               argqueue := sc.argqueue ++ args } ∧
        (st0.args_abbreviations = none → sc.injection = none) := by
  obtain ⟨j, o, hmap, hopt, hc0⟩ := scanned_bound hr hg hc
  obtain ⟨h1, h2, h3, h4, h5, h6, h7, h8⟩ := hg
  refine ⟨_, args_optmap_trigger_lookup hmap hopt value, ?_⟩
  intro args dashed get dontget hd
  refine ⟨⟨h1, h2, h3, h4, hd, ?_, h7, fun h => absurd hinj h⟩, ⟨⟨[s], rfl⟩, ⟨args, rfl⟩⟩,
    fun _ => hinj⟩
  intro s' hs'
  rcases List.mem_append.mp hs' with h | h
  · exact h6 s' h
  · simp only [List.mem_singleton] at h
    rw [h]; exact hc0

theorem scanned_defer {st0 : State} {sc : Scan} (hr : index_in_range st0)
    (hg : scanned st0 sc) (hinj : sc.injection = none) {s : CStr}
    (hc : args_optmap_contains sc.st s = true) (get dontget : Nat) (hd : dontget = 0) :
    scanned st0 { sc with optqueue := sc.optqueue ++ [s], get := get, dontget := dontget } ∧
    continues sc { sc with optqueue := sc.optqueue ++ [s], get := get, dontget := dontget } ∧
    (st0.args_abbreviations = none → sc.injection = none) := by
  obtain ⟨j, o, hmap, hopt, hc0⟩ := scanned_bound hr hg hc
  obtain ⟨h1, h2, h3, h4, h5, h6, h7, h8⟩ := hg
  refine ⟨⟨h1, h2, h3, h4, hd, ?_, h7, fun h => absurd hinj h⟩, ⟨⟨[s], rfl⟩, ⟨[], by simp⟩⟩,
    fun _ => hinj⟩
  intro s' hs'
  rcases List.mem_append.mp hs' with h | h
  · exact h6 s' h
  · simp only [List.mem_singleton] at h
    rw [h]; exact hc0

theorem scanned_abbreviations {st0 : State} {sc : Scan} (hg : scanned st0 sc)
    (hget : sc.get = 0) (hinj : sc.injection = none) (arg shown : CStr) :
    succeeds (fun sc1 => scanned st0 sc1 ∧ continues sc sc1 ∧
        (st0.args_abbreviations = none → sc1.injection = none))
      (match args__abbreviations sc.st arg with
        | some injection => (pure { sc with injection := some injection } : Except Fault Scan)
        | none => pure (args_parse_unrecognised sc shown)) := by
  cases ha : args__abbreviations sc.st arg with
  | none =>
    obtain ⟨a, b, c, -⟩ := scanned_unrecognised hg shown
    exact ⟨a, b, fun _ => by rw [c]; exact hinj⟩
  | some inj =>
    obtain ⟨h1, h2, h3, h4, h5, h6, h7, h8⟩ := hg
    refine ⟨⟨h1, h2, h3, h4, h5, h6, h7, fun _ => hget⟩, continues_refl _, ?_⟩
    intro hnone
    simp [args__abbreviations, h4, hnone] at ha

theorem args_parse_long_unmatched_scanned {st0 : State} {sc : Scan} (hg : scanned st0 sc)
    (hget : sc.get = 0) (hinj : sc.injection = none) (arg arg_opt : CStr) (eq : Nat) :
    scanned st0 (args_parse_long_unmatched sc arg arg_opt eq) ∧
    continues sc (args_parse_long_unmatched sc arg arg_opt eq) ∧
    (st0.args_abbreviations = none →
      (args_parse_long_unmatched sc arg arg_opt eq).injection = none) := by
  unfold args_parse_long_unmatched
  cases ha : args__abbreviations sc.st arg_opt with
  | none =>
    obtain ⟨a, b, c, -⟩ := scanned_unrecognised hg arg_opt
    exact ⟨a, b, fun _ => by rw [c]; exact hinj⟩
  | some inj =>
    obtain ⟨h1, h2, h3, h4, h5, h6, h7, h8⟩ := hg
    refine ⟨⟨h1, h2, h3, h4, h5, h6, h7, fun _ => hget⟩, continues_refl _, ?_⟩
    intro hnone
    simp [args__abbreviations, h4, hnone] at ha

theorem args_parse_long_scanned {st0 : State} {sc : Scan} (hr : index_in_range st0)
    (hg : scanned st0 sc) (hget : sc.get = 0) (hinj : sc.injection = none) (arg : CStr) :
    succeeds (fun sc1 => scanned st0 sc1 ∧ continues sc sc1 ∧
        (st0.args_abbreviations = none → sc1.injection = none))
      (args_parse_long sc arg) := by
  have hdont : sc.dontget = 0 := hg.2.2.2.2.1
  have hunm := fun (a : CStr) (n : Nat) => args_parse_long_unmatched_scanned hg hget hinj arg a n
  have h100 : ¬ (100 : Nat) = ARGUMENTLESS := by decide
  have h100a : ¬ (100 : Nat) ≤ OPTARGUMENTED := by decide
  have h100b : ¬ (100 : Nat) = VARIADIC := by decide
  by_cases hc : args_optmap_contains sc.st arg = true
  · obtain ⟨j, o, hmap, hopt, hc0⟩ := scanned_bound hr hg hc
    obtain ⟨-, -, htyp, -⟩ := args_optmap_lookup hmap hopt
    obtain ⟨st1, hst1, hP1⟩ := scanned_trigger hr hg hinj hc none
    simp only [args_parse_long, hdont, hc, htyp, bind, Except.bind, pure, Except.pure,
      Nat.le_refl, and_self, if_true, Nat.lt_irrefl, if_false, true_and, hst1]
    split_ifs with ht heq hc2
    · exact hP1 _ _ _ _ rfl
    · obtain ⟨j2, o2, hmap2, hopt2, -⟩ := scanned_bound hr hg hc2
      obtain ⟨-, -, htyp2, -⟩ := args_optmap_lookup hmap2 hopt2
      simp only [htyp2]
      split_ifs
      · obtain ⟨st2, hst2, hP2⟩ := scanned_trigger hr hg hinj hc2 none
        simp only [hst2]
        exact hP2 _ _ _ _ rfl
      · obtain ⟨st2, hst2, hP2⟩ := scanned_trigger hr hg hinj hc2
          (some (List.drop (find_eq arg + 1) arg))
        simp only [hst2]
        exact hP2 _ _ _ _ rfl
      · exact hunm _ _
    · exact hunm _ _
    · exact scanned_defer hr hg hinj hc _ _ rfl
    · exact hP1 _ _ _ _ rfl
    · have := scanned_abbreviations hg hget hinj arg arg
      simp only [hdont] at this
      exact this
  · simp only [args_parse_long, hdont, hc, bind, Except.bind, pure, Except.pure,
      Nat.le_refl, and_self, if_true, Nat.lt_irrefl, if_false, true_and, and_false, h100, h100a,
      h100b, ne_eq, not_false_eq_true, Bool.false_eq_true]
    split_ifs with heq hc2
    · obtain ⟨j2, o2, hmap2, hopt2, -⟩ := scanned_bound hr hg hc2
      obtain ⟨-, -, htyp2, -⟩ := args_optmap_lookup hmap2 hopt2
      simp only [htyp2]
      split_ifs
      · obtain ⟨st2, hst2, hP2⟩ := scanned_trigger hr hg hinj hc2 none
        simp only [hst2]
        exact hP2 _ _ _ _ rfl
      · obtain ⟨st2, hst2, hP2⟩ := scanned_trigger hr hg hinj hc2
          (some (List.drop (find_eq arg + 1) arg))
        simp only [hst2]
        exact hP2 _ _ _ _ rfl
      · exact hunm _ _
    · exact hunm _ _
    · have := scanned_abbreviations hg hget hinj arg arg
      simp only [hdont] at this
      exact this

theorem args_parse_bundle_scanned {st0 : State} (hr : index_in_range st0) (arg : CStr)
    (sign : Byte) (rest : CStr) :
    ∀ sc : Scan, scanned st0 sc → sc.injection = none →
      succeeds (fun sc1 => scanned st0 sc1 ∧ continues sc sc1 ∧ sc1.injection = none)
        (args_parse_bundle arg sign sc rest) := by
  induction rest with
  | nil =>
    intro sc hg hinj
    exact ⟨hg, continues_refl _, hinj⟩
  | cons c rest ih =>
    intro sc hg hinj
    have hdont : sc.dontget = 0 := hg.2.2.2.2.1
    rw [args_parse_bundle]
    by_cases hc : args_optmap_contains sc.st [sign, c] = true
    · obtain ⟨j, o, hmap, hopt, hc0⟩ := scanned_bound hr hg hc
      obtain ⟨-, -, htyp, -⟩ := args_optmap_lookup hmap hopt
      simp only [hc, htyp, bind, Except.bind, pure, Except.pure, if_true]
      split_ifs with ht hlt hrest hrest
      · obtain ⟨st1, hst1, hP1⟩ := scanned_trigger hr hg hinj hc none
        simp only [hst1]
        obtain ⟨a, b, -⟩ := hP1 [none] sc.dashed sc.get sc.dontget hdont
        exact succeeds_mono (ih _ a hinj) (fun x hx => ⟨hx.1, continues_trans b hx.2.1, hx.2.2⟩)
      · obtain ⟨st1, hst1, hP1⟩ := scanned_trigger hr hg hinj hc (some rest)
        simp only [hst1]
        obtain ⟨a, b, -⟩ := hP1 [some rest] sc.dashed sc.get sc.dontget hdont
        exact ⟨a, b, hinj⟩
      · obtain ⟨a, b, -⟩ := scanned_defer hr hg hinj hc (sc.get + 1) sc.dontget hdont
        exact ⟨a, b, hinj⟩
      · obtain ⟨st1, hst1, hP1⟩ := scanned_trigger hr hg hinj hc none
        simp only [hst1]
        obtain ⟨a, b, -⟩ := hP1 [some rest] true sc.get sc.dontget hdont
        exact ⟨a, b, hinj⟩
      · obtain ⟨st1, hst1, hP1⟩ := scanned_trigger hr hg hinj hc none
        simp only [hst1]
        obtain ⟨a, b, -⟩ := hP1 [] true sc.get sc.dontget hdont
        simp only [List.append_nil] at a b
        exact ⟨a, b, hinj⟩
    · simp only [hc, if_false, Bool.false_eq_true]
      obtain ⟨a, b, c1, -⟩ := scanned_unrecognised hg arg
      exact succeeds_mono (ih _ a (by rw [c1]; exact hinj))
        (fun x hx => ⟨hx.1, continues_trans b hx.2.1, hx.2.2⟩)

theorem args_parse_dispatch_scanned {st0 : State} {sc : Scan} (hr : index_in_range st0)
    (hg : scanned st0 sc) (hget : sc.get = 0) (hinj : sc.injection = none) (arg : CStr) :
    succeeds (fun sc1 => scanned st0 sc1 ∧ continues sc sc1 ∧
        (st0.args_abbreviations = none → sc1.injection = none))
      (args_parse_dispatch sc arg) := by
  obtain ⟨fa, fb, fc, -⟩ := scanned_file hg arg
  have hfile : scanned st0 (args_parse_file sc arg) ∧ continues sc (args_parse_file sc arg) ∧
      (st0.args_abbreviations = none → (args_parse_file sc arg).injection = none) :=
    ⟨fa, fb, fun _ => by rw [fc]; exact hinj⟩
  obtain ⟨h1, h2, h3, h4, h5, h6, h7, h8⟩ := hg
  unfold args_parse_dispatch
  split_ifs
  · obtain ⟨g1, g2, g3, g4, g5, g6, g7, g8⟩ := fa
    exact ⟨⟨g1, g2, g3, g4, g5, g6, g7, g8⟩, fb, fun _ => by rw [← hinj, ← fc]⟩
  · exact hfile
  · exact ⟨⟨h1, h2, h3, h4, h5, h6, h7, h8⟩, continues_refl _, fun _ => hinj⟩
  · exact ⟨⟨h1, h2, h3, h4, h5, h6, h7, h8⟩, continues_refl _, fun _ => hinj⟩
  · exact args_parse_long_scanned hr ⟨h1, h2, h3, h4, h5, h6, h7, h8⟩ hget hinj arg
  · exact succeeds_mono
      (args_parse_bundle_scanned hr arg (byteAt arg 0) (arg.drop 1) sc
        ⟨h1, h2, h3, h4, h5, h6, h7, h8⟩ hinj)
      (fun x hx => ⟨hx.1, hx.2.1, fun _ => hx.2.2⟩)
  · exact hfile

theorem args_parse_variadic_total (files : List CStr) (std : CStr) (options : List args_Option)
    (st : State)
    (hfiles : st.args_files = files.map some) (hcount : st.args_files_count = files.length)
    (ht : tidy st.args_opts)
    (hused : ∀ n a, map_get st.args_opts n = some a → a.used = true →
      ∃ first more, a.values = some (first :: more))
    (hstd : ∀ o ∈ options, o.type = VARIADIC → o.standard ≠ std) :
    ∃ st2, args_parse_variadic st options = .ok st2 ∧
      map_get st2.args_opts std = map_get st.args_opts std ∧
      st2.args_files = st.args_files ∧
      (st2.args_files_count = 0 ∨ st2.args_files_count = st.args_files_count) := by
  induction options with
  | nil => exact ⟨st, rfl, rfl, rfl, Or.inr rfl⟩
  | cons w rest ih =>
    rw [args_parse_variadic]
    by_cases hw : w.type = VARIADIC ∧ args_opts_used st w.standard = true
    · have hne : std ≠ w.standard := fun e => hstd w (by simp) hw.1 e.symm
      obtain ⟨a, ha, hau⟩ : ∃ a, map_get st.args_opts w.standard = some a ∧ a.used = true := by
        have := hw.2
        simp only [args_opts_used] at this
        cases hm : map_get st.args_opts w.standard with
        | none => simp [hm] at this
        | some a => exact ⟨a, rfl, by simpa [hm] using this⟩
      obtain ⟨first, more, hval⟩ := hused _ a ha hau
      have hget : args_opts_get st w.standard = some (first :: more) := by
        simp [args_opts_get, ha, hval]
      obtain ⟨m, hm, hgm⟩ := args_opts_clear_shape st w.standard
      obtain ⟨st1, hst1, hst1f, hst1c, hst1t, hst1g⟩ : ∃ st1 : State,
          st1 = (if first = none then args_opts_clear st w.standard else st) ∧
          st1.args_files = st.args_files ∧ st1.args_files_count = st.args_files_count ∧
          tidy st1.args_opts ∧ map_get st1.args_opts std = map_get st.args_opts std := by
        refine ⟨_, rfl, ?_⟩
        by_cases hf : first = none
        · simp only [hf, if_true, hm]
          refine ⟨trivial, trivial, ?_, ?_⟩
          · intro n b hnb
            rw [hgm] at hnb
            by_cases hn : n = w.standard
            · simp only [hn, if_true, Option.some.injEq] at hnb
              subst hnb; rfl
            · simp only [hn, if_false] at hnb
              exact ht n b hnb
          · rw [hgm]; simp [hne]
        · simp only [hf, if_false]
          exact ⟨trivial, trivial, ht, trivial⟩
      have hpeek : peek_all st1.args_files st1.args_files_count = .ok files := by
        rw [hst1f, hst1c, hfiles, hcount]
        have := peek_all_map_some files []
        simpa using this
      obtain ⟨m3, habsorb, -, hget3⟩ := args_parse_absorb_shape w.standard files st1 hst1t
      simp only [hw, and_self, if_true, hget, bind, Except.bind, pure, Except.pure, ← hst1,
        hpeek, habsorb]
      refine ⟨_, rfl, ?_, hst1f, Or.inl rfl⟩
      show map_get m3 std = _
      rw [hget3]
      simp [hne, hst1g]
    · simp only [hw, if_false]
      exact ih (fun o ho => hstd o (by simp [ho]))

theorem args_parse_message_total (files : List CStr) (st : State)
    (hfiles : st.args_files = files.map some)
    (hcount : st.args_files_count = 0 ∨ st.args_files_count = files.length) :
    ∃ message, args_parse_message st = .ok { st with args_message := message } := by
  unfold args_parse_message
  split_ifs with h
  · rcases hcount with h0 | h1
    · omega
    · have hpeek : peek_all st.args_files st.args_files_count = .ok files := by
        rw [hfiles, h1]
        have := peek_all_map_some files []
        simpa using this
      simp only [hpeek, bind, Except.bind, pure, Except.pure]
      exact ⟨_, rfl⟩
  · exact ⟨none, rfl⟩

theorem args_parse_end_total {st0 : State} (hr : index_in_range st0)
    (hcont : ∀ o ∈ st0.args_options, args_optmap_contains st0 o.standard = true)
    (ht : tidy st0.args_opts)
    (hunused : ∀ n a, map_get st0.args_opts n = some a → a.used = false)
    (std : CStr) (hvar : ∀ o ∈ st0.args_options, o.type = VARIADIC → o.standard ≠ std)
    (sc : Scan) (hg : scanned st0 sc) :
    ∃ st1, args_parse_end sc = .ok (sc.rc, st1) ∧
      map_get st1.args_opts std =
        recorded (map_get st0.args_opts std)
          (recorded_values (canonical st0) sc.argqueue std 0 sc.optqueue) := by
  obtain ⟨h1, h2, h3, h4, h5, h6, ⟨files, hf, hc⟩, h8⟩ := hg
  obtain ⟨m1, hrec, htm1, hget1⟩ := args_parse_record_shape sc.argqueue (canonical st0)
    sc.optqueue sc.st 0
    (by
      intro s hs
      obtain ⟨j, o, hmap, hopt⟩ := args_optmap_bound_of_contains hr (h6 s hs)
      have hstd := (args_optmap_lookup hmap hopt).2.2.2
      have hcan : canonical st0 s = o.standard := by simp [canonical, hstd]
      refine ⟨j, o, by rw [h1]; exact hmap, by rw [h2]; exact hopt, hcan.symm, ?_⟩
      rw [args_optmap_contains_congr h1, hcan]
      exact hcont o (List.getElem?_mem hopt))
    (by rw [h3]; exact ht)
  obtain ⟨st1, hst1⟩ : ∃ st1 : State, st1 =
      { sc.st with args_opts := m1
                   calls := sc.st.calls ++ late_calls (canonical st0) sc.argqueue 0 sc.optqueue } :=
    ⟨_, rfl⟩
  rw [← hst1] at hrec
  have hst1_opts : st1.args_opts = m1 := by rw [hst1]
  have hst1_files : st1.args_files = files.map some := by rw [hst1]; exact hf
  have hst1_count : st1.args_files_count = files.length := by rw [hst1]; exact hc
  have hst1_options : st1.args_options = st0.args_options := by rw [hst1]; exact h2
  obtain ⟨st2, hvar2, hget2, hfiles2, hcount2⟩ := args_parse_variadic_total files std
    st1.args_options st1 hst1_files hst1_count (by rw [hst1_opts]; exact htm1)
    (by
      intro n a hna hau
      rw [hst1_opts, hget1, h3] at hna
      by_cases hv : recorded_values (canonical st0) sc.argqueue n 0 sc.optqueue = []
      · simp only [recorded, hv, if_true] at hna
        rw [hunused n a hna] at hau
        exact absurd hau (by simp)
      · simp only [recorded, hv, if_false, Option.some.injEq] at hna
        subst hna
        cases hl : (((map_get st0.args_opts n).getD blank).values.getD [] ++
            recorded_values (canonical st0) sc.argqueue n 0 sc.optqueue) with
        | nil => simp at hl; exact absurd hl.2 hv
        | cons first more => exact ⟨first, more, rfl⟩)
    (by rw [hst1_options]; exact hvar)
  obtain ⟨message, hmsg⟩ := args_parse_message_total files st2
    (by rw [hfiles2]; exact hst1_files) (by rw [← hst1_count]; exact hcount2)
  simp only [args_parse_end, hrec, bind, Except.bind, hvar2, hmsg, pure, Except.pure]
  refine ⟨_, rfl, ?_⟩
  have hsum : ∀ s : State, (args_parse_summary s).args_opts = s.args_opts := by
    intro s
    unfold args_parse_summary
    split_ifs <;> rfl
  rw [hsum]
  show map_get st2.args_opts std = _
  rw [hget2, hst1_opts, hget1, h3]

theorem registry_index_in_range (program : Option CStr) (alternative : Bool)
    (abbreviations : Option (CStr → List CStr → Nat → Option CStr))
    (options : List (args_Option × Option CStr)) (hns : no_shared_spelling options) :
    index_in_range (registry program alternative abbreviations options) := by
  obtain ⟨om, os, hreg, hnone, hsome, -⟩ := registry_shape program alternative abbreviations options
  intro s v hv
  rw [hreg] at hv ⊢
  simp only [List.length_map] at hv ⊢
  by_cases h : ∀ p ∈ options, s ∉ p.1.alternatives
  · rw [hnone s h] at hv
    exact absurd hv (by simp)
  · push_neg at h
    obtain ⟨p, hp, hsp⟩ := h
    obtain ⟨i, hi, hpi⟩ := List.getElem_of_mem hp
    have hget : options[i]? = some p := by rw [List.getElem?_eq_getElem hi, hpi]
    rw [hsome hns i p s hget hsp] at hv
    simp only [Option.some.injEq] at hv
    omega

theorem args_parse_begin_scanned (program : Option CStr) (alternative : Bool)
    (abbreviations : Option (CStr → List CStr → Nat → Option CStr))
    (options : List (args_Option × Option CStr)) (tokens : List CStr) :
    scanned (args_parse_begin (registry program alternative abbreviations options) tokens).st
      (args_parse_begin (registry program alternative abbreviations options) tokens) := by
  refine ⟨rfl, rfl, rfl, rfl, rfl, ?_, ⟨[], rfl, ?_⟩, fun h => absurd rfl h⟩
  · intro s hs
    exact absurd hs (List.not_mem_nil s)
  · exact (registry_fields program alternative abbreviations options).2.2.1

theorem args_parse_dispatch_terminator (sc : Scan) (ht : sc.tmpdashed = false)
    (hd : sc.dashed = false) :
    args_parse_dispatch sc [DASH, DASH] = .ok { sc with dashed := true } := by
  have hdp : (DASH : Byte) ≠ PLUS := by decide
  simp [args_parse_dispatch, ht, hd, byteAt, nulAt, hdp]
  rfl

theorem args_parse_end_files (sc : Scan) (files : List CStr)
    (hq : sc.optqueue = [])
    (hunused : ∀ n, args_opts_used sc.st n = false)
    (hfiles : sc.st.args_files = files.map some)
    (hcount : sc.st.args_files_count = files.length) :
    ∃ message, args_parse_end sc =
      .ok (sc.rc, args_parse_summary { sc.st with args_message := message }) := by
  obtain ⟨message, hmsg⟩ := args_parse_message_total files sc.st hfiles (Or.inr hcount)
  refine ⟨message, ?_⟩
  simp only [args_parse_end, hq, args_parse_record, bind, Except.bind, pure, Except.pure,
    args_parse_variadic_none sc.st sc.st.args_options (fun o _ _ => hunused o.standard), hmsg]

theorem args_parse_summary_fields (st : State) :
    (args_parse_summary st).args_opts = st.args_opts ∧
    (args_parse_summary st).args_files = st.args_files ∧
    (args_parse_summary st).args_files_count = st.args_files_count ∧
    (args_parse_summary st).args_unrecognised_count = st.args_unrecognised_count ∧
    (args_parse_summary st).args_message = st.args_message ∧
    (args_parse_summary st).calls = st.calls := by
  unfold args_parse_summary
  split_ifs <;> exact ⟨rfl, rfl, rfl, rfl, rfl, rfl⟩

/-- C11: for every registry, every list `ts` of tokens and every bound on the
loop iterations that allows one iteration per token, parsing `["--"] ++ ts` on
the fresh instance returns true, leaves no entry of the results store marked
as used, and leaves the positional files exactly `ts`, in order, with the
count `ts.length`, whatever the tokens of `ts` are. -/
theorem args_parse_terminator_all_files (program : Option CStr) (alternative : Bool)
    (abbreviations : Option (CStr → List CStr → Nat → Option CStr))
    (options : List (args_Option × Option CStr)) (exe : CStr) (ts : List CStr) (fuel : Nat) :
    ∃ st1, args_parse (fuel + ts.length + 1) (registry program alternative abbreviations options)
        (exe :: [DASH, DASH] :: ts) = .ok (true, st1) ∧
      (∀ n, args_opts_used st1 n = false) ∧
      st1.args_files = ts.map some ∧
      st1.args_files_count = ts.length ∧
      st1.args_unrecognised_count = 0 := by
  obtain ⟨-, -, hfc, -, -, -⟩ := registry_fields program alternative abbreviations options
  obtain ⟨sc, hsc⟩ : ∃ sc : Scan, sc =
      args_parse_begin (registry program alternative abbreviations options)
        ([DASH, DASH] :: ts) := ⟨_, rfl⟩
  obtain ⟨sc2, hsc2⟩ : ∃ sc2 : Scan, sc2 =
      { sc with dashed := true
                st := { sc.st with args_files := sc.st.args_files ++ ts.map some
                                   args_files_count := sc.st.args_files_count + ts.length } } :=
    ⟨_, rfl⟩
  have hloop : args_parse_loop (fuel + ts.length + 1) sc ([DASH, DASH] :: ts) = .ok sc2 := by
    rw [args_parse_loop_cons _ _ _ _ (by rw [hsc]; rfl),
      args_parse_token_idle _ _ (by rw [hsc]; rfl),
      args_parse_dispatch_terminator _ (by rw [hsc]; rfl) (by rw [hsc]; rfl)]
    simp only [Except.bind]
    rw [args_parse_loop_dashed fuel ts _ (by rw [hsc]; rfl) (by rw [hsc]; rfl) (by rw [hsc]; rfl)
      rfl (by rw [hsc]; exact hfc.symm), hsc2]
  rw [hsc] at hloop
  rw [args_parse_of_loop _ _ _ _ _ hloop]
  have e_rc : sc2.rc = true := by rw [hsc2, hsc]; rfl
  have e_opts : sc2.st.args_opts = (registry program alternative abbreviations options).args_opts := by
    rw [hsc2, hsc]; rfl
  have e_files : sc2.st.args_files = ts.map some := by
    rw [hsc2, hsc]; simp [args_parse_begin]
  have e_count : sc2.st.args_files_count = ts.length := by
    rw [hsc2, hsc]; simp [args_parse_begin, hfc]
  have e_un : sc2.st.args_unrecognised_count = 0 := by rw [hsc2, hsc]; rfl
  have hunused : ∀ n, args_opts_used sc2.st n = false := by
    intro n
    simp only [args_opts_used, e_opts]
    exact registry_unused program alternative abbreviations options n
  obtain ⟨message, hend⟩ := args_parse_end_files sc2 ts (by rw [hsc2, hsc]; rfl) hunused
    e_files e_count
  rw [hend, e_rc]
  obtain ⟨f1, f2, f3, f4, -, -⟩ := args_parse_summary_fields
    { sc2.st with args_message := message }
  refine ⟨_, rfl, ?_, ?_, ?_, ?_⟩
  · intro n
    simp only [args_opts_used, f1]
    exact hunused n
  · rw [f2]; exact e_files
  · rw [f3]; exact e_count
  · rw [f4]; exact e_un

theorem args_parse_unrecognised_fold (ts : List CStr) :
    ∀ sc : Scan,
      (ts.foldl args_parse_unrecognised sc).st.args_unrecognised_count
        = sc.st.args_unrecognised_count + ts.length ∧
      (ts.foldl args_parse_unrecognised sc).st.args_out
        = sc.st.args_out ++
          (ts.take (5 - sc.st.args_unrecognised_count)).map
            (Line.unrecognised sc.st.args_program) ∧
      (ts.foldl args_parse_unrecognised sc).rc = (decide (ts = []) && sc.rc) ∧
      (ts.foldl args_parse_unrecognised sc).optqueue = sc.optqueue ∧
      (ts.foldl args_parse_unrecognised sc).st.args_opts = sc.st.args_opts ∧
      (ts.foldl args_parse_unrecognised sc).st.args_options = sc.st.args_options ∧
      (ts.foldl args_parse_unrecognised sc).st.args_files = sc.st.args_files ∧
      (ts.foldl args_parse_unrecognised sc).st.args_files_count = sc.st.args_files_count ∧
      (ts.foldl args_parse_unrecognised sc).st.args_program = sc.st.args_program := by
  induction ts with
  | nil => intro sc; simp
  | cons t ts ih =>
    intro sc
    obtain ⟨h1, h2, h3, h4, h5, h6, h7, h8, h9⟩ := ih (args_parse_unrecognised sc t)
    simp only [List.foldl_cons]
    refine ⟨?_, ?_, ?_, h4, h5, h6, h7, h8, h9⟩
    · rw [h1]; simp [args_parse_unrecognised]; omega
    · rw [h2]
      by_cases hc : sc.st.args_unrecognised_count + 1 ≤ 5
      · obtain ⟨k, hk⟩ : ∃ k, 5 - sc.st.args_unrecognised_count = k + 1 :=
          ⟨4 - sc.st.args_unrecognised_count, by omega⟩
        have hk' : 5 - (sc.st.args_unrecognised_count + 1) = k := by omega
        simp [args_parse_unrecognised, hc, hk, hk']
      · have hk : 5 - sc.st.args_unrecognised_count = 0 := by omega
        have hk' : 5 - (sc.st.args_unrecognised_count + 1) = 0 := by omega
        simp [args_parse_unrecognised, hc, hk, hk']
    · rw [h3]; simp [args_parse_unrecognised]

theorem args_parse_loop_unknown (ts : List CStr) (fuel : Nat) :
    ∀ sc : Scan, sc.get = 0 → sc.injection = none → sc.tmpdashed = false → sc.dashed = false →
      sc.dontget = 0 →
      (∀ t ∈ ts, long_spelling t ∧ map_get sc.st.args_optmap t = none ∧
        args__abbreviations sc.st t = none) →
      args_parse_loop (fuel + ts.length) sc ts = .ok (ts.foldl args_parse_unrecognised sc) := by
  induction ts with
  | nil =>
    intro sc _ hinj _ _ _ _
    exact args_parse_loop_nil _ sc hinj
  | cons t ts ih =>
    intro sc hget hinj ht hd hdont hts
    obtain ⟨hlong, hnone, habbr⟩ := hts t (by simp)
    obtain ⟨name, hname, hne, heq⟩ := long_spelling_shape hlong
    have hstep : args_parse_token sc t = .ok (args_parse_unrecognised sc t) := by
      rw [args_parse_token_idle _ _ hget, hname, args_parse_dispatch_long sc name ht hd hne,
        ← hname]
      exact args_parse_long_unknown sc t hdont hnone (byteAt_find_eq_of_not_mem t heq) habbr
    have hlen : fuel + (t :: ts).length = (fuel + ts.length) + 1 := by simp; omega
    rw [hlen, args_parse_loop_cons _ _ _ _ hinj, hstep]
    simp only [Except.bind, List.foldl_cons]
    exact ih (args_parse_unrecognised sc t) hget hinj ht hd hdont
      (fun t' ht' => hts t' (by simp [ht']))

/-- C17: on the fresh instance of every registry, for every list `ts` of long
options `--name` (without `=`) that are no spelling of a registered option and
that the abbreviation policy does not expand, parsing `ts` leaves the
unrecognised-option count `ts.length`, has printed one warning for each of the
first five of them, in order, followed by one summary line that reports
`ts.length - 5` more exactly when there are more than five, and returns true
only when `ts` is empty. -/
theorem args_parse_unrecognised_cap (program : Option CStr) (alternative : Bool)
    (abbreviations : Option (CStr → List CStr → Nat → Option CStr))
    (options : List (args_Option × Option CStr)) (ts : List CStr)
    (hts : ∀ t ∈ ts, long_spelling t ∧ (∀ p ∈ options, t ∉ p.1.alternatives) ∧
      args__abbreviations (registry program alternative abbreviations options) t = none)
    (exe : CStr) (fuel : Nat) :
    ∃ st1, args_parse (fuel + ts.length) (registry program alternative abbreviations options)
        (exe :: ts) = .ok (decide (ts = []), st1) ∧
      st1.args_unrecognised_count = ts.length ∧
      st1.args_out =
        (ts.take 5).map
            (Line.unrecognised (registry program alternative abbreviations options).args_program)
          ++ (if 5 < ts.length then
                [Line.more_unrecognised
                  (registry program alternative abbreviations options).args_program
                  (ts.length - 5) (decide (ts.length - 5 ≠ 1))]
              else []) := by
  obtain ⟨-, -, hfc, -, hout, -⟩ := registry_fields program alternative abbreviations options
  obtain ⟨sc, hsc⟩ : ∃ sc : Scan, sc =
      args_parse_begin (registry program alternative abbreviations options) ts := ⟨_, rfl⟩
  have hloop := args_parse_loop_unknown ts fuel sc (by rw [hsc]; rfl) (by rw [hsc]; rfl)
    (by rw [hsc]; rfl) (by rw [hsc]; rfl) (by rw [hsc]; rfl)
    (by
      intro t ht
      obtain ⟨a, b, c⟩ := hts t ht
      rw [hsc]
      exact ⟨a, registry_unbound program alternative abbreviations options t b, c⟩)
  obtain ⟨h1, h2, h3, h4, h5, h6, h7, h8, h9⟩ := args_parse_unrecognised_fold ts sc
  obtain ⟨sc2, hsc2⟩ : ∃ sc2 : Scan, sc2 = ts.foldl args_parse_unrecognised sc := ⟨_, rfl⟩
  rw [← hsc2] at hloop h1 h2 h3 h4 h5 h6 h7 h8 h9
  rw [hsc] at hloop
  rw [args_parse_of_loop _ _ _ _ _ hloop]
  have e_un : sc2.st.args_unrecognised_count = ts.length := by rw [h1, hsc]; simp [args_parse_begin]
  have e_out : sc2.st.args_out = (ts.take 5).map
      (Line.unrecognised (registry program alternative abbreviations options).args_program) := by
    rw [h2, hsc]; simp [args_parse_begin, hout]
  have e_rc : sc2.rc = decide (ts = []) := by rw [h3, hsc]; simp [args_parse_begin]
  have e_prog : sc2.st.args_program
      = (registry program alternative abbreviations options).args_program := by rw [h9, hsc]; rfl
  have hunused : ∀ n, args_opts_used sc2.st n = false := by
    intro n
    simp only [args_opts_used, h5]
    rw [hsc]
    exact registry_unused program alternative abbreviations options n
  obtain ⟨message, hend⟩ := args_parse_end_files sc2 [] (by rw [h4, hsc]; rfl) hunused
    (by rw [h7, hsc]; rfl) (by rw [h8, hsc]; exact hfc)
  rw [hend, e_rc]
  refine ⟨_, rfl, ?_, ?_⟩
  · rw [(args_parse_summary_fields _).2.2.2.1]; exact e_un
  · unfold args_parse_summary
    simp only [e_un, e_out, e_prog]
    split_ifs
    · rfl
    · simp

/-- C17, at the registry with the flag `-a`, no abbreviation policy, and the seven
unknown long options `--u1`, ..., `--u7`: five warnings, then the summary line
for two more options. -/
theorem args_parse_unrecognised_cap_witness :
    (∀ t ∈ ([[45, 45, 117, 49], [45, 45, 117, 50], [45, 45, 117, 51], [45, 45, 117, 52],
        [45, 45, 117, 53], [45, 45, 117, 54], [45, 45, 117, 55]] : List CStr),
      long_spelling t ∧ (∀ p ∈ [(flag_a, (none : Option CStr))], t ∉ p.1.alternatives) ∧
      args__abbreviations (registry none false none [(flag_a, none)]) t = none) ∧
    ∃ st1, args_parse (0 + 7) (registry none false none [(flag_a, none)])
        ([112] :: [[45, 45, 117, 49], [45, 45, 117, 50], [45, 45, 117, 51], [45, 45, 117, 52],
          [45, 45, 117, 53], [45, 45, 117, 54], [45, 45, 117, 55]]) = .ok (false, st1) ∧
      st1.args_unrecognised_count = 7 ∧
      st1.args_out =
        [Line.unrecognised [63] [45, 45, 117, 49], Line.unrecognised [63] [45, 45, 117, 50],
          Line.unrecognised [63] [45, 45, 117, 51], Line.unrecognised [63] [45, 45, 117, 52],
          Line.unrecognised [63] [45, 45, 117, 53],
          Line.more_unrecognised [63] 2 true] :=
  have h : ∀ t ∈ ([[45, 45, 117, 49], [45, 45, 117, 50], [45, 45, 117, 51], [45, 45, 117, 52],
        [45, 45, 117, 53], [45, 45, 117, 54], [45, 45, 117, 55]] : List CStr),
      long_spelling t ∧ (∀ p ∈ [(flag_a, (none : Option CStr))], t ∉ p.1.alternatives) ∧
      args__abbreviations (registry none false none [(flag_a, none)]) t = none := by
    intro t ht
    simp only [List.mem_cons, List.mem_singleton, List.not_mem_nil, or_false] at ht
    rcases ht with rfl | rfl | rfl | rfl | rfl | rfl | rfl <;>
      exact ⟨⟨_, rfl, by decide, by decide⟩, by decide, rfl⟩
  ⟨h, args_parse_unrecognised_cap none false none [(flag_a, none)] _ h [112] 0⟩

/-! ## The validation predicates at the inputs where they go wrong -/

/-- C14: the code at the failing input. With the flags `-a` and `-b` registered
and `[-b]` parsed, `-b` is used and is not in the allowed set `[-a]`, yet
`args_test_allowed` returns true and prints nothing: the test of an option
against the allowed set comes before the walk over the smaller allowed
options, so an option that is larger than the current allowed option is never
reported. -/
theorem args_test_allowed_accepts_unlisted_option :
    (args_parse 1 (registry none false none [(flag_a, none), (flag_b, none)])
      [[112], [45, 98]]).bind
        (fun r => (args_test_allowed r.2 [[45, 97]]).map
          (fun q => (r.1, args_opts_used r.2 [45, 98],
            decide (([45, 98] : CStr) ∈ ([[45, 97]] : List CStr)), q.1, q.2.args_out)))
      = .ok (true, true, false, true, []) := by
  decide

/-- C15: the code at the failing input. With the flag `-a` registered and `[-a]`
parsed, exactly one option of the exclusive set `[-a]` is used, yet
`args_test_exclusiveness` returns false and prints the line of the conflicting
options: the test is `used_ptr >= 1`. -/
theorem args_test_exclusiveness_rejects_single_use :
    (args_parse 1 (registry none false none [(flag_a, none)]) [[112], [45, 97]]).bind
        (fun r => (args_test_exclusiveness r.2 [[45, 97]]).map
          (fun q => (r.1, args_opts_used r.2 [45, 97], q.1, q.2.args_out)))
      = .ok (true, true, false, [Line.conflicting [63] [([45, 97], none)]]) := by
  decide

/-- C16: the code at the failing input. With the flags `-a` and `-b` registered
and `[-a, -b]` parsed, both options of the exclusive set `[-a, -b]` are used;
`args_test_exclusiveness` does not return false: after `-a` was found, the
first inner loop steps over every key that is larger than the exclusive option
`-a`, and the second inner loop reads `*opts` behind the last key. -/
theorem args_test_exclusiveness_reads_past_keys :
    (args_parse 2 (registry none false none [(flag_a, none), (flag_b, none)])
      [[112], [45, 97], [45, 98]]).map
        (fun r => (r.1, args_opts_used r.2 [45, 97], args_opts_used r.2 [45, 98],
          args_get_opts r.2))
      = .ok (true, true, true, [[45, 97], [45, 98]]) ∧
    (args_parse 2 (registry none false none [(flag_a, none), (flag_b, none)])
      [[112], [45, 97], [45, 98]]).bind
        (fun r => (args_test_exclusiveness r.2 [[45, 97], [45, 98]]).map (fun q => q.1))
      = .error .undefined := by
  decide

/-- C19: the code at the failing input. The option with the spellings `--ab`
(canonical) and `--a` is registered; `--a` is a spelling in the index but is
not in its key list, because `map_put` lists a key only when it had to
allocate a level. After `[--ab]` is parsed and `args_support_alternatives` is
run, the queries by `--a` still answer unused and count 0, while the queries by
`--ab` answer used and count 1. -/
theorem args_support_alternatives_skips_unlisted_spelling :
    args_optmap_contains (registry none false none [(flag_ab, none)]) [45, 45, 97] = true ∧
    args_get_optmap (registry none false none [(flag_ab, none)]) = [[45, 45, 97, 98]] ∧
    (args_parse 1 (registry none false none [(flag_ab, none)]) [[112], [45, 45, 97, 98]]).bind
        (fun r => (args_support_alternatives r.2).map
          (fun q => (r.1, args_opts_used q [45, 45, 97, 98], args_opts_used q [45, 45, 97],
            args_opts_get_count q [45, 45, 97, 98], args_opts_get_count q [45, 45, 97],
            args_opts_get q [45, 45, 97, 98], args_opts_get q [45, 45, 97])))
      = .ok (true, true, false, 1, 0, some [none], none) :=
  ⟨by decide, by decide, rfl⟩

/-- C20: the code at the failing inputs. With the flag `-a` registered, parsing
`[-a]` once leaves the values `[null]` and the count 1 for `-a`; parsing it a
second time on the same instance leaves the values `[null, null]` and the count
2: the results store is not reset. Parsing the file `f` once leaves one file;
the second parse allocates a fresh buffer but keeps `args_files_count`, stores
`f` in slot 1 and reads slot 0, which was never written. -/
theorem args_parse_twice_accumulates :
    (args_parse 1 (registry none false none [(flag_a, none)]) [[112], [45, 97]]).bind
        (fun r => (args_parse 1 r.2 [[112], [45, 97]]).map
          (fun q => (r.1, args_opts_get r.2 [45, 97], args_opts_get_count r.2 [45, 97],
            q.1, args_opts_get q.2 [45, 97], args_opts_get_count q.2 [45, 97])))
      = .ok (true, some [none], 1, true, some [none, none], 2) ∧
    (args_parse 1 (registry none false none [(flag_a, none)]) [[112], [102]]).map
        (fun r => (r.1, r.2.args_files, r.2.args_files_count))
      = .ok (true, [some [102]], 1) ∧
    (args_parse 1 (registry none false none [(flag_a, none)]) [[112], [102]]).bind
        (fun r => (args_parse 1 r.2 [[112], [102]]).map
          (fun q => (q.1, q.2.args_files, q.2.args_files_count)))
      = .error .undefined :=
  ⟨rfl, rfl, rfl⟩

/-! ## The order of `cmp` and the sort -/

theorem char_value_eq_zero (a : Byte) : char_value a = 0 ↔ a = 0 := by
  unfold char_value
  constructor
  · intro h
    apply Fin.ext
    have := a.isLt
    split_ifs at h <;> simp at * <;> omega
  · rintro rfl
    decide

theorem cmp_unfold (s t : CStr) :
    cmp s t =
      if char_value (byteAt s 0) ≠ 0 ∧ char_value (byteAt t 0) ≠ 0 then
        if cmp_char (byteAt s 0) (byteAt t 0) ≠ 0 then cmp_char (byteAt s 0) (byteAt t 0)
        else cmp (s.drop 1) (t.drop 1)
      else cmp_char (byteAt s 0) (byteAt t 0) := by
  cases s with
  | nil =>
    cases t with
    | nil => simp [cmp, byteAt, char_value]
    | cons b bs => simp [cmp, byteAt, char_value]
  | cons a as =>
    cases t with
    | nil => simp [cmp, byteAt, char_value]
    | cons b bs =>
      simp only [cmp, byteAt, List.getD_cons_zero, List.drop_succ_cons, List.drop_zero, ne_eq,
        char_value_eq_zero]

theorem cmp_step (s t : CStr) :
    cmp s t =
      if char_value (byteAt s 0) = char_value (byteAt t 0) ∧ char_value (byteAt s 0) ≠ 0 then
        cmp (s.drop 1) (t.drop 1)
      else if char_value (byteAt s 0) < char_value (byteAt t 0) then -1
      else if char_value (byteAt t 0) < char_value (byteAt s 0) then 1 else 0 := by
  rw [cmp_unfold]
  simp only [cmp_char]
  split_ifs <;> first | rfl | omega

theorem cmp_self (s : CStr) : cmp s s = 0 := by
  induction s with
  | nil => decide
  | cons a as ih =>
    rw [cmp_step]
    simp only [byteAt, List.getD_cons_zero, List.drop_succ_cons, List.drop_zero, ih]
    simp

theorem cmp_antisymm (s : CStr) : ∀ t, cmp t s = - cmp s t := by
  induction s with
  | nil =>
    intro t
    rw [cmp_step t [], cmp_step [] t]
    simp only [byteAt, List.getD_nil]
    have h0 : char_value 0 = 0 := by decide
    simp only [h0]
    split_ifs <;> omega
  | cons a as ih =>
    intro t
    rw [cmp_step t (a :: as), cmp_step (a :: as) t]
    simp only [byteAt, List.getD_cons_zero, List.drop_succ_cons, List.drop_zero, ih]
    split_ifs <;> omega

theorem cmp_trans_step (x y z r1 r2 r3 : Int) (hr : x ≠ 0 → r1 ≤ 0 → r2 ≤ 0 → r3 ≤ 0)
    (h1 : (if x = y ∧ x ≠ 0 then r1 else if x < y then -1 else if y < x then 1 else 0) ≤ 0)
    (h2 : (if y = z ∧ y ≠ 0 then r2 else if y < z then -1 else if z < y then 1 else 0) ≤ 0) :
    (if x = z ∧ x ≠ 0 then r3 else if x < z then -1 else if z < x then 1 else 0) ≤ 0 := by
  by_cases hxy : x = y ∧ x ≠ 0
  · by_cases hyz : y = z ∧ y ≠ 0
    · have hxz : x = z ∧ x ≠ 0 := ⟨hxy.1.trans hyz.1, hxy.2⟩
      rw [if_pos hxy] at h1
      rw [if_pos hyz] at h2
      rw [if_pos hxz]
      exact hr hxy.2 h1 h2
    · have hxz : ¬ (x = z ∧ x ≠ 0) := fun h => hyz ⟨hxy.1.symm.trans h.1, by omega⟩
      rw [if_neg hyz] at h2
      rw [if_neg hxz]
      split_ifs at h2 ⊢ <;> omega
  · by_cases hyz : y = z ∧ y ≠ 0
    · have hxz : ¬ (x = z ∧ x ≠ 0) := fun h => hxy ⟨h.1.trans hyz.1.symm, h.2⟩
      rw [if_neg hxy] at h1
      rw [if_neg hxz]
      split_ifs at h1 ⊢ <;> omega
    · rw [if_neg hxy] at h1
      rw [if_neg hyz] at h2
      by_cases hxz : x = z ∧ x ≠ 0
      · split_ifs at h1 h2 <;> omega
      · rw [if_neg hxz]
        split_ifs at h1 h2 ⊢ <;> omega

theorem cmp_trans (a : CStr) : ∀ b c, cmp a b ≤ 0 → cmp b c ≤ 0 → cmp a c ≤ 0 := by
  induction a with
  | nil =>
    intro b c h1 h2
    rw [cmp_step] at h1 h2 ⊢
    exact cmp_trans_step _ _ _ _ _ _
      (fun hx => absurd (by decide : char_value (byteAt [] 0) = 0) hx) h1 h2
  | cons x as ih =>
    intro b c h1 h2
    rw [cmp_step] at h1 h2 ⊢
    exact cmp_trans_step _ _ _ _ _ _ (fun _ => ih _ _) h1 h2

theorem sort_merge_perm (fuel : Nat) :
    ∀ left right : List CStr, (sort_merge fuel left right).Perm (left ++ right) := by
  induction fuel with
  | zero =>
    intro left right
    cases left <;> cases right <;> simp [sort_merge]
  | succ fuel ih =>
    intro left right
    cases left with
    | nil => cases right <;> simp [sort_merge]
    | cons x left =>
      cases right with
      | nil => simp [sort_merge]
      | cons y right =>
        simp only [sort_merge]
        split_ifs
        · exact (ih left (y :: right)).cons x
        · exact ((ih (x :: left) right).cons y).trans
            (List.perm_middle.symm : (y :: (x :: left ++ right)).Perm (x :: left ++ y :: right))

theorem sort_merge_sorted (fuel : Nat) :
    ∀ left right : List CStr, left.length + right.length ≤ fuel →
      left.Pairwise (fun a b => cmp a b ≤ 0) → right.Pairwise (fun a b => cmp a b ≤ 0) →
      (sort_merge fuel left right).Pairwise (fun a b => cmp a b ≤ 0) := by
  induction fuel with
  | zero =>
    intro left right hlen _ _
    cases left with
    | nil =>
      cases right with
      | nil => simp [sort_merge]
      | cons y right => simp at hlen
    | cons x left => simp at hlen
  | succ fuel ih =>
    intro left right hlen hl hr
    cases left with
    | nil =>
      cases right with
      | nil => simp [sort_merge]
      | cons y right => simpa [sort_merge] using hr
    | cons x left =>
      cases right with
      | nil => simpa [sort_merge] using hl
      | cons y right =>
        simp only [sort_merge]
        simp only [List.length_cons] at hlen
        obtain ⟨hxl, hl'⟩ := List.pairwise_cons.mp hl
        obtain ⟨hyr, hr'⟩ := List.pairwise_cons.mp hr
        split_ifs with hxy
        · refine List.pairwise_cons.mpr ⟨?_, ih left (y :: right) (by simp; omega) hl' hr⟩
          intro z hz
          rw [(sort_merge_perm fuel left (y :: right)).mem_iff] at hz
          rcases List.mem_append.mp hz with h | h
          · exact hxl z h
          · rcases List.mem_cons.mp h with rfl | h
            · exact hxy
            · exact cmp_trans _ _ _ hxy (hyr z h)
        · have hyx : cmp y x ≤ 0 := by rw [cmp_antisymm x y]; omega
          refine List.pairwise_cons.mpr ⟨?_, ih (x :: left) right (by simp; omega) hl hr'⟩
          intro z hz
          rw [(sort_merge_perm fuel (x :: left) right).mem_iff] at hz
          rcases List.mem_append.mp hz with h | h
          · rcases List.mem_cons.mp h with rfl | h
            · exact hyx
            · exact cmp_trans _ _ _ hyx (hxl z h)
          · exact hyr z h

theorem _sort_perm (fuel : Nat) : ∀ list : List CStr, (_sort fuel list).Perm list := by
  induction fuel with
  | zero => intro list; exact List.Perm.refl _
  | succ fuel ih =>
    intro list
    simp only [_sort]
    split_ifs
    · refine (sort_merge_perm _ _ _).trans ?_
      refine ((ih _).append (ih _)).trans ?_
      rw [List.take_append_drop]
    · exact List.Perm.refl _

theorem _sort_sorted (fuel : Nat) :
    ∀ list : List CStr, list.length ≤ fuel + 1 →
      (_sort fuel list).Pairwise (fun a b => cmp a b ≤ 0) := by
  induction fuel with
  | zero =>
    intro list hlen
    simp only [_sort]
    cases list with
    | nil => exact List.Pairwise.nil
    | cons a rest =>
      cases rest with
      | nil => simp
      | cons b rest => simp at hlen
  | succ fuel ih =>
    intro list hlen
    simp only [_sort]
    split_ifs with h1
    · apply sort_merge_sorted
      · rw [(_sort_perm fuel _).length_eq, (_sort_perm fuel _).length_eq, ← List.length_append,
          List.take_append_drop]
      · apply ih
        rw [List.length_take]
        omega
      · apply ih
        rw [List.length_drop]
        omega
    · cases list with
      | nil => exact List.Pairwise.nil
      | cons a rest =>
        cases rest with
        | nil => simp
        | cons b rest => simp at h1

theorem sort_perm (list : List CStr) : (sort list).Perm list := _sort_perm _ list

theorem sort_sorted (list : List CStr) : (sort list).Pairwise (fun a b => cmp a b ≤ 0) :=
  _sort_sorted _ list (Nat.le_succ _)

theorem mem_sort (list : List CStr) (k : CStr) : k ∈ sort list ↔ k ∈ list :=
  (sort_perm list).mem_iff

theorem mem_dropWhile_of_not {α : Type} (p : α → Bool) (x : α) (hx : p x = false) :
    ∀ l : List α, x ∈ l → x ∈ l.dropWhile p := by
  intro l
  induction l with
  | nil => intro h; exact h
  | cons a l ih =>
    intro h
    rw [List.dropWhile_cons]
    split_ifs with ha
    · rcases List.mem_cons.mp h with rfl | h'
      · rw [hx] at ha; exact absurd ha (by simp)
      · exact ih h'
    · exact h

theorem args_opts_used_sort_opts (st : State) (k : CStr) :
    args_opts_used (args_sort_opts st) k = args_opts_used st k := rfl

theorem args_test_allowed_loop_accepts (st : State) (rc : Bool) (opts : List CStr) :
    ∀ allowed : List CStr,
      allowed.Pairwise (fun a b => cmp a b ≤ 0) → opts.Pairwise (fun a b => cmp a b ≤ 0) →
      (∀ k ∈ opts, args_opts_used st k = true → k ∈ allowed) →
      args_test_allowed_loop st rc allowed opts = .ok (rc, st) := by
  induction opts with
  | nil => intro allowed _ _ _; rfl
  | cons opt opts ih =>
    intro allowed ha ho h
    obtain ⟨hopt, ho'⟩ := List.pairwise_cons.mp ho
    simp only [args_test_allowed_loop, bind, Except.bind, pure, Except.pure]
    split_ifs with hv
    · exfalso
      obtain ⟨hb, hu⟩ := hv
      have hmem := h opt (by simp) hu
      cases allowed with
      | nil => simp at hmem
      | cons a rest =>
        simp only [decide_eq_true_eq] at hb
        have hle : cmp a opt ≤ 0 := by
          rcases List.mem_cons.mp hmem with rfl | hr
          · rw [cmp_self]
          · exact (List.pairwise_cons.mp ha).1 opt hr
        rw [cmp_antisymm opt a] at hle
        omega
    apply ih
    · exact ha.sublist (List.dropWhile_sublist _)
    · exact ho'
    · intro k hk hu
      apply mem_dropWhile_of_not
      · have := hopt k hk
        simp only [decide_eq_false_iff_not]
        omega
      · exact h k (by simp [hk]) hu

/-- C13: for every state of the instance and every array of allowed options, if
every key of the results store that is marked as used is in the allowed array,
`args_test_allowed` returns true and prints nothing; the only change it makes
is that the keys of the results store are sorted. -/
theorem args_test_allowed_accepts (st : State) (allowed : List CStr)
    (h : ∀ k ∈ args_get_opts st, args_opts_used st k = true → k ∈ allowed) :
    args_test_allowed st allowed = .ok (true, args_sort_opts st) ∧
    (args_sort_opts st).args_out = st.args_out := by
  refine ⟨?_, rfl⟩
  unfold args_test_allowed
  apply args_test_allowed_loop_accepts
  · exact sort_sorted allowed
  · exact sort_sorted _
  · intro k hk hu
    rw [mem_sort]
    apply h k _ hu
    exact (mem_sort _ k).mp hk

/-! ## What every run of `args_parse` keeps -/

theorem whenever_ok {α : Type} (p : α → Prop) (a : α) : whenever p (.ok a) ↔ p a := Iff.rfl

theorem whenever_pure {α : Type} (p : α → Prop) (a : α) :
    whenever p (pure a : Except Fault α) ↔ p a := Iff.rfl

theorem whenever_error {α : Type} (p : α → Prop) (e : Fault) :
    whenever p (.error e : Except Fault α) := trivial

theorem whenever_bind {α β : Type} (p : β → Prop) (x : Except Fault α)
    (f : α → Except Fault β) :
    whenever p (x >>= f) ↔ whenever (fun a => whenever p (f a)) x := by
  cases x <;> rfl

theorem whenever_of_forall {α : Type} {p : α → Prop} (x : Except Fault α) (h : ∀ a, p a) :
    whenever p x := by
  cases x with
  | error e => trivial
  | ok a => exact h a

theorem whenever_elim {α : Type} {p : α → Prop} {x : Except Fault α} (h : whenever p x)
    {a : α} (hx : x = .ok a) : p a := by
  rw [hx] at h; exact h

theorem whenever_mono {α : Type} {p q : α → Prop} {x : Except Fault α} (h : whenever p x)
    (hpq : ∀ a, p a → q a) : whenever q x := by
  cases x with
  | error e => trivial
  | ok a => exact hpq a h

theorem whenever_trigger (p : State → Prop) (st : State) (name : CStr) (value : Option CStr)
    (h : ∀ calls, p { st with calls := calls }) :
    whenever p (args_optmap_trigger st name value) := by
  unfold args_optmap_trigger
  cases args_options_at st (args_optmap_get_index st name) with
  | error e => trivial
  | ok opt => cases value <;> exact h _

theorem whenever_triggerv (p : State → Prop) (st : State) (name : CStr) (value : Option CStr)
    (h : ∀ calls, p { st with calls := calls }) :
    whenever p (args_optmap_triggerv st name value) := by
  unfold args_optmap_triggerv
  cases args_options_at st (args_optmap_get_index st name) with
  | error e => trivial
  | ok opt => exact h _

theorem flagged_unrecognised (sc : Scan) (shown : CStr) :
    flagged (args_parse_unrecognised sc shown) := by
  simp [flagged, args_parse_unrecognised]

theorem flagged_congr {sc sc1 : Scan} (h : flagged sc) (hrc : sc1.rc = sc.rc)
    (hcount : sc1.st.args_unrecognised_count = sc.st.args_unrecognised_count) : flagged sc1 := by
  unfold flagged at h ⊢
  rw [hrc, hcount]; exact h

theorem whenever_trigger_bind {β : Type} (p : β → Prop) (st : State) (name : CStr)
    (value : Option CStr) (f : State → Except Fault β)
    (h : ∀ calls, whenever p (f { st with calls := calls })) :
    whenever p (args_optmap_trigger st name value >>= f) := by
  rw [whenever_bind]
  exact whenever_trigger _ st name value h

theorem whenever_triggerv_bind {β : Type} (p : β → Prop) (st : State) (name : CStr)
    (value : Option CStr) (f : State → Except Fault β)
    (h : ∀ calls, whenever p (f { st with calls := calls })) :
    whenever p (args_optmap_triggerv st name value >>= f) := by
  rw [whenever_bind]
  exact whenever_triggerv _ st name value h

theorem steady_unrecognised {sc : Scan} (h : steady sc) (shown : CStr) :
    steady (args_parse_unrecognised sc shown) :=
  ⟨flagged_unrecognised sc shown, h.2.1, h.2.2.1, h.2.2.2⟩

theorem steady_congr {sc sc1 : Scan} (h : steady sc) (hrc : sc1.rc = sc.rc)
    (hcount : sc1.st.args_unrecognised_count = sc.st.args_unrecognised_count)
    (hdont : sc1.dontget = sc.dontget) (hget : sc1.get = sc.get)
    (hq : sc.optqueue.length ≤ sc1.optqueue.length) : steady sc1 := by
  obtain ⟨h1, h2, h3, h4⟩ := h
  exact ⟨flagged_congr h1 hrc hcount, by rw [hdont]; exact h2, by rw [hget]; exact h3,
    by rw [hget]; omega⟩

theorem steady_defer {sc sc1 : Scan} (h : steady sc) (hg : sc.get = 0) (hrc : sc1.rc = sc.rc)
    (hcount : sc1.st.args_unrecognised_count = sc.st.args_unrecognised_count)
    (hdont : sc1.dontget = sc.dontget) (hget : sc1.get = sc.get + 1)
    (hq : sc.optqueue.length + 1 ≤ sc1.optqueue.length) : steady sc1 := by
  obtain ⟨h1, h2, h3, h4⟩ := h
  exact ⟨flagged_congr h1 hrc hcount, by rw [hdont]; exact h2, by rw [hget]; omega,
    by rw [hget]; omega⟩

theorem args_parse_pending_steady (sc : Scan) (arg : CStr) (hs : steady sc) :
    whenever (fun r => steady r.1 ∧ (r.2 = false → r.1.get = 0))
      (args_parse_pending sc arg) := by
  obtain ⟨h1, h2, h3, h4⟩ := hs
  unfold args_parse_pending
  repeat' first
    | exact whenever_error _ _
    | (refine (whenever_pure _ _).mpr ?_;
        first
          | exact ⟨⟨h1, h2, h3, h4⟩, fun _ => by omega⟩
          | exact ⟨⟨flagged_congr h1 rfl rfl, h2, by dsimp only; omega, by dsimp only; omega⟩,
              fun _ => by dsimp only; omega⟩)
    | (refine whenever_trigger_bind _ _ _ _ _ ?_; intro calls)
    | (refine whenever_triggerv_bind _ _ _ _ _ ?_; intro calls)
    | (refine (whenever_bind _ _ _).mpr (whenever_of_forall _ ?_); intro y)
    | split_ifs
    | split
    | dsimp only

theorem args_parse_long_unmatched_steady {sc : Scan} (hs : steady sc) (arg a : CStr) (n : Nat) :
    steady (args_parse_long_unmatched sc arg a n) := by
  unfold args_parse_long_unmatched
  cases args__abbreviations sc.st a with
  | none => exact steady_unrecognised hs _
  | some inj => exact steady_congr hs rfl rfl rfl rfl (Nat.le_refl _)

set_option maxHeartbeats 4000000 in
theorem args_parse_long_steady (sc : Scan) (arg : CStr) (hs : steady sc) (hg : sc.get = 0) :
    whenever steady (args_parse_long sc arg) := by
  have hd : sc.dontget = 0 := hs.2.1
  unfold args_parse_long
  simp only [hd, Nat.le_refl, true_and, Nat.lt_irrefl, if_false]
  repeat' first
    | exact whenever_error _ _
    | (refine (whenever_pure _ _).mpr ?_;
        first
          | exact steady_unrecognised hs _
          | exact args_parse_long_unmatched_steady hs _ _ _
          | exact steady_congr hs rfl rfl hd.symm rfl (by simp)
          | exact steady_defer hs hg rfl rfl hd.symm rfl (by simp))
    | (refine whenever_trigger_bind _ _ _ _ _ ?_; intro calls)
    | (refine (whenever_bind _ _ _).mpr (whenever_of_forall _ ?_); intro y)
    | split_ifs
    | split

theorem args_parse_bundle_steady (arg : CStr) (sign : Byte) (rest : CStr) :
    ∀ sc : Scan, steady sc → sc.get = 0 → whenever steady (args_parse_bundle arg sign sc rest) := by
  induction rest with
  | nil => intro sc hs _; exact hs
  | cons c rest ih =>
    intro sc hs hg
    rw [args_parse_bundle]
    repeat' first
      | exact whenever_error _ _
      | (refine (whenever_pure _ _).mpr ?_;
          first
            | exact steady_congr hs rfl rfl rfl rfl (by simp)
            | exact steady_defer hs hg rfl rfl rfl rfl (by simp))
      | (refine ih _ ?_ hg;
          first
            | exact steady_unrecognised hs _
            | exact steady_congr hs rfl rfl rfl rfl (by simp))
      | (refine whenever_trigger_bind _ _ _ _ _ ?_; intro calls)
      | (refine (whenever_bind _ _ _).mpr (whenever_of_forall _ ?_); intro y)
      | split_ifs

theorem args_parse_dispatch_steady (sc : Scan) (arg : CStr) (hs : steady sc) (hg : sc.get = 0) :
    whenever steady (args_parse_dispatch sc arg) := by
  unfold args_parse_dispatch
  split_ifs
  · exact steady_congr hs rfl rfl rfl rfl (Nat.le_refl _)
  · exact steady_congr hs rfl rfl rfl rfl (Nat.le_refl _)
  · exact steady_congr hs rfl rfl rfl rfl (Nat.le_refl _)
  · exact steady_congr hs rfl rfl rfl rfl (Nat.le_refl _)
  · exact args_parse_long_steady sc arg hs hg
  · exact args_parse_bundle_steady arg _ _ sc hs hg
  · exact steady_congr hs rfl rfl rfl rfl (Nat.le_refl _)

theorem args_opts_new_count (st : State) (name : CStr) :
    (args_opts_new st name).args_unrecognised_count = st.args_unrecognised_count := rfl

theorem args_opts_append_count (st : State) (name : CStr) (value : Option CStr) :
    (args_opts_append st name value).args_unrecognised_count = st.args_unrecognised_count := by
  unfold args_opts_append
  cases args_opts_get st name <;> rfl

theorem args_parse_record_count (argqueue : List (Option CStr)) (optqueue : List CStr) :
    ∀ (st : State) (i : Nat),
      whenever (fun st1 => st1.args_unrecognised_count = st.args_unrecognised_count)
        (args_parse_record argqueue st i optqueue) := by
  induction optqueue with
  | nil => intro st i; rfl
  | cons used optqueue ih =>
    intro st i
    rw [args_parse_record]
    refine (whenever_bind _ _ _).mpr (whenever_of_forall _ ?_)
    intro opt
    have hmark : ∀ st2 : State, st2.args_unrecognised_count = st.args_unrecognised_count →
        whenever (fun st3 : State => st3.args_unrecognised_count = st.args_unrecognised_count)
          (args_parse_mark st2 opt) := by
      intro st2 h
      unfold args_parse_mark
      split
      · exact whenever_error _ _
      · exact h
    have hjp : ∀ (arg : Option CStr) (st1 : State),
        st1.args_unrecognised_count = st.args_unrecognised_count →
        whenever (fun st4 : State => st4.args_unrecognised_count = st.args_unrecognised_count)
          (args_parse_mark (args_opts_append
              (if args_optmap_contains st1 opt = false ∨ args_opts_contains st1 opt = false then
                args_opts_new st1 opt
              else st1) opt arg) opt >>=
            fun st3 => args_parse_record argqueue st3 (i + 1) optqueue) := by
      intro arg st1 hst1
      refine (whenever_bind _ _ _).mpr ?_
      refine whenever_mono (hmark _ ?_) ?_
      · rw [args_opts_append_count]
        split_ifs
        · rw [args_opts_new_count]; exact hst1
        · exact hst1
      · intro st3 hst3
        exact whenever_mono (ih st3 (i + 1)) (fun st4 h => h.trans hst3)
    dsimp only
    split_ifs <;>
      first
        | (refine whenever_triggerv_bind _ _ _ _ _ ?_; intro calls; exact hjp _ _ rfl)
        | exact hjp _ st rfl

theorem args_parse_absorb_count (std : CStr) (files : List CStr) :
    ∀ st : State,
      (args_parse_absorb std st files).args_unrecognised_count = st.args_unrecognised_count := by
  induction files with
  | nil => intro st; rfl
  | cons file files ih =>
    intro st
    rw [args_parse_absorb, ih, args_opts_append_count]

theorem args_parse_variadic_count (options : List args_Option) (st : State) :
    whenever (fun st1 => st1.args_unrecognised_count = st.args_unrecognised_count)
      (args_parse_variadic st options) := by
  induction options with
  | nil => rfl
  | cons option options ih =>
    rw [args_parse_variadic]
    split_ifs
    · split
      · refine (whenever_bind _ _ _).mpr (whenever_of_forall _ ?_)
        intro files
        refine (whenever_pure _ _).mpr ?_
        show (args_parse_absorb _ _ files).args_unrecognised_count = _
        rw [args_parse_absorb_count]
        split_ifs <;> rfl
      · exact whenever_error _ _
    · exact ih

theorem args_parse_message_count (st : State) :
    whenever (fun st1 => st1.args_unrecognised_count = st.args_unrecognised_count)
      (args_parse_message st) := by
  unfold args_parse_message
  split_ifs
  · refine (whenever_bind _ _ _).mpr (whenever_of_forall _ ?_)
    intro files
    rfl
  · rfl

theorem args_parse_end_count (sc : Scan) :
    whenever (fun r => r.1 = sc.rc ∧
        r.2.args_unrecognised_count = sc.st.args_unrecognised_count)
      (args_parse_end sc) := by
  unfold args_parse_end
  refine (whenever_bind _ _ _).mpr ?_
  refine whenever_mono (args_parse_record_count sc.argqueue sc.optqueue sc.st 0) ?_
  intro st1 h1
  refine (whenever_bind _ _ _).mpr ?_
  refine whenever_mono (args_parse_variadic_count st1.args_options st1) ?_
  intro st2 h2
  refine (whenever_bind _ _ _).mpr ?_
  refine whenever_mono (args_parse_message_count st2) ?_
  intro st3 h3
  refine (whenever_pure _ _).mpr ⟨rfl, ?_⟩
  rw [(args_parse_summary_fields st3).2.2.2.1, h3, h2, h1]

theorem args_parse_begin_steady (st : State) (tokens : List CStr) :
    steady (args_parse_begin st tokens) :=
  ⟨by simp [flagged, args_parse_begin], rfl, Nat.zero_le _, Nat.zero_le _⟩

/-- C13, at the instance with the flags `-a` and `-b` in which `-a` is used, and
the allowed array `[-a]`. -/
theorem args_test_allowed_accepts_witness :
    (∀ k ∈ args_get_opts instance_a_used,
      args_opts_used instance_a_used k = true → k ∈ ([[45, 97]] : List CStr)) ∧
    args_opts_used instance_a_used [45, 97] = true ∧
    args_test_allowed instance_a_used [[45, 97]] = .ok (true, args_sort_opts instance_a_used) ∧
    (args_sort_opts instance_a_used).args_out = instance_a_used.args_out :=
  have h : ∀ k ∈ args_get_opts instance_a_used,
      args_opts_used instance_a_used k = true → k ∈ ([[45, 97]] : List CStr) := by decide
  ⟨h, by decide, args_test_allowed_accepts instance_a_used [[45, 97]] h⟩

/-! ## The values of the invocations, in order -/

theorem args_parse_bundle_sticky (sc : Scan) (arg : CStr) (sign c : Byte) (v : CStr) (i : Nat)
    (o : args_Option)
    (hmap : map_get sc.st.args_optmap [sign, c] = some (i + 1))
    (hopt : sc.st.args_options[i]? = some o)
    (htype : o.type = ARGUMENTED ∨ o.type = OPTARGUMENTED) (hv : v ≠ []) :
    args_parse_bundle arg sign sc (c :: v) =
      .ok { sc with st := { sc.st with calls := sc.st.calls ++
                                [Call.triggerv [sign, c] o.standard (some v)] }
                    optqueue := sc.optqueue ++ [[sign, c]]
                    argqueue := sc.argqueue ++ [some v] } := by
  obtain ⟨-, hcont, htyp, -⟩ := args_optmap_lookup hmap hopt
  have h100 : o.type ≠ 0 := by rcases htype with h | h <;> simp [h]
  have hlt : o.type < 3 := by rcases htype with h | h <;> simp [h]
  have htrig := args_optmap_trigger_lookup hmap hopt (some v)
  simp only [args_parse_bundle, hcont, htyp, bind, Except.bind, pure, Except.pure, h100, hlt,
    if_true, if_false, ARGUMENTLESS, VARIADIC, hv, ne_eq, not_false_eq_true, htrig]

theorem args_parse_dispatch_flag (sc : Scan) (alternative : Bool) (s : CStr) (i : Nat)
    (o : args_Option)
    (ht : sc.tmpdashed = false) (hd : sc.dashed = false) (hdont : sc.dontget = 0)
    (hs : long_spelling s ∨ short_spelling alternative s)
    (hmap : map_get sc.st.args_optmap s = some (i + 1))
    (hopt : sc.st.args_options[i]? = some o)
    (htype : o.type = ARGUMENTLESS) :
    args_parse_dispatch sc s =
      .ok { sc with st := { sc.st with calls := sc.st.calls ++ [Call.trigger s o.standard] }
                    optqueue := sc.optqueue ++ [s]
                    argqueue := sc.argqueue ++ [none] } := by
  rcases hs with hl | ⟨c, rfl, hc, -⟩
  · obtain ⟨name, hname, hne, -⟩ := long_spelling_shape hl
    subst hname
    rw [args_parse_dispatch_long sc name ht hd hne]
    exact args_parse_long_argumentless _ _ i o hdont hmap hopt htype
  · exact args_parse_dispatch_short_argumentless sc c i o ht hd hdont hc hmap hopt htype

theorem args_parse_dispatch_defer (sc : Scan) (alternative : Bool) (s : CStr) (i : Nat)
    (o : args_Option)
    (ht : sc.tmpdashed = false) (hd : sc.dashed = false) (hdont : sc.dontget = 0)
    (halt : sc.st.args_alternative = alternative)
    (hs : long_spelling s ∨ short_spelling alternative s)
    (hmap : map_get sc.st.args_optmap s = some (i + 1))
    (hopt : sc.st.args_options[i]? = some o)
    (htype : o.type = ARGUMENTED ∨ o.type = OPTARGUMENTED) :
    args_parse_dispatch sc s =
      .ok { sc with optqueue := sc.optqueue ++ [s], get := sc.get + 1 } := by
  rcases hs with hl | ⟨c, rfl, hc, hce⟩
  · obtain ⟨name, hname, hne, heq⟩ := long_spelling_shape hl
    subst hname
    rw [args_parse_dispatch_long sc name ht hd hne]
    exact args_parse_long_deferred _ _ i o hdont hmap hopt htype
      (byteAt_find_eq_of_not_mem _ heq)
  · cases ha : sc.st.args_alternative with
    | false =>
      rw [args_parse_dispatch_short _ DASH c [] ht hd ha (Or.inl rfl) hc]
      exact args_parse_bundle_deferred _ _ DASH c i o hmap hopt htype
    | true =>
      rw [args_parse_dispatch_alternative _ DASH c [] ht hd ha (Or.inl rfl) (Or.inl hc)]
      exact args_parse_long_deferred _ _ i o hdont hmap hopt htype
        (find_eq_pair c (hce (by rw [← halt, ha])))

theorem args_parse_dispatch_attached (sc : Scan) (s v : CStr) (i : Nat) (o : args_Option)
    (ht : sc.tmpdashed = false) (hd : sc.dashed = false) (hdont : sc.dontget = 0)
    (hs : long_spelling s)
    (hnone : map_get sc.st.args_optmap (s ++ EQUALS :: v) = none)
    (hmap : map_get sc.st.args_optmap s = some (i + 1))
    (hopt : sc.st.args_options[i]? = some o)
    (htype : o.type = ARGUMENTED ∨ o.type = OPTARGUMENTED) :
    args_parse_dispatch sc (s ++ EQUALS :: v) =
      .ok { sc with st := { sc.st with calls := sc.st.calls ++
                                [Call.triggerv s o.standard (some v)] }
                    optqueue := sc.optqueue ++ [s]
                    argqueue := sc.argqueue ++ [some v] } := by
  obtain ⟨name, hname, hne, heq⟩ := long_spelling_shape hs
  have hform : s ++ EQUALS :: v = DASH :: DASH :: (name ++ EQUALS :: v) := by
    rw [hname]; rfl
  rw [hform, args_parse_dispatch_long sc (name ++ EQUALS :: v) ht hd (by simp), ← hform]
  exact args_parse_long_attached sc s v i o hdont hnone heq hmap hopt htype

theorem args_parse_dispatch_sticky (sc : Scan) (s v : CStr) (i : Nat) (o : args_Option)
    (ht : sc.tmpdashed = false) (hd : sc.dashed = false)
    (halt : sc.st.args_alternative = false)
    (hs : short_spelling false s) (hv : v ≠ [])
    (hmap : map_get sc.st.args_optmap s = some (i + 1))
    (hopt : sc.st.args_options[i]? = some o)
    (htype : o.type = ARGUMENTED ∨ o.type = OPTARGUMENTED) :
    args_parse_dispatch sc (s ++ v) =
      .ok { sc with st := { sc.st with calls := sc.st.calls ++
                                [Call.triggerv s o.standard (some v)] }
                    optqueue := sc.optqueue ++ [s]
                    argqueue := sc.argqueue ++ [some v] } := by
  obtain ⟨c, rfl, hc, -⟩ := hs
  have hform : [DASH, c] ++ v = DASH :: c :: v := rfl
  rw [hform, args_parse_dispatch_short _ DASH c v ht hd halt (Or.inl rfl) hc]
  exact args_parse_bundle_sticky sc _ DASH c v i o hmap hopt htype hv

theorem Use.fits_bound (program : Option CStr) (alternative : Bool)
    (abbreviations : Option (CStr → List CStr → Nat → Option CStr))
    (options : List (args_Option × Option CStr)) (hns : no_shared_spelling options)
    {u : Use} (h : u.fits options alternative) :
    ∃ i p, p ∈ options ∧ u.spelling ∈ p.1.alternatives ∧
      map_get (registry program alternative abbreviations options).args_optmap u.spelling
        = some (i + 1) ∧
      (registry program alternative abbreviations options).args_options[i]?
        = some { p.1 with help := p.2 } := by
  obtain ⟨-, p, hp, hmem, -⟩ := h
  obtain ⟨i, hmap, hopt⟩ := registry_bound program alternative abbreviations options hns
    p.1 p.2 hp u.spelling hmem
  exact ⟨i, p, hp, hmem, hmap, hopt⟩

theorem Use.fits_form {options : List (args_Option × Option CStr)} {alternative : Bool}
    (hns : no_shared_spelling options) {u : Use} (h : u.fits options alternative)
    {p : args_Option × Option CStr} (hp : p ∈ options) (hmem : u.spelling ∈ p.1.alternatives) :
    u.admitted options alternative p.1 := by
  obtain ⟨-, q, hq, hmemq, hform⟩ := h
  have : q = p := no_shared_spelling_unique hns hq hp hmemq hmem
  rw [← this]; exact hform

theorem Use.head_dash {alternative : Bool} {s : CStr}
    (h : long_spelling s ∨ short_spelling alternative s) (more : CStr) :
    byteAt (s ++ more) 0 = DASH := by
  rcases h with hl | ⟨c, rfl, -, -⟩
  · obtain ⟨name, rfl, -, -⟩ := long_spelling_shape hl
    rfl
  · rfl

theorem based_settle (program : Option CStr) (alternative : Bool)
    (abbreviations : Option (CStr → List CStr → Nat → Option CStr))
    (options : List (args_Option × Option CStr)) (hns : no_shared_spelling options)
    (done : List Use) (sc : Scan) (t : CStr)
    (hdone : ∀ u ∈ done, u.fits options alternative)
    (hb : based (registry program alternative abbreviations options) sc)
    (hq : sc.optqueue = done.map Use.spelling)
    (hga : (sc.get = 0 ∧ sc.argqueue = done.map Use.value) ∨
      (sc.get = 1 ∧ ∃ front s, done = front ++ [Use.absent s] ∧
        sc.argqueue = front.map Use.value))
    (ht : byteAt t 0 = DASH) :
    ∃ sc0, args_parse_token sc t = args_parse_dispatch sc0 t ∧
      based (registry program alternative abbreviations options) sc0 ∧
      sc0.get = 0 ∧ sc0.optqueue = done.map Use.spelling ∧
      sc0.argqueue = done.map Use.value := by
  rcases hga with ⟨hg, ha⟩ | ⟨hg, front, s, hd, ha⟩
  · exact ⟨sc, args_parse_token_idle _ _ hg, hb, hg, hq, ha⟩
  · have hfit : (Use.absent s).fits options alternative := hdone _ (by rw [hd]; simp)
    obtain ⟨i, p, hp, hmem, hmap, hopt⟩ :=
      Use.fits_bound program alternative abbreviations options hns hfit
    obtain ⟨hty, hstick⟩ := Use.fits_form hns hfit hp hmem
    obtain ⟨b1, b2, b3, b4, b5, b6, b7, b8, b9, b10, b11⟩ := hb
    have hrej : default_stickless t = false := by simp [default_stickless, ht]
    refine ⟨_, args_parse_token_reject sc t s (front.map Use.spelling) i
      { p.1 with help := p.2 } default_stickless hg b10 (by rw [hq, hd]; simp [Use.spelling])
      (by rw [b1]; exact hmap) (by rw [b2]; exact hopt) hty hstick hrej, ?_, rfl, ?_, ?_⟩
    · exact ⟨b1, b2, b3, b4, b5, b6, b7, b8, b9, b10, b11⟩
    · exact hq
    · show sc.argqueue ++ [none] = _
      rw [ha, hd]; simp [Use.value]

theorem args_parse_loop_step (sc sc1 : Scan) (t : CStr) (rest : List CStr) (fuel : Nat)
    (hinj : sc.injection = none) (htok : args_parse_token sc t = .ok sc1) :
    args_parse_loop (fuel + (t :: rest).length) sc (t :: rest) =
      args_parse_loop (fuel + rest.length) sc1 rest := by
  have hlen : fuel + (t :: rest).length = (fuel + rest.length) + 1 := by simp; omega
  rw [hlen, args_parse_loop_cons _ _ _ _ hinj, htok]
  rfl

theorem args_parse_loop_uses (program : Option CStr) (alternative : Bool)
    (abbreviations : Option (CStr → List CStr → Nat → Option CStr))
    (options : List (args_Option × Option CStr)) (hns : no_shared_spelling options)
    (uses : List Use) :
    ∀ (done : List Use) (sc : Scan) (fuel : Nat),
      (∀ u ∈ done, u.fits options alternative) → (∀ u ∈ uses, u.fits options alternative) →
      based (registry program alternative abbreviations options) sc →
      sc.optqueue = done.map Use.spelling →
      ((sc.get = 0 ∧ sc.argqueue = done.map Use.value) ∨
        (sc.get = 1 ∧ ∃ front s, done = front ++ [Use.absent s] ∧
          sc.argqueue = front.map Use.value)) →
      ∃ sc1, args_parse_loop (fuel + (uses.flatMap Use.tokens).length) sc
            (uses.flatMap Use.tokens) = .ok sc1 ∧
        based (registry program alternative abbreviations options) sc1 ∧
        sc1.optqueue = (done ++ uses).map Use.spelling ∧
        ((sc1.get = 0 ∧ sc1.argqueue = (done ++ uses).map Use.value) ∨
          (sc1.get = 1 ∧ ∃ front s, done ++ uses = front ++ [Use.absent s] ∧
            sc1.argqueue = front.map Use.value)) := by
  induction uses with
  | nil =>
    intro done sc fuel _ _ hb hq hga
    refine ⟨sc, args_parse_loop_nil _ sc hb.2.2.2.2.2.2.2.2.2.2, hb, by simpa using hq, ?_⟩
    simpa using hga
  | cons u uses ih =>
    intro done sc fuel hdone huses hb hq hga
    have hfit : u.fits options alternative := huses u (by simp)
    have hdone1 : ∀ w ∈ done ++ [u], w.fits options alternative := by
      intro w hw
      rcases List.mem_append.mp hw with h | h
      · exact hdone w h
      · simp only [List.mem_singleton] at h
        rw [h]; exact hfit
    have huses1 : ∀ w ∈ uses, w.fits options alternative := fun w hw => huses w (by simp [hw])
    have hinj : sc.injection = none := hb.2.2.2.2.2.2.2.2.2.2
    have halt0 : (registry program alternative abbreviations options).args_alternative
        = alternative := (registry_fields program alternative abbreviations options).1
    obtain ⟨i, p, hp, hmem, hmap, hopt⟩ :=
      Use.fits_bound program alternative abbreviations options hns hfit
    have hform := Use.fits_form hns hfit hp hmem
    have hsp := hfit.1
    have hassoc : done ++ u :: uses = (done ++ [u]) ++ uses := by simp
    rw [List.flatMap_cons, hassoc]
    cases u with
    | flag s =>
      obtain ⟨sc0, htok, hb0, hg0, hq0, ha0⟩ := based_settle program alternative abbreviations
        options hns done sc s hdone hb hq hga (by simpa using Use.head_dash hsp [])
      obtain ⟨b1, b2, b3, b4, b5, b6, b7, b8, b9, b10, b11⟩ := hb0
      rw [args_parse_dispatch_flag sc0 alternative s i { p.1 with help := p.2 } b8 b7 b10 hsp
        (by rw [b1]; exact hmap) (by rw [b2]; exact hopt) hform] at htok
      show ∃ sc1, args_parse_loop (fuel + (s :: uses.flatMap Use.tokens).length) sc
        (s :: uses.flatMap Use.tokens) = .ok sc1 ∧ _
      rw [args_parse_loop_step _ _ _ _ _ hinj htok]
      exact ih (done ++ [Use.flag s]) _ fuel hdone1 huses1
        ⟨b1, b2, b3, b4, b5, b6, b7, b8, b9, b10, b11⟩
        (by show sc0.optqueue ++ [s] = _; rw [hq0]; simp [Use.spelling])
        (Or.inl ⟨hg0, by show sc0.argqueue ++ [none] = _; rw [ha0]; simp [Use.value]⟩)
    | deferred s v =>
      obtain ⟨sc0, htok, hb0, hg0, hq0, ha0⟩ := based_settle program alternative abbreviations
        options hns done sc s hdone hb hq hga (by simpa using Use.head_dash hsp [])
      obtain ⟨b1, b2, b3, b4, b5, b6, b7, b8, b9, b10, b11⟩ := hb0
      have hty : ({ p.1 with help := p.2 } : args_Option).type = ARGUMENTED ∨
          ({ p.1 with help := p.2 } : args_Option).type = OPTARGUMENTED := by
        rcases hform with h | ⟨h, -⟩
        · exact Or.inl h
        · exact Or.inr h
      rw [args_parse_dispatch_defer sc0 alternative s i { p.1 with help := p.2 } b8 b7 b10
        (by rw [b4]; exact halt0) hsp (by rw [b1]; exact hmap) (by rw [b2]; exact hopt) hty]
        at htok
      have htok2 := args_parse_token_accept
        { sc0 with optqueue := sc0.optqueue ++ [s], get := sc0.get + 1 } v s sc0.optqueue i
        { p.1 with help := p.2 } (by show sc0.get + 1 = 1; rw [hg0]) b10 rfl
        (by show map_get sc0.st.args_optmap s = _; rw [b1]; exact hmap)
        (by show sc0.st.args_options[i]? = _; rw [b2]; exact hopt)
        (by
          rcases hform with h | ⟨-, h⟩
          · left
            show p.1.type ≠ OPTARGUMENTED
            rw [h]; decide
          · exact Or.inr h)
      show ∃ sc1, args_parse_loop (fuel + (s :: v :: uses.flatMap Use.tokens).length) sc
        (s :: v :: uses.flatMap Use.tokens) = .ok sc1 ∧ _
      rw [args_parse_loop_step _ _ _ _ _ hinj htok,
        args_parse_loop_step { sc0 with optqueue := sc0.optqueue ++ [s], get := sc0.get + 1 }
          _ v _ fuel b11 htok2]
      exact ih (done ++ [Use.deferred s v]) _ fuel hdone1 huses1
        ⟨b1, b2, b3, b4, b5, b6, b7, b8, b9, b10, b11⟩
        (by show sc0.optqueue ++ [s] = _; rw [hq0]; simp [Use.spelling])
        (Or.inl ⟨rfl, by show sc0.argqueue ++ [some v] = _; rw [ha0]; simp [Use.value]⟩)
    | attached s v =>
      obtain ⟨sc0, htok, hb0, hg0, hq0, ha0⟩ := based_settle program alternative abbreviations
        options hns done sc (s ++ EQUALS :: v) hdone hb hq hga (Use.head_dash hsp _)
      obtain ⟨b1, b2, b3, b4, b5, b6, b7, b8, b9, b10, b11⟩ := hb0
      obtain ⟨hty, hlong, hnone⟩ := hform
      rw [args_parse_dispatch_attached sc0 s v i { p.1 with help := p.2 } b8 b7 b10 hlong
        (by rw [b1]; exact registry_unbound program alternative abbreviations options _ hnone)
        (by rw [b1]; exact hmap) (by rw [b2]; exact hopt) hty] at htok
      show ∃ sc1, args_parse_loop (fuel + ((s ++ EQUALS :: v) :: uses.flatMap Use.tokens).length)
        sc ((s ++ EQUALS :: v) :: uses.flatMap Use.tokens) = .ok sc1 ∧ _
      rw [args_parse_loop_step _ _ _ _ _ hinj htok]
      exact ih (done ++ [Use.attached s v]) _ fuel hdone1 huses1
        ⟨b1, b2, b3, b4, b5, b6, b7, b8, b9, b10, b11⟩
        (by show sc0.optqueue ++ [s] = _; rw [hq0]; simp [Use.spelling])
        (Or.inl ⟨hg0, by show sc0.argqueue ++ [some v] = _; rw [ha0]; simp [Use.value]⟩)
    | sticky s v =>
      obtain ⟨sc0, htok, hb0, hg0, hq0, ha0⟩ := based_settle program alternative abbreviations
        options hns done sc (s ++ v) hdone hb hq hga (Use.head_dash hsp _)
      obtain ⟨b1, b2, b3, b4, b5, b6, b7, b8, b9, b10, b11⟩ := hb0
      obtain ⟨hty, hshort, hmode, hv⟩ := hform
      rw [args_parse_dispatch_sticky sc0 s v i { p.1 with help := p.2 } b8 b7
        (by rw [b4, halt0]; exact hmode) hshort hv
        (by rw [b1]; exact hmap) (by rw [b2]; exact hopt) hty] at htok
      show ∃ sc1, args_parse_loop (fuel + ((s ++ v) :: uses.flatMap Use.tokens).length)
        sc ((s ++ v) :: uses.flatMap Use.tokens) = .ok sc1 ∧ _
      rw [args_parse_loop_step _ _ _ _ _ hinj htok]
      exact ih (done ++ [Use.sticky s v]) _ fuel hdone1 huses1
        ⟨b1, b2, b3, b4, b5, b6, b7, b8, b9, b10, b11⟩
        (by show sc0.optqueue ++ [s] = _; rw [hq0]; simp [Use.spelling])
        (Or.inl ⟨hg0, by show sc0.argqueue ++ [some v] = _; rw [ha0]; simp [Use.value]⟩)
    | absent s =>
      obtain ⟨sc0, htok, hb0, hg0, hq0, ha0⟩ := based_settle program alternative abbreviations
        options hns done sc s hdone hb hq hga (by simpa using Use.head_dash hsp [])
      obtain ⟨b1, b2, b3, b4, b5, b6, b7, b8, b9, b10, b11⟩ := hb0
      rw [args_parse_dispatch_defer sc0 alternative s i { p.1 with help := p.2 } b8 b7 b10
        (by rw [b4]; exact halt0) hsp (by rw [b1]; exact hmap) (by rw [b2]; exact hopt)
        (Or.inr hform.1)] at htok
      show ∃ sc1, args_parse_loop (fuel + (s :: uses.flatMap Use.tokens).length) sc
        (s :: uses.flatMap Use.tokens) = .ok sc1 ∧ _
      rw [args_parse_loop_step _ _ _ _ _ hinj htok]
      exact ih (done ++ [Use.absent s]) _ fuel hdone1 huses1
        ⟨b1, b2, b3, b4, b5, b6, b7, b8, b9, b10, b11⟩
        (by show sc0.optqueue ++ [s] = _; rw [hq0]; simp [Use.spelling])
        (Or.inr ⟨by show sc0.get + 1 = 1; rw [hg0], done, s, rfl, ha0⟩)

theorem getD_append_none {α : Type} (l : List (Option α)) (k : Nat) :
    (l ++ [none]).getD k none = l.getD k none := by
  induction l generalizing k with
  | nil => cases k <;> rfl
  | cons a l ih =>
    cases k with
    | zero => rfl
    | succ k => simpa using ih k

theorem recorded_values_uses (canon : CStr → CStr) (n : CStr) (aq : List (Option CStr))
    (us : List Use) :
    ∀ i : Nat, (∀ k, k < us.length → aq.getD (i + k) none = (us.map Use.value).getD k none) →
      recorded_values canon aq n i (us.map Use.spelling) =
        (us.filter (fun u => decide (canon u.spelling = n))).map Use.value := by
  induction us with
  | nil => intro i _; rfl
  | cons u us ih =>
    intro i h
    have h0 : aq.getD i none = u.value := by simpa using h 0 (by simp)
    have hrest := ih (i + 1) (fun k hk => by
      have := h (k + 1) (by simp; omega)
      simpa [Nat.add_assoc, Nat.add_comm 1 k] using this)
    simp only [List.map_cons, recorded_values, hrest, h0, List.filter_cons]
    by_cases hc : canon u.spelling = n
    · simp [hc]
    · simp [hc]

theorem Use.admitted_type {options : List (args_Option × Option CStr)} {alternative : Bool}
    {o : args_Option} {u : Use} (h : u.admitted options alternative o) : o.type ≠ VARIADIC := by
  have h3 : ¬ (ARGUMENTLESS = VARIADIC) := by decide
  have h4 : ¬ (ARGUMENTED = VARIADIC) := by decide
  have h5 : ¬ (OPTARGUMENTED = VARIADIC) := by decide
  cases u with
  | flag s => intro e; rw [h] at e; exact h3 e
  | deferred s v =>
    intro e
    rcases h with h | ⟨h, -⟩ <;> rw [h] at e
    · exact h4 e
    · exact h5 e
  | attached s v =>
    intro e
    rcases h.1 with h | h <;> rw [h] at e
    · exact h4 e
    · exact h5 e
  | sticky s v =>
    intro e
    rcases h.1 with h | h <;> rw [h] at e
    · exact h4 e
    · exact h5 e
  | absent s => intro e; rw [h.1] at e; exact h5 e

/-- C12: in a registry without shared spellings, let `uses` be any sequence of
invocations of non-variadic options, each by a long or short spelling of its
option and in a form that the option admits (flag, value in the next token,
value attached by `=`, sticky value, absent value). Parsing the tokens of the
invocations, in order, returns true, and for every registered option the entry
under its canonical spelling holds one value (or absence marker) per
invocation of that option, in the order of the invocations, whichever spelling
they wrote: the count is the number of these invocations, the value array is
`null` when there is none, and the option is used exactly when there is one. -/
theorem args_parse_values_in_order (program : Option CStr) (alternative : Bool)
    (abbreviations : Option (CStr → List CStr → Nat → Option CStr))
    (options : List (args_Option × Option CStr))
    (hns : no_shared_spelling options) (hcl : canonical_listed options)
    (uses : List Use) (hfit : ∀ u ∈ uses, u.fits options alternative)
    (exe : CStr) (fuel : Nat) :
    ∃ st1, args_parse (fuel + (uses.flatMap Use.tokens).length)
        (registry program alternative abbreviations options)
        (exe :: uses.flatMap Use.tokens) = .ok (true, st1) ∧
      ∀ o help, (o, help) ∈ options →
        args_opts_get_count st1 o.standard =
          (uses.filter (fun u => decide (u.spelling ∈ o.alternatives))).length ∧
        args_opts_get st1 o.standard =
          (if (uses.filter (fun u => decide (u.spelling ∈ o.alternatives))).isEmpty then none
           else some ((uses.filter (fun u => decide (u.spelling ∈ o.alternatives))).map
             Use.value)) ∧
        args_opts_used st1 o.standard =
          !(uses.filter (fun u => decide (u.spelling ∈ o.alternatives))).isEmpty := by
  obtain ⟨-, -, hfc, -, -, -⟩ := registry_fields program alternative abbreviations options
  obtain ⟨sc, hloop, hb, hq, hga⟩ := args_parse_loop_uses program alternative abbreviations
    options hns uses [] (args_parse_begin (registry program alternative abbreviations options)
      (uses.flatMap Use.tokens)) fuel (by simp) hfit
    ⟨rfl, rfl, rfl, rfl, rfl, rfl, rfl, rfl, rfl, rfl, rfl⟩ rfl (Or.inl ⟨rfl, rfl⟩)
  simp only [List.nil_append] at hq hga
  obtain ⟨b1, b2, b3, b4, b5, b6, b7, b8, b9, b10, b11⟩ := hb
  rw [args_parse_of_loop _ _ _ _ _ hloop]
  have hcanon : ∀ u ∈ uses, ∀ p ∈ options, u.spelling ∈ p.1.alternatives →
      canonical (registry program alternative abbreviations options) u.spelling
        = p.1.standard := by
    intro u _ p hp hmem
    obtain ⟨i, hmap, hopt⟩ := registry_bound program alternative abbreviations options hns
      p.1 p.2 hp u.spelling hmem
    simp [canonical, (args_optmap_lookup hmap hopt).2.2.2]
  obtain ⟨m, hend, -, hget⟩ := args_parse_end_shape sc
    (canonical (registry program alternative abbreviations options))
    (by
      intro s hs
      rw [hq] at hs
      obtain ⟨u, hu, rfl⟩ := List.mem_map.mp hs
      obtain ⟨i, p, hp, hmem, hmap, hopt⟩ :=
        Use.fits_bound program alternative abbreviations options hns (hfit u hu)
      refine ⟨i, { p.1 with help := p.2 }, by rw [b1]; exact hmap, by rw [b2]; exact hopt,
        (hcanon u hu p hp hmem).symm, ?_⟩
      rw [args_optmap_contains_congr b1, hcanon u hu p hp hmem]
      exact registry_contains_standard program alternative abbreviations options hns hcl
        p.1 p.2 hp)
    (by rw [b3]; exact registry_tidy program alternative abbreviations options)
    (by
      intro w hw hty
      refine ⟨by
        simp only [args_opts_used, b3]
        exact registry_unused program alternative abbreviations options w.standard, ?_⟩
      intro s hs heq
      rw [hq] at hs
      obtain ⟨u, hu, rfl⟩ := List.mem_map.mp hs
      obtain ⟨i, p, hp, hmem, -, -⟩ :=
        Use.fits_bound program alternative abbreviations options hns (hfit u hu)
      rw [hcanon u hu p hp hmem] at heq
      rw [b2] at hw
      have := registry_standard_type program alternative abbreviations options hns hcl
        p.1 p.2 hp w hw heq.symm
      rw [hty] at this
      exact Use.admitted_type (Use.fits_form hns (hfit u hu) hp hmem) this.symm)
    (by rw [b5]; exact hfc) (by rw [b6]; exact Nat.zero_le 5)
  rw [hend, b9]
  refine ⟨_, rfl, ?_⟩
  intro o help hp
  have hvals : recorded_values (canonical (registry program alternative abbreviations options))
      sc.argqueue o.standard 0 sc.optqueue =
      (uses.filter (fun u => decide (u.spelling ∈ o.alternatives))).map Use.value := by
    rw [hq, recorded_values_uses]
    · congr 1
      apply List.filter_congr
      intro u hu
      obtain ⟨i, p, hp', hmem, -, -⟩ :=
        Use.fits_bound program alternative abbreviations options hns (hfit u hu)
      rw [hcanon u hu p hp' hmem]
      by_cases hin : u.spelling ∈ o.alternatives
      · have : p = (o, help) := no_shared_spelling_unique hns hp' hp hmem hin
        simp [hin, this]
      · have hne : p.1.standard ≠ o.standard := by
          intro e
          have : p = (o, help) := no_shared_spelling_unique hns hp' hp (hcl p hp')
            (by rw [e]; exact hcl (o, help) hp)
          rw [this] at hmem
          exact hin hmem
        simp [hin, hne]
    · intro k _
      rcases hga with ⟨-, ha⟩ | ⟨-, front, s, hd, ha⟩
      · rw [ha]; simp
      · rw [ha, hd]
        simp only [List.map_append, List.map_cons, List.map_nil, Use.value, Nat.zero_add]
        rw [getD_append_none]
  have hm := hget o.standard
  rw [hvals, b3, registry_entry_standard program alternative abbreviations options o help hp]
    at hm
  show args_opts_get_count { sc.st with args_opts := m, calls := _, args_message := none }
      o.standard = _ ∧ _
  simp only [args_opts_get_count, args_opts_get, args_opts_used, hm, recorded, blank]
  cases hv : uses.filter (fun u => decide (u.spelling ∈ o.alternatives)) with
  | nil => simp
  | cons u0 us0 => simp

/-- C12, at the registry with the Argumented option `opt_a` (spellings `-a` and
`--opt`, the second one canonical): the tokens `-a`, `a`, `--opt`, `b`,
`--opt=c` leave the values `a`, `b`, `c` and the count 3 for `--opt`. -/
theorem args_parse_values_in_order_witness :
    no_shared_spelling [(opt_a, none)] ∧ canonical_listed [(opt_a, none)] ∧
    (∀ u ∈ [Use.deferred [45, 97] [97], Use.deferred [45, 45, 111, 112, 116] [98],
        Use.attached [45, 45, 111, 112, 116] [99]],
      u.fits [(opt_a, (none : Option CStr))] false) ∧
    ∃ st1, args_parse (0 + 5) (registry none false none [(opt_a, none)])
        [[112], [45, 97], [97], [45, 45, 111, 112, 116], [98],
          [45, 45, 111, 112, 116, 61, 99]] = .ok (true, st1) ∧
      args_opts_get_count st1 [45, 45, 111, 112, 116] = 3 ∧
      args_opts_get st1 [45, 45, 111, 112, 116] = some [some [97], some [98], some [99]] ∧
      args_opts_used st1 [45, 45, 111, 112, 116] = true :=
  have h1 : no_shared_spelling [(opt_a, none)] := by simp [no_shared_spelling]
  have h2 : canonical_listed [(opt_a, none)] := by simp [canonical_listed, opt_a]
  have hlong : long_spelling [45, 45, 111, 112, 116] := ⟨[111, 112, 116], rfl, by decide, by decide⟩
  have h3 : ∀ u ∈ [Use.deferred [45, 97] [97], Use.deferred [45, 45, 111, 112, 116] [98],
        Use.attached [45, 45, 111, 112, 116] [99]],
      u.fits [(opt_a, (none : Option CStr))] false := by
    intro u hu
    simp only [List.mem_cons, List.mem_singleton, List.not_mem_nil, or_false] at hu
    rcases hu with rfl | rfl | rfl
    · exact ⟨Or.inr ⟨97, rfl, by decide, by decide⟩, (opt_a, none), by simp, by decide,
        Or.inl rfl⟩
    · exact ⟨Or.inl hlong, (opt_a, none), by simp, by decide, Or.inl rfl⟩
    · exact ⟨Or.inl hlong, (opt_a, none), by simp, by decide, Or.inl rfl, hlong, by decide⟩
  match args_parse_values_in_order none false none [(opt_a, none)] h1 h2 _ h3 [112] 0 with
  | ⟨st1, hparse, hvalues⟩ =>
    ⟨h1, h2, h3, st1, hparse, (hvalues opt_a none (by simp)).1, (hvalues opt_a none (by simp)).2.1,
      (hvalues opt_a none (by simp)).2.2⟩

/-! ## The standard abbreviation policy and the constructors -/

theorem nulAt_abbreviation_match (argument : CStr) :
    ∀ opt : CStr, nulAt argument (abbreviation_match argument opt) = argument.isPrefixOf opt := by
  induction argument with
  | nil => intro opt; simp [abbreviation_match, nulAt]
  | cons a argument ih =>
    intro opt
    cases opt with
    | nil => simp [abbreviation_match, nulAt]
    | cons o opt =>
      simp only [abbreviation_match, List.isPrefixOf]
      by_cases h : o = a
      · have := ih opt
        simp only [nulAt] at this ⊢
        simp [h, ← this]
      · have h' : ¬ a = o := fun e => h e.symm
        simp [h, h', nulAt]

theorem args_standard_abbreviations_loop_found (argument r : CStr) (options : List CStr) :
    args_standard_abbreviations_loop argument (some r) options =
      if (options.filter (fun opt => argument.isPrefixOf opt)).isEmpty then some r else none := by
  induction options with
  | nil => rfl
  | cons opt options ih =>
    simp only [args_standard_abbreviations_loop, nulAt_abbreviation_match, List.filter_cons]
    by_cases h : argument.isPrefixOf opt = true
    · simp [h]
    · simp [h, ih]

theorem args_standard_abbreviations_loop_none (argument : CStr) (options : List CStr) :
    args_standard_abbreviations_loop argument none options =
      match options.filter (fun opt => argument.isPrefixOf opt) with
      | [opt] => some opt
      | _ => none := by
  induction options with
  | nil => rfl
  | cons opt options ih =>
    simp only [args_standard_abbreviations_loop, nulAt_abbreviation_match, List.filter_cons]
    by_cases h : argument.isPrefixOf opt = true
    · simp only [h, if_true, args_standard_abbreviations_loop_found]
      cases hf : options.filter (fun opt => argument.isPrefixOf opt) with
      | nil => simp
      | cons x xs => simp
    · simp only [h, if_false, Bool.false_eq_true]
      exact ih

/-- C22: `args_standard_abbreviations(argument, options, count)` looks at the
first `count` options, in which `argument` is a prefix of some of them (an
exact match included): it returns that option when there is exactly one such
entry, and `null` when there is none or more than one. -/
theorem args_standard_abbreviations_unique (argument : CStr) (options : List CStr)
    (count : Nat) :
    args_standard_abbreviations argument options count =
      match (options.take count).filter (fun opt => argument.isPrefixOf opt) with
      | [opt] => some opt
      | _ => none :=
  args_standard_abbreviations_loop_none argument (options.take count)

theorem args_new_standard (type : Nat) (argument : CStr) (stickless : Option (CStr → Bool))
    (standard : Int) (alternatives : CStr) (more : List CStr)
    (hlo : -((more.length : Int) + 1) ≤ standard) (hhi : standard < (more.length : Int) + 1) :
    ∃ std, args_new type argument stickless standard alternatives more =
        .ok { type := type, help := none, argument := argument
              alternatives := alternatives :: more, standard := std, stickless := stickless } ∧
      (alternatives :: more)[(if standard < 0 then standard + ((more.length : Int) + 1)
        else standard).toNat]? = some std := by
  have hlen : (((alternatives :: more).length : Nat) : Int) = (more.length : Int) + 1 := by simp
  have hidx : 0 ≤ (if standard < 0 then standard + ((more.length : Int) + 1) else standard) := by
    split_ifs <;> omega
  have hlt : (if standard < 0 then standard + ((more.length : Int) + 1) else standard).toNat
      < (alternatives :: more).length := by
    have : (if standard < 0 then standard + ((more.length : Int) + 1) else standard)
        < (more.length : Int) + 1 := by split_ifs <;> omega
    simp only [List.length_cons]
    omega
  refine ⟨(alternatives :: more)[(if standard < 0 then standard + ((more.length : Int) + 1)
      else standard).toNat], ?_, ?_⟩
  · simp only [args_new, hlen, hidx, if_true, List.getElem?_eq_getElem hlt]
  · exact List.getElem?_eq_getElem hlt

/-- C24: each of the four constructors, called with the spellings `a :: more`
(`n = more.length + 1` of them) and a designated index `s` with `-n ≤ s < n`,
returns an option of its arity class that has exactly these spellings, in
order, and whose canonical spelling is the spelling at index `s` when `s` is
not negative and at index `n + s` when it is. -/
theorem args_new_spellings_and_standard (standard : Int) (a : CStr) (more : List CStr)
    (hlo : -((more.length : Int) + 1) ≤ standard) (hhi : standard < (more.length : Int) + 1)
    (argument : Option CStr) (stickless : Option (CStr → Bool)) :
    ∃ std, (a :: more)[(if standard < 0 then standard + ((more.length : Int) + 1)
        else standard).toNat]? = some std ∧
      (∃ o, args_new_argumentless standard a more = .ok o ∧ o.type = ARGUMENTLESS ∧
        o.alternatives = a :: more ∧ o.standard = std) ∧
      (∃ o, args_new_argumented argument standard a more = .ok o ∧ o.type = ARGUMENTED ∧
        o.alternatives = a :: more ∧ o.standard = std) ∧
      (∃ o, args_new_optargumented stickless argument standard a more = .ok o ∧
        o.type = OPTARGUMENTED ∧ o.alternatives = a :: more ∧ o.standard = std) ∧
      (∃ o, args_new_variadic argument standard a more = .ok o ∧ o.type = VARIADIC ∧
        o.alternatives = a :: more ∧ o.standard = std) := by
  obtain ⟨std, -, hstd⟩ := args_new_standard 0 [] none standard a more hlo hhi
  refine ⟨std, hstd, ?_, ?_, ?_, ?_⟩
  · obtain ⟨std', h, hstd'⟩ := args_new_standard ARGUMENTLESS [78, 79, 84, 72, 73, 78, 71] none
      standard a more hlo hhi
    rw [hstd] at hstd'
    exact ⟨_, h, rfl, rfl, (Option.some.inj hstd').symm⟩
  · obtain ⟨std', h, hstd'⟩ := args_new_standard ARGUMENTED (argument.getD [65, 82, 71]) none
      standard a more hlo hhi
    rw [hstd] at hstd'
    exact ⟨_, h, rfl, rfl, (Option.some.inj hstd').symm⟩
  · obtain ⟨std', h, hstd'⟩ := args_new_standard OPTARGUMENTED (argument.getD [65, 82, 71])
      (some (stickless.getD default_stickless)) standard a more hlo hhi
    rw [hstd] at hstd'
    exact ⟨_, h, rfl, rfl, (Option.some.inj hstd').symm⟩
  · obtain ⟨std', h, hstd'⟩ := args_new_standard VARIADIC (argument.getD [65, 82, 71]) none
      standard a more hlo hhi
    rw [hstd] at hstd'
    exact ⟨_, h, rfl, rfl, (Option.some.inj hstd').symm⟩

/-- C24, with the spellings `-a`, `--opt` and the index `-1`: the canonical
spelling is the last one, `--opt`. -/
theorem args_new_spellings_and_standard_witness :
    -(((([[45, 45, 111, 112, 116]] : List CStr).length : Nat) : Int) + 1) ≤ (-1 : Int) ∧
    (-1 : Int) < ((([[45, 45, 111, 112, 116]] : List CStr).length : Nat) : Int) + 1 ∧
    ∃ std, ([45, 97] :: [[45, 45, 111, 112, 116]])[(if (-1 : Int) < 0 then
        (-1 : Int) + (((([[45, 45, 111, 112, 116]] : List CStr).length : Nat) : Int) + 1)
        else (-1 : Int)).toNat]? = some std ∧
      (∃ o, args_new_argumentless (-1) [45, 97] [[45, 45, 111, 112, 116]] = .ok o ∧
        o.type = ARGUMENTLESS ∧ o.alternatives = [45, 97] :: [[45, 45, 111, 112, 116]] ∧
        o.standard = std) ∧
      (∃ o, args_new_argumented none (-1) [45, 97] [[45, 45, 111, 112, 116]] = .ok o ∧
        o.type = ARGUMENTED ∧ o.alternatives = [45, 97] :: [[45, 45, 111, 112, 116]] ∧
        o.standard = std) ∧
      (∃ o, args_new_optargumented none none (-1) [45, 97] [[45, 45, 111, 112, 116]] = .ok o ∧
        o.type = OPTARGUMENTED ∧ o.alternatives = [45, 97] :: [[45, 45, 111, 112, 116]] ∧
        o.standard = std) ∧
      (∃ o, args_new_variadic none (-1) [45, 97] [[45, 45, 111, 112, 116]] = .ok o ∧
        o.type = VARIADIC ∧ o.alternatives = [45, 97] :: [[45, 45, 111, 112, 116]] ∧
        o.standard = std) :=
  ⟨by decide, by decide,
    args_new_spellings_and_standard (-1) [45, 97] [[45, 45, 111, 112, 116]] (by decide)
      (by decide) none none⟩

/-! ## Injection that does not end -/

theorem args_parse_loop_stalls (sc : Scan) (inj : CStr)
    (h : args_parse_token { sc with injection := none } inj =
      .ok { sc with injection := some inj }) :
    ∀ (fuel : Nat) (argv : List CStr),
      args_parse_loop fuel { sc with injection := some inj } argv = .error .fuel := by
  intro fuel
  induction fuel with
  | zero => intro argv; unfold args_parse_loop; rfl
  | succ fuel ih =>
    intro argv
    unfold args_parse_loop
    simp only [h, bind, Except.bind]
    exact ih argv

/-- C21: with the default abbreviation policy and the Argumentless option
`--verbose`, the scan of the single token `--verbose=v` does not end: the
option part `--verbose` is expanded to itself and the token is injected again,
so that `args_parse` runs out of every bound on its iterations. -/
theorem args_parse_stalls_on_argumentless_with_value (fuel : Nat) :
    args_parse fuel (registry none false (some args_standard_abbreviations) [(flag_verbose, none)])
      [[112], [45, 45, 118, 101, 114, 98, 111, 115, 101, 61, 118]] = .error .fuel := by
  cases fuel with
  | zero => rfl
  | succ fuel =>
    have h := args_parse_loop_stalls
      (args_parse_begin (registry none false (some args_standard_abbreviations)
        [(flag_verbose, none)]) [[45, 45, 118, 101, 114, 98, 111, 115, 101, 61, 118]])
      [45, 45, 118, 101, 114, 98, 111, 115, 101, 61, 118] rfl fuel []
    unfold args_parse
    simp only []
    unfold args_parse_loop
    have ht : args_parse_token
        (args_parse_begin (registry none false (some args_standard_abbreviations)
          [(flag_verbose, none)]) [[45, 45, 118, 101, 114, 98, 111, 115, 101, 61, 118]])
        [45, 45, 118, 101, 114, 98, 111, 115, 101, 61, 118] =
        .ok { args_parse_begin (registry none false (some args_standard_abbreviations)
          [(flag_verbose, none)]) [[45, 45, 118, 101, 114, 98, 111, 115, 101, 61, 118]] with
          injection := some [45, 45, 118, 101, 114, 98, 111, 115, 101, 61, 118] } := rfl
    simp only [args_parse_begin] at ht h ⊢
    simp only [ht, h, bind, Except.bind]

/-- C30: with the default abbreviation policy and one option with the spellings
`--abc` and `--ab`, registered in this order, the token `--a` is a prefix of two
registered spellings and is expanded all the same: `args_parse` returns `true`,
counts nothing as unrecognised and records a use of `--abc`. -/
theorem args_parse_expands_ambiguous_abbreviation :
    ∃ st, args_parse 2 (registry none false (some args_standard_abbreviations)
        [(flag_abc, none)]) [[112], [45, 45, 97]] = .ok (true, st) ∧
      st.args_unrecognised_count = 0 ∧
      args_opts_used st [45, 45, 97, 98, 99] = true ∧
      args_opts_get st [45, 45, 97, 98, 99] = some [none] ∧
      args_get_optmap st = [[45, 45, 97, 98, 99]] ∧
      args_optmap_contains st [45, 45, 97, 98] = true ∧
      args_optmap_contains st [45, 45, 97] = false :=
  ⟨_, rfl, by decide, by decide, rfl, by decide, by decide, by decide⟩

/-- C26: with the Argumentless option `-a` and no option `-x`, `args_parse` on
the bundle `-xa` goes on behind the unknown character: `-a` is dispatched and
left used, with one absence marker, and one unrecognised option is counted. -/
theorem args_parse_bundle_goes_on_after_unknown :
    ∃ st, args_parse 1 (registry none false none [(flag_a, none)])
        [[112], [45, 120, 97]] = .ok (false, st) ∧
      args_opts_used st [45, 97] = true ∧
      args_opts_get st [45, 97] = some [none] ∧
      st.calls = [Call.trigger [45, 97] [45, 97]] ∧
      st.args_unrecognised_count = 1 :=
  ⟨_, rfl, by decide, rfl, by decide, by decide⟩

/-! ## The end of `args_parse` for a sequence of invocations -/

theorem args_parse_end_shape_any (sc : Scan) (canon : CStr → CStr)
    (hq : ∀ s ∈ sc.optqueue, ∃ j o, map_get sc.st.args_optmap s = some (j + 1) ∧
      sc.st.args_options[j]? = some o ∧ o.standard = canon s ∧
      args_optmap_contains sc.st (canon s) = true)
    (ht : tidy sc.st.args_opts)
    (hvar : ∀ o ∈ sc.st.args_options, o.type = VARIADIC →
      args_opts_used sc.st o.standard = false ∧ ∀ s ∈ sc.optqueue, canon s ≠ o.standard)
    (hfiles : sc.st.args_files_count = 0) :
    ∃ m, args_parse_end sc =
        .ok (sc.rc, args_parse_summary
          { sc.st with args_opts := m
                       calls := sc.st.calls ++ late_calls canon sc.argqueue 0 sc.optqueue
                       args_message := none }) ∧
      tidy m ∧
      ∀ n, map_get m n =
        recorded (map_get sc.st.args_opts n) (recorded_values canon sc.argqueue n 0 sc.optqueue) := by
  obtain ⟨m, hrec, htm, hget⟩ := args_parse_record_shape sc.argqueue canon sc.optqueue sc.st 0 hq ht
  refine ⟨m, ?_, htm, hget⟩
  have hv : args_parse_variadic
      { sc.st with args_opts := m
                   calls := sc.st.calls ++ late_calls canon sc.argqueue 0 sc.optqueue }
      sc.st.args_options
      = .ok { sc.st with args_opts := m
                         calls := sc.st.calls ++ late_calls canon sc.argqueue 0 sc.optqueue } := by
    apply args_parse_variadic_none
    intro o ho hty
    obtain ⟨hu, hne⟩ := hvar o ho hty
    have hnil := recorded_values_nil canon sc.argqueue o.standard sc.optqueue 0 hne
    simp only [args_opts_used, hget, hnil, recorded_nil] at hu ⊢
    exact hu
  simp only [args_parse_end, hrec, bind, Except.bind, hv]
  rw [args_parse_message_none _ (by exact hfiles)]
  simp only [pure, Except.pure]

theorem late_calls_full (canon : CStr → CStr) (argqueue : List (Option CStr))
    (optqueue : List CStr) :
    ∀ i : Nat, i + optqueue.length ≤ argqueue.length →
      late_calls canon argqueue i optqueue = [] := by
  induction optqueue with
  | nil => intro i _; rfl
  | cons s rest ih =>
    intro i h
    simp only [List.length_cons] at h
    have hlt : ¬ argqueue.length ≤ i := by omega
    simp only [late_calls, hlt, if_false]
    exact ih (i + 1) (by omega)

theorem args_parse_end_uses (program : Option CStr) (alternative : Bool)
    (abbreviations : Option (CStr → List CStr → Nat → Option CStr))
    (options : List (args_Option × Option CStr))
    (hns : no_shared_spelling options) (hcl : canonical_listed options)
    (uses : List Use) (hfit : ∀ u ∈ uses, u.fits options alternative) (sc : Scan)
    (b1 : sc.st.args_optmap = (registry program alternative abbreviations options).args_optmap)
    (b2 : sc.st.args_options = (registry program alternative abbreviations options).args_options)
    (b3 : sc.st.args_opts = (registry program alternative abbreviations options).args_opts)
    (b5 : sc.st.args_files_count = 0)
    (hq : sc.optqueue = uses.map Use.spelling) (ha : sc.argqueue = uses.map Use.value) :
    ∃ st1, args_parse_end sc = .ok (sc.rc, st1) ∧
      st1.args_unrecognised_count = sc.st.args_unrecognised_count ∧
      st1.args_files_count = 0 ∧ st1.args_message = none ∧ st1.calls = sc.st.calls ∧
      ∀ o help, (o, help) ∈ options →
        args_opts_get_count st1 o.standard =
          (uses.filter (fun u => decide (u.spelling ∈ o.alternatives))).length ∧
        args_opts_get st1 o.standard =
          (if (uses.filter (fun u => decide (u.spelling ∈ o.alternatives))).isEmpty then none
           else some ((uses.filter (fun u => decide (u.spelling ∈ o.alternatives))).map
             Use.value)) ∧
        args_opts_used st1 o.standard =
          !(uses.filter (fun u => decide (u.spelling ∈ o.alternatives))).isEmpty := by
  have hcanon : ∀ u ∈ uses, ∀ p ∈ options, u.spelling ∈ p.1.alternatives →
      canonical (registry program alternative abbreviations options) u.spelling
        = p.1.standard := by
    intro u _ p hp hmem
    obtain ⟨i, hmap, hopt⟩ := registry_bound program alternative abbreviations options hns
      p.1 p.2 hp u.spelling hmem
    simp [canonical, (args_optmap_lookup hmap hopt).2.2.2]
  obtain ⟨m, hend, -, hget⟩ := args_parse_end_shape_any sc
    (canonical (registry program alternative abbreviations options))
    (by
      intro s hs
      rw [hq] at hs
      obtain ⟨u, hu, rfl⟩ := List.mem_map.mp hs
      obtain ⟨i, p, hp, hmem, hmap, hopt⟩ :=
        Use.fits_bound program alternative abbreviations options hns (hfit u hu)
      refine ⟨i, { p.1 with help := p.2 }, by rw [b1]; exact hmap, by rw [b2]; exact hopt,
        (hcanon u hu p hp hmem).symm, ?_⟩
      rw [args_optmap_contains_congr b1, hcanon u hu p hp hmem]
      exact registry_contains_standard program alternative abbreviations options hns hcl
        p.1 p.2 hp)
    (by rw [b3]; exact registry_tidy program alternative abbreviations options)
    (by
      intro w hw hty
      refine ⟨by
        simp only [args_opts_used, b3]
        exact registry_unused program alternative abbreviations options w.standard, ?_⟩
      intro s hs heq
      rw [hq] at hs
      obtain ⟨u, hu, rfl⟩ := List.mem_map.mp hs
      obtain ⟨i, p, hp, hmem, -, -⟩ :=
        Use.fits_bound program alternative abbreviations options hns (hfit u hu)
      rw [hcanon u hu p hp hmem] at heq
      rw [b2] at hw
      have := registry_standard_type program alternative abbreviations options hns hcl
        p.1 p.2 hp w hw heq.symm
      rw [hty] at this
      exact Use.admitted_type (Use.fits_form hns (hfit u hu) hp hmem) this.symm)
    b5
  have hlate : late_calls (canonical (registry program alternative abbreviations options))
      sc.argqueue 0 sc.optqueue = [] :=
    late_calls_full _ _ _ 0 (by rw [hq, ha]; simp)
  obtain ⟨s1, s2, s3, s4, s5, s6⟩ := args_parse_summary_fields
    { sc.st with args_opts := m
                 calls := sc.st.calls ++
                   late_calls (canonical (registry program alternative abbreviations options))
                     sc.argqueue 0 sc.optqueue
                 args_message := none }
  refine ⟨_, hend, s4, by rw [s3]; exact b5, s5, by rw [s6, hlate]; simp, ?_⟩
  intro o help hp
  have hvals : recorded_values (canonical (registry program alternative abbreviations options))
      sc.argqueue o.standard 0 sc.optqueue =
      (uses.filter (fun u => decide (u.spelling ∈ o.alternatives))).map Use.value := by
    rw [hq, recorded_values_uses]
    · congr 1
      apply List.filter_congr
      intro u hu
      obtain ⟨i, p, hp', hmem, -, -⟩ :=
        Use.fits_bound program alternative abbreviations options hns (hfit u hu)
      rw [hcanon u hu p hp' hmem]
      by_cases hin : u.spelling ∈ o.alternatives
      · have : p = (o, help) := no_shared_spelling_unique hns hp' hp hmem hin
        simp [hin, this]
      · have hne : p.1.standard ≠ o.standard := by
          intro e
          have : p = (o, help) := no_shared_spelling_unique hns hp' hp (hcl p hp')
            (by rw [e]; exact hcl (o, help) hp)
          rw [this] at hmem
          exact hin hmem
        simp [hin, hne]
    · intro k _
      rw [ha]; simp
  have hm := hget o.standard
  rw [hvals, b3, registry_entry_standard program alternative abbreviations options o help hp]
    at hm
  simp only [args_opts_get_count, args_opts_get, args_opts_used, s1, hm, recorded, blank]
  cases hv : uses.filter (fun u => decide (u.spelling ∈ o.alternatives)) with
  | nil => simp
  | cons u0 us0 => simp

/-! ## Bundles that end in an option with a value -/

theorem args_parse_bundle_flags_then (canon : Byte → CStr) (arg : CStr) (sign : Byte)
    (cs : List Byte) (rest : CStr) (sc : Scan)
    (h : ∀ c ∈ cs, ∃ i o, map_get sc.st.args_optmap [sign, c] = some (i + 1) ∧
      sc.st.args_options[i]? = some o ∧ o.type = ARGUMENTLESS ∧ o.standard = canon c) :
    args_parse_bundle arg sign sc (cs ++ rest) =
      args_parse_bundle arg sign
        { sc with st := { sc.st with calls := sc.st.calls ++
                            (cs.map (fun c => Call.trigger [sign, c] (canon c))) }
                  optqueue := sc.optqueue ++ (cs.map (fun c => [sign, c]))
                  argqueue := sc.argqueue ++ (cs.map (fun _ => none)) } rest := by
  induction cs generalizing sc with
  | nil => simp
  | cons c cs ih =>
    obtain ⟨i, o, hmap, hopt, htype, hstd⟩ := h c (by simp)
    obtain ⟨-, hcont, htyp, -⟩ := args_optmap_lookup hmap hopt
    have hmap' : map_get
        ({ sc with optqueue := sc.optqueue ++ [[sign, c]] } : Scan).st.args_optmap [sign, c]
        = some (i + 1) := hmap
    rw [List.cons_append, args_parse_bundle]
    simp only [hcont, if_true, htyp, bind, Except.bind, htype,
      args_optmap_trigger_lookup hmap' hopt]
    rw [ih]
    · simp [hstd]
    · intro c' hc'
      exact h c' (by simp [hc'])

theorem args_parse_bundle_value_fits (options : List (args_Option × Option CStr))
    (hns : no_shared_spelling options) (cs : List Byte) (c : Byte) (v : CStr)
    (hflags : ∀ c' ∈ cs, c' ≠ DASH ∧ ∃ o help, (o, help) ∈ options ∧
      [DASH, c'] ∈ o.alternatives ∧ o.type = ARGUMENTLESS)
    (hc : c ≠ DASH) (ov : args_Option) (helpv : Option CStr) (hov : (ov, helpv) ∈ options)
    (hsv : [DASH, c] ∈ ov.alternatives)
    (htype : ov.type = ARGUMENTED ∨ ov.type = OPTARGUMENTED) (hv : v ≠ []) :
    (∀ u ∈ cs.map (fun c' => Use.flag [DASH, c']) ++ [Use.sticky [DASH, c] v],
      u.fits options false) ∧
    (cs.map (fun c' => Use.flag [DASH, c']) ++ [Use.sticky [DASH, c] v]).filter
      (fun u => decide (u.spelling ∈ ov.alternatives)) = [Use.sticky [DASH, c] v] := by
  constructor
  · intro u hu
    rcases List.mem_append.mp hu with h | h
    · obtain ⟨c', hc', rfl⟩ := List.mem_map.mp h
      obtain ⟨hne, o, help, hp, hmem, hty⟩ := hflags c' hc'
      exact ⟨Or.inr ⟨c', rfl, hne, fun e => Bool.noConfusion e⟩, (o, help), hp, hmem, hty⟩
    · simp only [List.mem_singleton] at h
      rw [h]
      exact ⟨Or.inr ⟨c, rfl, hc, fun e => Bool.noConfusion e⟩, (ov, helpv), hov, hsv, htype,
        ⟨c, rfl, hc, fun e => Bool.noConfusion e⟩, rfl, hv⟩
  · rw [List.filter_append]
    have h1 : (cs.map (fun c' => Use.flag [DASH, c'])).filter
        (fun u => decide (u.spelling ∈ ov.alternatives)) = [] := by
      rw [List.filter_eq_nil_iff]
      intro u hu
      obtain ⟨c', hc', rfl⟩ := List.mem_map.mp hu
      obtain ⟨-, o, help, hp, hmem, hty⟩ := hflags c' hc'
      simp only [Use.spelling, decide_eq_true_eq]
      intro hin
      have e : (o, help) = (ov, helpv) := no_shared_spelling_unique hns hp hov hmem hin
      have e1 : o = ov := congrArg Prod.fst e
      rw [e1] at hty
      rcases htype with h | h <;> rw [hty] at h <;> exact absurd h (by decide)
    rw [h1]
    simp [Use.spelling, hsv]

/-- C28, amended: outside alternative mode, in a registry without shared
spellings, let the characters `cs` each name an Argumentless short option and
let `-c` be a spelling of an Argumented or OptionallyArgumented option. For a
non-empty `v`, the bundle `-<cs>c<v>` in one token gives the option of `-c` the
whole remainder `v` as its value: the parse returns true, the callbacks are
those of the flags of `cs` followed by the one of `-c` with the value `v`, the
values of the option of `-c` are exactly `[v]`, every other option has one
absence marker per character of `cs` that names it and nothing from the
characters of `v`, there is no positional file and nothing is unrecognised.
When the bundle ends behind `c` and `v` is the next token, the parse leaves the
same, provided that the stickless predicate accepts `v` when the option is
OptionallyArgumented. -/
theorem args_parse_bundle_value_is_remainder (program : Option CStr)
    (abbreviations : Option (CStr → List CStr → Nat → Option CStr))
    (options : List (args_Option × Option CStr))
    (hns : no_shared_spelling options) (hcl : canonical_listed options)
    (cs : List Byte) (c : Byte) (v : CStr)
    (hflags : ∀ c' ∈ cs, c' ≠ DASH ∧ ∃ o help, (o, help) ∈ options ∧
      [DASH, c'] ∈ o.alternatives ∧ o.type = ARGUMENTLESS)
    (hc : c ≠ DASH) (ov : args_Option) (helpv : Option CStr) (hov : (ov, helpv) ∈ options)
    (hsv : [DASH, c] ∈ ov.alternatives)
    (htype : ov.type = ARGUMENTED ∨ ov.type = OPTARGUMENTED) (hv : v ≠ [])
    (exe : CStr) (fuel : Nat) :
    (∃ st1,
      args_parse (fuel + 1) (registry program false abbreviations options)
        [exe, DASH :: (cs ++ c :: v)] = .ok (true, st1) ∧
      st1.calls = cs.map (fun c' => Call.trigger [DASH, c']
          (canonical (registry program false abbreviations options) [DASH, c'])) ++
        [Call.triggerv [DASH, c] ov.standard (some v)] ∧
      st1.args_files_count = 0 ∧ st1.args_unrecognised_count = 0 ∧
      args_opts_get st1 ov.standard = some [some v] ∧
      args_opts_get_count st1 ov.standard = 1 ∧
      args_opts_used st1 ov.standard = true ∧
      ∀ o help, (o, help) ∈ options → o.type = ARGUMENTLESS →
        args_opts_get_count st1 o.standard =
          cs.countP (fun c' => decide ([DASH, c'] ∈ o.alternatives)) ∧
        args_opts_get st1 o.standard =
          (if cs.countP (fun c' => decide ([DASH, c'] ∈ o.alternatives)) = 0 then none
           else some (List.replicate
             (cs.countP (fun c' => decide ([DASH, c'] ∈ o.alternatives))) none)) ∧
        args_opts_used st1 o.standard =
          decide (0 < cs.countP (fun c' => decide ([DASH, c'] ∈ o.alternatives)))) ∧
    ((ov.type = OPTARGUMENTED → ∃ pred, ov.stickless = some pred ∧ pred v = true) →
      ∃ st1 st2,
        args_parse (fuel + 1) (registry program false abbreviations options)
          [exe, DASH :: (cs ++ c :: v)] = .ok (true, st1) ∧
        args_parse (fuel + 2) (registry program false abbreviations options)
          [exe, DASH :: (cs ++ [c]), v] = .ok (true, st2) ∧
        st2.calls = st1.calls ∧
        st2.args_files_count = 0 ∧ st2.args_unrecognised_count = 0 ∧
        ∀ o help, (o, help) ∈ options →
          args_opts_get st2 o.standard = args_opts_get st1 o.standard ∧
          args_opts_get_count st2 o.standard = args_opts_get_count st1 o.standard ∧
          args_opts_used st2 o.standard = args_opts_used st1 o.standard) := by
  obtain ⟨halt, -, hfc, hcalls, -, -⟩ := registry_fields program false abbreviations options
  obtain ⟨hfit, hfilter⟩ := args_parse_bundle_value_fits options hns cs c v hflags hc ov helpv
    hov hsv htype hv
  have hbound : ∀ c' ∈ cs, ∃ i o,
      map_get (registry program false abbreviations options).args_optmap [DASH, c']
        = some (i + 1) ∧
      (registry program false abbreviations options).args_options[i]? = some o ∧
      o.type = ARGUMENTLESS ∧
      o.standard = canonical (registry program false abbreviations options) [DASH, c'] := by
    intro c' hc'
    obtain ⟨-, o, help, hp, hmem, hty⟩ := hflags c' hc'
    obtain ⟨i, hmap, hopt⟩ := registry_bound program false abbreviations options hns
      o help hp [DASH, c'] hmem
    refine ⟨i, { o with help := help }, hmap, hopt, hty, ?_⟩
    simp [canonical, (args_optmap_lookup hmap hopt).2.2.2]
  obtain ⟨iv, hmapv, hoptv⟩ := registry_bound program false abbreviations options hns
    ov helpv hov [DASH, c] hsv
  have hhead : ∀ tail : CStr, ∃ c0 rest0, cs ++ c :: tail = c0 :: rest0 ∧ c0 ≠ DASH := by
    intro tail
    cases cs with
    | nil => exact ⟨c, tail, rfl, hc⟩
    | cons c0 cs' => exact ⟨c0, cs' ++ c :: tail, rfl, (hflags c0 (by simp)).1⟩
  -- the scan of the single token
  have hloop1 : ∃ sc1, args_parse_loop (fuel + 1)
      (args_parse_begin (registry program false abbreviations options)
        [DASH :: (cs ++ c :: v)]) [DASH :: (cs ++ c :: v)] = .ok sc1 ∧
      sc1.st.args_optmap = (registry program false abbreviations options).args_optmap ∧
      sc1.st.args_options = (registry program false abbreviations options).args_options ∧
      sc1.st.args_opts = (registry program false abbreviations options).args_opts ∧
      sc1.st.args_files_count = 0 ∧ sc1.st.args_unrecognised_count = 0 ∧ sc1.rc = true ∧
      sc1.st.calls = cs.map (fun c' => Call.trigger [DASH, c']
          (canonical (registry program false abbreviations options) [DASH, c'])) ++
        [Call.triggerv [DASH, c] ov.standard (some v)] ∧
      sc1.optqueue = (cs.map (fun c' => Use.flag [DASH, c']) ++
        [Use.sticky [DASH, c] v]).map Use.spelling ∧
      sc1.argqueue = (cs.map (fun c' => Use.flag [DASH, c']) ++
        [Use.sticky [DASH, c] v]).map Use.value := by
    obtain ⟨c0, rest0, hsplit, hc0⟩ := hhead v
    rw [args_parse_loop_cons _ _ _ _ rfl, args_parse_token_idle _ _ rfl, hsplit,
      args_parse_dispatch_short _ DASH c0 rest0 rfl rfl halt (Or.inl rfl) hc0, ← hsplit,
      args_parse_bundle_flags_then _ _ DASH cs (c :: v) _ hbound,
      args_parse_bundle_sticky _ _ DASH c v iv { ov with help := helpv } hmapv hoptv htype hv]
    simp only [Except.bind]
    rw [args_parse_loop_nil _ _ rfl]
    refine ⟨_, rfl, rfl, rfl, rfl, hfc, rfl, rfl, ?_, ?_, ?_⟩
    · show ((registry program false abbreviations options).calls ++ _) ++ _ = _
      rw [hcalls]; rfl
    · simp [args_parse_begin, Use.spelling, Function.comp_def]
    · simp [args_parse_begin, Use.value, Function.comp_def]
  obtain ⟨sc1, hl1, a1, a2, a3, a4, a5, a6, a7, a8, a9⟩ := hloop1
  obtain ⟨st1, hend1, e1, e2, -, e4, e5⟩ := args_parse_end_uses program false abbreviations
    options hns hcl _ hfit sc1 a1 a2 a3 a4 a8 a9
  rw [a6] at hend1
  have hflagres : ∀ o help, (o, help) ∈ options → o.type = ARGUMENTLESS →
      (cs.map (fun c' => Use.flag [DASH, c']) ++ [Use.sticky [DASH, c] v]).filter
        (fun u => decide (u.spelling ∈ o.alternatives)) =
      (cs.filter (fun c' => decide ([DASH, c'] ∈ o.alternatives))).map
        (fun c' => Use.flag [DASH, c']) := by
    intro o help hp hty
    rw [List.filter_append, List.filter_map]
    have hlast : [Use.sticky [DASH, c] v].filter
        (fun u => decide (u.spelling ∈ o.alternatives)) = [] := by
      rw [List.filter_eq_nil_iff]
      intro u hu
      simp only [List.mem_singleton] at hu
      rw [hu]
      simp only [Use.spelling, decide_eq_true_eq]
      intro hin
      have e : (o, help) = (ov, helpv) := no_shared_spelling_unique hns hp hov hin hsv
      have e1 : o = ov := congrArg Prod.fst e
      rw [e1] at hty
      rcases htype with h | h <;> rw [hty] at h <;> exact absurd h (by decide)
    rw [hlast, List.append_nil]
    rfl
  have hfirst : args_parse (fuel + 1) (registry program false abbreviations options)
      [exe, DASH :: (cs ++ c :: v)] = .ok (true, st1) := by
    rw [args_parse_of_loop _ _ _ _ _ hl1]; exact hend1
  constructor
  · refine ⟨st1, hfirst, by rw [e4, a7], e2, by rw [e1, a5], ?_, ?_, ?_, ?_⟩
    · have := (e5 ov helpv hov).2.1
      rw [hfilter] at this
      simpa [Use.value] using this
    · have := (e5 ov helpv hov).1
      rw [hfilter] at this
      simpa using this
    · have := (e5 ov helpv hov).2.2
      rw [hfilter] at this
      simpa using this
    · intro o help hp hty
      obtain ⟨r1, r2, r3⟩ := e5 o help hp
      rw [hflagres o help hp hty] at r1 r2 r3
      rw [List.countP_eq_length_filter]
      refine ⟨by simpa using r1, ?_, ?_⟩
      · rw [r2]
        cases hf : cs.filter (fun c' => decide ([DASH, c'] ∈ o.alternatives)) with
        | nil => simp
        | cons x xs =>
          simp only [List.map_cons, List.isEmpty_cons, Bool.false_eq_true, if_false,
            List.length_cons, Nat.add_one_ne_zero, Use.value, List.map_map]
          congr 1
          rw [List.replicate_succ]
          congr 1
          rw [List.eq_replicate_iff]
          exact ⟨by simp, fun b hb => by
            obtain ⟨y, -, rfl⟩ := List.mem_map.mp hb
            rfl⟩
      · rw [r3]
        cases hf : cs.filter (fun c' => decide ([DASH, c'] ∈ o.alternatives)) with
        | nil => simp
        | cons x xs => simp
  · intro hpass
    -- the scan of the two tokens
    have hloop2 : ∃ sc2, args_parse_loop (fuel + 2)
        (args_parse_begin (registry program false abbreviations options)
          [DASH :: (cs ++ [c]), v]) [DASH :: (cs ++ [c]), v] = .ok sc2 ∧
        sc2.st.args_optmap = (registry program false abbreviations options).args_optmap ∧
        sc2.st.args_options = (registry program false abbreviations options).args_options ∧
        sc2.st.args_opts = (registry program false abbreviations options).args_opts ∧
        sc2.st.args_files_count = 0 ∧ sc2.st.args_unrecognised_count = 0 ∧ sc2.rc = true ∧
        sc2.st.calls = cs.map (fun c' => Call.trigger [DASH, c']
            (canonical (registry program false abbreviations options) [DASH, c'])) ++
          [Call.triggerv [DASH, c] ov.standard (some v)] ∧
        sc2.optqueue = (cs.map (fun c' => Use.flag [DASH, c']) ++
          [Use.sticky [DASH, c] v]).map Use.spelling ∧
        sc2.argqueue = (cs.map (fun c' => Use.flag [DASH, c']) ++
          [Use.sticky [DASH, c] v]).map Use.value := by
      obtain ⟨c0, rest0, hsplit, hc0⟩ := hhead []
      have hpass1 : ({ ov with help := helpv } : args_Option).type ≠ OPTARGUMENTED ∨
          ∃ pred, ({ ov with help := helpv } : args_Option).stickless = some pred ∧
            pred v = true := by
        by_cases hty : ov.type = OPTARGUMENTED
        · exact Or.inr (hpass hty)
        · exact Or.inl hty
      rw [args_parse_loop_cons _ _ _ _ rfl, args_parse_token_idle _ _ rfl, hsplit,
        args_parse_dispatch_short _ DASH c0 rest0 rfl rfl halt (Or.inl rfl) hc0, ← hsplit,
        args_parse_bundle_flags_then _ _ DASH cs [c] _ hbound,
        args_parse_bundle_deferred _ _ DASH c iv { ov with help := helpv } hmapv hoptv htype]
      simp only [Except.bind]
      rw [args_parse_loop_cons _ _ _ _ rfl,
        args_parse_token_accept _ v [DASH, c] ([] ++ cs.map (fun c' => [DASH, c'])) iv
          { ov with help := helpv } rfl rfl rfl hmapv hoptv hpass1]
      simp only [Except.bind]
      rw [args_parse_loop_nil _ _ rfl]
      refine ⟨_, rfl, rfl, rfl, rfl, hfc, rfl, rfl, ?_, ?_, ?_⟩
      · show ((registry program false abbreviations options).calls ++ _) ++ _ = _
        rw [hcalls]; rfl
      · simp [args_parse_begin, Use.spelling, Function.comp_def]
      · simp [args_parse_begin, Use.value, Function.comp_def]
    obtain ⟨sc2, hl2, c1, c2, c3, c4, c5, c6, c7, c8, c9⟩ := hloop2
    obtain ⟨st2, hend2, f1, f2, -, f4, f5⟩ := args_parse_end_uses program false abbreviations
      options hns hcl _ hfit sc2 c1 c2 c3 c4 c8 c9
    rw [c6] at hend2
    refine ⟨st1, st2, hfirst, by rw [args_parse_of_loop _ _ _ _ _ hl2]; exact hend2,
      by rw [f4, c7, e4, a7], f2, by rw [f1, c5], ?_⟩
    intro o help hp
    obtain ⟨r1, r2, r3⟩ := e5 o help hp
    obtain ⟨q1, q2, q3⟩ := f5 o help hp
    exact ⟨by rw [q2, r2], by rw [q1, r1], by rw [q3, r3]⟩

/-- C28, the next token that is rejected: with `-a` Argumentless and `-o`
OptionallyArgumented with the default stickless predicate, the bundle `-ao`
ends behind `o` and the next token is `-x`, which the predicate rejects. The
value of `-o` is not taken from the next token: `-o` is left with one absence
marker, and `-x` is dispatched as a fresh token and counted as unrecognised. -/
theorem args_parse_bundle_value_not_next_token :
    default_stickless [45, 120] = false ∧
    (args_parse 2 (registry none false none [(flag_a, none), (opt_o, none)])
      [[112], [45, 97, 111], [45, 120]]).map
        (fun r => (r.1, r.2.args_unrecognised_count, args_opts_get r.2 [45, 111],
          args_opts_get r.2 [45, 97], r.2.calls))
      = .ok (false, 1, some [none], some [none],
          [Call.trigger [45, 97] [45, 97], Call.triggerv [45, 111] [45, 111] none]) :=
  ⟨by decide, rfl⟩

/-- C28, with `-a` Argumentless and `-b` Argumented: `-abXY` and `-ab`, `XY`
both leave `-a` used with one absence marker, the values of `-b` equal to
`[XY]`, and no positional file; and the same with `-o` OptionallyArgumented in
the place of `-b`, the default stickless predicate accepting `XY`. -/
theorem args_parse_bundle_value_is_remainder_witness :
    (no_shared_spelling [(flag_a, none), (opt_b, none)] ∧
    canonical_listed [(flag_a, none), (opt_b, none)] ∧
    (∃ st1,
      args_parse (0 + 1) (registry none false none [(flag_a, none), (opt_b, none)])
        [[112], [45, 97, 98, 88, 89]] = .ok (true, st1) ∧
      st1.args_files_count = 0 ∧
      args_opts_get st1 [45, 98] = some [some [88, 89]] ∧
      args_opts_get st1 [45, 97] = some [none] ∧
      args_opts_used st1 [45, 97] = true) ∧
    (∃ st1 st2,
      args_parse (0 + 1) (registry none false none [(flag_a, none), (opt_b, none)])
        [[112], [45, 97, 98, 88, 89]] = .ok (true, st1) ∧
      args_parse (0 + 2) (registry none false none [(flag_a, none), (opt_b, none)])
        [[112], [45, 97, 98], [88, 89]] = .ok (true, st2) ∧
      st2.args_files_count = 0 ∧
      args_opts_get st2 [45, 98] = args_opts_get st1 [45, 98] ∧
      args_opts_get st2 [45, 97] = args_opts_get st1 [45, 97] ∧
      args_opts_used st2 [45, 97] = args_opts_used st1 [45, 97])) ∧
    (no_shared_spelling [(flag_a, none), (opt_o, none)] ∧
    canonical_listed [(flag_a, none), (opt_o, none)] ∧
    (opt_o.type = OPTARGUMENTED →
      ∃ pred, opt_o.stickless = some pred ∧ pred [88, 89] = true) ∧
    (∃ st1 st2,
      args_parse (0 + 1) (registry none false none [(flag_a, none), (opt_o, none)])
        [[112], [45, 97, 111, 88, 89]] = .ok (true, st1) ∧
      args_parse (0 + 2) (registry none false none [(flag_a, none), (opt_o, none)])
        [[112], [45, 97, 111], [88, 89]] = .ok (true, st2) ∧
      args_opts_get st1 [45, 111] = some [some [88, 89]] ∧
      st2.args_files_count = 0 ∧ st2.args_unrecognised_count = 0 ∧
      args_opts_get st2 [45, 111] = args_opts_get st1 [45, 111] ∧
      args_opts_get st2 [45, 97] = args_opts_get st1 [45, 97] ∧
      args_opts_used st2 [45, 97] = args_opts_used st1 [45, 97])) :=
  have h1 : no_shared_spelling [(flag_a, none), (opt_b, none)] := by
    simp [no_shared_spelling, flag_a, opt_b]
  have h2 : canonical_listed [(flag_a, none), (opt_b, none)] := by
    simp [canonical_listed, flag_a, opt_b]
  have h3 : ∀ c' ∈ ([97] : List Byte), c' ≠ DASH ∧ ∃ o help,
      (o, help) ∈ [(flag_a, (none : Option CStr)), (opt_b, none)] ∧
      [DASH, c'] ∈ o.alternatives ∧ o.type = ARGUMENTLESS := by
    intro c' hc'
    simp only [List.mem_singleton] at hc'
    rw [hc']
    exact ⟨by decide, flag_a, none, by simp, by decide, rfl⟩
  have g1 : no_shared_spelling [(flag_a, none), (opt_o, none)] := by
    simp [no_shared_spelling, flag_a, opt_o]
  have g2 : canonical_listed [(flag_a, none), (opt_o, none)] := by
    simp [canonical_listed, flag_a, opt_o]
  have g3 : ∀ c' ∈ ([97] : List Byte), c' ≠ DASH ∧ ∃ o help,
      (o, help) ∈ [(flag_a, (none : Option CStr)), (opt_o, none)] ∧
      [DASH, c'] ∈ o.alternatives ∧ o.type = ARGUMENTLESS := by
    intro c' hc'
    simp only [List.mem_singleton] at hc'
    rw [hc']
    exact ⟨by decide, flag_a, none, by simp, by decide, rfl⟩
  have g4 : opt_o.type = OPTARGUMENTED →
      ∃ pred, opt_o.stickless = some pred ∧ pred [88, 89] = true :=
    fun _ => ⟨default_stickless, rfl, by decide⟩
  ⟨match args_parse_bundle_value_is_remainder none none [(flag_a, none), (opt_b, none)] h1 h2
      [97] 98 [88, 89] h3 (by decide) opt_b none (by simp) (by decide) (Or.inl rfl) (by decide)
      [112] 0 with
    | ⟨⟨st1, hp, _, hfc, _, hget, _, _, hflag⟩, hsecond⟩ =>
      ⟨h1, h2,
        ⟨st1, hp, hfc, hget, (hflag flag_a none (by simp) rfl).2.1,
          (hflag flag_a none (by simp) rfl).2.2⟩,
        match hsecond (fun h => absurd h (by decide)) with
        | ⟨s1, s2, hp1, hp2, _, hfc2, _, hsame⟩ =>
          ⟨s1, s2, hp1, hp2, hfc2, (hsame opt_b none (by simp)).1,
            (hsame flag_a none (by simp)).1, (hsame flag_a none (by simp)).2.2⟩⟩,
    match args_parse_bundle_value_is_remainder none none [(flag_a, none), (opt_o, none)] g1 g2
      [97] 111 [88, 89] g3 (by decide) opt_o none (by simp) (by decide) (Or.inr rfl) (by decide)
      [112] 0 with
    | ⟨⟨st0, hp0, _, _, _, hget0, _, _, _⟩, hsecond⟩ =>
      ⟨g1, g2, g4,
        match hsecond g4 with
        | ⟨s1, s2, hp1, hp2, _, hfc2, hun2, hsame⟩ =>
          ⟨s1, s2, hp1, hp2,
            (by
              have e : st0 = s1 := by
                have := hp0.symm.trans hp1
                simp only [Except.ok.injEq, Prod.mk.injEq, true_and] at this
                exact this
              rw [← e]; exact hget0),
            hfc2, hun2, (hsame opt_o none (by simp)).1,
            (hsame flag_a none (by simp)).1, (hsame flag_a none (by simp)).2.2⟩⟩⟩

/-! ## Bundles with unknown characters -/

theorem args_parse_bundle_mixed (program : Option CStr)
    (abbreviations : Option (CStr → List CStr → Nat → Option CStr))
    (options : List (args_Option × Option CStr)) (hns : no_shared_spelling options)
    (arg : CStr) (cs : List Byte)
    (h : ∀ c' ∈ cs, ∀ o help, (o, help) ∈ options → [DASH, c'] ∈ o.alternatives →
      o.type = ARGUMENTLESS) :
    ∀ sc : Scan,
      sc.st.args_optmap = (registry program false abbreviations options).args_optmap →
      sc.st.args_options = (registry program false abbreviations options).args_options →
      ∃ sc1, args_parse_bundle arg DASH sc cs = .ok sc1 ∧
        sc1.st.args_optmap = sc.st.args_optmap ∧ sc1.st.args_options = sc.st.args_options ∧
        sc1.st.args_opts = sc.st.args_opts ∧
        sc1.st.args_files_count = sc.st.args_files_count ∧
        sc1.st.args_unrecognised_count = sc.st.args_unrecognised_count +
          cs.countP (fun c' => unregistered options [DASH, c']) ∧
        sc1.rc = (sc.rc &&
          decide (cs.countP (fun c' => unregistered options [DASH, c'])
            = 0)) ∧
        sc1.optqueue = sc.optqueue ++
          (cs.filter (fun c' => !unregistered options [DASH, c'])).map
            (fun c' => [DASH, c']) ∧
        sc1.argqueue = sc.argqueue ++
          (cs.filter (fun c' => !unregistered options [DASH, c'])).map
            (fun _ => none) ∧
        sc1.injection = sc.injection := by
  induction cs with
  | nil =>
    intro sc _ _
    exact ⟨sc, rfl, rfl, rfl, rfl, rfl, by simp, by simp, by simp, by simp, rfl⟩
  | cons c cs ih =>
    intro sc h1 h2
    have hrest : ∀ c' ∈ cs, ∀ o help, (o, help) ∈ options → [DASH, c'] ∈ o.alternatives →
        o.type = ARGUMENTLESS := fun c' hc' => h c' (by simp [hc'])
    by_cases hu : unregistered options [DASH, c] = true
    · have hnone : map_get sc.st.args_optmap [DASH, c] = none := by
        rw [h1]
        exact registry_unbound program false abbreviations options _
          (by simpa [unregistered] using hu)
      obtain ⟨sc1, hb, a1, a2, a3, a4, a5, a6, a7, a8, a9⟩ :=
        ih hrest (args_parse_unrecognised sc arg) h1 h2
      refine ⟨sc1, by rw [args_parse_bundle_unknown sc arg DASH c cs hnone]; exact hb,
        a1, a2, a3, a4, ?_, ?_, ?_, ?_, a9⟩
      · rw [a5]
        show sc.st.args_unrecognised_count + 1 + _ = _
        rw [List.countP_cons]
        simp only [hu, if_true]
        omega
      · rw [a6]
        show (false && _) = _
        rw [List.countP_cons]
        simp [hu]
      · rw [a7]
        show sc.optqueue ++ _ = _
        simp [List.filter_cons, hu]
      · rw [a8]
        show sc.argqueue ++ _ = _
        simp [List.filter_cons, hu]
    · have hex : ∃ p ∈ options, [DASH, c] ∈ p.1.alternatives := by
        by_contra hno
        exact hu (decide_eq_true (fun p hp hin => hno ⟨p, hp, hin⟩))
      obtain ⟨p, hp, hin⟩ := hex
      obtain ⟨i, hmap, hopt⟩ := registry_bound program false abbreviations options hns
        p.1 p.2 hp [DASH, c] hin
      have hty : ({ p.1 with help := p.2 } : args_Option).type = ARGUMENTLESS :=
        h c (by simp) p.1 p.2 hp hin
      have hstep := args_parse_bundle_flags_then (fun _ => p.1.standard) arg DASH [c] cs sc
        (by
          intro c' hc'
          simp only [List.mem_singleton] at hc'
          rw [hc']
          exact ⟨i, { p.1 with help := p.2 }, by rw [h1]; exact hmap, by rw [h2]; exact hopt,
            hty, rfl⟩)
      obtain ⟨sc1, hb, a1, a2, a3, a4, a5, a6, a7, a8, a9⟩ := ih hrest
        { sc with st := { sc.st with calls := sc.st.calls ++
                            ([c].map (fun c => Call.trigger [DASH, c] p.1.standard)) }
                  optqueue := sc.optqueue ++ ([c].map (fun c => [DASH, c]))
                  argqueue := sc.argqueue ++ ([c].map (fun _ => none)) } h1 h2
      refine ⟨sc1, by rw [← hb]; exact hstep, a1, a2, a3, a4, ?_, ?_, ?_, ?_, a9⟩
      · rw [a5, List.countP_cons]
        simp [hu]
      · rw [a6, List.countP_cons]
        simp [hu]
      · rw [a7]
        simp [List.filter_cons, hu]
      · rw [a8]
        simp [List.filter_cons, hu]

/-- C26: outside alternative mode, in a registry without shared spellings, for
every bundle token whose characters (none of them `-`) name Argumentless short
options or no option at all, the walk does not stop at an unknown character: `args_parse`
counts one unrecognised option for every character that names no option,
returns true exactly when there is none, and dispatches every character that
names an option, those behind an unknown character included, so that every
option has one absence marker per character of the bundle that names it. -/
theorem args_parse_bundle_counts_each_unknown (program : Option CStr)
    (abbreviations : Option (CStr → List CStr → Nat → Option CStr))
    (options : List (args_Option × Option CStr))
    (hns : no_shared_spelling options) (hcl : canonical_listed options)
    (c : Byte) (rest : List Byte)
    (h : ∀ c' ∈ c :: rest, c' ≠ DASH ∧ ∀ o help, (o, help) ∈ options →
      [DASH, c'] ∈ o.alternatives → o.type = ARGUMENTLESS)
    (exe : CStr) (fuel : Nat) :
    ∃ st1,
      args_parse (fuel + 1) (registry program false abbreviations options)
        [exe, DASH :: c :: rest] =
        .ok (decide ((c :: rest).countP
          (fun c' => unregistered options [DASH, c']) = 0), st1) ∧
      st1.args_unrecognised_count =
        (c :: rest).countP (fun c' => unregistered options [DASH, c']) ∧
      st1.args_files_count = 0 ∧
      ∀ o help, (o, help) ∈ options →
        args_opts_get_count st1 o.standard =
          (c :: rest).countP (fun c' => decide ([DASH, c'] ∈ o.alternatives)) ∧
        args_opts_get st1 o.standard =
          (if (c :: rest).countP (fun c' => decide ([DASH, c'] ∈ o.alternatives)) = 0 then none
           else some (List.replicate
             ((c :: rest).countP (fun c' => decide ([DASH, c'] ∈ o.alternatives))) none)) ∧
        args_opts_used st1 o.standard =
          decide (0 < (c :: rest).countP (fun c' => decide ([DASH, c'] ∈ o.alternatives))) := by
  obtain ⟨halt, -, hfc, -, -, -⟩ := registry_fields program false abbreviations options
  obtain ⟨sc1, hb, a1, a2, a3, a4, a5, a6, a7, a8, a9⟩ :=
    args_parse_bundle_mixed program abbreviations options hns (DASH :: c :: rest) (c :: rest)
      (fun c' hc' => (h c' hc').2)
      (args_parse_begin (registry program false abbreviations options) [DASH :: c :: rest])
      rfl rfl
  have hl : args_parse_loop (fuel + 1)
      (args_parse_begin (registry program false abbreviations options) [DASH :: c :: rest])
      [DASH :: c :: rest] = .ok sc1 := by
    rw [args_parse_loop_cons _ _ _ _ rfl, args_parse_token_idle _ _ rfl,
      args_parse_dispatch_short _ DASH c rest rfl rfl halt (Or.inl rfl) (h c (by simp)).1, hb]
    simp only [Except.bind]
    rw [args_parse_loop_nil _ _ (by rw [a9]; rfl)]
  have hfit : ∀ u ∈ ((c :: rest).filter
      (fun c' => !unregistered options [DASH, c'])).map
        (fun c' => Use.flag [DASH, c']), u.fits options false := by
    intro u hu
    obtain ⟨c', hc', rfl⟩ := List.mem_map.mp hu
    obtain ⟨hmem, hk⟩ := List.mem_filter.mp hc'
    have hex : ∃ p ∈ options, [DASH, c'] ∈ p.1.alternatives := by
      by_contra hno
      have : unregistered options [DASH, c'] = true :=
        decide_eq_true (fun p hp hin => hno ⟨p, hp, hin⟩)
      rw [this] at hk
      exact Bool.noConfusion hk
    obtain ⟨p, hp, hin⟩ := hex
    exact ⟨Or.inr ⟨c', rfl, (h c' hmem).1, fun e => Bool.noConfusion e⟩, p, hp, hin,
      (h c' hmem).2 p.1 p.2 hp hin⟩
  have hmapmap : ∀ l : List Byte,
      (l.map (fun c' => Use.flag [DASH, c'])).map Use.spelling = l.map (fun c' => [DASH, c']) ∧
      (l.map (fun c' => Use.flag [DASH, c'])).map Use.value = l.map (fun _ => none) := by
    intro l
    simp [Use.spelling, Use.value, Function.comp_def]
  obtain ⟨st1, hend, e1, e2, -, -, e5⟩ := args_parse_end_uses program false abbreviations
    options hns hcl _ hfit sc1 a1 a2 a3 (by rw [a4]; exact hfc)
    (by rw [a7, (hmapmap _).1]; rfl) (by rw [a8, (hmapmap _).2]; rfl)
  rw [a6] at hend
  refine ⟨st1, by rw [args_parse_of_loop _ _ _ _ _ hl, hend]; rfl, by rw [e1, a5]; simp [args_parse_begin],
    e2, ?_⟩
  intro o help hp
  have hfil : (((c :: rest).filter (fun c' => !unregistered options [DASH, c'])).map
      (fun c' => Use.flag [DASH, c'])).filter (fun u => decide (u.spelling ∈ o.alternatives)) =
      ((c :: rest).filter (fun c' => decide ([DASH, c'] ∈ o.alternatives))).map
        (fun c' => Use.flag [DASH, c']) := by
    rw [List.filter_map, List.filter_filter]
    congr 1
    apply List.filter_congr
    intro c' _
    simp only [Function.comp, Use.spelling]
    by_cases hin : [DASH, c'] ∈ o.alternatives
    · have : unregistered options [DASH, c'] = false := by
        simp only [unregistered, decide_eq_false_iff_not]
        intro hall
        exact hall (o, help) hp hin
      simp [hin, this]
    · simp [hin]
  obtain ⟨r1, r2, r3⟩ := e5 o help hp
  rw [hfil] at r1 r2 r3
  rw [List.countP_eq_length_filter]
  refine ⟨by simpa using r1, ?_, ?_⟩
  · rw [r2]
    cases hf : (c :: rest).filter (fun c' => decide ([DASH, c'] ∈ o.alternatives)) with
    | nil => simp
    | cons x xs =>
      simp only [List.map_cons, List.isEmpty_cons, Bool.false_eq_true, if_false,
        List.length_cons, Nat.add_one_ne_zero, Use.value, List.map_map]
      congr 1
      rw [List.replicate_succ]
      congr 1
      rw [List.eq_replicate_iff]
      exact ⟨by simp, fun b hb => by
        obtain ⟨y, -, rfl⟩ := List.mem_map.mp hb
        rfl⟩
  · rw [r3]
    cases hf : (c :: rest).filter (fun c' => decide ([DASH, c'] ∈ o.alternatives)) with
    | nil => simp
    | cons x xs => simp

/-- C26, with the Argumentless option `-a` and the bundle `-xa`: one
unrecognised option is counted for `x`, the parse returns false, and `-a` is
used once. -/
theorem args_parse_bundle_counts_each_unknown_witness :
    no_shared_spelling [(flag_a, none)] ∧ canonical_listed [(flag_a, none)] ∧
    (∀ c' ∈ ([120, 97] : List Byte), c' ≠ DASH ∧ ∀ o help,
      (o, help) ∈ [(flag_a, (none : Option CStr))] → [DASH, c'] ∈ o.alternatives →
      o.type = ARGUMENTLESS) ∧
    ∃ st1,
      args_parse (0 + 1) (registry none false none [(flag_a, none)])
        [[112], [45, 120, 97]] = .ok (false, st1) ∧
      st1.args_unrecognised_count = 1 ∧
      args_opts_get_count st1 [45, 97] = 1 ∧
      args_opts_get st1 [45, 97] = some [none] ∧
      args_opts_used st1 [45, 97] = true :=
  have h1 : no_shared_spelling [(flag_a, none)] := by simp [no_shared_spelling]
  have h2 : canonical_listed [(flag_a, none)] := by simp [canonical_listed, flag_a]
  have h3 : ∀ c' ∈ ([120, 97] : List Byte), c' ≠ DASH ∧ ∀ o help,
      (o, help) ∈ [(flag_a, (none : Option CStr))] → [DASH, c'] ∈ o.alternatives →
      o.type = ARGUMENTLESS := by
    intro c' hc'
    refine ⟨?_, ?_⟩
    · simp only [List.mem_cons, List.mem_singleton, List.not_mem_nil, or_false] at hc'
      rcases hc' with rfl | rfl <;> decide
    · intro o help hp _
      simp only [List.mem_singleton, Prod.mk.injEq] at hp
      rw [hp.1]
      rfl
  match args_parse_bundle_counts_each_unknown none none [(flag_a, none)] h1 h2 120 [97] h3
    [112] 0 with
  | ⟨st1, hp, hcount, _, hres⟩ =>
    ⟨h1, h2, h3, st1, hp, hcount, (hres flag_a none (by simp)).1,
      (hres flag_a none (by simp)).2.1, (hres flag_a none (by simp)).2.2⟩

/-! ## The scanner does not look at the vector it was called on -/

theorem poke_append_left (pre buffer : List (Option CStr)) (index : Nat) (value : CStr) :
    poke (pre ++ buffer) (index + pre.length) value = pre ++ poke buffer index value := by
  unfold poke
  by_cases h : index < buffer.length
  · have h' : index + pre.length < (pre ++ buffer).length := by
      rw [List.length_append]; omega
    rw [if_pos h, if_pos h']
    rw [List.set_append]
    have : ¬ index + pre.length < pre.length := by omega
    simp [this]
  · have h' : ¬ index + pre.length < (pre ++ buffer).length := by
      rw [List.length_append]; omega
    rw [if_neg h, if_neg h']
    have : index + pre.length - (pre ++ buffer).length = index - buffer.length := by
      rw [List.length_append]; omega
    rw [this]
    simp

theorem args_parse_file_reframe (pre : List (Option CStr)) (a : List CStr) (sc : Scan)
    (arg : CStr) :
    args_parse_file (sc.reframe pre a) arg = (args_parse_file sc arg).reframe pre a := by
  simp only [args_parse_file, Scan.reframe, reframe, poke_append_left]
  congr 2
  omega

theorem args_parse_unrecognised_reframe (pre : List (Option CStr)) (a : List CStr) (sc : Scan)
    (shown : CStr) :
    args_parse_unrecognised (sc.reframe pre a) shown =
      (args_parse_unrecognised sc shown).reframe pre a := rfl

theorem args_optmap_trigger_reframe (pre : List (Option CStr)) (a : List CStr) (st : State)
    (name : CStr) (value : Option CStr) :
    args_optmap_trigger (reframe pre a st) name value =
      (args_optmap_trigger st name value).map (reframe pre a) := by
  unfold args_optmap_trigger
  have : args_options_at (reframe pre a st) (args_optmap_get_index (reframe pre a st) name) =
      args_options_at st (args_optmap_get_index st name) := rfl
  rw [this]
  cases args_options_at st (args_optmap_get_index st name) with
  | error e => rfl
  | ok opt => cases value <;> rfl

theorem args_optmap_triggerv_reframe (pre : List (Option CStr)) (a : List CStr) (st : State)
    (name : CStr) (value : Option CStr) :
    args_optmap_triggerv (reframe pre a st) name value =
      (args_optmap_triggerv st name value).map (reframe pre a) := by
  unfold args_optmap_triggerv
  have : args_options_at (reframe pre a st) (args_optmap_get_index (reframe pre a st) name) =
      args_options_at st (args_optmap_get_index st name) := rfl
  rw [this]
  cases args_options_at st (args_optmap_get_index st name) with
  | error e => rfl
  | ok opt => rfl

theorem reframe_lookups (pre : List (Option CStr)) (a : List CStr) (st : State) :
    (∀ n, args_optmap_contains (reframe pre a st) n = args_optmap_contains st n) ∧
    (∀ n, args_optmap_get_type (reframe pre a st) n = args_optmap_get_type st n) ∧
    (∀ n, args_optmap_get_standard (reframe pre a st) n = args_optmap_get_standard st n) ∧
    (∀ n v, args_optmap_stickless (reframe pre a st) n v = args_optmap_stickless st n v) ∧
    (∀ n, args__abbreviations (reframe pre a st) n = args__abbreviations st n) ∧
    (reframe pre a st).args_alternative = st.args_alternative :=
  ⟨fun _ => rfl, fun _ => rfl, fun _ => rfl, fun _ _ => rfl, fun _ => rfl, rfl⟩

theorem args_parse_pending_reframe (pre : List (Option CStr)) (a : List CStr) (sc : Scan)
    (arg : CStr) :
    args_parse_pending (sc.reframe pre a) arg =
      (args_parse_pending sc arg).map (fun r => (r.1.reframe pre a, r.2)) := by
  obtain ⟨l1, l2, l3, l4, l5, l6⟩ := reframe_lookups pre a sc.st
  simp only [args_parse_pending, Scan.reframe, l1, l2, l3, l4, l5, l6,
    args_optmap_trigger_reframe, args_optmap_triggerv_reframe]
  split_ifs with h1 h2
  · cases hq : sc.optqueue[sc.optqueue.length - sc.get]? with
    | none => rfl
    | some arg_opt =>
      simp only []
      cases hty : args_optmap_get_type sc.st arg_opt with
      | error e => rfl
      | ok type =>
        cases hst : args_optmap_stickless sc.st arg_opt arg with
        | error e =>
          by_cases ht : type = OPTARGUMENTED
          · simp [ht, bind, Except.bind, Except.map]
          · cases hv : args_optmap_trigger sc.st arg_opt (some arg) <;>
              simp [ht, hv, bind, Except.bind, Except.map, pure, Except.pure]
        | ok stickless =>
          cases hv : args_optmap_trigger sc.st arg_opt (some arg) <;>
          cases hw : args_optmap_triggerv sc.st arg_opt none <;>
          by_cases ht : type = OPTARGUMENTED <;>
          cases stickless <;>
          simp [ht, hv, hw, bind, Except.bind, Except.map, pure, Except.pure]
  · rfl
  · rfl

theorem args_parse_long_reframe (pre : List (Option CStr)) (a : List CStr) (sc : Scan)
    (arg : CStr) :
    args_parse_long (sc.reframe pre a) arg = (args_parse_long sc arg).map (Scan.reframe pre a) := by
  obtain ⟨l1, l2, l3, l4, l5, l6⟩ := reframe_lookups pre a sc.st
  simp only [args_parse_long, args_parse_long_unmatched, Scan.reframe, l1, l2, l3, l4, l5, l6,
    args_optmap_trigger_reframe, bind, Except.bind, pure, Except.pure]
  by_cases hc : sc.dontget ≤ 0 ∧ args_optmap_contains sc.st arg = true
  · simp only [hc, and_self, if_true]
    cases hty : args_optmap_get_type sc.st arg with
    | error e => rfl
    | ok v =>
      simp only []
      by_cases hd : 0 < sc.dontget
      · simp only [hd, if_true, Except.map]
        rfl
      · have hd0 : sc.dontget ≤ 0 := by omega
        simp only [hd, if_false]
        by_cases ht : v = ARGUMENTLESS
        · simp only [ht, if_true]
          cases h1 : args_optmap_trigger sc.st arg none <;> rfl
        · simp only [ht, if_false, hd0, true_and, not_false_eq_true, ne_eq, if_true]
          by_cases heq : byteAt arg (find_eq arg) = EQUALS
          · simp only [heq, if_true]
            by_cases hc2 : args_optmap_contains sc.st (arg.take (find_eq arg)) = true
            · simp only [hc2, if_true]
              cases hty2 : args_optmap_get_type sc.st (arg.take (find_eq arg)) with
              | error e => rfl
              | ok v1 =>
                simp only []
                by_cases hge : ARGUMENTED ≤ v1
                · simp only [hge, if_true]
                  by_cases hvar : v1 = VARIADIC
                  · simp only [hvar, if_true]
                    cases h2 : args_optmap_trigger sc.st (arg.take (find_eq arg)) none <;> rfl
                  · simp only [hvar, if_false]
                    cases h3 : args_optmap_trigger sc.st (arg.take (find_eq arg))
                      (some (arg.drop (find_eq arg + 1))) <;> rfl
                · simp only [hge, if_false]
                  cases h4 : args__abbreviations sc.st (arg.take (find_eq arg)) <;> rfl
            · simp only [hc2, if_false]
              cases h4 : args__abbreviations sc.st (arg.take (find_eq arg)) <;> rfl
          · simp only [heq, if_false]
            by_cases hle : v ≤ OPTARGUMENTED
            · simp only [hle, if_true, Except.map]
              rfl
            · simp only [hle, if_false]
              by_cases hv : v = VARIADIC
              · simp only [hv, if_true]
                cases h1 : args_optmap_trigger sc.st arg none <;> rfl
              · simp only [hv, if_false]
                cases h5 : args__abbreviations sc.st arg <;> rfl

  · simp only [hc, if_false]
    generalize (100 : Nat) = v
    by_cases hd : 0 < sc.dontget
    · simp only [hd, if_true, Except.map]
      rfl
    · have hd0 : sc.dontget ≤ 0 := by omega
      simp only [hd, if_false]
      by_cases ht : v = ARGUMENTLESS
      · simp only [ht, if_true]
        cases h1 : args_optmap_trigger sc.st arg none <;> rfl
      · simp only [ht, if_false, hd0, true_and, not_false_eq_true, ne_eq, if_true]
        by_cases heq : byteAt arg (find_eq arg) = EQUALS
        · simp only [heq, if_true]
          by_cases hc2 : args_optmap_contains sc.st (arg.take (find_eq arg)) = true
          · simp only [hc2, if_true]
            cases hty2 : args_optmap_get_type sc.st (arg.take (find_eq arg)) with
            | error e => rfl
            | ok v1 =>
              simp only []
              by_cases hge : ARGUMENTED ≤ v1
              · simp only [hge, if_true]
                by_cases hvar : v1 = VARIADIC
                · simp only [hvar, if_true]
                  cases h2 : args_optmap_trigger sc.st (arg.take (find_eq arg)) none <;> rfl
                · simp only [hvar, if_false]
                  cases h3 : args_optmap_trigger sc.st (arg.take (find_eq arg))
                    (some (arg.drop (find_eq arg + 1))) <;> rfl
              · simp only [hge, if_false]
                cases h4 : args__abbreviations sc.st (arg.take (find_eq arg)) <;> rfl
          · simp only [hc2, if_false]
            cases h4 : args__abbreviations sc.st (arg.take (find_eq arg)) <;> rfl
        · simp only [heq, if_false]
          by_cases hle : v ≤ OPTARGUMENTED
          · simp only [hle, if_true, Except.map]
            rfl
          · simp only [hle, if_false]
            by_cases hv : v = VARIADIC
            · simp only [hv, if_true]
              cases h1 : args_optmap_trigger sc.st arg none <;> rfl
            · simp only [hv, if_false]
              cases h5 : args__abbreviations sc.st arg <;> rfl

theorem args_parse_bundle_reframe (pre : List (Option CStr)) (a : List CStr) (arg : CStr)
    (sign : Byte) (rest : CStr) :
    ∀ sc : Scan, args_parse_bundle arg sign (sc.reframe pre a) rest =
      (args_parse_bundle arg sign sc rest).map (Scan.reframe pre a) := by
  induction rest with
  | nil => intro sc; rfl
  | cons c rest ih =>
    intro sc
    obtain ⟨l1, l2, l3, l4, l5, l6⟩ := reframe_lookups pre a sc.st
    rw [args_parse_bundle, args_parse_bundle]
    simp only [Scan.reframe, l1, l2, l3, l4, l5, l6, args_optmap_trigger_reframe]
    by_cases hc : args_optmap_contains sc.st [sign, c] = true
    · simp only [hc, if_true]
      cases hty : args_optmap_get_type sc.st [sign, c] with
      | error e => rfl
      | ok v =>
        simp only [bind, Except.bind]
        by_cases ht : v = ARGUMENTLESS
        · simp only [ht, if_true]
          cases h1 : args_optmap_trigger sc.st [sign, c] none with
          | error e => rfl
          | ok st1 =>
            exact ih { sc with st := st1, optqueue := sc.optqueue ++ [[sign, c]]
                               argqueue := sc.argqueue ++ [none] }
        · simp only [ht, if_false]
          by_cases hlt : v < VARIADIC
          · simp only [hlt, if_true]
            by_cases hr : rest ≠ []
            · simp only [hr, if_true, ne_eq, not_false_eq_true]
              cases h2 : args_optmap_trigger sc.st [sign, c] (some rest) <;> rfl
            · simp only [hr, if_false]
              rfl
          · simp only [hlt, if_false]
            by_cases hr : rest ≠ []
            · simp only [hr, if_true, ne_eq, not_false_eq_true, args_optmap_trigger_reframe]
              cases h3 : args_optmap_trigger sc.st [sign, c] none <;> rfl
            · simp only [hr, if_false, args_optmap_trigger_reframe]
              cases h3 : args_optmap_trigger sc.st [sign, c] none <;> rfl
    · simp only [hc, if_false]
      exact ih (args_parse_unrecognised sc arg)

theorem args_parse_dispatch_reframe (pre : List (Option CStr)) (a : List CStr) (sc : Scan)
    (arg : CStr) :
    args_parse_dispatch (sc.reframe pre a) arg =
      (args_parse_dispatch sc arg).map (Scan.reframe pre a) := by
  unfold args_parse_dispatch
  have e1 : (sc.reframe pre a).tmpdashed = sc.tmpdashed := rfl
  have e2 : (sc.reframe pre a).dashed = sc.dashed := rfl
  have e3 : (sc.reframe pre a).st.args_alternative = sc.st.args_alternative := rfl
  simp only [e1, e2, e3, args_parse_file_reframe, args_parse_long_reframe,
    args_parse_bundle_reframe]
  split_ifs <;> rfl

theorem args_parse_token_reframe (pre : List (Option CStr)) (a : List CStr) (sc : Scan)
    (arg : CStr) :
    args_parse_token (sc.reframe pre a) arg =
      (args_parse_token sc arg).map (Scan.reframe pre a) := by
  unfold args_parse_token
  rw [args_parse_pending_reframe]
  cases hp : args_parse_pending sc arg with
  | error e => rfl
  | ok r =>
    obtain ⟨sc1, consumed⟩ := r
    cases consumed with
    | true => rfl
    | false =>
      simp only [Except.map, bind, Except.bind, Bool.false_eq_true, if_false]
      exact args_parse_dispatch_reframe pre a sc1 arg

theorem args_parse_loop_reframe (pre : List (Option CStr)) (a : List CStr) :
    ∀ (fuel : Nat) (sc : Scan) (argv : List CStr),
      args_parse_loop fuel (sc.reframe pre a) argv =
        (args_parse_loop fuel sc argv).map (Scan.reframe pre a) := by
  intro fuel
  induction fuel with
  | zero =>
    intro sc argv
    unfold args_parse_loop
    have e : (sc.reframe pre a).injection = sc.injection := rfl
    rw [e]
    cases hi : sc.injection with
    | some inj => rfl
    | none => cases argv <;> rfl
  | succ fuel ih =>
    intro sc argv
    have e : (sc.reframe pre a).injection = sc.injection := rfl
    cases hi : sc.injection with
    | some inj =>
      rw [args_parse_loop_injection _ _ inj _ (by rw [e]; exact hi),
        args_parse_loop_injection _ _ inj _ hi]
      have := args_parse_token_reframe pre a { sc with injection := none } inj
      simp only [Scan.reframe] at this ⊢
      rw [this]
      cases args_parse_token { sc with injection := none } inj with
      | error e => rfl
      | ok sc1 => exact ih sc1 argv
    | none =>
      cases argv with
      | nil =>
        rw [args_parse_loop_nil _ _ (by rw [e]; exact hi), args_parse_loop_nil _ _ hi]
        rfl
      | cons arg argv =>
        rw [args_parse_loop_cons _ _ _ _ (by rw [e]; exact hi),
          args_parse_loop_cons _ _ _ _ hi, args_parse_token_reframe]
        cases args_parse_token sc arg with
        | error e => rfl
        | ok sc1 => exact ih sc1 argv

theorem args_opts_append_reframe (pre : List (Option CStr)) (a : List CStr) (st : State)
    (name : CStr) (value : Option CStr) :
    args_opts_append (reframe pre a st) name value =
      reframe pre a (args_opts_append st name value) := by
  unfold args_opts_append
  have g1 : args_opts_get (reframe pre a st) name = args_opts_get st name := rfl
  have g2 : args_opts_get_count (reframe pre a st) name = args_opts_get_count st name := rfl
  simp only [g1, g2]
  cases args_opts_get st name <;> rfl

theorem args_parse_mark_reframe (pre : List (Option CStr)) (a : List CStr) (st : State)
    (opt : CStr) :
    args_parse_mark (reframe pre a st) opt = (args_parse_mark st opt).map (reframe pre a) := by
  unfold args_parse_mark
  have g3 : map_get (reframe pre a st).args_opts opt = map_get st.args_opts opt := rfl
  rw [g3]
  cases map_get st.args_opts opt <;> rfl

theorem args_opts_settle_reframe (pre : List (Option CStr)) (a : List CStr) (st : State)
    (opt : CStr) :
    (if args_optmap_contains (reframe pre a st) opt = false ∨
        args_opts_contains (reframe pre a st) opt = false
      then args_opts_new (reframe pre a st) opt else reframe pre a st) =
    reframe pre a (if args_optmap_contains st opt = false ∨
        args_opts_contains st opt = false then args_opts_new st opt else st) := by
  have c1 : args_optmap_contains (reframe pre a st) opt = args_optmap_contains st opt := rfl
  have c2 : args_opts_contains (reframe pre a st) opt = args_opts_contains st opt := rfl
  rw [c1, c2]
  split_ifs <;> rfl

theorem args_parse_record_reframe (pre : List (Option CStr)) (a : List CStr)
    (argqueue : List (Option CStr)) (optqueue : List CStr) :
    ∀ (st : State) (i : Nat),
      args_parse_record argqueue (reframe pre a st) i optqueue =
        (args_parse_record argqueue st i optqueue).map (reframe pre a) := by
  induction optqueue with
  | nil => intro st i; rfl
  | cons used optqueue ih =>
    intro st i
    rw [args_parse_record, args_parse_record]
    obtain ⟨l1, l2, l3, l4, l5, l6⟩ := reframe_lookups pre a st
    simp only [l3, args_optmap_triggerv_reframe]
    cases hstd : args_optmap_get_standard st used with
    | error e => rfl
    | ok opt =>
      simp only [bind, Except.bind]
      by_cases hle : argqueue.length ≤ i
      · simp only [hle, if_true]
        cases hv : args_optmap_triggerv st used none with
        | error e => rfl
        | ok st1 =>
          simp only [Except.map]
          rw [args_opts_settle_reframe, args_opts_append_reframe, args_parse_mark_reframe]
          cases args_parse_mark (args_opts_append
              (if args_optmap_contains st1 opt = false ∨ args_opts_contains st1 opt = false
                then args_opts_new st1 opt else st1) opt
              (if i < argqueue.length then argqueue.getD i none else none)) opt with
          | error e => rfl
          | ok st3 => exact ih st3 (i + 1)
      · simp only [hle, if_false, pure, Except.pure]
        rw [args_opts_settle_reframe, args_opts_append_reframe, args_parse_mark_reframe]
        cases args_parse_mark (args_opts_append
            (if args_optmap_contains st opt = false ∨ args_opts_contains st opt = false
              then args_opts_new st opt else st) opt
            (if i < argqueue.length then argqueue.getD i none else none)) opt with
        | error e => rfl
        | ok st3 => exact ih st3 (i + 1)

theorem args_parse_absorb_reframe (pre : List (Option CStr)) (a : List CStr) (std : CStr)
    (files : List CStr) :
    ∀ st : State, args_parse_absorb std (reframe pre a st) files =
      reframe pre a (args_parse_absorb std st files) := by
  induction files with
  | nil => intro st; rfl
  | cons file files ih =>
    intro st
    rw [args_parse_absorb, args_parse_absorb, args_opts_append_reframe, ih]

theorem args_parse_variadic_reframe (a : List CStr) (options : List args_Option) :
    ∀ st : State, args_parse_variadic (reframe [] a st) options =
      (args_parse_variadic st options).map (reframe [] a) := by
  induction options with
  | nil => intro st; rfl
  | cons o options ih =>
    intro st
    rw [args_parse_variadic, args_parse_variadic]
    have u1 : args_opts_used (reframe [] a st) o.standard = args_opts_used st o.standard := rfl
    have u2 : args_opts_get (reframe [] a st) o.standard = args_opts_get st o.standard := rfl
    rw [u1, u2]
    by_cases hc : o.type = VARIADIC ∧ args_opts_used st o.standard = true
    · simp only [hc, and_self, if_true]
      cases hg : args_opts_get st o.standard with
      | none => rfl
      | some vs =>
        cases vs with
        | nil => rfl
        | cons first vs =>
          simp only []
          have hst : (if first = none then args_opts_clear (reframe [] a st) o.standard
              else reframe [] a st) =
              reframe [] a (if first = none then args_opts_clear st o.standard else st) := by
            split_ifs <;> rfl
          rw [hst]
          have hp : peek_all
              (reframe [] a (if first = none then args_opts_clear st o.standard else st)).args_files
              (reframe [] a
                (if first = none then args_opts_clear st o.standard else st)).args_files_count =
              peek_all (if first = none then args_opts_clear st o.standard else st).args_files
                (if first = none then args_opts_clear st o.standard else st).args_files_count :=
            rfl
          rw [hp]
          cases peek_all (if first = none then args_opts_clear st o.standard else st).args_files
              (if first = none then args_opts_clear st o.standard else st).args_files_count with
          | error e => rfl
          | ok files =>
            simp only [bind, Except.bind, pure, Except.pure, Except.map,
              args_parse_absorb_reframe]
            rfl
    · simp only [hc, if_false]
      exact ih st

theorem args_parse_message_reframe (a : List CStr) (st : State) :
    args_parse_message (reframe [] a st) = (args_parse_message st).map (reframe [] a) := by
  unfold args_parse_message
  have e1 : (reframe [] a st).args_files_count = st.args_files_count := rfl
  have e2 : (reframe [] a st).args_files = st.args_files := rfl
  rw [e1, e2]
  split_ifs
  · cases peek_all st.args_files st.args_files_count <;> rfl
  · rfl

theorem args_parse_summary_reframe (pre : List (Option CStr)) (a : List CStr) (st : State) :
    args_parse_summary (reframe pre a st) = reframe pre a (args_parse_summary st) := by
  unfold args_parse_summary
  have e1 : (reframe pre a st).args_unrecognised_count = st.args_unrecognised_count := rfl
  rw [e1]
  split_ifs <;> rfl

theorem args_parse_end_reframe (a : List CStr) (sc : Scan) :
    args_parse_end (sc.reframe [] a) =
      (args_parse_end sc).map (fun r => (r.1, reframe [] a r.2)) := by
  unfold args_parse_end
  have e1 : (sc.reframe [] a).argqueue = sc.argqueue := rfl
  have e2 : (sc.reframe [] a).optqueue = sc.optqueue := rfl
  have e3 : (sc.reframe [] a).st = reframe [] a sc.st := rfl
  have e4 : (sc.reframe [] a).rc = sc.rc := rfl
  rw [e1, e2, e3, e4, args_parse_record_reframe]
  cases args_parse_record sc.argqueue sc.st 0 sc.optqueue with
  | error e => rfl
  | ok st1 =>
    simp only [Except.map, bind, Except.bind]
    have e5 : (reframe [] a st1).args_options = st1.args_options := rfl
    rw [e5, args_parse_variadic_reframe]
    cases args_parse_variadic st1 st1.args_options with
    | error e => rfl
    | ok st2 =>
      simp only [Except.map]
      rw [args_parse_message_reframe]
      cases args_parse_message st2 with
      | error e => rfl
      | ok st3 =>
        simp only [Except.map, pure, Except.pure, args_parse_summary_reframe]

/-- The result of `args_parse` does not depend on the vector the instance was
started on before: the scan of `tokens` from the instance of `args_parse` on
another vector differs in `args_arguments` only. -/
theorem args_parse_loop_begin_reframe (st : State) (tokens other : List CStr) (fuel : Nat)
    (argv : List CStr) :
    args_parse_loop fuel (args_parse_begin st other) argv =
      (args_parse_loop fuel (args_parse_begin st tokens) argv).map (Scan.reframe [] other) := by
  have : args_parse_begin st other = (args_parse_begin st tokens).reframe [] other := rfl
  rw [this, args_parse_loop_reframe]

/-! ## The token `++` -/

theorem args_opts_used_append (st : State) (name : CStr) (value : Option CStr) :
    args_opts_used (args_opts_append st name value) name = args_opts_used st name ∧
    (args_opts_append st name value).args_options = st.args_options := by
  unfold args_opts_append
  cases hg : args_opts_get st name <;>
    cases hm : map_get st.args_opts name <;>
    simp [args_opts_used, args_opts_put, args_opts_put_count, map_get_opts_put_count,
      map_get_opts_put, hm]

theorem args_opts_used_clear (st : State) (name : CStr) :
    args_opts_used (args_opts_clear st name) name = args_opts_used st name ∧
    (args_opts_clear st name).args_options = st.args_options := by
  obtain ⟨m, hm, hget⟩ := args_opts_clear_shape st name
  rw [hm]
  refine ⟨?_, rfl⟩
  simp [args_opts_used, hget]

theorem args_opts_used_absorb (std : CStr) (files : List CStr) :
    ∀ st : State,
      args_opts_used (args_parse_absorb std st files) std = args_opts_used st std ∧
      (args_parse_absorb std st files).args_options = st.args_options := by
  induction files with
  | nil => intro st; exact ⟨rfl, rfl⟩
  | cons file files ih =>
    intro st
    rw [args_parse_absorb]
    obtain ⟨h1, h2⟩ := ih (args_opts_append st std (some file))
    obtain ⟨h3, h4⟩ := args_opts_used_append st std (some file)
    exact ⟨by rw [h1, h3], by rw [h2, h4]⟩

theorem args_parse_variadic_unused (options : List args_Option) (st v : State)
    (h : args_parse_variadic st options = .ok v) :
    v.args_options = st.args_options ∧
    ((∀ o ∈ options, o.type = VARIADIC → args_opts_used v o.standard = false) →
      v = st ∧ ∀ o ∈ options, o.type = VARIADIC → args_opts_used st o.standard = false) := by
  induction options with
  | nil =>
    simp only [args_parse_variadic, pure, Except.pure, Except.ok.injEq] at h
    subst h
    exact ⟨rfl, fun _ => ⟨rfl, fun o ho => absurd ho (List.not_mem_nil o)⟩⟩
  | cons o options ih =>
    rw [args_parse_variadic] at h
    by_cases hc : o.type = VARIADIC ∧ args_opts_used st o.standard = true
    · simp only [hc, and_self, if_true] at h
      cases hg : args_opts_get st o.standard with
      | none => simp [hg] at h
      | some vs =>
        cases vs with
        | nil => simp [hg] at h
        | cons first vs =>
          simp only [hg] at h
          cases hp : peek_all
              (if first = none then args_opts_clear st o.standard else st).args_files
              (if first = none then args_opts_clear st o.standard else st).args_files_count with
          | error e => simp [hp, bind, Except.bind] at h
          | ok files =>
            simp only [hp, bind, Except.bind, pure, Except.pure, Except.ok.injEq] at h
            have hused : args_opts_used v o.standard = true := by
              rw [← h]
              show args_opts_used (args_parse_absorb o.standard _ files) o.standard = true
              rw [(args_opts_used_absorb o.standard files _).1]
              split_ifs
              · rw [(args_opts_used_clear st o.standard).1]; exact hc.2
              · exact hc.2
            refine ⟨?_, ?_⟩
            · rw [← h]
              show (args_parse_absorb o.standard _ files).args_options = _
              rw [(args_opts_used_absorb o.standard files _).2]
              split_ifs
              · exact (args_opts_used_clear st o.standard).2
              · rfl
            · intro hall
              have := hall o (by simp) hc.1
              rw [hused] at this
              exact Bool.noConfusion this
    · simp only [hc, if_false] at h
      obtain ⟨h1, h2⟩ := ih h
      refine ⟨h1, fun hall => ?_⟩
      obtain ⟨e, hrest⟩ := h2 (fun o' ho' => hall o' (by simp [ho']))
      refine ⟨e, ?_⟩
      intro o' ho' hty
      rcases List.mem_cons.mp ho' with rfl | hin
      · by_contra hu
        exact hc ⟨hty, by simpa using hu⟩
      · exact hrest o' hin hty

theorem args_parse_message_options (st m : State) (h : args_parse_message st = .ok m) :
    ∃ message, m = { st with args_message := message } := by
  unfold args_parse_message at h
  split_ifs at h
  · cases hp : peek_all st.args_files st.args_files_count with
    | error e => simp [hp, bind, Except.bind] at h
    | ok files =>
      simp only [hp, bind, Except.bind, pure, Except.pure, Except.ok.injEq] at h
      exact ⟨_, h.symm⟩
  · simp only [pure, Except.pure, Except.ok.injEq] at h
    exact ⟨_, h.symm⟩

theorem args_parse_message_prepended (t : CStr) (a : List CStr) (st m : State)
    (h : args_parse_message st = .ok m) :
    ∃ message, args_parse_message (reframe [some t] a st) =
      .ok { reframe [some t] a st with args_message := message } := by
  have hpeek : ∃ files, peek_all st.args_files st.args_files_count = .ok files := by
    unfold args_parse_message at h
    split_ifs at h with hpos
    · cases hp : peek_all st.args_files st.args_files_count with
      | error e => simp [hp, bind, Except.bind] at h
      | ok files => exact ⟨files, rfl⟩
    · have h0 : st.args_files_count = 0 := by omega
      rw [h0]
      exact ⟨[], by rcases st.args_files with _ | ⟨_ | _, _⟩ <;> rfl⟩
  obtain ⟨files, hp⟩ := hpeek
  have hp1 : peek_all (reframe [some t] a st).args_files
      (reframe [some t] a st).args_files_count = .ok (t :: files) := by
    show peek_all (some t :: st.args_files) (st.args_files_count + 1) = _
    simp only [peek_all, hp]
  unfold args_parse_message
  have hpos : 0 < (reframe [some t] a st).args_files_count := by
    show 0 < st.args_files_count + 1
    omega
  simp only [hpos, if_true, hp1, bind, Except.bind, pure, Except.pure]
  exact ⟨_, rfl⟩

theorem args_parse_summary_message (pre : List (Option CStr)) (a : List CStr) (st : State)
    (message message' : Option CStr) :
    args_parse_summary { reframe pre a st with args_message := message } =
      { reframe pre a (args_parse_summary { st with args_message := message' }) with
        args_message := message } := by
  unfold args_parse_summary
  by_cases h : 5 < st.args_unrecognised_count
  · have h1 : 5 < ({ reframe pre a st with args_message := message } : State
        ).args_unrecognised_count := h
    have h2 : 5 < ({ st with args_message := message' } : State).args_unrecognised_count := h
    rw [if_pos h1, if_pos h2]
    rfl
  · have h1 : ¬ 5 < ({ reframe pre a st with args_message := message } : State
        ).args_unrecognised_count := h
    have h2 : ¬ 5 < ({ st with args_message := message' } : State).args_unrecognised_count := h
    rw [if_neg h1, if_neg h2]
    rfl

/-- C25: with the Variadic option `--rest`, `args_parse` on `++`, `x`, `--rest`
does not leave `x` in the positional file list: the list is empty afterwards
(`args_files_count` is 0, no message), and `x` is the value of `--rest`,
whereas `args_parse` on `--rest` alone leaves `--rest` without values. -/
theorem args_parse_forced_positional_absorbed :
    ∃ st1 st2,
      args_parse 3 (registry none false none [(opt_rest, none)])
        [[112], [43, 43], [120], [45, 45, 114, 101, 115, 116]] = .ok (true, st1) ∧
      args_parse 1 (registry none false none [(opt_rest, none)])
        [[112], [45, 45, 114, 101, 115, 116]] = .ok (true, st2) ∧
      st1.args_files_count = 0 ∧ st1.args_message = none ∧
      args_opts_get st1 [45, 45, 114, 101, 115, 116] = some [some [120]] ∧
      args_opts_get_count st1 [45, 45, 114, 101, 115, 116] = 1 ∧
      args_opts_get st2 [45, 45, 114, 101, 115, 116] = none ∧
      args_opts_get_count st2 [45, 45, 114, 101, 115, 116] = 0 :=
  ⟨_, _, rfl, rfl, by decide, by decide, rfl, by decide, rfl, by decide⟩

/-- C25: on a freshly registered instance, whenever `args_parse` on `rest`
returns and leaves no Variadic option used, `args_parse` on `++`, `t`, `rest`
returns the same flag and leaves the same instance but for the vector it was
called on and the positional files: `t` is the first positional file, whatever
`t` is, followed by the files of `rest`, their count is one more, and the
message is built from them; the results store, the callbacks, the diagnostics
and the unrecognised count are those of `rest` alone. -/
theorem args_parse_forced_positional (program : Option CStr) (alternative : Bool)
    (abbreviations : Option (CStr → List CStr → Nat → Option CStr))
    (options : List (args_Option × Option CStr)) (exe t : CStr) (rest : List CStr)
    (fuel : Nat) (rc : Bool) (st2 : State)
    (h : args_parse fuel (registry program alternative abbreviations options) (exe :: rest)
      = .ok (rc, st2))
    (hv : ∀ o ∈ st2.args_options, o.type = VARIADIC → args_opts_used st2 o.standard = false) :
    ∃ message,
      args_parse (fuel + 2) (registry program alternative abbreviations options)
        (exe :: [PLUS, PLUS] :: t :: rest) =
        .ok (rc, { reframe [some t] ([PLUS, PLUS] :: t :: rest) st2 with
                   args_message := message }) ∧
      (reframe [some t] ([PLUS, PLUS] :: t :: rest) st2).args_files = some t :: st2.args_files ∧
      (reframe [some t] ([PLUS, PLUS] :: t :: rest) st2).args_files_count
        = st2.args_files_count + 1 ∧
      (reframe [some t] ([PLUS, PLUS] :: t :: rest) st2).args_opts = st2.args_opts ∧
      (reframe [some t] ([PLUS, PLUS] :: t :: rest) st2).calls = st2.calls ∧
      (reframe [some t] ([PLUS, PLUS] :: t :: rest) st2).args_out = st2.args_out ∧
      (reframe [some t] ([PLUS, PLUS] :: t :: rest) st2).args_unrecognised_count
        = st2.args_unrecognised_count := by
  obtain ⟨-, -, hfc, -, -, -⟩ := registry_fields program alternative abbreviations options
  -- the parse of `rest`
  cases hl : args_parse_loop fuel
      (args_parse_begin (registry program alternative abbreviations options) rest) rest with
  | error e => simp [args_parse, hl, bind, Except.bind] at h
  | ok sc2 =>
    rw [args_parse_of_loop _ _ _ _ _ hl] at h
    unfold args_parse_end at h
    cases hr : args_parse_record sc2.argqueue sc2.st 0 sc2.optqueue with
    | error e => simp [hr, bind, Except.bind] at h
    | ok r2 =>
      cases hvar : args_parse_variadic r2 r2.args_options with
      | error e => simp [hr, hvar, bind, Except.bind] at h
      | ok v2 =>
        cases hm : args_parse_message v2 with
        | error e => simp [hr, hvar, hm, bind, Except.bind] at h
        | ok m2 =>
          simp only [hr, hvar, hm, bind, Except.bind, pure, Except.pure, Except.ok.injEq,
            Prod.mk.injEq] at h
          obtain ⟨hrc, hst2⟩ := h
          obtain ⟨message2, hm2⟩ := args_parse_message_options v2 m2 hm
          obtain ⟨s1, -, -, -, -, -⟩ := args_parse_summary_fields m2
          have hopts2 : st2.args_opts = v2.args_opts := by rw [← hst2, s1, hm2]
          have hoptions2 : st2.args_options = v2.args_options := by
            rw [← hst2, hm2]
            unfold args_parse_summary
            split_ifs <;> rfl
          obtain ⟨hvo, hvu⟩ := args_parse_variadic_unused r2.args_options r2 v2 hvar
          obtain ⟨hv2, hunused⟩ := hvu (by
            intro o ho hty
            have := hv o (by rw [hoptions2, hvo]; exact ho) hty
            simpa [args_opts_used, hopts2] using this)
          subst hv2
          -- the scan of the three parts
          have hscan : args_parse_loop (fuel + 2)
              (args_parse_begin (registry program alternative abbreviations options)
                ([PLUS, PLUS] :: t :: rest)) ([PLUS, PLUS] :: t :: rest) =
              .ok (sc2.reframe [some t] ([PLUS, PLUS] :: t :: rest)) := by
            rw [args_parse_loop_cons _ _ _ _ rfl, args_parse_token_idle _ _ rfl]
            have hd1 : args_parse_dispatch
                (args_parse_begin (registry program alternative abbreviations options)
                  ([PLUS, PLUS] :: t :: rest)) [PLUS, PLUS] =
                .ok { args_parse_begin (registry program alternative abbreviations options)
                  ([PLUS, PLUS] :: t :: rest) with tmpdashed := true } := rfl
            rw [hd1]
            simp only [Except.bind]
            rw [args_parse_loop_cons _ _ _ _ rfl, args_parse_token_idle _ _ rfl]
            have hd2 : args_parse_dispatch
                { args_parse_begin (registry program alternative abbreviations options)
                  ([PLUS, PLUS] :: t :: rest) with tmpdashed := true } t =
                .ok ((args_parse_begin (registry program alternative abbreviations options)
                  rest).reframe [some t] ([PLUS, PLUS] :: t :: rest)) := by
              simp only [args_parse_dispatch, if_true, pure, Except.pure, args_parse_file,
                args_parse_begin, hfc, poke, Scan.reframe, reframe]
              rfl
            rw [hd2]
            simp only [Except.bind]
            rw [args_parse_loop_reframe, hl]
            rfl
          rw [args_parse_of_loop _ _ _ _ _ hscan]
          unfold args_parse_end
          have e1 : (sc2.reframe [some t] ([PLUS, PLUS] :: t :: rest)).argqueue = sc2.argqueue :=
            rfl
          have e2 : (sc2.reframe [some t] ([PLUS, PLUS] :: t :: rest)).optqueue = sc2.optqueue :=
            rfl
          have e3 : (sc2.reframe [some t] ([PLUS, PLUS] :: t :: rest)).st =
              reframe [some t] ([PLUS, PLUS] :: t :: rest) sc2.st := rfl
          have e4 : (sc2.reframe [some t] ([PLUS, PLUS] :: t :: rest)).rc = sc2.rc := rfl
          rw [e1, e2, e3, e4, args_parse_record_reframe, hr]
          have hvar1 : args_parse_variadic (reframe [some t] ([PLUS, PLUS] :: t :: rest) v2)
              (reframe [some t] ([PLUS, PLUS] :: t :: rest) v2).args_options =
              .ok (reframe [some t] ([PLUS, PLUS] :: t :: rest) v2) :=
            args_parse_variadic_none _ _ hunused
          obtain ⟨message, hmsg⟩ := args_parse_message_prepended t
            ([PLUS, PLUS] :: t :: rest) v2 m2 hm
          simp only [Except.map, bind, Except.bind, hvar1, hmsg, pure, Except.pure]
          refine ⟨message, ?_, rfl, rfl, rfl, rfl, rfl, rfl⟩
          rw [hrc, ← hst2, hm2, args_parse_summary_message _ _ _ message message2]

/-- C25, with the Argumentless option `-a`, the token `-a` behind `++` and the
rest `-a`: the first `-a` is the positional file, the second one is the single
use of the option. -/
theorem args_parse_forced_positional_witness :
    ∃ st2 message,
      args_parse 1 (registry none false none [(flag_a, none)]) [[112], [45, 97]]
        = .ok (true, st2) ∧
      (∀ o ∈ st2.args_options, o.type = VARIADIC → args_opts_used st2 o.standard = false) ∧
      args_parse (1 + 2) (registry none false none [(flag_a, none)])
        [[112], [PLUS, PLUS], [45, 97], [45, 97]] =
        .ok (true, { reframe [some [45, 97]] [[PLUS, PLUS], [45, 97], [45, 97]] st2 with
                     args_message := message }) ∧
      (reframe [some [45, 97]] [[PLUS, PLUS], [45, 97], [45, 97]] st2).args_files
        = some [45, 97] :: st2.args_files ∧
      args_opts_get_count st2 [45, 97] = 1 ∧ st2.args_files_count = 0 :=
  have h0 : ∃ st2, args_parse 1 (registry none false none [(flag_a, none)]) [[112], [45, 97]]
        = .ok (true, st2) ∧
      (∀ o ∈ st2.args_options, o.type = VARIADIC → args_opts_used st2 o.standard = false) ∧
      args_opts_get_count st2 [45, 97] = 1 ∧ st2.args_files_count = 0 :=
    ⟨_, rfl, by decide, by decide, by decide⟩
  match h0 with
  | ⟨st2, h, hv, hc, hfc⟩ =>
    match args_parse_forced_positional none false none [(flag_a, none)] [112] [45, 97]
      [[45, 97]] 1 true st2 h hv with
    | ⟨message, hp, hf, _⟩ => ⟨st2, message, h, hv, hp, hf, hc, hfc⟩

/-! ## The queues of the scanner -/

theorem whenever_and {α : Type} {p q : α → Prop} {x : Except Fault α} (hp : whenever p x)
    (hq : whenever q x) : whenever (fun a => p a ∧ q a) x := by
  cases x with
  | error e => trivial
  | ok a => exact ⟨hp, hq⟩

theorem whenever_of_succeeds {α : Type} {p : α → Prop} {x : Except Fault α}
    (h : succeeds p x) : whenever p x := by
  cases x with
  | error e => trivial
  | ok a => exact h

theorem queued_of {sc sc1 : Scan} (h : queued sc)
    (hle : sc1.argqueue.length + sc1.get + sc.optqueue.length ≤
      sc.argqueue.length + sc.get + sc1.optqueue.length) : queued sc1 := by
  unfold queued at *
  omega

theorem queued_unmatched {sc : Scan} {b : Bool} (h : queued sc)
    (hm : sc.st.args_alternative = b) (arg a : CStr) (n : Nat) :
    queued (args_parse_long_unmatched sc arg a n) ∧
    (args_parse_long_unmatched sc arg a n).st.args_alternative = b := by
  unfold args_parse_long_unmatched
  cases args__abbreviations sc.st a with
  | none => exact ⟨h, hm⟩
  | some inj => exact ⟨h, hm⟩

theorem args_parse_pending_queued (sc : Scan) (arg : CStr) (b : Bool) (hq : queued sc)
    (hm : sc.st.args_alternative = b) :
    whenever (fun r => queued r.1 ∧ r.1.st.args_alternative = b)
      (args_parse_pending sc arg) := by
  unfold args_parse_pending
  split_ifs with h1 h2
  · split
    · exact whenever_error _ _
    · repeat' first
        | exact whenever_error _ _
        | (refine (whenever_pure _ _).mpr ?_;
            exact ⟨queued_of hq (by
              simp only [List.length_append, List.length_singleton]
              omega), hm⟩)
        | (refine whenever_trigger_bind _ _ _ _ _ ?_; intro calls)
        | (refine whenever_triggerv_bind _ _ _ _ _ ?_; intro calls)
        | (refine (whenever_bind _ _ _).mpr (whenever_of_forall _ ?_); intro y)
        | split_ifs
        | split
        | dsimp only
  · exact whenever_error _ _
  · exact ⟨hq, hm⟩

set_option maxHeartbeats 4000000 in
theorem args_parse_long_queued (sc : Scan) (arg : CStr) (b : Bool) (hq : queued sc)
    (hm : sc.st.args_alternative = b) (hd : sc.dontget = 0) :
    whenever (fun sc1 => queued sc1 ∧ sc1.st.args_alternative = b) (args_parse_long sc arg) := by
  unfold args_parse_long
  simp only [hd, Nat.le_refl, true_and, Nat.lt_irrefl, if_false]
  repeat' first
    | exact whenever_error _ _
    | (refine (whenever_pure _ _).mpr ?_;
        first
          | exact ⟨hq, hm⟩
          | exact queued_unmatched hq hm _ _ _
          | exact ⟨queued_of hq (by
              simp only [List.length_append, List.length_singleton]
              omega), hm⟩)
    | (refine whenever_trigger_bind _ _ _ _ _ ?_; intro calls)
    | (refine (whenever_bind _ _ _).mpr (whenever_of_forall _ ?_); intro y)
    | split_ifs
    | split

theorem args_parse_bundle_queued (arg : CStr) (sign : Byte) (b : Bool) (rest : CStr) :
    ∀ sc : Scan, queued sc → sc.st.args_alternative = b →
      whenever (fun sc1 => queued sc1 ∧ sc1.st.args_alternative = b)
        (args_parse_bundle arg sign sc rest) := by
  induction rest with
  | nil => intro sc hq hm; exact ⟨hq, hm⟩
  | cons c rest ih =>
    intro sc hq hm
    rw [args_parse_bundle]
    repeat' first
      | exact whenever_error _ _
      | (refine (whenever_pure _ _).mpr ?_;
          exact ⟨queued_of hq (by
            simp only [List.length_append, List.length_singleton]
            omega), hm⟩)
      | (refine ih _ ?_ hm;
          first
            | exact hq
            | exact queued_of hq (by
                simp only [List.length_append, List.length_singleton]
                omega))
      | (refine whenever_trigger_bind _ _ _ _ _ ?_; intro calls)
      | (refine (whenever_bind _ _ _).mpr (whenever_of_forall _ ?_); intro y)
      | split_ifs

theorem args_parse_dispatch_queued (sc : Scan) (arg : CStr) (b : Bool) (hq : queued sc)
    (hm : sc.st.args_alternative = b) (hd : sc.dontget = 0) :
    whenever (fun sc1 => queued sc1 ∧ sc1.st.args_alternative = b)
      (args_parse_dispatch sc arg) := by
  unfold args_parse_dispatch
  split_ifs
  · exact ⟨hq, hm⟩
  · exact ⟨hq, hm⟩
  · exact ⟨hq, hm⟩
  · exact ⟨hq, hm⟩
  · exact args_parse_long_queued sc arg b hq hm hd
  · exact args_parse_bundle_queued arg _ b _ sc hq hm
  · exact ⟨hq, hm⟩

theorem args_parse_pending_scanned {st0 : State} (sc : Scan) (arg : CStr)
    (hg : scanned st0 sc) :
    whenever (fun r => scanned st0 r.1 ∧ r.1.injection = sc.injection)
      (args_parse_pending sc arg) := by
  obtain ⟨h1, h2, h3, h4, h5, h6, h7, h8⟩ := hg
  unfold args_parse_pending
  split_ifs with c1 c2
  · split
    · exact whenever_error _ _
    · repeat' first
        | exact whenever_error _ _
        | (refine (whenever_pure _ _).mpr ?_;
            exact ⟨⟨h1, h2, h3, h4, h5, h6, h7, fun hi => by
              have := h8 hi
              dsimp only
              omega⟩, rfl⟩)
        | (refine whenever_trigger_bind _ _ _ _ _ ?_; intro calls)
        | (refine whenever_triggerv_bind _ _ _ _ _ ?_; intro calls)
        | (refine (whenever_bind _ _ _).mpr (whenever_of_forall _ ?_); intro y)
        | split_ifs
        | split
        | dsimp only
  · exact whenever_error _ _
  · exact ⟨⟨h1, h2, h3, h4, h5, h6, h7, h8⟩, rfl⟩

theorem args_parse_token_invariant {st0 : State} (hr : index_in_range st0) (sc : Scan)
    (arg : CStr) (hg : scanned st0 sc) (hs : steady sc) (hq : queued sc)
    (hinj : sc.injection = none) :
    whenever (fun sc1 => scanned st0 sc1 ∧ steady sc1 ∧ queued sc1 ∧
        sc1.st.args_alternative = sc.st.args_alternative)
      (args_parse_token sc arg) := by
  unfold args_parse_token
  refine (whenever_bind _ _ _).mpr ?_
  refine whenever_mono (whenever_and (args_parse_pending_scanned sc arg hg)
    (whenever_and (args_parse_pending_steady sc arg hs)
      (args_parse_pending_queued sc arg sc.st.args_alternative hq rfl))) ?_
  rintro ⟨sc1, consumed⟩ ⟨⟨g1, i1⟩, ⟨s1, z1⟩, q1, m1⟩
  cases consumed with
  | true => exact ⟨g1, s1, q1, m1⟩
  | false =>
    have hget : sc1.get = 0 := z1 rfl
    have hinj1 : sc1.injection = none := by rw [i1]; exact hinj
    exact whenever_and
      (whenever_mono (whenever_of_succeeds (args_parse_dispatch_scanned hr g1 hget hinj1 arg))
        (fun x hx => hx.1))
      (whenever_and (args_parse_dispatch_steady sc1 arg s1 hget)
        (args_parse_dispatch_queued sc1 arg _ q1 m1 s1.2.1))

theorem args_parse_loop_invariant {st0 : State} (hr : index_in_range st0) (b : Bool)
    (fuel : Nat) :
    ∀ (sc : Scan) (argv : List CStr), scanned st0 sc → steady sc → queued sc →
      sc.st.args_alternative = b →
      whenever (fun sc1 => scanned st0 sc1 ∧ steady sc1 ∧ queued sc1 ∧
          sc1.st.args_alternative = b ∧ sc1.injection = none)
        (args_parse_loop fuel sc argv) := by
  induction fuel with
  | zero =>
    intro sc argv hg hs hq hm
    cases hinj : sc.injection with
    | none =>
      cases argv with
      | nil => rw [args_parse_loop_nil _ _ hinj]; exact ⟨hg, hs, hq, hm, hinj⟩
      | cons arg argv =>
        unfold args_parse_loop
        simp only [hinj]
        exact whenever_error _ _
    | some inj =>
      unfold args_parse_loop
      simp only [hinj]
      exact whenever_error _ _
  | succ fuel ih =>
    intro sc argv hg hs hq hm
    cases hinj : sc.injection with
    | none =>
      cases argv with
      | nil => rw [args_parse_loop_nil _ _ hinj]; exact ⟨hg, hs, hq, hm, hinj⟩
      | cons arg argv =>
        rw [args_parse_loop_cons _ _ _ _ hinj]
        refine (whenever_bind _ _ _).mpr ?_
        exact whenever_mono (args_parse_token_invariant hr sc arg hg hs hq hinj)
          (fun sc1 h1 => ih sc1 argv h1.1 h1.2.1 h1.2.2.1 (by rw [h1.2.2.2]; exact hm))
    | some inj =>
      rw [args_parse_loop_injection _ _ _ _ hinj]
      refine (whenever_bind _ _ _).mpr ?_
      obtain ⟨h1, h2, h3, h4, h5, h6, h7, h8⟩ := hg
      exact whenever_mono
        (args_parse_token_invariant hr { sc with injection := none } inj
          ⟨h1, h2, h3, h4, h5, h6, h7, fun h => absurd rfl h⟩
          (steady_congr hs rfl rfl rfl rfl (Nat.le_refl _)) hq rfl)
        (fun sc1 h1 => ih sc1 argv h1.1 h1.2.1 h1.2.2.1 (by rw [h1.2.2.2]; exact hm))

theorem args_parse_loop_more_fuel (fuel : Nat) :
    ∀ (sc sc1 : Scan) (argv : List CStr) (k : Nat),
      args_parse_loop fuel sc argv = .ok sc1 → args_parse_loop (fuel + k) sc argv = .ok sc1 := by
  induction fuel with
  | zero =>
    intro sc sc1 argv k h
    cases hinj : sc.injection with
    | none =>
      cases argv with
      | nil =>
        rw [args_parse_loop_nil _ _ hinj] at h
        rw [args_parse_loop_nil _ _ hinj]; exact h
      | cons arg argv =>
        unfold args_parse_loop at h
        simp [hinj] at h
    | some inj =>
      unfold args_parse_loop at h
      simp [hinj] at h
  | succ fuel ih =>
    intro sc sc1 argv k h
    have hk : fuel + 1 + k = (fuel + k) + 1 := by omega
    rw [hk]
    cases hinj : sc.injection with
    | none =>
      cases argv with
      | nil =>
        rw [args_parse_loop_nil _ _ hinj] at h
        rw [args_parse_loop_nil _ _ hinj]; exact h
      | cons arg argv =>
        rw [args_parse_loop_cons _ _ _ _ hinj] at h ⊢
        cases ht : args_parse_token sc arg with
        | error e => rw [ht] at h; exact absurd h (by simp [Except.bind])
        | ok sc2 =>
          rw [ht] at h
          exact ih sc2 sc1 argv k h
    | some inj =>
      rw [args_parse_loop_injection _ _ _ _ hinj] at h ⊢
      cases ht : args_parse_token { sc with injection := none } inj with
      | error e => rw [ht] at h; exact absurd h (by simp [Except.bind])
      | ok sc2 =>
        rw [ht] at h
        exact ih sc2 sc1 argv k h

theorem args_parse_loop_append (fuel : Nat) :
    ∀ (sc sc1 sc2 : Scan) (argv more : List CStr) (k : Nat),
      args_parse_loop fuel sc argv = .ok sc1 → args_parse_loop k sc1 more = .ok sc2 →
      args_parse_loop (fuel + k) sc (argv ++ more) = .ok sc2 := by
  induction fuel with
  | zero =>
    intro sc sc1 sc2 argv more k h h2
    cases hinj : sc.injection with
    | none =>
      cases argv with
      | nil =>
        rw [args_parse_loop_nil _ _ hinj] at h
        simp only [Except.ok.injEq] at h
        rw [h, Nat.zero_add]
        exact h2
      | cons arg argv =>
        unfold args_parse_loop at h
        simp [hinj] at h
    | some inj =>
      unfold args_parse_loop at h
      simp [hinj] at h
  | succ fuel ih =>
    intro sc sc1 sc2 argv more k h h2
    have hk : fuel + 1 + k = (fuel + k) + 1 := by omega
    cases hinj : sc.injection with
    | none =>
      cases argv with
      | nil =>
        rw [args_parse_loop_nil _ _ hinj] at h
        simp only [Except.ok.injEq] at h
        rw [h, List.nil_append, Nat.add_comm]
        exact args_parse_loop_more_fuel k sc1 sc2 more (fuel + 1) h2
      | cons arg argv =>
        rw [hk, List.cons_append, args_parse_loop_cons _ _ _ _ hinj]
        rw [args_parse_loop_cons _ _ _ _ hinj] at h
        cases ht : args_parse_token sc arg with
        | error e => rw [ht] at h; exact absurd h (by simp [Except.bind])
        | ok sc3 =>
          rw [ht] at h
          exact ih sc3 sc1 sc2 argv more k h h2
    | some inj =>
      rw [hk, args_parse_loop_injection _ _ _ _ hinj]
      rw [args_parse_loop_injection _ _ _ _ hinj] at h
      cases ht : args_parse_token { sc with injection := none } inj with
      | error e => rw [ht] at h; exact absurd h (by simp [Except.bind])
      | ok sc3 =>
        rw [ht] at h
        exact ih sc3 sc1 sc2 argv more k h h2

theorem recorded_values_snoc (canon : CStr → CStr) (argqueue : List (Option CStr)) (n s : CStr)
    (optqueue : List CStr) :
    ∀ i : Nat, recorded_values canon argqueue n i (optqueue ++ [s]) =
      recorded_values canon argqueue n i optqueue ++
        (if canon s = n then [argqueue.getD (i + optqueue.length) none] else []) := by
  induction optqueue with
  | nil =>
    intro i
    by_cases hc : canon s = n <;> simp [recorded_values, hc]
  | cons u optqueue ih =>
    intro i
    have hl : i + (u :: optqueue).length = (i + 1) + optqueue.length := by
      simp only [List.length_cons]; omega
    rw [List.cons_append, recorded_values, recorded_values, ih (i + 1), hl]
    by_cases hu : canon u = n <;> simp [hu]

/-- C27: in a registry without shared spellings, let `s` be a long or short
spelling of an Argumented or OptionallyArgumented option, and let `ts` be a
token vector whose scan ends with no value awaited and with `s` still read as
an option (no terminator, Variadic option or pending `++` in front of it).
Then `args_parse` on `ts` and on `ts ++ [s]` both return, with the same flag:
the values of the option after `ts ++ [s]` are those after `ts` followed by
one absence marker, its count is one more, the option is used, and the
unrecognised count is the one of `ts`. -/
theorem args_parse_pending_at_end (program : Option CStr) (alternative : Bool)
    (abbreviations : Option (CStr → List CStr → Nat → Option CStr))
    (options : List (args_Option × Option CStr))
    (hns : no_shared_spelling options) (hcl : canonical_listed options)
    (o : args_Option) (help : Option CStr) (hp : (o, help) ∈ options)
    (htype : o.type = ARGUMENTED ∨ o.type = OPTARGUMENTED)
    (s : CStr) (hs : s ∈ o.alternatives)
    (hsp : long_spelling s ∨ short_spelling alternative s)
    (exe : CStr) (ts : List CStr) (fuel : Nat)
    (hscan : succeeds (fun sc => sc.get = 0 ∧ sc.dashed = false ∧ sc.tmpdashed = false)
      (args_parse_loop fuel
        (args_parse_begin (registry program alternative abbreviations options) ts) ts)) :
    ∃ rc st1 st2,
      args_parse fuel (registry program alternative abbreviations options) (exe :: ts)
        = .ok (rc, st2) ∧
      args_parse (fuel + 1) (registry program alternative abbreviations options)
        (exe :: (ts ++ [s])) = .ok (rc, st1) ∧
      args_opts_get st1 o.standard = some ((args_opts_get st2 o.standard).getD [] ++ [none]) ∧
      args_opts_get_count st1 o.standard = args_opts_get_count st2 o.standard + 1 ∧
      args_opts_used st1 o.standard = true ∧
      st1.args_unrecognised_count = st2.args_unrecognised_count := by
  obtain ⟨halt, -, -, -, -, hoptions⟩ :=
    registry_fields program alternative abbreviations options
  cases hl : args_parse_loop fuel
      (args_parse_begin (registry program alternative abbreviations options) ts) ts with
  | error e => rw [hl] at hscan; exact absurd hscan (fun h => h)
  | ok sc =>
    rw [hl] at hscan
    obtain ⟨hget, hdash, htmp⟩ := hscan
    have hr : index_in_range
        (args_parse_begin (registry program alternative abbreviations options) ts).st :=
      registry_index_in_range program alternative abbreviations options hns
    obtain ⟨hg, hsteady, hq, hmode, hinj⟩ := whenever_elim
      (args_parse_loop_invariant hr alternative fuel _ ts
        (args_parse_begin_scanned program alternative abbreviations options ts)
        (args_parse_begin_steady _ _) (by simp [queued, args_parse_begin]) halt) hl
    obtain ⟨i, hmap, hopt⟩ := registry_bound program alternative abbreviations options hns
      o help hp s hs
    have hcanon : canonical
        (args_parse_begin (registry program alternative abbreviations options) ts).st s
        = o.standard := by
      have hmap' : map_get
          (args_parse_begin (registry program alternative abbreviations options) ts
            ).st.args_optmap s = some (i + 1) := hmap
      have hopt' : (args_parse_begin (registry program alternative abbreviations options) ts
          ).st.args_options[i]? = some { o with help := help } := hopt
      simp [canonical, (args_optmap_lookup hmap' hopt').2.2.2]
    have hcont0 : args_optmap_contains
        (args_parse_begin (registry program alternative abbreviations options) ts).st s
        = true := by
      have hmap' : map_get
          (args_parse_begin (registry program alternative abbreviations options) ts
            ).st.args_optmap s = some (i + 1) := hmap
      have hopt' : (args_parse_begin (registry program alternative abbreviations options) ts
          ).st.args_options[i]? = some { o with help := help } := hopt
      exact (args_optmap_lookup hmap' hopt').2.1
    have hg' := hg
    obtain ⟨h1, h2, h3, h4, h5, h6, h7, h8⟩ := hg
    -- the token `s` behind the scan of `ts`
    have htok : args_parse_token sc s =
        .ok { sc with optqueue := sc.optqueue ++ [s], get := sc.get + 1 } := by
      rw [args_parse_token_idle _ _ hget]
      exact args_parse_dispatch_defer sc alternative s i { o with help := help } htmp hdash h5
        hmode hsp (by rw [h1]; exact hmap) (by rw [h2]; exact hopt) htype
    have hg1 : scanned
        (args_parse_begin (registry program alternative abbreviations options) ts).st
        { sc with optqueue := sc.optqueue ++ [s], get := sc.get + 1 } := by
      refine ⟨h1, h2, h3, h4, h5, ?_, h7, fun h => absurd hinj h⟩
      intro s' hs'
      rcases List.mem_append.mp hs' with h | h
      · exact h6 s' h
      · simp only [List.mem_singleton] at h
        rw [h]; exact hcont0
    have hscanB : args_parse_loop (fuel + 1)
        (args_parse_begin (registry program alternative abbreviations options) (ts ++ [s]))
        (ts ++ [s]) =
        .ok (Scan.reframe [] (ts ++ [s])
          { sc with optqueue := sc.optqueue ++ [s], get := sc.get + 1 }) := by
      refine args_parse_loop_append fuel _ (sc.reframe [] (ts ++ [s])) _ ts [s] 1 ?_ ?_
      · rw [args_parse_loop_begin_reframe _ ts (ts ++ [s]), hl]
        rfl
      · rw [args_parse_loop_cons _ _ _ _ (by exact hinj), args_parse_token_reframe, htok]
        simp only [Except.map, Except.bind]
        rw [args_parse_loop_nil _ _ (by exact hinj)]
    -- what the two runs record
    have hcont : ∀ w ∈ (args_parse_begin (registry program alternative abbreviations options) ts
        ).st.args_options, args_optmap_contains
          (args_parse_begin (registry program alternative abbreviations options) ts).st
          w.standard = true := by
      intro w hw
      have hw' : w ∈ options.map (fun p => { p.1 with help := p.2 }) := by
        rw [← hoptions]; exact hw
      obtain ⟨p, hp', rfl⟩ := List.mem_map.mp hw'
      exact registry_contains_standard program alternative abbreviations options hns hcl
        p.1 p.2 hp'
    have htidy : tidy (args_parse_begin (registry program alternative abbreviations options) ts
        ).st.args_opts := registry_tidy program alternative abbreviations options
    have hunused : ∀ n a, map_get
        (args_parse_begin (registry program alternative abbreviations options) ts
          ).st.args_opts n = some a → a.used = false := by
      intro n a hna
      have hna' : map_get (registry program alternative abbreviations options).args_opts n
          = some a := hna
      rw [registry_entry] at hna'
      split_ifs at hna'
      simp only [Option.some.injEq] at hna'
      rw [← hna']; rfl
    have hvar : ∀ w ∈ (args_parse_begin (registry program alternative abbreviations options) ts
        ).st.args_options, w.type = VARIADIC → w.standard ≠ o.standard := by
      intro w hw hty heq
      have := registry_standard_type program alternative abbreviations options hns hcl
        o help hp w hw heq
      rw [hty] at this
      rcases htype with h | h <;> rw [h] at this <;> exact absurd this (by decide)
    obtain ⟨st2, hend2, hrec2⟩ := args_parse_end_total hr hcont htidy hunused o.standard hvar
      sc hg'
    obtain ⟨st1, hend1, hrec1⟩ := args_parse_end_total hr hcont htidy hunused o.standard hvar
      { sc with optqueue := sc.optqueue ++ [s], get := sc.get + 1 } hg1
    have hentry : map_get
        (args_parse_begin (registry program alternative abbreviations options) ts
          ).st.args_opts o.standard = some blank :=
      registry_entry_standard program alternative abbreviations options o help hp
    have hnone : sc.argqueue.getD (0 + sc.optqueue.length) none = none := by
      apply List.getD_eq_default
      unfold queued at hq
      omega
    rw [hentry] at hrec1 hrec2
    simp only [recorded_values_snoc, hcanon, if_true, hnone] at hrec1
    have hc1 := whenever_elim (args_parse_end_count
      { sc with optqueue := sc.optqueue ++ [s], get := sc.get + 1 }) hend1
    have hc2 := whenever_elim (args_parse_end_count sc) hend2
    refine ⟨sc.rc, reframe [] (ts ++ [s]) st1, st2,
      by rw [args_parse_of_loop _ _ _ _ _ hl]; exact hend2,
      by
        rw [args_parse_of_loop _ _ _ _ _ hscanB, args_parse_end_reframe, hend1]
        rfl, ?_, ?_, ?_, ?_⟩
    · show args_opts_get st1 o.standard = _
      simp only [args_opts_get, hrec1, hrec2, recorded, blank]
      cases hv : recorded_values (canonical
          (args_parse_begin (registry program alternative abbreviations options) ts).st)
          sc.argqueue o.standard 0 sc.optqueue <;> simp
    · show args_opts_get_count st1 o.standard = _
      simp only [args_opts_get_count, hrec1, hrec2, recorded, blank]
      cases hv : recorded_values (canonical
          (args_parse_begin (registry program alternative abbreviations options) ts).st)
          sc.argqueue o.standard 0 sc.optqueue <;> simp
    · show args_opts_used st1 o.standard = _
      simp only [args_opts_used, hrec1, recorded, blank]
      simp
    · show st1.args_unrecognised_count = _
      rw [hc1.2, hc2.2]

/-- C27, with the flag `-a` and the Argumented option `--output`: after the
tokens `-a`, `--output` the option `--output` is used and has the single
value "absent". -/
theorem args_parse_pending_at_end_witness :
    no_shared_spelling [(flag_a, none), (opt_output, none)] ∧
    canonical_listed [(flag_a, none), (opt_output, none)] ∧
    succeeds (fun sc => sc.get = 0 ∧ sc.dashed = false ∧ sc.tmpdashed = false)
      (args_parse_loop 1
        (args_parse_begin (registry none false none [(flag_a, none), (opt_output, none)])
          [[45, 97]]) [[45, 97]]) ∧
    ∃ rc st1 st2,
      args_parse 1 (registry none false none [(flag_a, none), (opt_output, none)])
        [[112], [45, 97]] = .ok (rc, st2) ∧
      args_parse (1 + 1) (registry none false none [(flag_a, none), (opt_output, none)])
        [[112], [45, 97], [45, 45, 111, 117, 116, 112, 117, 116]] = .ok (rc, st1) ∧
      args_opts_get st1 [45, 45, 111, 117, 116, 112, 117, 116] =
        some ((args_opts_get st2 [45, 45, 111, 117, 116, 112, 117, 116]).getD [] ++ [none]) ∧
      args_opts_get_count st1 [45, 45, 111, 117, 116, 112, 117, 116] =
        args_opts_get_count st2 [45, 45, 111, 117, 116, 112, 117, 116] + 1 ∧
      args_opts_used st1 [45, 45, 111, 117, 116, 112, 117, 116] = true ∧
      st1.args_unrecognised_count = st2.args_unrecognised_count :=
  have h1 : no_shared_spelling [(flag_a, none), (opt_output, none)] := by
    simp [no_shared_spelling, flag_a, opt_output]
  have h2 : canonical_listed [(flag_a, none), (opt_output, none)] := by
    simp [canonical_listed, flag_a, opt_output]
  have h3 : succeeds (fun sc => sc.get = 0 ∧ sc.dashed = false ∧ sc.tmpdashed = false)
      (args_parse_loop 1
        (args_parse_begin (registry none false none [(flag_a, none), (opt_output, none)])
          [[45, 97]]) [[45, 97]]) := And.intro rfl (And.intro rfl rfl)
  ⟨h1, h2, h3,
    args_parse_pending_at_end none false none [(flag_a, none), (opt_output, none)] h1 h2
      opt_output none (by simp) (Or.inl rfl) [45, 45, 111, 117, 116, 112, 117, 116] (by decide)
      (Or.inl ⟨[111, 117, 116, 112, 117, 116], rfl, by decide, by decide⟩) [112] [[45, 97]] 1 h3⟩

/-! ## Which keys `map_put` lists -/

theorem starts_refl (k : CStr) : k.isPrefixOf k = true := by
  induction k with
  | nil => rfl
  | cons c k ih => simp [List.isPrefixOf, ih]

theorem starts_trans : ∀ (a b c : CStr), a.isPrefixOf b = true → b.isPrefixOf c = true →
    a.isPrefixOf c = true := by
  intro a
  induction a with
  | nil => intro b c _ _; cases c <;> rfl
  | cons x a ih =>
    intro b c h1 h2
    cases b with
    | nil => simp [List.isPrefixOf] at h1
    | cons y b =>
      cases c with
      | nil => simp [List.isPrefixOf] at h2
      | cons z c =>
        simp only [List.isPrefixOf, Bool.and_eq_true, beq_iff_eq] at h1 h2 ⊢
        exact ⟨h1.1.trans h2.1, ih b c h1.2 h2.2⟩

theorem starts_nil (k : CStr) (h : k.isPrefixOf [] = true) : k = [] := by
  cases k with
  | nil => rfl
  | cons c k => simp [List.isPrefixOf] at h

theorem has_path_emptyLevel {α : Type} (k : CStr) :
    has_path (emptyLevel : Level α) k = decide (k = []) := by
  cases k <;> simp [has_path, emptyLevel, Level.slots]

theorem has_path_put {α : Type} (k k' : CStr) (cur : Level α) (v : Option α) (n : Bool) :
    has_path (map_put_from cur v n k).1 k' = (has_path cur k' || k'.isPrefixOf k) := by
  induction k generalizing cur k' n with
  | nil =>
    cases k' with
    | nil => simp [has_path]
    | cons c t => simp [map_put_from, has_path, Level.slots, List.isPrefixOf]
  | cons c t ih =>
    obtain ⟨slots, value⟩ := cur
    cases k' with
    | nil => simp [has_path]
    | cons c' t' =>
      simp only [map_put_from, has_path, Level.slots, setSlot, List.isPrefixOf]
      by_cases hh : hi c' = hi c
      · by_cases hl : lo c' = lo c
        · have hc : c' = c := hi_lo_inj hh hl
          subst hc
          simp only [if_true, beq_self_eq_true, Bool.true_and]
          cases h1 : slots (hi c') with
          | none =>
            simp only [setSlot_apply, if_true, ih, has_path_emptyLevel]
            cases t' <;> simp [List.isPrefixOf]
          | some mid =>
            cases h2 : mid (lo c') with
            | none =>
              simp only [setSlot_apply, if_true, ih, has_path_emptyLevel, h2]
              cases t' <;> simp [List.isPrefixOf]
            | some next => simp [setSlot_apply, ih, h2]
        · have hc : c' ≠ c := fun h => hl (by rw [h])
          simp only [hh, if_true]
          cases h1 : slots (hi c) with
          | none => simp [setSlot_apply, hl, hc]
          | some mid => simp [setSlot_apply, hl, hc]
      · have hc : c' ≠ c := fun h => hh (by rw [h])
        simp [hh, hc]

theorem map_put_from_new {α : Type} (k : CStr) (cur : Level α) (v : Option α) (n : Bool) :
    (map_put_from cur v n k).2 = (n || !has_path cur k) := by
  induction k generalizing cur n with
  | nil => simp [map_put_from, has_path]
  | cons c t ih =>
    obtain ⟨slots, value⟩ := cur
    simp only [map_put_from, has_path, Level.slots, ih]
    cases h1 : slots (hi c) with
    | none => simp [has_path_emptyLevel]
    | some mid =>
      cases h2 : mid (lo c) with
      | none => simp [h2, has_path_emptyLevel]
      | some next => simp [h2]

theorem listed_init {α : Type} : listed (map_init : args_Map α) (fun _ => False) := by
  refine ⟨rfl, List.nodup_nil, fun k hk => absurd hk (List.not_mem_nil k), ?_,
    fun s hs => absurd hs (fun h => h)⟩
  intro k
  simp [map_init, has_path_emptyLevel]

theorem listed_put {α : Type} (m : args_Map α) (put : CStr → Prop) (key : CStr)
    (value : Option α) (h : listed m put) :
    listed (map_put m key value) (fun s => put s ∨ s = key) := by
  obtain ⟨h1, h2, h3, h4, h5⟩ := h
  have hnew := map_put_from_new key m.data value false
  have hpath := fun k => has_path_put key k m.data value false
  simp only [Bool.false_or] at hnew
  unfold map_put
  by_cases hp : has_path m.data key = true
  · have hw : (map_put_from m.data value false key).2 = false := by rw [hnew, hp]; rfl
    simp only [hw, Bool.false_eq_true, if_false]
    refine ⟨h1, h2, fun k hk => Or.inl (h3 k hk), ?_, ?_⟩
    · intro k
      rw [hpath, Bool.or_eq_true, h4]
      constructor
      · rintro (h | h)
        · exact h
        · rcases (h4 key).mp hp with e | ⟨key', hk', hpre⟩
          · left; rw [e] at h; exact starts_nil k h
          · exact Or.inr ⟨key', hk', starts_trans k key key' h hpre⟩
      · intro h; exact Or.inl h
    · rintro s (hs | hs)
      · rw [hpath, h5 s hs]; rfl
      · rw [hpath, hs, starts_refl]; simp
  · have hp' : has_path m.data key = false := by simpa using hp
    have hw : (map_put_from m.data value false key).2 = true := by rw [hnew, hp']; rfl
    simp only [hw, if_true]
    refine ⟨by simp [h1], ?_, ?_, ?_, ?_⟩
    · rw [List.nodup_append]
      refine ⟨h2, List.nodup_singleton key, ?_⟩
      intro a ha hb
      simp only [List.mem_singleton] at hb
      rw [hb] at ha
      have : has_path m.data key = true := (h4 key).mpr (Or.inr ⟨key, ha, starts_refl key⟩)
      rw [hp'] at this
      exact Bool.noConfusion this
    · intro k hk
      rcases List.mem_append.mp hk with h | h
      · exact Or.inl (h3 k h)
      · simp only [List.mem_singleton] at h
        exact Or.inr h
    · intro k
      rw [hpath, Bool.or_eq_true, h4]
      constructor
      · rintro ((h | ⟨key', hk', hpre⟩) | h)
        · exact Or.inl h
        · exact Or.inr ⟨key', List.mem_append_left _ hk', hpre⟩
        · exact Or.inr ⟨key, by simp, h⟩
      · rintro (h | ⟨key', hk', hpre⟩)
        · exact Or.inl (Or.inl h)
        · rcases List.mem_append.mp hk' with h | h
          · exact Or.inl (Or.inr ⟨key', h, hpre⟩)
          · simp only [List.mem_singleton] at h
            rw [h] at hpre
            exact Or.inr hpre
    · rintro s (hs | hs)
      · rw [hpath, h5 s hs]; rfl
      · rw [hpath, hs, starts_refl]; simp

theorem listed_congr {α : Type} {m : args_Map α} {put put' : CStr → Prop}
    (h : listed m put) (hiff : ∀ s, put s ↔ put' s) : listed m put' := by
  obtain ⟨h1, h2, h3, h4, h5⟩ := h
  exact ⟨h1, h2, fun k hk => (hiff k).mp (h3 k hk), h4, fun s hs => h5 s ((hiff s).mpr hs)⟩

theorem listed_alternatives (index : Nat) (alternatives : List CStr) :
    ∀ (st : State) (put : CStr → Prop), listed st.args_optmap put →
      listed (args_add_option_alternatives st index alternatives).args_optmap
        (fun s => put s ∨ s ∈ alternatives) := by
  induction alternatives with
  | nil =>
    intro st put h
    exact listed_congr h (fun s => by simp)
  | cons alt rest ih =>
    intro st put h
    rw [args_add_option_alternatives]
    have h1 : listed (args_optmap_put st alt index).args_optmap (fun s => put s ∨ s = alt) :=
      listed_put st.args_optmap put alt (some (index + 1)) h
    exact listed_congr (ih _ _ h1) (fun s => by
      simp only [List.mem_cons]
      tauto)

theorem listed_register (options : List (args_Option × Option CStr)) :
    ∀ (st : State) (put : CStr → Prop), listed st.args_optmap put →
      listed (register st options).args_optmap
        (fun s => put s ∨ ∃ p ∈ options, s ∈ p.1.alternatives) := by
  induction options with
  | nil =>
    intro st put h
    exact listed_congr h (fun s => by simp)
  | cons p options ih =>
    intro st put h
    have h1 : listed (args_add_option st p.1 p.2).args_optmap
        (fun s => put s ∨ s ∈ p.1.alternatives) :=
      listed_alternatives (args_get_options_count st) p.1.alternatives st put h
    have h2 := ih (args_add_option st p.1 p.2) _ h1
    have e : register st (p :: options) = register (args_add_option st p.1 p.2) options := rfl
    rw [e]
    exact listed_congr h2 (fun s => by
      simp only [List.mem_cons, exists_eq_or_imp]
      tauto)

theorem registry_listed (program : Option CStr) (alternative : Bool)
    (abbreviations : Option (CStr → List CStr → Nat → Option CStr))
    (options : List (args_Option × Option CStr)) :
    listed (registry program alternative abbreviations options).args_optmap
      (fun s => ∃ p ∈ options, s ∈ p.1.alternatives) := by
  have h := listed_register options (args_init program alternative abbreviations)
    (fun _ => False) listed_init
  exact listed_congr h (fun s => by simp)

theorem filter_unique {α : Type} [DecidableEq α] (P : α → Bool) (s : α) :
    ∀ l : List α, l.Nodup → s ∈ l → P s = true → (∀ x ∈ l, P x = true → x = s) →
      l.filter P = [s] := by
  intro l
  induction l with
  | nil => intro _ hs; exact absurd hs (List.not_mem_nil s)
  | cons a l ih =>
    intro hnd hs hP hu
    rw [List.nodup_cons] at hnd
    by_cases ha : a = s
    · subst ha
      rw [List.filter_cons, hP, if_pos rfl]
      congr 1
      rw [List.filter_eq_nil_iff]
      intro x hx hPx
      have := hu x (List.mem_cons_of_mem _ hx) hPx
      rw [this] at hx
      exact hnd.1 hx
    · have hPa : P a = false := by
        by_contra hne
        exact ha (hu a (List.mem_cons_self _ _) (by simpa using hne))
      rw [List.filter_cons, hPa]
      simp only [Bool.false_eq_true, if_false]
      rcases List.mem_cons.mp hs with h | h
      · exact absurd h.symm ha
      · exact ih hnd.2 h hP (fun x hx => hu x (List.mem_cons_of_mem _ hx))

/-- The standard abbreviation policy on the index of a registry: a string that
begins exactly one registered spelling is expanded to that spelling. -/
theorem registry_abbreviation (program : Option CStr) (alternative : Bool)
    (options : List (args_Option × Option CStr)) (p s : CStr)
    (hne : s ≠ [])
    (hs : ∃ q ∈ options, s ∈ q.1.alternatives) (hps : p.isPrefixOf s = true)
    (huniq : ∀ q ∈ options, ∀ s' ∈ q.1.alternatives, p.isPrefixOf s' = true → s' = s) :
    args__abbreviations (registry program alternative (some args_standard_abbreviations) options)
      p = some s := by
  obtain ⟨h1, h2, h3, h4, h5⟩ :=
    registry_listed program alternative (some args_standard_abbreviations) options
  obtain ⟨-, habbr, -, -, -, -⟩ :=
    registry_fields program alternative (some args_standard_abbreviations) options
  have hmem : s ∈ (registry program alternative (some args_standard_abbreviations)
      options).args_optmap.keys := by
    rcases (h4 s).mp (h5 s hs) with e | ⟨key, hk, hpre⟩
    · exact absurd e hne
    · obtain ⟨q, hq, hin⟩ := h3 key hk
      have := huniq q hq key hin (starts_trans p s key hps hpre)
      rw [this] at hk
      exact hk
  have hfilter := filter_unique (fun opt => p.isPrefixOf opt) s _ h2 hmem hps
    (fun x hx hpx => by
      obtain ⟨q, hq, hin⟩ := h3 x hx
      exact huniq q hq x hin hpx)
  unfold args__abbreviations
  rw [habbr]
  simp only [args_standard_abbreviations, args_standard_abbreviations_loop_none,
    args_get_optmap, args_get_optmap_count, h1, List.take_length, hfilter]

/-! ## Abbreviations -/

theorem args_parse_long_expand (sc : Scan) (arg inj : CStr)
    (hdont : sc.dontget = 0)
    (hnone : map_get sc.st.args_optmap arg = none)
    (heq : byteAt arg (find_eq arg) ≠ EQUALS)
    (habbr : args__abbreviations sc.st arg = some inj) :
    args_parse_long sc arg = .ok { sc with injection := some inj } := by
  have h100 : ¬ (100 : Nat) ≤ OPTARGUMENTED := by decide
  simp [args_parse_long, hdont, args_optmap_contains_of_none hnone, bind, Except.bind, pure,
    Except.pure, heq, habbr, h100]

theorem args_parse_long_expand_attached (sc : Scan) (p v inj : CStr)
    (hdont : sc.dontget = 0)
    (hnone : map_get sc.st.args_optmap (p ++ EQUALS :: v) = none)
    (hp : EQUALS ∉ p)
    (hnonep : map_get sc.st.args_optmap p = none)
    (habbr : args__abbreviations sc.st p = some inj) :
    args_parse_long sc (p ++ EQUALS :: v) =
      .ok { sc with injection := some (inj ++ [EQUALS] ++ v) } := by
  have hfind : find_eq (p ++ EQUALS :: v) = p.length := find_eq_append p v hp
  have hbyte : byteAt (p ++ EQUALS :: v) p.length = EQUALS := byteAt_append_length p v EQUALS
  have htake : (p ++ EQUALS :: v).take p.length = p := by simp
  have hdrop : (p ++ EQUALS :: v).drop (p.length + 1) = v := by simp
  simp [args_parse_long, args_parse_long_unmatched, hdont,
    args_optmap_contains_of_none hnone, bind, Except.bind, pure, Except.pure, hfind, hbyte,
    htake, hdrop, args_optmap_contains_of_none hnonep, habbr]

theorem args_parse_loop_injected (sc : Scan) (t t' : CStr) (hinj : sc.injection = none)
    (htok : args_parse_token sc t = .ok { sc with injection := some t' }) (fuel : Nat)
    (rest : List CStr) :
    args_parse_loop (fuel + 1) sc (t :: rest) = args_parse_loop fuel sc (t' :: rest) := by
  rw [args_parse_loop_cons _ _ _ _ hinj, htok]
  simp only [Except.bind]
  have hsame : ({ ({ sc with injection := some t' } : Scan) with injection := none } : Scan)
      = sc := by
    cases sc
    simp only at hinj
    simp [hinj]
  cases fuel with
  | zero =>
    unfold args_parse_loop
    simp only [hinj]
  | succ fuel =>
    rw [args_parse_loop_injection _ _ t' _ rfl, args_parse_loop_cons _ _ _ _ hinj, hsame]

theorem args__abbreviations_congr {st st' : State} (h1 : st'.args_optmap = st.args_optmap)
    (h2 : st'.args_abbreviations = st.args_abbreviations) (arg : CStr) :
    args__abbreviations st' arg = args__abbreviations st arg := by
  unfold args__abbreviations args_get_optmap args_get_optmap_count
  rw [h1, h2]

theorem args_parse_of_injected (st : State) (exe t t' : CStr) (rest : List CStr) (fuel : Nat)
    (htok : args_parse_token (args_parse_begin st (t :: rest)) t =
      .ok { args_parse_begin st (t :: rest) with injection := some t' }) :
    args_parse (fuel + 1) st (exe :: t :: rest) =
      (args_parse fuel st (exe :: t' :: rest)).map
        (fun r => (r.1, reframe [] (t :: rest) r.2)) := by
  unfold args_parse
  simp only []
  rw [args_parse_loop_injected _ t t' rfl htok fuel rest,
    args_parse_loop_begin_reframe st (t' :: rest) (t :: rest) fuel (t' :: rest)]
  cases args_parse_loop fuel (args_parse_begin st (t' :: rest)) (t' :: rest) with
  | error e => rfl
  | ok sc =>
    simp only [Except.map, bind, Except.bind]
    exact args_parse_end_reframe (t :: rest) sc

theorem args_parse_uses_settled (program : Option CStr) (alternative : Bool)
    (abbreviations : Option (CStr → List CStr → Nat → Option CStr))
    (options : List (args_Option × Option CStr))
    (hns : no_shared_spelling options) (hcl : canonical_listed options)
    (uses : List Use) (hfit : ∀ u ∈ uses, u.fits options alternative)
    (hlast : ∀ front s, uses ≠ front ++ [Use.absent s])
    (exe : CStr) (fuel : Nat) :
    ∃ st1, args_parse (fuel + (uses.flatMap Use.tokens).length)
        (registry program alternative abbreviations options)
        (exe :: uses.flatMap Use.tokens) = .ok (true, st1) ∧
      st1.args_unrecognised_count = 0 ∧ st1.args_files_count = 0 ∧
      ∀ o help, (o, help) ∈ options →
        args_opts_get_count st1 o.standard =
          (uses.filter (fun u => decide (u.spelling ∈ o.alternatives))).length ∧
        args_opts_get st1 o.standard =
          (if (uses.filter (fun u => decide (u.spelling ∈ o.alternatives))).isEmpty then none
           else some ((uses.filter (fun u => decide (u.spelling ∈ o.alternatives))).map
             Use.value)) ∧
        args_opts_used st1 o.standard =
          !(uses.filter (fun u => decide (u.spelling ∈ o.alternatives))).isEmpty := by
  obtain ⟨-, -, hfc, -, -, -⟩ := registry_fields program alternative abbreviations options
  obtain ⟨sc, hloop, hb, hq, hga⟩ := args_parse_loop_uses program alternative abbreviations
    options hns uses [] (args_parse_begin (registry program alternative abbreviations options)
      (uses.flatMap Use.tokens)) fuel (by simp) hfit
    ⟨rfl, rfl, rfl, rfl, rfl, rfl, rfl, rfl, rfl, rfl, rfl⟩ rfl (Or.inl ⟨rfl, rfl⟩)
  simp only [List.nil_append] at hq hga
  obtain ⟨b1, b2, b3, b4, b5, b6, b7, b8, b9, b10, b11⟩ := hb
  have ha : sc.argqueue = uses.map Use.value := by
    rcases hga with ⟨-, ha⟩ | ⟨-, front, s, hd, -⟩
    · exact ha
    · exact absurd hd (hlast front s)
  obtain ⟨st1, hend, e1, e2, -, -, e5⟩ := args_parse_end_uses program alternative abbreviations
    options hns hcl uses hfit sc b1 b2 b3 (by rw [b5]; exact hfc) hq ha
  rw [b9] at hend
  exact ⟨st1, by rw [args_parse_of_loop _ _ _ _ _ hloop]; exact hend, by rw [e1, b6], e2, e5⟩

/-- C29: with the standard abbreviation policy, let `p` be a long token that is
not a registered spelling and that begins exactly one registered spelling `s`
(a long spelling of the option `o`, in a registry without shared spellings).
Then `args_parse` on a vector that starts with `p` gives what `args_parse`
gives on the vector with `s` in place of `p`, with one more loop iteration,
the same flag and the same instance (but for the vector it was called on), and
so it does for `p=v` against `s=v`, at every point of a scan at which an
option can be read. In particular the single token `p` marks an Argumentless
`o` used under its canonical spelling, with one absence marker, and the single
token `p=v` gives a value-taking `o` the value `v`; both return true and count
nothing as unrecognised. -/
theorem args_parse_abbreviation_as_expanded (program : Option CStr) (alternative : Bool)
    (options : List (args_Option × Option CStr))
    (hns : no_shared_spelling options) (hcl : canonical_listed options)
    (p s : CStr) (hp : long_spelling p) (hunreg : ∀ q ∈ options, p ∉ q.1.alternatives)
    (o : args_Option) (help : Option CStr) (ho : (o, help) ∈ options)
    (hs : s ∈ o.alternatives) (hlong : long_spelling s) (hps : p.isPrefixOf s = true)
    (huniq : ∀ q ∈ options, ∀ s' ∈ q.1.alternatives, p.isPrefixOf s' = true → s' = s)
    (exe : CStr) (fuel : Nat) :
    (∀ rest, args_parse (fuel + 1)
        (registry program alternative (some args_standard_abbreviations) options)
        (exe :: p :: rest) =
      (args_parse fuel (registry program alternative (some args_standard_abbreviations) options)
        (exe :: s :: rest)).map (fun r => (r.1, reframe [] (p :: rest) r.2))) ∧
    (∀ v rest, (∀ q ∈ options, p ++ EQUALS :: v ∉ q.1.alternatives) →
      args_parse (fuel + 1)
        (registry program alternative (some args_standard_abbreviations) options)
        (exe :: (p ++ EQUALS :: v) :: rest) =
      (args_parse fuel (registry program alternative (some args_standard_abbreviations) options)
        (exe :: (s ++ [EQUALS] ++ v) :: rest)).map
          (fun r => (r.1, reframe [] ((p ++ EQUALS :: v) :: rest) r.2))) ∧
    (∀ (sc : Scan) (argv : List CStr),
      sc.st.args_optmap =
        (registry program alternative (some args_standard_abbreviations) options).args_optmap →
      sc.st.args_abbreviations = some args_standard_abbreviations →
      sc.get = 0 → sc.dontget = 0 → sc.dashed = false → sc.tmpdashed = false →
      sc.injection = none →
      args_parse_loop (fuel + 1) sc (p :: argv) = args_parse_loop fuel sc (s :: argv)) ∧
    (o.type = ARGUMENTLESS →
      ∃ st, args_parse (fuel + 2)
          (registry program alternative (some args_standard_abbreviations) options) [exe, p]
          = .ok (true, st) ∧
        st.args_unrecognised_count = 0 ∧ args_opts_used st o.standard = true ∧
        args_opts_get st o.standard = some [none]) ∧
    (o.type = ARGUMENTED ∨ o.type = OPTARGUMENTED → ∀ v,
      (∀ q ∈ options, p ++ EQUALS :: v ∉ q.1.alternatives) →
      (∀ q ∈ options, s ++ EQUALS :: v ∉ q.1.alternatives) →
      ∃ st, args_parse (fuel + 2)
          (registry program alternative (some args_standard_abbreviations) options)
          [exe, p ++ EQUALS :: v] = .ok (true, st) ∧
        st.args_unrecognised_count = 0 ∧ args_opts_used st o.standard = true ∧
        args_opts_get st o.standard = some [some v]) := by
  obtain ⟨name, hname, hne, hnoeq⟩ := long_spelling_shape hp
  have hsne : s ≠ [] := by
    obtain ⟨sname, hsname, -, -⟩ := long_spelling_shape hlong
    rw [hsname]; exact List.cons_ne_nil _ _
  have habbr0 := registry_abbreviation program alternative options p s hsne
    ⟨(o, help), ho, hs⟩ hps huniq
  obtain ⟨-, hpol, -, -, -, -⟩ :=
    registry_fields program alternative (some args_standard_abbreviations) options
  have htok : ∀ sc : Scan,
      sc.st.args_optmap =
        (registry program alternative (some args_standard_abbreviations) options).args_optmap →
      sc.st.args_abbreviations = some args_standard_abbreviations →
      sc.get = 0 → sc.dontget = 0 → sc.dashed = false → sc.tmpdashed = false →
      args_parse_token sc p = .ok { sc with injection := some s } := by
    intro sc b1 b4 hget hdont hd ht
    rw [args_parse_token_idle _ _ hget, hname, args_parse_dispatch_long sc name ht hd hne,
      ← hname]
    exact args_parse_long_expand sc p s hdont
      (by rw [b1]; exact registry_unbound program alternative _ options p hunreg)
      (byteAt_find_eq_of_not_mem p hnoeq)
      (by rw [args__abbreviations_congr b1 (by rw [b4, hpol]) p]; exact habbr0)
  have htokv : ∀ (sc : Scan) (v : CStr),
      (∀ q ∈ options, p ++ EQUALS :: v ∉ q.1.alternatives) →
      sc.st.args_optmap =
        (registry program alternative (some args_standard_abbreviations) options).args_optmap →
      sc.st.args_abbreviations = some args_standard_abbreviations →
      sc.get = 0 → sc.dontget = 0 → sc.dashed = false → sc.tmpdashed = false →
      args_parse_token sc (p ++ EQUALS :: v) =
        .ok { sc with injection := some (s ++ [EQUALS] ++ v) } := by
    intro sc v hwhole b1 b4 hget hdont hd ht
    have hform : p ++ EQUALS :: v = DASH :: DASH :: (name ++ EQUALS :: v) := by
      rw [hname]; rfl
    rw [args_parse_token_idle _ _ hget, hform,
      args_parse_dispatch_long sc (name ++ EQUALS :: v) ht hd (by simp), ← hform]
    exact args_parse_long_expand_attached sc p v s hdont
      (by rw [b1]; exact registry_unbound program alternative _ options _ hwhole) hnoeq
      (by rw [b1]; exact registry_unbound program alternative _ options p hunreg)
      (by rw [args__abbreviations_congr b1 (by rw [b4, hpol]) p]; exact habbr0)
  have hA : ∀ rest, args_parse (fuel + 1)
        (registry program alternative (some args_standard_abbreviations) options)
        (exe :: p :: rest) =
      (args_parse fuel (registry program alternative (some args_standard_abbreviations) options)
        (exe :: s :: rest)).map (fun r => (r.1, reframe [] (p :: rest) r.2)) := fun rest =>
    args_parse_of_injected _ exe p s rest fuel (htok _ rfl hpol rfl rfl rfl rfl)
  have hB : ∀ (f : Nat) v rest, (∀ q ∈ options, p ++ EQUALS :: v ∉ q.1.alternatives) →
      args_parse (f + 1)
        (registry program alternative (some args_standard_abbreviations) options)
        (exe :: (p ++ EQUALS :: v) :: rest) =
      (args_parse f (registry program alternative (some args_standard_abbreviations) options)
        (exe :: (s ++ [EQUALS] ++ v) :: rest)).map
          (fun r => (r.1, reframe [] ((p ++ EQUALS :: v) :: rest) r.2)) := fun f v rest hw =>
    args_parse_of_injected _ exe _ _ rest f (htokv _ v hw rfl hpol rfl rfl rfl rfl)
  refine ⟨hA, hB fuel, ?_, ?_, ?_⟩
  · intro sc argv b1 b4 hget hdont hd ht hinj
    exact args_parse_loop_injected sc p s hinj (htok sc b1 b4 hget hdont hd ht) fuel argv
  · intro hty
    have hfit : ∀ u ∈ [Use.flag s], u.fits options alternative := by
      intro u hu
      simp only [List.mem_singleton] at hu
      rw [hu]
      exact ⟨Or.inl hlong, (o, help), ho, hs, hty⟩
    obtain ⟨st, hparse, hcount, -, hres⟩ := args_parse_uses_settled program alternative
      (some args_standard_abbreviations) options hns hcl [Use.flag s] hfit
      (by
        intro front s' h
        have := congrArg List.getLast? h
        simp at this)
      exe fuel
    have h2 := args_parse_of_injected
      (registry program alternative (some args_standard_abbreviations) options) exe p s []
      (fuel + 1) (htok _ rfl hpol rfl rfl rfl rfl)
    have hparse' : args_parse (fuel + 1)
        (registry program alternative (some args_standard_abbreviations) options) [exe, s]
        = .ok (true, st) := hparse
    rw [hparse'] at h2
    obtain ⟨-, r2, r3⟩ := hres o help ho
    refine ⟨reframe [] [p] st, h2, hcount, ?_, ?_⟩
    · show args_opts_used st o.standard = true
      rw [r3]; simp [Use.spelling, hs]
    · show args_opts_get st o.standard = some [none]
      rw [r2]; simp [Use.spelling, Use.value, hs]
  · intro hty v hwp hws
    have hfit : ∀ u ∈ [Use.attached s v], u.fits options alternative := by
      intro u hu
      simp only [List.mem_singleton] at hu
      rw [hu]
      exact ⟨Or.inl hlong, (o, help), ho, hs, hty, hlong, hws⟩
    obtain ⟨st, hparse, hcount, -, hres⟩ := args_parse_uses_settled program alternative
      (some args_standard_abbreviations) options hns hcl [Use.attached s v] hfit
      (by
        intro front s' h
        have := congrArg List.getLast? h
        simp at this)
      exe fuel
    have h2 := hB (fuel + 1) v [] hwp
    have hparse' : args_parse (fuel + 1)
        (registry program alternative (some args_standard_abbreviations) options)
        [exe, s ++ [EQUALS] ++ v] = .ok (true, st) := by
      have e : s ++ [EQUALS] ++ v = s ++ EQUALS :: v := by simp
      rw [e]; exact hparse
    rw [hparse'] at h2
    obtain ⟨-, r2, r3⟩ := hres o help ho
    refine ⟨reframe [] [p ++ EQUALS :: v] st, h2, hcount, ?_, ?_⟩
    · show args_opts_used st o.standard = true
      rw [r3]; simp [Use.spelling, hs]
    · show args_opts_get st o.standard = some [some v]
      rw [r2]; simp [Use.spelling, Use.value, hs]

/-- C29, with the Argumentless option `--verbose` and the Argumented option
`--output`: the token `--verb` is parsed as `--verbose`, and the token
`--outp=f` as `--output=f`. -/
theorem args_parse_abbreviation_as_expanded_witness :
    no_shared_spelling [(flag_verbose, none), (opt_output, none)] ∧
    canonical_listed [(flag_verbose, none), (opt_output, none)] ∧
    (∃ st, args_parse (0 + 2)
        (registry none false (some args_standard_abbreviations)
          [(flag_verbose, none), (opt_output, none)])
        [[112], [45, 45, 118, 101, 114, 98]] = .ok (true, st) ∧
      st.args_unrecognised_count = 0 ∧
      args_opts_used st [45, 45, 118, 101, 114, 98, 111, 115, 101] = true ∧
      args_opts_get st [45, 45, 118, 101, 114, 98, 111, 115, 101] = some [none]) ∧
    (∃ st, args_parse (0 + 2)
        (registry none false (some args_standard_abbreviations)
          [(flag_verbose, none), (opt_output, none)])
        [[112], [45, 45, 111, 117, 116, 112] ++ EQUALS :: [102]] = .ok (true, st) ∧
      st.args_unrecognised_count = 0 ∧
      args_opts_used st [45, 45, 111, 117, 116, 112, 117, 116] = true ∧
      args_opts_get st [45, 45, 111, 117, 116, 112, 117, 116] = some [some [102]]) :=
  have h1 : no_shared_spelling [(flag_verbose, none), (opt_output, none)] := by
    simp [no_shared_spelling, flag_verbose, opt_output]
  have h2 : canonical_listed [(flag_verbose, none), (opt_output, none)] := by
    simp [canonical_listed, flag_verbose, opt_output]
  ⟨h1, h2,
    (args_parse_abbreviation_as_expanded none false
      [(flag_verbose, none), (opt_output, none)] h1 h2
      [45, 45, 118, 101, 114, 98] [45, 45, 118, 101, 114, 98, 111, 115, 101]
      ⟨[118, 101, 114, 98], rfl, by decide, by decide⟩ (by decide)
      flag_verbose none (by simp) (by decide)
      ⟨[118, 101, 114, 98, 111, 115, 101], rfl, by decide, by decide⟩ (by decide) (by decide)
      [112] 0).2.2.2.1 rfl,
    (args_parse_abbreviation_as_expanded none false
      [(flag_verbose, none), (opt_output, none)] h1 h2
      [45, 45, 111, 117, 116, 112] [45, 45, 111, 117, 116, 112, 117, 116]
      ⟨[111, 117, 116, 112], rfl, by decide, by decide⟩ (by decide)
      opt_output none (by simp) (by decide)
      ⟨[111, 117, 116, 112, 117, 116], rfl, by decide, by decide⟩ (by decide) (by decide)
      [112] 0).2.2.2.2 (Or.inl rfl) [102] (by decide) (by decide)⟩

/-! ## The validation predicates, called twice -/

theorem sort_merge_concat (fuel : Nat) :
    ∀ left right : List CStr, (∀ x ∈ left, ∀ y ∈ right, cmp x y ≤ 0) →
      sort_merge fuel left right = left ++ right := by
  induction fuel with
  | zero => intro left right _; cases left <;> cases right <;> rfl
  | succ fuel ih =>
    intro left right h
    cases left with
    | nil => cases right <;> rfl
    | cons x left =>
      cases right with
      | nil => rfl
      | cons y right =>
        have hxy : cmp x y ≤ 0 := h x (by simp) y (by simp)
        rw [sort_merge, if_pos hxy, ih left (y :: right)
          (fun a ha b hb => h a (by simp [ha]) b hb)]
        rfl

theorem _sort_of_sorted (fuel : Nat) :
    ∀ list : List CStr, list.Pairwise (fun a b => cmp a b ≤ 0) → _sort fuel list = list := by
  induction fuel with
  | zero => intro list _; rfl
  | succ fuel ih =>
    intro list h
    rw [_sort]
    split_ifs with hlen
    · have hsplit : list.take (list.length / 2) ++ list.drop (list.length / 2) = list :=
        List.take_append_drop _ _
      have h' := h
      rw [← hsplit, List.pairwise_append] at h'
      obtain ⟨h1, h2, h3⟩ := h'
      rw [ih _ h1, ih _ h2, sort_merge_concat _ _ _ h3, hsplit]
    · rfl

theorem sort_of_sorted (list : List CStr) (h : list.Pairwise (fun a b => cmp a b ≤ 0)) :
    sort list = list := _sort_of_sorted _ list h

theorem sort_sort (list : List CStr) : sort (sort list) = sort list :=
  sort_of_sorted _ (sort_sorted list)

theorem args_sort_opts_out (st : State) (out : List Line) :
    args_sort_opts { args_sort_opts st with args_out := out } =
      { args_sort_opts st with args_out := out } := by
  unfold args_sort_opts
  simp only [sort_sort]

theorem args_test_allowed_loop_lines (opts : List CStr) :
    ∀ (st : State) (rc : Bool) (allowed : List CStr) (r : Bool × State),
      args_test_allowed_loop st rc allowed opts = .ok r →
      ∃ lines, r.2 = { st with args_out := st.args_out ++ lines } ∧
        ∀ out, args_test_allowed_loop { st with args_out := out } rc allowed opts =
          .ok (r.1, { st with args_out := out ++ lines }) := by
  induction opts with
  | nil =>
    intro st rc allowed r h
    simp only [args_test_allowed_loop, pure, Except.pure, Except.ok.injEq] at h
    refine ⟨[], by rw [← h]; simp, fun out => ?_⟩
    simp only [args_test_allowed_loop, pure, Except.pure, List.append_nil, ← h]
  | cons opt opts ih =>
    intro st rc allowed r h
    simp only [args_test_allowed_loop, bind, Except.bind, pure, Except.pure] at h ⊢
    have hu : ∀ out, args_opts_used { st with args_out := out } opt = args_opts_used st opt :=
      fun _ => rfl
    have hs : ∀ out, args_optmap_get_standard { st with args_out := out } opt =
        args_optmap_get_standard st opt := fun _ => rfl
    simp only [hu, hs]
    split_ifs at h with hc
    · simp only [if_pos hc]
      cases hstd : args_optmap_get_standard st opt with
      | error e => simp [hstd] at h
      | ok std =>
        simp only [hstd] at h ⊢
        obtain ⟨lines, hr, hall⟩ := ih _ _ _ r h
        refine ⟨Line.out_of_context st.args_program opt
            (if cmp std opt ≠ 0 then some std else none) :: lines, ?_, ?_⟩
        · rw [hr]; simp
        · intro out
          have := hall (out ++ [Line.out_of_context st.args_program opt
            (if cmp std opt ≠ 0 then some std else none)])
          simp only [List.append_assoc, List.singleton_append] at this
          exact this
    · simp only [if_neg hc]
      obtain ⟨lines, hr, hall⟩ := ih _ _ _ r h
      exact ⟨lines, hr, hall⟩

theorem args_test_exclusiveness_loop_congr (st st' : State)
    (h : ∀ k, args_opts_used st' k = args_opts_used st k) (fuel : Nat) :
    ∀ (used opts exclusives : List CStr),
      args_test_exclusiveness_loop st' fuel used opts exclusives =
        args_test_exclusiveness_loop st fuel used opts exclusives := by
  induction fuel with
  | zero =>
    intro used opts exclusives
    cases opts with
    | nil => simp only [args_test_exclusiveness_loop]
    | cons o opts =>
      cases exclusives with
      | nil => simp only [args_test_exclusiveness_loop]
      | cons e exclusives => simp only [args_test_exclusiveness_loop]
  | succ fuel ih =>
    intro used opts exclusives
    cases opts with
    | nil => simp only [args_test_exclusiveness_loop]
    | cons o opts =>
      cases exclusives with
      | nil => simp only [args_test_exclusiveness_loop]
      | cons e exclusives =>
        simp only [args_test_exclusiveness_loop]
        cases (o :: opts).dropWhile (fun o => decide (0 < cmp o e)) with
        | nil => rfl
        | cons opt rest =>
          simp only []
          cases (e :: exclusives).dropWhile (fun x => decide (0 < cmp opt x)) with
          | nil => rfl
          | cons x xs =>
            simp only [h, ih]

theorem args_test_exclusiveness_names_congr (st st' : State)
    (h : ∀ k, args_optmap_get_standard st' k = args_optmap_get_standard st k) :
    ∀ used : List CStr,
      args_test_exclusiveness_names st' used = args_test_exclusiveness_names st used := by
  intro used
  induction used with
  | nil => rfl
  | cons u used ih => simp only [args_test_exclusiveness_names, h, ih]

theorem args_test_again_same (st : State) (list : List CStr) (rc : Bool) (st1 : State) :
    (args_test_allowed st list = .ok (rc, st1) →
      ∃ lines, st1.args_out = st.args_out ++ lines ∧
        ∀ again, again = list ∨ again = sort list →
          ∃ st2, args_test_allowed st1 again = .ok (rc, st2) ∧
            st2.args_out = st1.args_out ++ lines) ∧
    (args_test_exclusiveness st list = .ok (rc, st1) →
      ∃ lines, st1.args_out = st.args_out ++ lines ∧
        ∀ again, again = list ∨ again = sort list →
          ∃ st2, args_test_exclusiveness st1 again = .ok (rc, st2) ∧
            st2.args_out = st1.args_out ++ lines) := by
  have hagain : ∀ again, again = list ∨ again = sort list → sort again = sort list := by
    rintro again (h | h)
    · rw [h]
    · rw [h, sort_sort]
  constructor
  · intro h
    unfold args_test_allowed at h
    obtain ⟨lines, hr, hall⟩ := args_test_allowed_loop_lines _ _ _ _ _ h
    simp only at hr
    refine ⟨lines, by rw [hr]; rfl, ?_⟩
    intro again ha
    have hkeys : args_get_opts (args_sort_opts st) = sort st.args_opts.keys := rfl
    refine ⟨{ args_sort_opts st with
              args_out := ((args_sort_opts st).args_out ++ lines) ++ lines }, ?_, by rw [hr]⟩
    unfold args_test_allowed
    rw [hagain again ha, hr, args_sort_opts_out]
    exact hall _
  · intro h
    unfold args_test_exclusiveness at h
    simp only [bind, Except.bind] at h
    cases hu : args_test_exclusiveness_loop (args_sort_opts st)
        (args_get_opts (args_sort_opts st)).length [] (args_get_opts (args_sort_opts st))
        (sort list) with
    | error e => simp [hu] at h
    | ok used =>
      simp only [hu] at h
      have hsecond : ∀ (out : List Line) (again : List CStr),
          again = list ∨ again = sort list →
          args_test_exclusiveness_loop
            (args_sort_opts { args_sort_opts st with args_out := out })
            (args_get_opts (args_sort_opts { args_sort_opts st with args_out := out })).length
            [] (args_get_opts (args_sort_opts { args_sort_opts st with args_out := out }))
            (sort again) = .ok used := by
        intro out again ha
        rw [hagain again ha, args_sort_opts_out]
        rw [args_test_exclusiveness_loop_congr (args_sort_opts st)
          { args_sort_opts st with args_out := out } (fun _ => rfl)]
        exact hu
      split_ifs at h with hlen
      · cases hn : args_test_exclusiveness_names (args_sort_opts st) used with
        | error e => simp [hn] at h
        | ok names =>
          simp only [hn, pure, Except.pure, Except.ok.injEq, Prod.mk.injEq] at h
          obtain ⟨hrc, hst1⟩ := h
          refine ⟨[Line.conflicting (args_sort_opts st).args_program names],
            by rw [← hst1]; rfl, ?_⟩
          intro again ha
          refine ⟨{ args_sort_opts st with
              args_out := ((args_sort_opts st).args_out ++
                [Line.conflicting (args_sort_opts st).args_program names]) ++
                [Line.conflicting (args_sort_opts st).args_program names] }, ?_,
            by rw [← hst1]⟩
          unfold args_test_exclusiveness
          simp only [bind, Except.bind]
          rw [← hst1, hsecond _ again ha]
          simp only [hlen, if_true, args_sort_opts_out]
          rw [args_test_exclusiveness_names_congr (args_sort_opts st)
            { args_sort_opts st with
              args_out := (args_sort_opts st).args_out ++
                [Line.conflicting (args_sort_opts st).args_program names] } (fun _ => rfl), hn]
          simp only [pure, Except.pure, ← hrc]
      · simp only [pure, Except.pure, Except.ok.injEq, Prod.mk.injEq] at h
        obtain ⟨hrc, hst1⟩ := h
        refine ⟨[], by rw [← hst1, List.append_nil]; rfl, ?_⟩
        intro again ha
        refine ⟨args_sort_opts st, ?_, by rw [← hst1, List.append_nil]⟩
        unfold args_test_exclusiveness
        simp only [bind, Except.bind]
        have e : st1 = { args_sort_opts st with args_out := (args_sort_opts st).args_out } := by
          rw [← hst1]
        rw [e, hsecond _ again ha]
        simp only [hlen, if_false, args_sort_opts_out, pure, Except.pure, ← hrc]

theorem args_test_allowed_loop_returns (opts : List CStr) :
    ∀ (st : State) (rc : Bool) (allowed : List CStr),
      (∀ k ∈ opts, args_opts_used st k = true →
        ∃ std, args_optmap_get_standard st k = .ok std) →
      ∃ r, args_test_allowed_loop st rc allowed opts = .ok r := by
  induction opts with
  | nil => intro st rc allowed _; exact ⟨(rc, st), rfl⟩
  | cons opt opts ih =>
    intro st rc allowed h
    simp only [args_test_allowed_loop, bind, Except.bind, pure, Except.pure]
    split_ifs with hc
    · obtain ⟨std, hstd⟩ := h opt (by simp) hc.2
      simp only [hstd]
      exact ih _ _ _ (fun k hk hu => h k (by simp [hk]) hu)
    · exact ih _ _ _ (fun k hk hu => h k (by simp [hk]) hu)

theorem args_test_allowed_returns (st : State) (list : List CStr)
    (h : ∀ k ∈ st.args_opts.keys, args_opts_used st k = true →
      ∃ std, args_optmap_get_standard st k = .ok std) :
    ∃ r, args_test_allowed st list = .ok r := by
  unfold args_test_allowed
  apply args_test_allowed_loop_returns
  intro k hk hu
  exact h k ((mem_sort _ k).mp hk) hu

theorem args_test_exclusiveness_loop_undefined (st : State) (e : CStr) (ex : List CStr)
    (opts : List CStr) :
    ∀ (fuel : Nat) (used : List CStr), opts.Pairwise (fun a b => cmp a b ≤ 0) →
      opts.length ≤ fuel → (∃ k ∈ opts, 0 < cmp k e) →
      args_test_exclusiveness_loop st fuel used opts (e :: ex) = .error .undefined := by
  induction opts with
  | nil => intro fuel used _ _ h; obtain ⟨k, hk, -⟩ := h; simp at hk
  | cons o os ih =>
    intro fuel used hp hlen hex
    obtain ⟨hos, hp1⟩ := List.pairwise_cons.mp hp
    cases fuel with
    | zero => simp at hlen
    | succ fuel =>
      simp only [List.length_cons, Nat.add_le_add_iff_right] at hlen
      rw [args_test_exclusiveness_loop]
      by_cases ho : 0 < cmp o e
      · have hall : (o :: os).dropWhile (fun x => decide (0 < cmp x e)) = [] := by
          rw [List.dropWhile_eq_nil_iff]
          intro x hx
          rcases List.mem_cons.mp hx with rfl | hx
          · simpa using ho
          · have hox := hos x hx
            by_contra hn
            have hxe : cmp x e ≤ 0 := by simpa using hn
            have := cmp_trans o x e hox hxe
            omega
        rw [hall]
      · have hd1 : (o :: os).dropWhile (fun x => decide (0 < cmp x e)) = o :: os := by
          rw [List.dropWhile_cons_of_neg (by simpa using ho)]
        have hd2 : (e :: ex).dropWhile (fun x => decide (0 < cmp o x)) = e :: ex := by
          rw [List.dropWhile_cons_of_neg (by simpa using ho)]
        rw [hd1]
        simp only [hd2]
        apply ih _ _ hp1 hlen
        obtain ⟨k, hk, hke⟩ := hex
        rcases List.mem_cons.mp hk with rfl | hk
        · exact absurd hke ho
        · exact ⟨k, hk, hke⟩

theorem args_test_exclusiveness_undefined (st : State) (list : List CStr)
    (x : CStr) (hx : x ∈ list) (k : CStr) (hk : k ∈ st.args_opts.keys) (hkx : 0 < cmp k x) :
    args_test_exclusiveness st list = .error .undefined := by
  have hsx : x ∈ sort list := (mem_sort list x).mpr hx
  cases hs : sort list with
  | nil => rw [hs] at hsx; simp at hsx
  | cons e rest =>
    have hsorted := sort_sorted list
    rw [hs] at hsorted hsx
    have hex : cmp e x ≤ 0 := by
      rcases List.mem_cons.mp hsx with rfl | h
      · rw [cmp_self]
      · exact (List.pairwise_cons.mp hsorted).1 x h
    have hke : 0 < cmp k e := by
      by_contra hn
      have := cmp_trans k e x (by omega) hex
      omega
    have hloop := args_test_exclusiveness_loop_undefined (args_sort_opts st) e rest
      (sort st.args_opts.keys) (sort st.args_opts.keys).length [] (sort_sorted _) (Nat.le_refl _)
      ⟨k, (mem_sort _ k).mpr hk, hke⟩
    unfold args_test_exclusiveness
    simp only [bind, Except.bind]
    have hkeys : args_get_opts (args_sort_opts st) = sort st.args_opts.keys := rfl
    rw [hkeys, hs, hloop]

theorem args_test_exclusiveness_loop_returns (st : State) (e : CStr) (ex : List CStr)
    (opts : List CStr) :
    ∀ (fuel : Nat) (used : List CStr), opts.length ≤ fuel → (∀ k ∈ opts, cmp k e ≤ 0) →
      ∃ used1, args_test_exclusiveness_loop st fuel used opts (e :: ex) = .ok used1 ∧
        ∀ u ∈ used1, u ∈ used ∨ (u ∈ opts ∧ args_opts_used st u = true) := by
  induction opts with
  | nil =>
    intro fuel used _ _
    refine ⟨used, ?_, fun u hu => Or.inl hu⟩
    cases fuel <;> rfl
  | cons o os ih =>
    intro fuel used hlen hle
    cases fuel with
    | zero => simp at hlen
    | succ fuel =>
      simp only [List.length_cons, Nat.add_le_add_iff_right] at hlen
      have ho : ¬ 0 < cmp o e := by have := hle o (by simp); omega
      have hd1 : (o :: os).dropWhile (fun x => decide (0 < cmp x e)) = o :: os := by
        rw [List.dropWhile_cons_of_neg (by simpa using ho)]
      have hd2 : (e :: ex).dropWhile (fun x => decide (0 < cmp o x)) = e :: ex := by
        rw [List.dropWhile_cons_of_neg (by simpa using ho)]
      rw [args_test_exclusiveness_loop, hd1]
      simp only [hd2]
      obtain ⟨used1, h1, h2⟩ := ih fuel
        (if cmp o e = 0 ∧ args_opts_used st o = true then used ++ [o] else used) hlen
        (fun k hk => hle k (by simp [hk]))
      refine ⟨used1, h1, ?_⟩
      intro u hu
      rcases h2 u hu with h | ⟨h, h'⟩
      · split_ifs at h with hc
        · rcases List.mem_append.mp h with h | h
          · exact Or.inl h
          · rw [List.mem_singleton] at h
            subst h
            exact Or.inr ⟨by simp, hc.2⟩
        · exact Or.inl h
      · exact Or.inr ⟨by simp [h], h'⟩

theorem args_test_exclusiveness_names_returns (st : State) :
    ∀ used : List CStr, (∀ u ∈ used, ∃ std, args_optmap_get_standard st u = .ok std) →
      ∃ names, args_test_exclusiveness_names st used = .ok names := by
  intro used
  induction used with
  | nil => intro _; exact ⟨[], rfl⟩
  | cons u used ih =>
    intro h
    obtain ⟨std, hstd⟩ := h u (by simp)
    obtain ⟨names, hn⟩ := ih (fun v hv => h v (by simp [hv]))
    simp only [args_test_exclusiveness_names, hstd, hn, bind, Except.bind, pure, Except.pure]
    exact ⟨_, rfl⟩

theorem args_test_exclusiveness_returns (st : State) (list : List CStr)
    (h : ∀ k ∈ st.args_opts.keys, args_opts_used st k = true →
      ∃ std, args_optmap_get_standard st k = .ok std)
    (hle : ∀ x ∈ list, ∀ k ∈ st.args_opts.keys, cmp k x ≤ 0) :
    ∃ r, args_test_exclusiveness st list = .ok r := by
  have hkeys : args_get_opts (args_sort_opts st) = sort st.args_opts.keys := rfl
  have hloop : ∃ used, args_test_exclusiveness_loop (args_sort_opts st)
      (args_get_opts (args_sort_opts st)).length [] (args_get_opts (args_sort_opts st))
      (sort list) = .ok used ∧
      ∀ u ∈ used, u ∈ st.args_opts.keys ∧ args_opts_used st u = true := by
    rw [hkeys]
    cases hs : sort list with
    | nil =>
      refine ⟨[], ?_, fun u hu => by simp at hu⟩
      cases hk : sort st.args_opts.keys with
      | nil => cases (([] : List CStr).length) <;> rfl
      | cons a as => cases ((a :: as).length) <;> rfl
    | cons e rest =>
      have he : e ∈ list := (mem_sort list e).mp (by rw [hs]; simp)
      obtain ⟨used, h1, h2⟩ := args_test_exclusiveness_loop_returns (args_sort_opts st) e rest
        (sort st.args_opts.keys) (sort st.args_opts.keys).length [] (Nat.le_refl _)
        (fun k hk => hle e he k ((mem_sort _ k).mp hk))
      refine ⟨used, h1, fun u hu => ?_⟩
      rcases h2 u hu with h | ⟨h, h'⟩
      · simp at h
      · exact ⟨(mem_sort _ u).mp h, h'⟩
  obtain ⟨used, hu, hused⟩ := hloop
  unfold args_test_exclusiveness
  simp only [bind, Except.bind, hu]
  split_ifs with hlen
  · obtain ⟨names, hn⟩ := args_test_exclusiveness_names_returns (args_sort_opts st) used
      (fun u hu' => h u (hused u hu').1 (hused u hu').2)
    simp only [hn, pure, Except.pure]
    exact ⟨_, rfl⟩
  · exact ⟨_, rfl⟩

/-- C23: on an instance in which every used key of the results store is in the
index, `args_test_allowed` returns, and a second call on the instance it
leaves, with the same array (as the caller passed it, or as the first call
sorted it), returns the same flag and prints the same lines again.
`args_test_exclusiveness` does so when no key of the results store is above an
element of the exclusive set; when some key is above some element of the
exclusive set, already the first call reads behind the array of the keys and
has no result. Every call of one of the two that returns is followed by a
second call that returns the same flag and prints the same lines. -/
theorem args_test_twice_same (st : State) (list : List CStr) :
    ((∀ k ∈ st.args_opts.keys, args_opts_used st k = true →
        ∃ std, args_optmap_get_standard st k = .ok std) →
      ∃ rc st1 lines, args_test_allowed st list = .ok (rc, st1) ∧
        st1.args_out = st.args_out ++ lines ∧
        ∀ again, again = list ∨ again = sort list →
          ∃ st2, args_test_allowed st1 again = .ok (rc, st2) ∧
            st2.args_out = st1.args_out ++ lines) ∧
    ((∀ k ∈ st.args_opts.keys, args_opts_used st k = true →
        ∃ std, args_optmap_get_standard st k = .ok std) →
      (∀ x ∈ list, ∀ k ∈ st.args_opts.keys, cmp k x ≤ 0) →
      ∃ rc st1 lines, args_test_exclusiveness st list = .ok (rc, st1) ∧
        st1.args_out = st.args_out ++ lines ∧
        ∀ again, again = list ∨ again = sort list →
          ∃ st2, args_test_exclusiveness st1 again = .ok (rc, st2) ∧
            st2.args_out = st1.args_out ++ lines) ∧
    (∀ x ∈ list, ∀ k ∈ st.args_opts.keys, 0 < cmp k x →
      args_test_exclusiveness st list = .error .undefined) ∧
    (∀ rc st1, args_test_allowed st list = .ok (rc, st1) →
      ∃ lines, st1.args_out = st.args_out ++ lines ∧
        ∀ again, again = list ∨ again = sort list →
          ∃ st2, args_test_allowed st1 again = .ok (rc, st2) ∧
            st2.args_out = st1.args_out ++ lines) ∧
    (∀ rc st1, args_test_exclusiveness st list = .ok (rc, st1) →
      ∃ lines, st1.args_out = st.args_out ++ lines ∧
        ∀ again, again = list ∨ again = sort list →
          ∃ st2, args_test_exclusiveness st1 again = .ok (rc, st2) ∧
            st2.args_out = st1.args_out ++ lines) := by
  refine ⟨?_, ?_, ?_, fun rc st1 => (args_test_again_same st list rc st1).1,
    fun rc st1 => (args_test_again_same st list rc st1).2⟩
  · intro h
    obtain ⟨⟨rc, st1⟩, hr⟩ := args_test_allowed_returns st list h
    obtain ⟨lines, h1, h2⟩ := (args_test_again_same st list rc st1).1 hr
    exact ⟨rc, st1, lines, hr, h1, h2⟩
  · intro h hle
    obtain ⟨⟨rc, st1⟩, hr⟩ := args_test_exclusiveness_returns st list h hle
    obtain ⟨lines, h1, h2⟩ := (args_test_again_same st list rc st1).2 hr
    exact ⟨rc, st1, lines, hr, h1, h2⟩
  · intro x hx k hk hkx
    exact args_test_exclusiveness_undefined st list x hx k hk hkx

/-- C23, after `[-a]` was parsed with the flags `-a` and `-b` registered:
`args_test_allowed` with the array `[-b]` returns twice the same and prints the
same lines twice, and so does `args_test_exclusiveness` with the set `[-b]`;
with the set `[-a, -b]` the first call of `args_test_exclusiveness` has no
result, because the key `-b` is above `-a`. -/
theorem args_test_twice_same_witness :
    ∃ st, args_parse 1 (registry none false none [(flag_a, none), (flag_b, none)])
        [[112], [45, 97]] = .ok (true, st) ∧
      (∀ k ∈ st.args_opts.keys, args_opts_used st k = true →
        ∃ std, args_optmap_get_standard st k = .ok std) ∧
      (∀ x ∈ ([[45, 98]] : List CStr), ∀ k ∈ st.args_opts.keys, cmp k x ≤ 0) ∧
      ([45, 97] : CStr) ∈ ([[45, 97], [45, 98]] : List CStr) ∧
      ([45, 98] : CStr) ∈ st.args_opts.keys ∧ 0 < cmp [45, 98] [45, 97] ∧
      (∃ rc st1 lines, args_test_allowed st [[45, 98]] = .ok (rc, st1) ∧
        st1.args_out = st.args_out ++ lines ∧
        ∃ st2, args_test_allowed st1 [[45, 98]] = .ok (rc, st2) ∧
          st2.args_out = st1.args_out ++ lines) ∧
      (∃ rc st1 lines, args_test_exclusiveness st [[45, 98]] = .ok (rc, st1) ∧
        st1.args_out = st.args_out ++ lines ∧
        ∃ st2, args_test_exclusiveness st1 [[45, 98]] = .ok (rc, st2) ∧
          st2.args_out = st1.args_out ++ lines) ∧
      args_test_exclusiveness st [[45, 97], [45, 98]] = .error .undefined :=
  have h0 : ∃ st, args_parse 1 (registry none false none [(flag_a, none), (flag_b, none)])
        [[112], [45, 97]] = .ok (true, st) ∧
      st.args_opts.keys = [[45, 97], [45, 98]] ∧
      args_optmap_get_standard st [45, 97] = .ok [45, 97] ∧
      args_optmap_get_standard st [45, 98] = .ok [45, 98] :=
    ⟨_, rfl, by decide, by decide, by decide⟩
  match h0 with
  | ⟨st, hp, hkeys, ha, hb⟩ =>
    have hH : ∀ k ∈ st.args_opts.keys, args_opts_used st k = true →
        ∃ std, args_optmap_get_standard st k = .ok std := by
      intro k hk _
      rw [hkeys] at hk
      simp only [List.mem_cons, List.mem_singleton, List.not_mem_nil, or_false] at hk
      rcases hk with rfl | rfl
      · exact ⟨_, ha⟩
      · exact ⟨_, hb⟩
    have hle : ∀ x ∈ ([[45, 98]] : List CStr), ∀ k ∈ st.args_opts.keys, cmp k x ≤ 0 := by
      intro x hx k hk
      rw [hkeys] at hk
      simp only [List.mem_singleton] at hx
      simp only [List.mem_cons, List.mem_singleton, List.not_mem_nil, or_false] at hk
      subst hx
      rcases hk with rfl | rfl <;> decide
    have hmem : ([45, 97] : CStr) ∈ ([[45, 97], [45, 98]] : List CStr) := by decide
    have hk : ([45, 98] : CStr) ∈ st.args_opts.keys := by rw [hkeys]; decide
    have hgt : 0 < cmp [45, 98] [45, 97] := by decide
    ⟨st, hp, hH, hle, hmem, hk, hgt,
      match (args_test_twice_same st [[45, 98]]).1 hH with
      | ⟨rc, st1, lines, h1, h2, h3⟩ => ⟨rc, st1, lines, h1, h2, h3 _ (Or.inl rfl)⟩,
      match (args_test_twice_same st [[45, 98]]).2.1 hH hle with
      | ⟨rc, st1, lines, h1, h2, h3⟩ => ⟨rc, st1, lines, h1, h2, h3 _ (Or.inl rfl)⟩,
      (args_test_twice_same st [[45, 97], [45, 98]]).2.2.1 [45, 97] hmem [45, 98] hk hgt⟩

/-! ## The comparison `cmp` -/

theorem char_value_inj (x y : Byte) (h : char_value x = char_value y) : x = y := by
  unfold char_value at h
  apply Fin.ext
  have hx := x.isLt
  have hy := y.isLt
  split_ifs at h <;> omega

theorem cmp_char_range (x y : Byte) : cmp_char x y = -1 ∨ cmp_char x y = 0 ∨ cmp_char x y = 1 := by
  unfold cmp_char
  split_ifs <;> simp

theorem cmp_char_eq_zero (x y : Byte) : cmp_char x y = 0 ↔ x = y := by
  unfold cmp_char
  constructor
  · intro h
    apply char_value_inj
    split_ifs at h <;> omega
  · rintro rfl
    simp

theorem cmp_range (a : CStr) : ∀ b, cmp a b = -1 ∨ cmp a b = 0 ∨ cmp a b = 1 := by
  induction a with
  | nil =>
    intro b
    cases b with
    | nil => simp only [cmp]; exact cmp_char_range _ _
    | cons y b => simp only [cmp]; exact cmp_char_range _ _
  | cons x a ih =>
    intro b
    cases b with
    | nil => simp only [cmp]; exact cmp_char_range _ _
    | cons y b =>
      simp only [cmp]
      split_ifs
      · exact cmp_char_range _ _
      · exact ih b
      · exact cmp_char_range _ _

theorem cmp_eq_zero (a : CStr) : ∀ b, (0 : Byte) ∉ a → (0 : Byte) ∉ b → (cmp a b = 0 ↔ a = b) := by
  induction a with
  | nil =>
    intro b _ hb
    cases b with
    | nil => simp [cmp, cmp_char]
    | cons y b =>
      have hy : y ≠ 0 := fun e => hb (by simp [e])
      simp only [cmp, cmp_char_eq_zero]
      constructor
      · intro h; exact absurd h.symm hy
      · intro h; simp at h
  | cons x a ih =>
    intro b ha hb
    have hx : x ≠ 0 := fun e => ha (by simp [e])
    have ha' : (0 : Byte) ∉ a := fun e => ha (by simp [e])
    cases b with
    | nil =>
      simp only [cmp, cmp_char_eq_zero]
      constructor
      · intro h; exact absurd h hx
      · intro h; simp at h
    | cons y b =>
      have hy : y ≠ 0 := fun e => hb (by simp [e])
      have hb' : (0 : Byte) ∉ b := fun e => hb (by simp [e])
      simp only [cmp, ne_eq, hx, hy, not_false_eq_true, and_self, if_true, cmp_char_eq_zero]
      by_cases hxy : x = y
      · simp only [hxy, not_true_eq_false, if_false, ih b ha' hb', List.cons.injEq, true_and]
      · simp only [hxy, not_false_eq_true, if_true, cmp_char_eq_zero, List.cons.injEq, false_and]

theorem cmp_char_seven_bit (x y : Byte) (hx : x.val < 128) (hy : y.val < 128) :
    cmp_char x y = -1 ↔ x < y := by
  unfold cmp_char char_value
  rw [Fin.lt_def]
  simp only [hx, hy, if_true]
  by_cases h : x.val < y.val
  · have h1 : (x.val : Int) < (y.val : Int) := by omega
    simp only [h1, if_true, h]
  · have h1 : ¬ ((x.val : Int) < (y.val : Int)) := by omega
    simp only [h1, if_false, h, iff_false]
    split_ifs <;> simp

theorem cmp_seven_bit (a : CStr) :
    ∀ b, seven_bit a → seven_bit b → (cmp a b = -1 ↔ precedes a b = true) := by
  induction a with
  | nil =>
    intro b _ hb
    cases b with
    | nil => simp [cmp, cmp_char, precedes]
    | cons y b =>
      have hy := hb y (by simp)
      simp only [cmp, precedes, iff_true]
      rw [cmp_char_seven_bit 0 y (by decide) hy.2, Fin.lt_def]
      exact hy.1
  | cons x a ih =>
    intro b ha hb
    have hx := ha x (by simp)
    have hx0 : x ≠ 0 := fun e => by rw [e] at hx; exact absurd hx.1 (by decide)
    have ha' : seven_bit a := fun c hc => ha c (by simp [hc])
    cases b with
    | nil =>
      simp only [cmp, precedes, Bool.false_eq_true, iff_false]
      rw [cmp_char_seven_bit x 0 hx.2 (by decide), Fin.lt_def]
      simp
    | cons y b =>
      have hy := hb y (by simp)
      have hy0 : y ≠ 0 := fun e => by rw [e] at hy; exact absurd hy.1 (by decide)
      have hb' : seven_bit b := fun c hc => hb c (by simp [hc])
      simp only [cmp, precedes, ne_eq, hx0, hy0, not_false_eq_true, and_self, if_true,
        cmp_char_eq_zero]
      by_cases hxy : x = y
      · simp only [hxy, not_true_eq_false, if_false, if_true, ih b ha' hb']
      · simp only [hxy, not_false_eq_true, if_true, if_false, decide_eq_true_eq]
        exact cmp_char_seven_bit x y hx.2 hy.2

theorem cmp_prefix_high (a : CStr) (ha : (0 : Byte) ∉ a) (x : Byte) (hx : 128 ≤ x.val)
    (ext : CStr) : cmp a (a ++ x :: ext) = 1 := by
  induction a with
  | nil =>
    have hx1 := x.isLt
    have h0 : char_value 0 = 0 := by decide
    have hxv : char_value x = (x.val : Int) - 256 := by
      unfold char_value
      rw [if_neg (by omega)]
    simp only [List.nil_append, cmp, cmp_char, h0, hxv]
    split_ifs <;> omega
  | cons c a ih =>
    have hc : c ≠ 0 := fun e => ha (by simp [e])
    have ha' : (0 : Byte) ∉ a := fun e => ha (by simp [e])
    simp only [List.cons_append, cmp, ne_eq, hc, not_false_eq_true, and_self, if_true,
      (cmp_char_eq_zero c c).mpr rfl, not_true_eq_false, if_false]
    exact ih ha'
/-- C35: `cmp` returns -1, 0 or 1 and `cmp a b = -cmp b a` for all strings, and
it returns 0 exactly when the two strings are identical. On strings of 7-bit
characters it returns -1 exactly when the first string precedes the second one
in byte-lexicographic order. A byte of `0x80` or more is compared as a negative
`char`, below the terminator: a string is then not reported to precede its
extension by such a byte, `cmp` returns 1 where the byte-lexicographic order
asks for -1. -/
theorem cmp_lexicographic_seven_bit (a b : CStr) :
    (cmp a b = -1 ∨ cmp a b = 0 ∨ cmp a b = 1) ∧
    cmp a b = - cmp b a ∧
    ((0 : Byte) ∉ a → (0 : Byte) ∉ b → (cmp a b = 0 ↔ a = b)) ∧
    (seven_bit a → seven_bit b → (cmp a b = -1 ↔ precedes a b = true)) ∧
    (∀ x : Byte, 128 ≤ x.val → (0 : Byte) ∉ a →
      precedes a (a ++ x :: b) = true ∧ cmp a (a ++ x :: b) = 1) := by
  refine ⟨cmp_range a b, cmp_antisymm b a, cmp_eq_zero a b, cmp_seven_bit a b, ?_⟩
  intro x hx ha
  refine ⟨?_, cmp_prefix_high a ha x hx b⟩
  clear ha
  induction a with
  | nil => rfl
  | cons c a ih => simpa [precedes] using ih

/-- C35, at the strings `ab` and `b`, and at the byte `0xC3` behind `ab`. -/
theorem cmp_lexicographic_seven_bit_witness :
    ((0 : Byte) ∉ ([97, 98] : CStr)) ∧ ((0 : Byte) ∉ ([98] : CStr)) ∧
    seven_bit [97, 98] ∧ seven_bit [98] ∧ 128 ≤ (195 : Byte).val ∧
    (cmp [97, 98] [98] = 0 ↔ ([97, 98] : CStr) = [98]) ∧
    (cmp [97, 98] [98] = -1 ↔ precedes [97, 98] [98] = true) ∧
    precedes [97, 98] ([97, 98] ++ 195 :: [98]) = true ∧
    cmp [97, 98] ([97, 98] ++ 195 :: [98]) = 1 :=
  have h1 : (0 : Byte) ∉ ([97, 98] : CStr) := by decide
  have h2 : (0 : Byte) ∉ ([98] : CStr) := by decide
  have h3 : seven_bit [97, 98] := by
    intro c hc
    simp only [List.mem_cons, List.mem_singleton, List.not_mem_nil, or_false] at hc
    rcases hc with rfl | rfl <;> decide
  have h4 : seven_bit [98] := by
    intro c hc
    simp only [List.mem_singleton] at hc
    subst hc
    decide
  have h5 : 128 ≤ (195 : Byte).val := by decide
  ⟨h1, h2, h3, h4, h5,
    (cmp_lexicographic_seven_bit [97, 98] [98]).2.2.1 h1 h2,
    (cmp_lexicographic_seven_bit [97, 98] [98]).2.2.2.1 h3 h4,
    (cmp_lexicographic_seven_bit [97, 98] [98]).2.2.2.2 195 h5 h1⟩

/-! ## The merge sort is stable -/

theorem sort_merge_class (x : CStr) (fuel : Nat) :
    ∀ left right : List CStr, left.Pairwise (fun a b => cmp a b ≤ 0) →
      (sort_merge fuel left right).filter (fun y => decide (cmp x y = 0)) =
        left.filter (fun y => decide (cmp x y = 0)) ++
          right.filter (fun y => decide (cmp x y = 0)) := by
  induction fuel with
  | zero =>
    intro left right _
    have e : sort_merge 0 left right = left ++ right := by
      cases left <;> cases right <;> rfl
    rw [e, List.filter_append]
  | succ fuel ih =>
    intro left right hl
    cases left with
    | nil =>
      have e : sort_merge (fuel + 1) [] right = [] ++ right := by cases right <;> rfl
      rw [e, List.filter_append]
    | cons a left =>
      cases right with
      | nil =>
        have e : sort_merge (fuel + 1) (a :: left) [] = (a :: left) ++ [] := rfl
        rw [e, List.filter_append]
      | cons b right =>
        obtain ⟨hal, hl1⟩ := List.pairwise_cons.mp hl
        simp only [sort_merge]
        have split : ∀ (c : CStr) (l : List CStr),
            (c :: l).filter (fun y => decide (cmp x y = 0)) =
              [c].filter (fun y => decide (cmp x y = 0)) ++
                l.filter (fun y => decide (cmp x y = 0)) := by
          intro c l
          rw [← List.filter_append]
          rfl
        split_ifs with hab
        · rw [split a, ih left (b :: right) hl1, split a left, List.append_assoc]
        · rw [split b, ih (a :: left) right hl, split b right]
          by_cases hb : cmp x b = 0
          · have hnone : (a :: left).filter (fun y => decide (cmp x y = 0)) = [] := by
              rw [List.filter_eq_nil_iff]
              intro z hz hxz
              have hxz0 : cmp x z = 0 := by simpa using hxz
              have haz : cmp a z ≤ 0 := by
                rcases List.mem_cons.mp hz with rfl | h
                · rw [cmp_self]
                · exact hal z h
              have hzx : cmp z x ≤ 0 := by rw [cmp_antisymm x z, hxz0]; simp
              have hzb : cmp z b ≤ 0 := cmp_trans z x b hzx (by rw [hb])
              exact hab (cmp_trans a z b haz hzb)
            rw [hnone, List.nil_append, List.nil_append]
          · have hnone : [b].filter (fun y => decide (cmp x y = 0)) = [] := by
              rw [List.filter_eq_nil_iff]
              intro z hz hxz
              rw [List.mem_singleton] at hz
              subst hz
              exact hb (by simpa using hxz)
            rw [hnone, List.nil_append, List.nil_append]

theorem _sort_class (x : CStr) (fuel : Nat) :
    ∀ list : List CStr, list.length ≤ fuel + 1 →
      (_sort fuel list).filter (fun y => decide (cmp x y = 0)) =
        list.filter (fun y => decide (cmp x y = 0)) := by
  induction fuel with
  | zero => intro list _; rfl
  | succ fuel ih =>
    intro list hlen
    simp only [_sort]
    split_ifs with h1
    · rw [sort_merge_class x _ _ _ (_sort_sorted fuel _ (by rw [List.length_take]; omega)),
        ih _ (by rw [List.length_take]; omega), ih _ (by rw [List.length_drop]; omega),
        ← List.filter_append, List.take_append_drop]
    · rfl

/-- C34: for every array, `sort` leaves a permutation of it that is in
non-decreasing order with respect to `cmp`, and the elements that compare equal
to any given string are left in the order in which they were. -/
theorem sort_stable (list : List CStr) :
    (sort list).Perm list ∧
    (sort list).Pairwise (fun a b => cmp a b ≤ 0) ∧
    ∀ x : CStr, (sort list).filter (fun y => decide (cmp x y = 0)) =
      list.filter (fun y => decide (cmp x y = 0)) :=
  ⟨_sort_perm _ list, _sort_sorted _ list (Nat.le_succ _),
    fun x => _sort_class x _ list (Nat.le_succ _)⟩

/-! ## The message of the joined files -/

theorem args_parse_message_sample :
    ∃ st1, args_parse 3 (registry none false none [(flag_a, none)])
        [[112], [120], [45, 97], [121, 122]] = .ok (true, st1) ∧
      st1.args_files_count = 2 ∧ st1.args_message = some [120, 32, 121, 122] :=
  ⟨_, rfl, by decide, by decide⟩

/-! ## The callbacks of a Variadic option -/

theorem args_parse_end_variadic_once (sc : Scan) (s std : CStr) (i : Nat) (o : args_Option)
    (files : List CStr) (first : Option CStr)
    (hq : sc.optqueue = [s]) (ha : sc.argqueue.getD 0 none = first)
    (hmap : map_get sc.st.args_optmap s = some (i + 1))
    (hopt : sc.st.args_options[i]? = some o) (hos : o.standard = std)
    (hcont : args_optmap_contains sc.st std = true)
    (ht : tidy sc.st.args_opts) (hentry : map_get sc.st.args_opts std = some blank)
    (hstd : ∀ w ∈ sc.st.args_options, w.standard = std → w.type = VARIADIC)
    (hunused : ∀ n, args_opts_used sc.st n = false)
    (hfiles : sc.st.args_files = files.map some) (hcount : sc.st.args_files_count = files.length)
    (hun : sc.st.args_unrecognised_count ≤ 5) :
    ∃ st', args_parse_end sc = .ok (sc.rc, st') ∧
      st'.calls = sc.st.calls ++ late_calls (fun _ => std) sc.argqueue 0 [s] ∧
      args_opts_used st' std = true ∧
      args_opts_get_count st' std = (if first = none then 0 else 1) + files.length ∧
      args_opts_get st' std =
        (if first = none then (if files = [] then none else some (files.map some))
         else some (first :: files.map some)) ∧
      st'.args_files_count = 0 ∧
      st'.args_message = none ∧
      st'.args_unrecognised_count = sc.st.args_unrecognised_count := by
  obtain ⟨m1, hrec, htm1, hget1⟩ := args_parse_record_shape sc.argqueue (fun _ => std)
    sc.optqueue sc.st 0
    (by
      intro s' hs'
      rw [hq, List.mem_singleton] at hs'
      subst hs'
      exact ⟨i, o, hmap, hopt, hos, hcont⟩)
    ht
  have hm1 : map_get m1 std = some { values := some [first], count := 1, used := true } := by
    have := hget1 std
    simp only [hq, ha, hentry, recorded_values, if_true] at this
    simp [this, recorded, blank]
  have hm1' : ∀ n, n ≠ std → map_get m1 n = map_get sc.st.args_opts n := by
    intro n hn
    have hn' : ¬ std = n := fun e => hn e.symm
    have := hget1 n
    simp only [hq, recorded_values, hn', if_false, recorded_nil] at this
    exact this
  obtain ⟨st1, hst1⟩ : ∃ st1 : State, st1 =
      { sc.st with args_opts := m1
                   calls := sc.st.calls ++ late_calls (fun _ => std) sc.argqueue 0 sc.optqueue } :=
    ⟨_, rfl⟩
  rw [← hst1] at hrec
  have hst1_opts : st1.args_opts = m1 := by rw [hst1]
  have hst1_files : st1.args_files = files.map some := by rw [hst1]; exact hfiles
  have hst1_count : st1.args_files_count = files.length := by rw [hst1]; exact hcount
  have hst1_options : st1.args_options = sc.st.args_options := by rw [hst1]
  have hst1_un : st1.args_unrecognised_count = sc.st.args_unrecognised_count := by rw [hst1]
  have hst1_calls : st1.calls = sc.st.calls ++ late_calls (fun _ => std) sc.argqueue 0 [s] := by
    rw [hst1, hq]
  obtain ⟨m2, hclear, hget2⟩ := args_opts_clear_shape st1 std
  have htm2 : tidy ({ st1 with args_opts := m2 } : State).args_opts := by
    intro n a hna
    simp only [hget2] at hna
    by_cases hn : n = std
    · simp only [hn, if_true, Option.some.injEq] at hna
      subst hna; rfl
    · simp only [hn, if_false] at hna
      rw [hst1_opts] at hna
      exact htm1 n a hna
  have htst1 : tidy st1.args_opts := by rw [hst1_opts]; exact htm1
  have hvar := args_parse_variadic_hit st1 st1.args_options std first [] files
    (by rw [hst1_options]; exact ⟨o, List.getElem?_mem hopt, hos⟩)
    (by rw [hst1_options]; exact hstd)
    (fun w _ hs => by
      have := hunused w.standard
      simp only [args_opts_used, hst1_opts, hm1' w.standard hs] at this ⊢
      exact this)
    (by simp [args_opts_used, hst1_opts, hm1])
    (by simp [args_opts_get, hst1_opts, hm1])
    (by
      rw [hst1_files, hst1_count]
      have := peek_all_map_some files []
      simpa using this)
  by_cases hf1 : first = none
  · simp only [hf1, if_true] at hvar
    obtain ⟨m3, habsorb, -, hget3⟩ := args_parse_absorb_shape std files
      { st1 with args_opts := m2 } htm2
    rw [hclear, habsorb] at hvar
    simp only [args_parse_end, hrec, bind, Except.bind, hvar]
    rw [args_parse_message_none _ rfl]
    simp only [pure, Except.pure]
    rw [args_parse_summary_few _ (by simpa [hst1_un] using hun)]
    refine ⟨_, rfl, hst1_calls, ?_⟩
    have hm3 := hget3 std
    simp only [hget2, if_true, args_opts_used, hst1_opts, hm1, true_and] at hm3
    by_cases hf : files = []
    · simp only [hf, ne_eq, not_true_eq_false, if_false] at hm3
      simp [args_opts_used, args_opts_get, args_opts_get_count, hm3, hf, hst1_un, hf1]
    · simp only [hf, ne_eq, not_false_eq_true, if_true] at hm3
      simp [args_opts_used, args_opts_get, args_opts_get_count, hm3, hf, blank, hst1_un, hf1]
  · simp only [hf1, if_false] at hvar
    obtain ⟨m3, habsorb, -, hget3⟩ := args_parse_absorb_shape std files st1 htst1
    rw [habsorb] at hvar
    simp only [args_parse_end, hrec, bind, Except.bind, hvar]
    rw [args_parse_message_none _ rfl]
    simp only [pure, Except.pure]
    rw [args_parse_summary_few _ (by simpa [hst1_un] using hun)]
    refine ⟨_, rfl, hst1_calls, ?_⟩
    have hm3 := hget3 std
    simp only [hst1_opts, hm1, true_and] at hm3
    by_cases hf : files = []
    · simp only [hf, ne_eq, not_true_eq_false, if_false] at hm3
      simp [args_opts_used, args_opts_get, args_opts_get_count, hm3, hf, hst1_un, hf1]
    · simp only [hf, ne_eq, not_false_eq_true, if_true] at hm3
      simp [args_opts_used, args_opts_get, args_opts_get_count, hm3, hf, blank, hst1_un, hf1,
        Nat.add_comm]
theorem args_parse_long_attached_variadic (sc : Scan) (s v : CStr) (i : Nat) (o : args_Option)
    (hdont : sc.dontget = 0)
    (hnone : map_get sc.st.args_optmap (s ++ EQUALS :: v) = none)
    (hs : EQUALS ∉ s)
    (hmap : map_get sc.st.args_optmap s = some (i + 1))
    (hopt : sc.st.args_options[i]? = some o)
    (htype : o.type = VARIADIC) :
    args_parse_long sc (s ++ EQUALS :: v) =
      .ok { sc with st := { sc.st with calls := sc.st.calls ++ [Call.trigger s o.standard] }
                    dashed := true
                    optqueue := sc.optqueue ++ [s]
                    argqueue := sc.argqueue ++ [some v] } := by
  obtain ⟨-, hcont, htyp, -⟩ := args_optmap_lookup hmap hopt
  simp [args_parse_long, hdont, args_optmap_contains_of_none hnone, find_eq_append s v hs,
    byteAt_append_length, hcont, htyp, bind, Except.bind, pure, Except.pure, htype,
    args_optmap_trigger_lookup hmap hopt]

theorem args_parse_token_attached_variadic (sc : Scan) (s v : CStr) (i : Nat) (o : args_Option)
    (hget : sc.get = 0) (hdont : sc.dontget = 0)
    (ht : sc.tmpdashed = false) (hd : sc.dashed = false)
    (hlong : long_spelling s)
    (hnone : map_get sc.st.args_optmap (s ++ EQUALS :: v) = none)
    (hmap : map_get sc.st.args_optmap s = some (i + 1))
    (hopt : sc.st.args_options[i]? = some o)
    (htype : o.type = VARIADIC) :
    args_parse_token sc (s ++ EQUALS :: v) =
      .ok { sc with st := { sc.st with calls := sc.st.calls ++ [Call.trigger s o.standard] }
                    dashed := true
                    optqueue := sc.optqueue ++ [s]
                    argqueue := sc.argqueue ++ [some v] } := by
  obtain ⟨name, hname, hne, hnoeq⟩ := long_spelling_shape hlong
  rw [args_parse_token_idle _ _ hget]
  have hd1 : args_parse_dispatch sc (s ++ EQUALS :: v) = args_parse_long sc (s ++ EQUALS :: v) := by
    rw [hname]
    exact args_parse_dispatch_long _ (name ++ EQUALS :: v) ht hd (by simp)
  rw [hd1]
  exact args_parse_long_attached_variadic sc s v i o hdont hnone hnoeq hmap hopt htype

theorem args_parse_bundle_variadic (sc : Scan) (arg : CStr) (sign c : Byte) (rest : CStr)
    (i : Nat) (o : args_Option)
    (hmap : map_get sc.st.args_optmap [sign, c] = some (i + 1))
    (hopt : sc.st.args_options[i]? = some o)
    (htype : o.type = VARIADIC) :
    args_parse_bundle arg sign sc (c :: rest) =
      .ok { sc with st := { sc.st with calls := sc.st.calls ++
                                [Call.trigger [sign, c] o.standard] }
                    dashed := true
                    optqueue := sc.optqueue ++ [[sign, c]]
                    argqueue := if rest = [] then sc.argqueue
                                else sc.argqueue ++ [some rest] } := by
  obtain ⟨-, hcont, htyp, -⟩ := args_optmap_lookup hmap hopt
  by_cases hr : rest = []
  · simp [args_parse_bundle, hcont, htyp, htype, hr, bind, Except.bind, pure, Except.pure,
      args_optmap_trigger_lookup hmap hopt]
  · simp [args_parse_bundle, hcont, htyp, htype, hr, bind, Except.bind, pure, Except.pure,
      args_optmap_trigger_lookup hmap hopt]

theorem args_parse_token_short_variadic (sc : Scan) (c : Byte) (rest : CStr)
    (i : Nat) (o : args_Option)
    (hget : sc.get = 0) (ht : sc.tmpdashed = false) (hd : sc.dashed = false)
    (halt : sc.st.args_alternative = false) (hc : c ≠ DASH)
    (hmap : map_get sc.st.args_optmap [DASH, c] = some (i + 1))
    (hopt : sc.st.args_options[i]? = some o)
    (htype : o.type = VARIADIC) :
    args_parse_token sc (DASH :: c :: rest) =
      .ok { sc with st := { sc.st with calls := sc.st.calls ++
                                [Call.trigger [DASH, c] o.standard] }
                    dashed := true
                    optqueue := sc.optqueue ++ [[DASH, c]]
                    argqueue := if rest = [] then sc.argqueue
                                else sc.argqueue ++ [some rest] } := by
  rw [args_parse_token_idle _ _ hget,
    args_parse_dispatch_short sc DASH c rest ht hd halt (Or.inl rfl) hc]
  exact args_parse_bundle_variadic sc _ DASH c rest i o hmap hopt htype
theorem args_parse_loop_variadic_first (st : State) (tok s : CStr) (o : args_Option)
    (queue : List (Option CStr)) (hfc : st.args_files_count = 0) (post : List CStr)
    (htok : args_parse_token (args_parse_begin st (tok :: post)) tok =
      .ok { args_parse_begin st (tok :: post) with
            st := { (args_parse_begin st (tok :: post)).st with
                    calls := st.calls ++ [Call.trigger s o.standard] }
            dashed := true
            optqueue := [s]
            argqueue := queue })
    (fuel : Nat) :
    args_parse_loop (fuel + post.length + 1) (args_parse_begin st (tok :: post)) (tok :: post) =
      .ok { args_parse_begin st (tok :: post) with
            st := { (args_parse_begin st (tok :: post)).st with
                    args_files := post.map some
                    args_files_count := post.length
                    calls := st.calls ++ [Call.trigger s o.standard] }
            dashed := true
            optqueue := [s]
            argqueue := queue } := by
  rw [args_parse_loop_cons _ _ _ _ rfl, htok]
  simp only [Except.bind]
  rw [args_parse_loop_dashed fuel post _ rfl rfl rfl rfl (by simp [args_parse_begin, hfc])]
  simp [args_parse_begin, hfc]

theorem args_parse_variadic_first (program : Option CStr) (alternative : Bool)
    (abbreviations : Option (CStr → List CStr → Nat → Option CStr))
    (options : List (args_Option × Option CStr))
    (hns : no_shared_spelling options) (hcl : canonical_listed options)
    (o : args_Option) (help : Option CStr) (hp : (o, help) ∈ options)
    (htype : o.type = VARIADIC) (tok s : CStr) (hs : s ∈ o.alternatives)
    (queue : List (Option CStr)) (first : Option CStr) (hfirst : queue.getD 0 none = first)
    (post : List CStr) (exe : CStr) (fuel : Nat)
    (htok : args_parse_token
        (args_parse_begin (registry program alternative abbreviations options) (tok :: post)) tok =
      .ok { args_parse_begin (registry program alternative abbreviations options) (tok :: post) with
            st := { (args_parse_begin (registry program alternative abbreviations options)
                      (tok :: post)).st with
                    calls := (registry program alternative abbreviations options).calls ++
                      [Call.trigger s o.standard] }
            dashed := true
            optqueue := [s]
            argqueue := queue }) :
    ∃ st', args_parse (fuel + post.length + 1)
        (registry program alternative abbreviations options) (exe :: tok :: post) = .ok (true, st') ∧
      st'.calls = ((registry program alternative abbreviations options).calls ++
          [Call.trigger s o.standard]) ++ late_calls (fun _ => o.standard) queue 0 [s] ∧
      args_opts_used st' o.standard = true ∧
      args_opts_get_count st' o.standard = (if first = none then 0 else 1) + post.length ∧
      args_opts_get st' o.standard =
        (if first = none then (if post = [] then none else some (post.map some))
         else some (first :: post.map some)) ∧
      st'.args_files_count = 0 ∧
      st'.args_message = none ∧
      st'.args_unrecognised_count = 0 := by
  obtain ⟨i, hmap, hopt⟩ := registry_bound program alternative abbreviations options hns
    o help hp s hs
  obtain ⟨-, -, hfc, -, -, -⟩ := registry_fields program alternative abbreviations options
  have hcont := registry_contains_standard program alternative abbreviations options hns hcl
    o help hp
  have hentry := registry_entry_standard program alternative abbreviations options o help hp
  have hloop := args_parse_loop_variadic_first
    (registry program alternative abbreviations options) tok s { o with help := help }
    queue hfc post htok fuel
  rw [args_parse_of_loop _ _ _ _ _ hloop]
  exact args_parse_end_variadic_once _ s o.standard i { o with help := help } post first
    rfl hfirst hmap hopt rfl hcont (registry_tidy program alternative abbreviations options) hentry
    (fun w hw hs => by
      rw [registry_standard_type program alternative abbreviations options hns hcl
        o help hp w hw hs, htype])
    (registry_unused program alternative abbreviations options) rfl rfl (Nat.zero_le 5)

/-- C31: in a registry without shared spellings, a Variadic option that is
matched through a long spelling `s` with an attached value (`s=v`, the whole
token being no spelling) switches `dashed` on and is triggered at once through
the two-argument callback, without the value; the value is put in the argument
queue. After the call the callbacks that were invoked are that single one, and
the option has the values `v` and then all further tokens. -/
theorem args_parse_variadic_attached_value (program : Option CStr) (alternative : Bool)
    (abbreviations : Option (CStr → List CStr → Nat → Option CStr))
    (options : List (args_Option × Option CStr))
    (hns : no_shared_spelling options) (hcl : canonical_listed options)
    (o : args_Option) (help : Option CStr) (hp : (o, help) ∈ options)
    (htype : o.type = VARIADIC) (s : CStr) (hs : s ∈ o.alternatives) (hlong : long_spelling s)
    (v : CStr) (hnone : ∀ q ∈ options, s ++ EQUALS :: v ∉ q.1.alternatives)
    (post : List CStr) (exe : CStr) (fuel : Nat) :
    (∃ sc, args_parse_token
        (args_parse_begin (registry program alternative abbreviations options)
          ((s ++ EQUALS :: v) :: post)) (s ++ EQUALS :: v) = .ok sc ∧
      sc.dashed = true ∧ sc.st.calls = [Call.trigger s o.standard] ∧
      sc.optqueue = [s] ∧ sc.argqueue = [some v]) ∧
    ∃ st', args_parse (fuel + post.length + 1)
        (registry program alternative abbreviations options)
        (exe :: (s ++ EQUALS :: v) :: post) = .ok (true, st') ∧
      st'.calls = [Call.trigger s o.standard] ∧
      args_opts_used st' o.standard = true ∧
      args_opts_get_count st' o.standard = post.length + 1 ∧
      args_opts_get st' o.standard = some (some v :: post.map some) ∧
      st'.args_files_count = 0 ∧
      st'.args_message = none ∧
      st'.args_unrecognised_count = 0 := by
  obtain ⟨i, hmap, hopt⟩ := registry_bound program alternative abbreviations options hns
    o help hp s hs
  obtain ⟨-, -, hfc, hcalls, -, -⟩ := registry_fields program alternative abbreviations options
  have hcont := registry_contains_standard program alternative abbreviations options hns hcl
    o help hp
  have hentry := registry_entry_standard program alternative abbreviations options o help hp
  have hun := registry_unbound program alternative abbreviations options (s ++ EQUALS :: v) hnone
  have htok := args_parse_token_attached_variadic
    (args_parse_begin (registry program alternative abbreviations options)
      ((s ++ EQUALS :: v) :: post)) s v i { o with help := help } rfl rfl rfl rfl hlong hun
    hmap hopt htype
  refine ⟨⟨_, htok, rfl, ?_, rfl, rfl⟩, ?_⟩
  · simp [args_parse_begin, hcalls]
  obtain ⟨st', hend, hc, hu, hn, hg, hrest⟩ := args_parse_variadic_first program alternative
    abbreviations options hns hcl o help hp htype (s ++ EQUALS :: v) s hs [some v] (some v) rfl
    post exe fuel htok
  refine ⟨st', hend, ?_, hu, ?_, ?_, hrest⟩
  · rw [hc]
    simp [late_calls, hcalls]
  · rw [hn]
    simp [Nat.add_comm]
  · rw [hg]
    simp

/-- C31, at the registry with the option `--rest` and the tokens `--rest=a`,
`-b`. -/
theorem args_parse_variadic_attached_value_witness :
    no_shared_spelling [(opt_rest, none)] ∧ canonical_listed [(opt_rest, none)] ∧
    (opt_rest, none) ∈ [(opt_rest, (none : Option CStr))] ∧ opt_rest.type = VARIADIC ∧
    ([45, 45, 114, 101, 115, 116] : CStr) ∈ opt_rest.alternatives ∧
    long_spelling [45, 45, 114, 101, 115, 116] ∧
    (∀ q ∈ [(opt_rest, (none : Option CStr))],
      ([45, 45, 114, 101, 115, 116] : CStr) ++ EQUALS :: [97] ∉ q.1.alternatives) ∧
    ∃ st', args_parse (0 + ([[45, 98]] : List CStr).length + 1)
        (registry none false none [(opt_rest, none)])
        ([112] :: ([45, 45, 114, 101, 115, 116] ++ EQUALS :: [97]) :: [[45, 98]]) = .ok (true, st') ∧
      st'.calls = [Call.trigger [45, 45, 114, 101, 115, 116] opt_rest.standard] ∧
      args_opts_used st' opt_rest.standard = true ∧
      args_opts_get_count st' opt_rest.standard = ([[45, 98]] : List CStr).length + 1 ∧
      args_opts_get st' opt_rest.standard = some (some [97] :: ([[45, 98]] : List CStr).map some) ∧
      st'.args_files_count = 0 ∧
      st'.args_message = none ∧
      st'.args_unrecognised_count = 0 :=
  have h1 : no_shared_spelling [(opt_rest, none)] := by simp [no_shared_spelling]
  have h2 : canonical_listed [(opt_rest, none)] := by simp [canonical_listed, opt_rest]
  have h3 : (opt_rest, none) ∈ [(opt_rest, (none : Option CStr))] := by simp
  have h4 : ([45, 45, 114, 101, 115, 116] : CStr) ∈ opt_rest.alternatives := by
    simp [opt_rest]
  have h5 : long_spelling [45, 45, 114, 101, 115, 116] :=
    ⟨[114, 101, 115, 116], rfl, by decide, by decide⟩
  have h6 : ∀ q ∈ [(opt_rest, (none : Option CStr))],
      ([45, 45, 114, 101, 115, 116] : CStr) ++ EQUALS :: [97] ∉ q.1.alternatives := by
    intro q hq
    simp only [List.mem_singleton] at hq
    subst hq
    decide
  ⟨h1, h2, h3, rfl, h4, h5, h6,
    (args_parse_variadic_attached_value none false none [(opt_rest, none)] h1 h2 opt_rest none h3
      rfl [45, 45, 114, 101, 115, 116] h4 h5 [97] h6 [[45, 98]] [112] 0).2⟩

/-- C31, the callback that is invoked: with the Variadic option `--rest`
registered, the token `--rest=a` invokes the two-argument callback of `--rest`
and never the three-argument one, and `a` is recorded as the value. -/
theorem args_parse_variadic_attached_no_value_channel :
    ∃ st', args_parse 1 (registry none false none [(opt_rest, none)])
        [[112], [45, 45, 114, 101, 115, 116, 61, 97]] = .ok (true, st') ∧
      st'.calls = [Call.trigger [45, 45, 114, 101, 115, 116] [45, 45, 114, 101, 115, 116]] ∧
      Call.triggerv [45, 45, 114, 101, 115, 116] [45, 45, 114, 101, 115, 116] (some [97])
        ∉ st'.calls ∧
      args_opts_get st' [45, 45, 114, 101, 115, 116] = some [some [97]] :=
  ⟨_, rfl, by decide, by decide, rfl⟩

/-- C32: outside alternative mode, in a registry without shared spellings, a
Variadic option that is given by a short spelling `-c` without remainder is
one invocation (one entry of the option queue, recorded once by the loop behind
the scan) but its callbacks are invoked twice: the two-argument one when the
token is scanned, and the three-argument one with `null` behind the scan,
because the scan put no entry for it in the argument queue. -/
theorem args_parse_short_variadic_triggered_twice (program : Option CStr)
    (abbreviations : Option (CStr → List CStr → Nat → Option CStr))
    (options : List (args_Option × Option CStr))
    (hns : no_shared_spelling options) (hcl : canonical_listed options)
    (o : args_Option) (help : Option CStr) (hp : (o, help) ∈ options)
    (htype : o.type = VARIADIC) (c : Byte) (hc : c ≠ DASH) (hs : [DASH, c] ∈ o.alternatives)
    (post : List CStr) (exe : CStr) (fuel : Nat) :
    (∃ sc, args_parse_loop (fuel + post.length + 1)
        (args_parse_begin (registry program false abbreviations options) ([DASH, c] :: post))
        ([DASH, c] :: post) = .ok sc ∧
      sc.optqueue = [[DASH, c]] ∧ sc.argqueue = [] ∧ sc.get = 0 ∧
      sc.st.calls = [Call.trigger [DASH, c] o.standard] ∧
      args_parse (fuel + post.length + 1) (registry program false abbreviations options)
        (exe :: [DASH, c] :: post) = args_parse_end sc) ∧
    ∃ st', args_parse (fuel + post.length + 1) (registry program false abbreviations options)
        (exe :: [DASH, c] :: post) = .ok (true, st') ∧
      st'.calls = [Call.trigger [DASH, c] o.standard, Call.triggerv [DASH, c] o.standard none] ∧
      args_opts_used st' o.standard = true ∧
      args_opts_get_count st' o.standard = post.length ∧
      args_opts_get st' o.standard = (if post = [] then none else some (post.map some)) ∧
      st'.args_files_count = 0 ∧
      st'.args_message = none ∧
      st'.args_unrecognised_count = 0 := by
  obtain ⟨i, hmap, hopt⟩ := registry_bound program false abbreviations options hns
    o help hp [DASH, c] hs
  obtain ⟨halt, -, hfc, hcalls, -, -⟩ := registry_fields program false abbreviations options
  have htok := args_parse_token_short_variadic
    (args_parse_begin (registry program false abbreviations options) ([DASH, c] :: post))
    c [] i { o with help := help } rfl rfl rfl halt hc hmap hopt htype
  simp only [if_true] at htok
  have hloop := args_parse_loop_variadic_first
    (registry program false abbreviations options) [DASH, c] [DASH, c] { o with help := help }
    [] hfc post htok fuel
  refine ⟨⟨_, hloop, rfl, rfl, rfl, ?_, args_parse_of_loop _ _ _ _ _ hloop⟩, ?_⟩
  · simp [hcalls]
  obtain ⟨st', hend, hcs, hu, hn, hg, hrest⟩ := args_parse_variadic_first program false
    abbreviations options hns hcl o help hp htype [DASH, c] [DASH, c] hs [] none rfl
    post exe fuel htok
  refine ⟨st', hend, ?_, hu, ?_, ?_, hrest⟩
  · rw [hcs]
    simp [late_calls, hcalls]
  · rw [hn]
    simp
  · rw [hg]
    simp

/-- C32, at the registry with the Variadic option `-r` and the tokens `-r`, `x`:
two callbacks for the one invocation. -/
theorem args_parse_short_variadic_triggered_twice_witness :
    no_shared_spelling [(opt_r, none)] ∧ canonical_listed [(opt_r, none)] ∧
    (opt_r, none) ∈ [(opt_r, (none : Option CStr))] ∧ opt_r.type = VARIADIC ∧
    (114 : Byte) ≠ DASH ∧ [DASH, 114] ∈ opt_r.alternatives ∧
    ∃ st', args_parse (0 + ([[120]] : List CStr).length + 1)
        (registry none false none [(opt_r, none)])
        ([112] :: [DASH, 114] :: [[120]]) = .ok (true, st') ∧
      st'.calls = [Call.trigger [DASH, 114] opt_r.standard,
        Call.triggerv [DASH, 114] opt_r.standard none] ∧
      args_opts_used st' opt_r.standard = true ∧
      args_opts_get_count st' opt_r.standard = ([[120]] : List CStr).length ∧
      args_opts_get st' opt_r.standard =
        (if ([[120]] : List CStr) = [] then none else some (([[120]] : List CStr).map some)) ∧
      st'.args_files_count = 0 ∧
      st'.args_message = none ∧
      st'.args_unrecognised_count = 0 :=
  have h1 : no_shared_spelling [(opt_r, none)] := by simp [no_shared_spelling]
  have h2 : canonical_listed [(opt_r, none)] := by simp [canonical_listed, opt_r]
  have h3 : (opt_r, none) ∈ [(opt_r, (none : Option CStr))] := by simp
  have h4 : (114 : Byte) ≠ DASH := by decide
  have h5 : [DASH, 114] ∈ opt_r.alternatives := by simp [opt_r]
  ⟨h1, h2, h3, rfl, h4, h5,
    (args_parse_short_variadic_triggered_twice none none [(opt_r, none)] h1 h2 opt_r none h3
      rfl 114 h4 h5 [[120]] [112] 0).2⟩

/-! ## The number of callbacks of a call

The callbacks that a call of `args_parse` invokes are as many as the entries of
the option queue, which the loop behind the scan records one by one, plus the
entries that were triggered in the scan without an entry in the argument
queue; there is no such entry in alternative mode, nor when no Variadic option
has a spelling of a sign and one character. -/

theorem whenever_trigger_call_bind {β : Type} (p : β → Prop) (st : State) (name : CStr)
    (value : Option CStr) (f : State → Except Fault β)
    (h : ∀ call, whenever p (f { st with calls := st.calls ++ [call] })) :
    whenever p (args_optmap_trigger st name value >>= f) := by
  rw [whenever_bind]
  unfold args_optmap_trigger
  cases args_options_at st (args_optmap_get_index st name) with
  | error e => trivial
  | ok opt => cases value <;> exact h _

theorem whenever_triggerv_call_bind {β : Type} (p : β → Prop) (st : State) (name : CStr)
    (value : Option CStr) (f : State → Except Fault β)
    (h : ∀ call, whenever p (f { st with calls := st.calls ++ [call] })) :
    whenever p (args_optmap_triggerv st name value >>= f) := by
  rw [whenever_bind]
  unfold args_optmap_triggerv
  cases args_options_at st (args_optmap_get_index st name) with
  | error e => trivial
  | ok opt => exact h _

theorem triggered_unmatched {sc : Scan} {n : Nat} (h : triggered n sc) (arg a : CStr) (k : Nat) :
    triggered n (args_parse_long_unmatched sc arg a k) := by
  unfold args_parse_long_unmatched
  cases args__abbreviations sc.st a with
  | none => exact h
  | some inj => exact h

theorem args_parse_pending_triggered (sc : Scan) (arg : CStr) (n : Nat) (hq : triggered n sc) :
    whenever (fun r => triggered n r.1) (args_parse_pending sc arg) := by
  unfold args_parse_pending
  split_ifs with h1 h2
  · split
    · exact whenever_error _ _
    · repeat' first
        | exact whenever_error _ _
        | (refine (whenever_pure _ _).mpr ?_;
            (unfold triggered at hq ⊢
             simp only [List.length_append, List.length_singleton]
             omega))
        | (refine whenever_trigger_call_bind _ _ _ _ _ ?_; intro call)
        | (refine whenever_triggerv_call_bind _ _ _ _ _ ?_; intro call)
        | (refine (whenever_bind _ _ _).mpr (whenever_of_forall _ ?_); intro y)
        | split_ifs
        | split
        | dsimp only
  · exact whenever_error _ _
  · exact hq

set_option maxHeartbeats 4000000 in
theorem args_parse_long_triggered (sc : Scan) (arg : CStr) (n : Nat) (hq : triggered n sc)
    (hd : sc.dontget = 0) :
    whenever (fun sc1 => triggered n sc1) (args_parse_long sc arg) := by
  unfold args_parse_long
  simp only [hd, Nat.le_refl, true_and, Nat.lt_irrefl, if_false]
  repeat' first
    | exact whenever_error _ _
    | (refine (whenever_pure _ _).mpr ?_;
        first
          | exact hq
          | exact triggered_unmatched hq _ _ _
          | (unfold triggered at hq ⊢
             simp only [List.length_append, List.length_singleton]
             omega))
    | (refine whenever_trigger_call_bind _ _ _ _ _ ?_; intro call)
    | (refine (whenever_bind _ _ _).mpr (whenever_of_forall _ ?_); intro y)
    | split_ifs
    | split

theorem args_parse_bundle_triggered (arg : CStr) (sign : Byte) (n : Nat) (rest : CStr) :
    ∀ sc : Scan, triggered n sc →
      whenever (fun sc1 => triggered n sc1) (args_parse_bundle arg sign sc rest) := by
  induction rest with
  | nil => intro sc hq; exact hq
  | cons c rest ih =>
    intro sc hq
    rw [args_parse_bundle]
    repeat' first
      | exact whenever_error _ _
      | (refine (whenever_pure _ _).mpr ?_;
          (unfold triggered at hq ⊢
           simp only [List.length_append, List.length_singleton]
           omega))
      | (refine ih _ ?_;
          first
            | exact hq
            | (unfold triggered at hq ⊢
               simp only [List.length_append, List.length_singleton]
               omega))
      | (refine whenever_trigger_call_bind _ _ _ _ _ ?_; intro call)
      | (refine (whenever_bind _ _ _).mpr (whenever_of_forall _ ?_); intro y)
      | split_ifs

theorem args_parse_dispatch_triggered (sc : Scan) (arg : CStr) (n : Nat) (hq : triggered n sc)
    (hd : sc.dontget = 0) :
    whenever (fun sc1 => triggered n sc1) (args_parse_dispatch sc arg) := by
  unfold args_parse_dispatch
  split_ifs
  · exact hq
  · exact hq
  · exact hq
  · exact hq
  · exact args_parse_long_triggered sc arg n hq hd
  · exact args_parse_bundle_triggered arg _ n _ sc hq
  · exact hq

theorem args_parse_token_triggered {st0 : State} (sc : Scan) (arg : CStr) (n : Nat)
    (hg : scanned st0 sc) (hq : triggered n sc) :
    whenever (fun sc1 => triggered n sc1) (args_parse_token sc arg) := by
  unfold args_parse_token
  refine (whenever_bind _ _ _).mpr ?_
  refine whenever_mono (whenever_and (args_parse_pending_scanned sc arg hg)
    (args_parse_pending_triggered sc arg n hq)) ?_
  rintro ⟨sc1, consumed⟩ ⟨⟨g1, -⟩, h1⟩
  cases consumed with
  | true => exact h1
  | false => exact args_parse_dispatch_triggered sc1 arg n h1 g1.2.2.2.2.1

theorem args_parse_loop_triggered {st0 : State} (hr : index_in_range st0) (n : Nat)
    (fuel : Nat) :
    ∀ (sc : Scan) (argv : List CStr), scanned st0 sc → steady sc → queued sc →
      triggered n sc →
      whenever (fun sc1 => triggered n sc1) (args_parse_loop fuel sc argv) := by
  induction fuel with
  | zero =>
    intro sc argv hg hs hq ht
    cases hinj : sc.injection with
    | none =>
      cases argv with
      | nil => rw [args_parse_loop_nil _ _ hinj]; exact ht
      | cons arg argv =>
        unfold args_parse_loop
        simp only [hinj]
        exact whenever_error _ _
    | some inj =>
      unfold args_parse_loop
      simp only [hinj]
      exact whenever_error _ _
  | succ fuel ih =>
    intro sc argv hg hs hq ht
    cases hinj : sc.injection with
    | none =>
      cases argv with
      | nil => rw [args_parse_loop_nil _ _ hinj]; exact ht
      | cons arg argv =>
        rw [args_parse_loop_cons _ _ _ _ hinj]
        refine (whenever_bind _ _ _).mpr ?_
        exact whenever_mono
          (whenever_and (args_parse_token_invariant hr sc arg hg hs hq hinj)
            (args_parse_token_triggered sc arg n hg ht))
          (fun sc1 h1 => ih sc1 argv h1.1.1 h1.1.2.1 h1.1.2.2.1 h1.2)
    | some inj =>
      rw [args_parse_loop_injection _ _ _ _ hinj]
      refine (whenever_bind _ _ _).mpr ?_
      obtain ⟨h1, h2, h3, h4, h5, h6, h7, h8⟩ := hg
      have hg1 : scanned st0 { sc with injection := none } :=
        ⟨h1, h2, h3, h4, h5, h6, h7, fun h => absurd rfl h⟩
      exact whenever_mono
        (whenever_and
          (args_parse_token_invariant hr { sc with injection := none } inj hg1
            (steady_congr hs rfl rfl rfl rfl (Nat.le_refl _)) hq rfl)
          (args_parse_token_triggered { sc with injection := none } inj n hg1 ht))
        (fun sc1 h1 => ih sc1 argv h1.1.1 h1.1.2.1 h1.1.2.2.1 h1.2)

theorem args_opts_append_calls (st : State) (name : CStr) (value : Option CStr) :
    (args_opts_append st name value).calls = st.calls := by
  unfold args_opts_append
  cases args_opts_get st name <;> rfl

theorem args_parse_record_calls (argqueue : List (Option CStr)) (optqueue : List CStr) :
    ∀ (st : State) (i : Nat),
      whenever (fun st1 => st1.calls.length =
          st.calls.length + ((i + optqueue.length - argqueue.length) - (i - argqueue.length)))
        (args_parse_record argqueue st i optqueue) := by
  induction optqueue with
  | nil =>
    intro st i
    show st.calls.length = _
    simp only [List.length_nil, Nat.add_zero]
    omega
  | cons used optqueue ih =>
    intro st i
    rw [args_parse_record]
    refine (whenever_bind _ _ _).mpr (whenever_of_forall _ ?_)
    intro opt
    have hmark : ∀ (st2 : State) (k : Nat), st2.calls.length = k →
        whenever (fun st3 : State => st3.calls.length = k) (args_parse_mark st2 opt) := by
      intro st2 k h
      unfold args_parse_mark
      split
      · exact whenever_error _ _
      · exact h
    have hjp : ∀ (arg : Option CStr) (st1 : State) (k : Nat), st1.calls.length = k →
        k + ((i + 1 + optqueue.length - argqueue.length) - (i + 1 - argqueue.length)) =
          st.calls.length +
            ((i + (used :: optqueue).length - argqueue.length) - (i - argqueue.length)) →
        whenever (fun st4 : State => st4.calls.length =
            st.calls.length +
              ((i + (used :: optqueue).length - argqueue.length) - (i - argqueue.length)))
          (args_parse_mark (args_opts_append
              (if args_optmap_contains st1 opt = false ∨ args_opts_contains st1 opt = false then
                args_opts_new st1 opt
              else st1) opt arg) opt >>=
            fun st3 => args_parse_record argqueue st3 (i + 1) optqueue) := by
      intro arg st1 k hst1 hk
      refine (whenever_bind _ _ _).mpr ?_
      refine whenever_mono (hmark _ k ?_) ?_
      · rw [args_opts_append_calls]
        split_ifs
        · exact hst1
        · exact hst1
      · intro st3 hst3
        refine whenever_mono (ih st3 (i + 1)) (fun st4 h => ?_)
        rw [h, hst3]
        exact hk
    dsimp only
    split_ifs <;>
      first
        | (refine whenever_triggerv_call_bind _ _ _ _ _ ?_
           intro call
           refine hjp _ _ (st.calls.length + 1) (by simp) ?_
           simp only [List.length_cons]
           omega)
        | (refine hjp _ st st.calls.length rfl ?_
           simp only [List.length_cons]
           omega)

theorem args_parse_absorb_calls (std : CStr) (files : List CStr) :
    ∀ st : State, (args_parse_absorb std st files).calls = st.calls := by
  induction files with
  | nil => intro st; rfl
  | cons file files ih =>
    intro st
    rw [args_parse_absorb, ih, args_opts_append_calls]

theorem args_parse_variadic_calls (options : List args_Option) (st : State) :
    whenever (fun st1 => st1.calls = st.calls) (args_parse_variadic st options) := by
  induction options with
  | nil => rfl
  | cons option options ih =>
    rw [args_parse_variadic]
    split_ifs
    · split
      · refine (whenever_bind _ _ _).mpr (whenever_of_forall _ ?_)
        intro files
        refine (whenever_pure _ _).mpr ?_
        show (args_parse_absorb _ _ files).calls = _
        rw [args_parse_absorb_calls]
        split_ifs <;> rfl
      · exact whenever_error _ _
    · exact ih

theorem args_parse_message_calls (st : State) :
    whenever (fun st1 => st1.calls = st.calls) (args_parse_message st) := by
  unfold args_parse_message
  split_ifs
  · refine (whenever_bind _ _ _).mpr (whenever_of_forall _ ?_)
    intro files
    rfl
  · rfl

theorem args_parse_end_calls (sc : Scan) :
    whenever (fun r => r.1 = sc.rc ∧
        r.2.calls.length = sc.st.calls.length + (sc.optqueue.length - sc.argqueue.length))
      (args_parse_end sc) := by
  unfold args_parse_end
  refine (whenever_bind _ _ _).mpr ?_
  refine whenever_mono (args_parse_record_calls sc.argqueue sc.optqueue sc.st 0) ?_
  intro st1 h1
  refine (whenever_bind _ _ _).mpr ?_
  refine whenever_mono (args_parse_variadic_calls st1.args_options st1) ?_
  intro st2 h2
  refine (whenever_bind _ _ _).mpr ?_
  refine whenever_mono (args_parse_message_calls st2) ?_
  intro st3 h3
  refine (whenever_pure _ _).mpr ⟨rfl, ?_⟩
  rw [(args_parse_summary_fields st3).2.2.2.2.2, h3, h2, h1]
  simp

theorem args_optmap_get_type_congr {st st1 : State} (hm : st1.args_optmap = st.args_optmap)
    (ho : st1.args_options = st.args_options) (s : CStr) :
    args_optmap_get_type st1 s = args_optmap_get_type st s := by
  simp only [args_optmap_get_type, args_options_at, args_optmap_get_index, hm, ho]

theorem no_short_variadic_congr {st st1 : State} (hm : st1.args_optmap = st.args_optmap)
    (ho : st1.args_options = st.args_options) (h : no_short_variadic st) :
    no_short_variadic st1 := by
  intro sign c t ht
  rw [args_optmap_get_type_congr hm ho] at ht
  exact h sign c t ht

theorem paired_unmatched {sc : Scan} (h : paired sc) (arg a : CStr) (k : Nat) :
    paired (args_parse_long_unmatched sc arg a k) := by
  unfold args_parse_long_unmatched
  cases args__abbreviations sc.st a with
  | none => exact h
  | some inj => exact h

theorem args_parse_pending_paired (sc : Scan) (arg : CStr) (hq : paired sc) :
    whenever (fun r => paired r.1) (args_parse_pending sc arg) := by
  unfold args_parse_pending
  split_ifs with h1 h2
  · split
    · exact whenever_error _ _
    · repeat' first
        | exact whenever_error _ _
        | (refine (whenever_pure _ _).mpr ?_;
            (unfold paired at hq ⊢
             simp only [List.length_append, List.length_singleton]
             omega))
        | (refine whenever_trigger_bind _ _ _ _ _ ?_; intro calls)
        | (refine whenever_triggerv_bind _ _ _ _ _ ?_; intro calls)
        | (refine (whenever_bind _ _ _).mpr (whenever_of_forall _ ?_); intro y)
        | split_ifs
        | split
        | dsimp only
  · exact whenever_error _ _
  · exact hq

set_option maxHeartbeats 4000000 in
theorem args_parse_long_paired (sc : Scan) (arg : CStr) (hq : paired sc)
    (hd : sc.dontget = 0) :
    whenever (fun sc1 => paired sc1) (args_parse_long sc arg) := by
  unfold args_parse_long
  simp only [hd, Nat.le_refl, true_and, Nat.lt_irrefl, if_false]
  repeat' first
    | exact whenever_error _ _
    | (refine (whenever_pure _ _).mpr ?_;
        first
          | exact hq
          | exact paired_unmatched hq _ _ _
          | (unfold paired at hq ⊢
             simp only [List.length_append, List.length_singleton]
             omega))
    | (refine whenever_trigger_bind _ _ _ _ _ ?_; intro calls)
    | (refine (whenever_bind _ _ _).mpr (whenever_of_forall _ ?_); intro y)
    | split_ifs
    | split

theorem args_parse_bundle_paired (arg : CStr) (sign : Byte) (rest : CStr) :
    ∀ sc : Scan, paired sc → no_short_variadic sc.st →
      whenever (fun sc1 => paired sc1) (args_parse_bundle arg sign sc rest) := by
  induction rest with
  | nil => intro sc hq _; exact hq
  | cons c rest ih =>
    intro sc hq hs
    rw [args_parse_bundle]
    by_cases hcont : args_optmap_contains sc.st [sign, c] = true
    · simp only [hcont, if_true]
      cases ht : args_optmap_get_type sc.st [sign, c] with
      | error e => exact whenever_error _ _
      | ok t =>
        have hlt := hs sign c t ht
        simp only [bind, Except.bind]
        by_cases h0 : t = ARGUMENTLESS
        · simp only [h0, if_true]
          refine whenever_trigger_bind _ _ _ _ _ ?_
          intro calls
          refine ih _ ?_ hs
          unfold paired at hq ⊢
          simp only [List.length_append, List.length_singleton]
          omega
        · simp only [h0, if_false, hlt, if_true]
          by_cases hr : rest = []
          · simp only [hr, ne_eq, not_true_eq_false, if_false]
            refine (whenever_pure _ _).mpr ?_
            unfold paired at hq ⊢
            simp only [List.length_append, List.length_singleton]
            omega
          · simp only [hr, ne_eq, not_false_eq_true, if_true]
            refine whenever_trigger_bind _ _ _ _ _ ?_
            intro calls
            refine (whenever_pure _ _).mpr ?_
            unfold paired at hq ⊢
            simp only [List.length_append, List.length_singleton]
            omega
    · simp only [hcont, if_false]
      exact ih _ hq hs

theorem args_parse_dispatch_paired (sc : Scan) (arg : CStr) (hq : paired sc)
    (hd : sc.dontget = 0)
    (hs : sc.st.args_alternative = true ∨ no_short_variadic sc.st) :
    whenever (fun sc1 => paired sc1) (args_parse_dispatch sc arg) := by
  unfold args_parse_dispatch
  split_ifs with h1 h2 h3 h4 h5 h6
  · exact hq
  · exact hq
  · exact hq
  · exact hq
  · exact args_parse_long_paired sc arg hq hd
  · rcases hs with ha | hs
    · exact absurd (Or.inl ha) h6
    · exact args_parse_bundle_paired arg _ _ sc hq hs
  · exact hq

theorem args_parse_token_paired {st0 : State} (sc : Scan) (arg : CStr) (hg : scanned st0 sc)
    (hq : paired sc) (b : Bool) (hm : sc.st.args_alternative = b)
    (hb : b = true ∨ no_short_variadic st0) :
    whenever (fun sc1 => paired sc1) (args_parse_token sc arg) := by
  unfold args_parse_token
  refine (whenever_bind _ _ _).mpr ?_
  refine whenever_mono (whenever_and (args_parse_pending_scanned sc arg hg)
    (whenever_and (args_parse_pending_queued sc arg b (Nat.le_of_eq hq) hm)
      (args_parse_pending_paired sc arg hq))) ?_
  rintro ⟨sc1, consumed⟩ ⟨⟨g1, -⟩, ⟨-, m1⟩, p1⟩
  cases consumed with
  | true => exact p1
  | false =>
    refine args_parse_dispatch_paired sc1 arg p1 g1.2.2.2.2.1 ?_
    rcases hb with hb | hb
    · exact Or.inl (m1.trans hb)
    · exact Or.inr (no_short_variadic_congr g1.1 g1.2.1 hb)

theorem args_parse_loop_paired {st0 : State} (hr : index_in_range st0) (b : Bool)
    (hb : b = true ∨ no_short_variadic st0) (fuel : Nat) :
    ∀ (sc : Scan) (argv : List CStr), scanned st0 sc → steady sc →
      sc.st.args_alternative = b → paired sc →
      whenever (fun sc1 => paired sc1) (args_parse_loop fuel sc argv) := by
  induction fuel with
  | zero =>
    intro sc argv hg hs hm hp
    cases hinj : sc.injection with
    | none =>
      cases argv with
      | nil => rw [args_parse_loop_nil _ _ hinj]; exact hp
      | cons arg argv =>
        unfold args_parse_loop
        simp only [hinj]
        exact whenever_error _ _
    | some inj =>
      unfold args_parse_loop
      simp only [hinj]
      exact whenever_error _ _
  | succ fuel ih =>
    intro sc argv hg hs hm hp
    cases hinj : sc.injection with
    | none =>
      cases argv with
      | nil => rw [args_parse_loop_nil _ _ hinj]; exact hp
      | cons arg argv =>
        rw [args_parse_loop_cons _ _ _ _ hinj]
        refine (whenever_bind _ _ _).mpr ?_
        exact whenever_mono
          (whenever_and (args_parse_token_invariant hr sc arg hg hs (Nat.le_of_eq hp) hinj)
            (args_parse_token_paired sc arg hg hp b hm hb))
          (fun sc1 h1 => ih sc1 argv h1.1.1 h1.1.2.1 (by rw [h1.1.2.2.2]; exact hm) h1.2)
    | some inj =>
      rw [args_parse_loop_injection _ _ _ _ hinj]
      refine (whenever_bind _ _ _).mpr ?_
      obtain ⟨h1, h2, h3, h4, h5, h6, h7, h8⟩ := hg
      have hg1 : scanned st0 { sc with injection := none } :=
        ⟨h1, h2, h3, h4, h5, h6, h7, fun h => absurd rfl h⟩
      exact whenever_mono
        (whenever_and
          (args_parse_token_invariant hr { sc with injection := none } inj hg1
            (steady_congr hs rfl rfl rfl rfl (Nat.le_refl _)) (Nat.le_of_eq hp) rfl)
          (args_parse_token_paired { sc with injection := none } inj hg1 hp b hm hb))
        (fun sc1 h1 => ih sc1 argv h1.1.1 h1.1.2.1 (by rw [h1.1.2.2.2]; exact hm) h1.2)

theorem registry_no_short_variadic (program : Option CStr) (alternative : Bool)
    (abbreviations : Option (CStr → List CStr → Nat → Option CStr))
    (options : List (args_Option × Option CStr)) (hns : no_shared_spelling options)
    (h : ∀ p ∈ options, VARIADIC ≤ p.1.type → ∀ s ∈ p.1.alternatives, s.length ≠ 2) :
    no_short_variadic (registry program alternative abbreviations options) := by
  intro sign c t ht
  by_cases hreg : ∀ p ∈ options, [sign, c] ∉ p.1.alternatives
  · have hnone := registry_unbound program alternative abbreviations options [sign, c] hreg
    simp [args_optmap_get_type, args_options_at, args_optmap_get_index, hnone] at ht
  · push_neg at hreg
    obtain ⟨p, hp, hs⟩ := hreg
    obtain ⟨i, hmap, hopt⟩ := registry_bound program alternative abbreviations options hns
      p.1 p.2 hp [sign, c] hs
    obtain ⟨-, -, htyp, -⟩ := args_optmap_lookup hmap hopt
    rw [htyp] at ht
    simp only [Except.ok.injEq] at ht
    by_contra hge
    exact h p hp (by rw [← ht] at hge; simpa using Nat.le_of_not_lt hge) [sign, c] hs rfl

theorem args_parse_callbacks_count (program : Option CStr) (alternative : Bool)
    (abbreviations : Option (CStr → List CStr → Nat → Option CStr))
    (options : List (args_Option × Option CStr)) (hns : no_shared_spelling options)
    (exe : CStr) (tokens : List CStr) (fuel : Nat) (rc : Bool) (st1 : State)
    (h : args_parse fuel (registry program alternative abbreviations options) (exe :: tokens) =
      .ok (rc, st1)) :
    ∃ sc, args_parse_loop fuel
        (args_parse_begin (registry program alternative abbreviations options) tokens) tokens =
          .ok sc ∧
      args_parse_end sc = .ok (rc, st1) ∧
      sc.argqueue.length + sc.get ≤ sc.optqueue.length ∧
      st1.calls.length =
        sc.optqueue.length + (sc.optqueue.length - (sc.argqueue.length + sc.get)) ∧
      ((alternative = true ∨
          ∀ p ∈ options, VARIADIC ≤ p.1.type → ∀ s ∈ p.1.alternatives, s.length ≠ 2) →
        st1.calls.length = sc.optqueue.length) := by
  obtain ⟨halt, -, -, hcalls, -, -⟩ := registry_fields program alternative abbreviations options
  have hr := registry_index_in_range program alternative abbreviations options hns
  have hg := args_parse_begin_scanned program alternative abbreviations options tokens
  have hs := args_parse_begin_steady (registry program alternative abbreviations options) tokens
  cases hl : args_parse_loop fuel
      (args_parse_begin (registry program alternative abbreviations options) tokens) tokens with
  | error e => simp [args_parse, hl, bind, Except.bind] at h
  | ok sc =>
    have hend : args_parse_end sc = .ok (rc, st1) := by
      simpa [args_parse, hl, bind, Except.bind] using h
    have hr1 : index_in_range
        (args_parse_begin (registry program alternative abbreviations options) tokens).st := hr
    have hinv := whenever_elim (args_parse_loop_invariant hr1 alternative fuel _ tokens hg hs
      (Nat.le_refl _) halt) hl
    have htr := whenever_elim (args_parse_loop_triggered hr1 0 fuel _ tokens hg hs
      (Nat.le_refl _) (by simp [triggered, args_parse_begin, hcalls])) hl
    have hec := whenever_elim (args_parse_end_calls sc) hend
    have hq : sc.argqueue.length + sc.get ≤ sc.optqueue.length := hinv.2.2.1
    unfold triggered at htr
    refine ⟨sc, rfl, hend, hq, ?_, ?_⟩
    · rw [hec.2]
      omega
    · intro hb
      have hb1 : alternative = true ∨ no_short_variadic
          (args_parse_begin (registry program alternative abbreviations options) tokens).st := by
        rcases hb with hb | hb
        · exact Or.inl hb
        · exact Or.inr (no_short_variadic_congr rfl rfl
            (registry_no_short_variadic program alternative abbreviations options hns hb))
      have hp := whenever_elim (args_parse_loop_paired hr1 alternative hb1 fuel _ tokens hg hs halt
        rfl) hl
      unfold paired at hp
      rw [hec.2]
      omega

end ArgParser
